import Mathlib

/-! # The `doctors` watch face: bitmap codec, horizontal flip and transition engine

A shallow embedding of the codec of `src/doctors.c` (`rbuffer_*`,
`rl2unpacker_*`, `rle_bwd_create`), of `flip_bitmap_x` and of the transition
engine (`start_transition`, `stop_transition`, `face_layer_update_callback`),
followed by the properties proved about them.

Conventions of the embedding:

* C `int` values are Lean `Int`s. The `int` of the target has 32 bits and
  wraps: where a result can leave the range `-2^31 .. 2^31 - 1` (the word that
  `rl2unpacker_getc` assembles, the bit index `b + count` of the decoder) it is
  reduced with `int32`. The counters `zero_count`, `num_chunks` and `bit_count`
  are at most eight times the length of the resource and are kept exact.
* `size_t` has 32 bits: `data_size` and `total_size` of `rle_bwd_create` are
  reduced modulo `2^32`.
* The shift counts of the unpacker lie in 0..8. In the painter of
  `rle_bwd_create` the shift counts come from the run values, and a shift by a
  negative count or by 32 or more is undefined behaviour.
* A pointer is an offset into the allocated block it points into; an access
  outside the block is undefined behaviour. The pixel data of a bitmap that
  `rle_bwd_create` makes starts at offset 12 of its block, after the
  `BitmapDataHeader`.
* `uint8_t` values are `Byte = Fin 256`; a store to a `uint8_t` truncates
  with `toByte`.
* A resource is the list of its bytes.
* A failed `assert` (which forces a crash in `assert.h`) is the result
  `Except.error Fault.assertion`.
* `while` loops are recursive functions on a step bound computed from the
  input; the theorems show that the bound is never reached on the inputs
  they speak about.
-/

namespace Doctors

/-! ## Machine-level vocabulary -/

/-- A `uint8_t`. -/
abbrev Byte := Fin 256

/-- The end-of-stream value of `<stdio.h>`. -/
def EOF : Int := -1

/-- The ways a run of the C code stops without returning. -/
inductive Fault where
  /-- An `assert` failed: `assert_failure` logs and forces a crash. -/
  | assertion
  /-- The code did something C leaves undefined (division by zero, an access
  outside the object). -/
  | undefined
  /-- A loop did not finish within the step bound of the embedding. -/
  | diverged
  deriving DecidableEq, Repr

deriving instance DecidableEq for Except

/-- Conversion of an `int` to `uint8_t`: reduction modulo 256. -/
def toByte (x : Int) : Byte := ⟨(x % 256).toNat, by omega⟩

/-- C `x & y` on two's-complement integers of unbounded width. -/
def c_and : Int → Int → Int
  | Int.ofNat a, Int.ofNat b => Int.ofNat (a &&& b)
  | Int.ofNat a, Int.negSucc b => Int.ofNat (a - (a &&& b))
  | Int.negSucc a, Int.ofNat b => Int.ofNat (b - (b &&& a))
  | Int.negSucc a, Int.negSucc b => Int.negSucc (a ||| b)

/-- C `x | y` on two's-complement integers of unbounded width. -/
def c_or : Int → Int → Int
  | Int.ofNat a, Int.ofNat b => Int.ofNat (a ||| b)
  | Int.ofNat a, Int.negSucc b => Int.negSucc (b - (b &&& a))
  | Int.negSucc a, Int.ofNat b => Int.negSucc (a - (a &&& b))
  | Int.negSucc a, Int.negSucc b => Int.negSucc (a &&& b)

/-- C `~x`. -/
def c_not (x : Int) : Int := -x - 1

/-- C `x << k` before any reduction to 32 bits, for `k ≥ 0` (the decoder checks
the count before it shifts; the counts of the unpacker are never negative). -/
def c_shl (x k : Int) : Int := x * 2 ^ k.toNat

/-- C `x >> k`, the arithmetic shift (rounds toward minus infinity). -/
def c_shr (x k : Int) : Int := x / 2 ^ k.toNat

/-- C `x / y` for `y ≠ 0`: truncation toward zero. -/
def c_div (x y : Int) : Int := Int.tdiv x y

/-- C `x % y` for `y ≠ 0`: the remainder of the truncating division. -/
def c_mod (x y : Int) : Int := Int.tmod x y

/-- The 32-bit `int` that holds the exact result `x`: the value congruent to `x`
modulo `2^32` in the range `-2^31 .. 2^31 - 1`. -/
def int32 (x : Int) : Int := (2147483648 + x) % 4294967296 - 2147483648

/-! ## `RBuffer`: the buffered byte reader -/

/-- `RBUFFER_SIZE`. -/
def RBUFFER_SIZE : Nat := 256

/-- The reader state. `_rh` is the resource the handle stands for. -/
structure RBuffer where
  _rh : List Byte
  _i : Nat
  _filled_size : Nat
  _bytes_read : Nat
  _buffer : List Byte
  deriving DecidableEq, Repr

/-- Modelled from the spec: the platform's resource loader
`load_bytes(id, offset, length) -> bytes_loaded`, which "may return fewer than
requested at end of resource". It copies the `min num_bytes (L - start_offset)`
bytes found at `start_offset` to the front of `buffer` and returns their number;
the rest of `buffer` keeps its old content. -/
def resource_load_byte_range (rh : List Byte) (start_offset : Nat) (buffer : List Byte)
    (num_bytes : Nat) : Nat × List Byte :=
  let loaded := (rh.drop start_offset).take num_bytes
  (loaded.length, loaded ++ buffer.drop loaded.length)

/-- `rbuffer_init`: allocate the buffer (the allocation is taken to succeed; its
initial content is never read) and load the first block. -/
def rbuffer_init (resource : List Byte) : RBuffer :=
  let buffer := List.replicate RBUFFER_SIZE (0 : Byte)
  let r := resource_load_byte_range resource 0 buffer RBUFFER_SIZE
  { _rh := resource, _i := 0, _filled_size := r.1, _bytes_read := r.1, _buffer := r.2 }

/-- `rbuffer_getc`: the next byte, or `EOF`. -/
def rbuffer_getc (rb : RBuffer) : Int × RBuffer :=
  let rb :=
    if rb._i ≥ RBUFFER_SIZE then
      let r := resource_load_byte_range rb._rh rb._bytes_read rb._buffer RBUFFER_SIZE
      { rb with _filled_size := r.1, _bytes_read := rb._bytes_read + r.1, _buffer := r.2, _i := 0 }
    else rb
  if rb._i ≥ rb._filled_size then (EOF, rb)
  else (((rb._buffer.getD rb._i 0).val : Int), { rb with _i := rb._i + 1 })

/-- The reader after `i` calls of `rbuffer_getc` following `rbuffer_init`. -/
def rbuffer_after (resource : List Byte) : Nat → RBuffer
  | 0 => rbuffer_init resource
  | i + 1 => (rbuffer_getc (rbuffer_after resource i)).2

/-- The reader invariant: `rb` has returned exactly the first `k` bytes of `res`. -/
def RBufferAt (res : List Byte) (k : Nat) (rb : RBuffer) : Prop :=
  rb._rh = res ∧ rb._i ≤ k ∧ k ≤ res.length ∧ rb._i ≤ rb._filled_size ∧
  rb._filled_size = min 256 (res.length - (k - rb._i)) ∧
  rb._bytes_read = (k - rb._i) + rb._filled_size ∧
  ∀ j, j < rb._filled_size → rb._buffer[j]? = res[(k - rb._i) + j]?

/-! ## `Rl2Unpacker`: the variable-width run-length unpacker -/

/-- The unpacker state. The C struct points to the reader; here it holds it. -/
structure Rl2Unpacker where
  rb : RBuffer
  n : Int
  b : Int
  bi : Int
  deriving DecidableEq, Repr

/-- `rl2unpacker_init`. The check `n * (8 / n) == 8` divides by zero for `n = 0`. -/
def rl2unpacker_init (rb : RBuffer) (n : Int) : Except Fault Rl2Unpacker :=
  if n = 0 then Except.error Fault.undefined
  else if ¬ (n * c_div 8 n = 8) then Except.error Fault.assertion
  else
    let r := rbuffer_getc rb
    Except.ok { rb := r.2, n := n, b := r.1, bi := 8 }

/-- The step bound of the loops that read from the unpacker: no loop can take
more steps than the resource has chunks. -/
def rl2_steps (rl2 : Rl2Unpacker) : Nat := 8 * rl2.rb._rh.length + 16

/-- The first loop of `rl2unpacker_getc`: count the all-zero chunks up to the
next nonzero chunk. The result is `none` for the `return EOF` inside the loop
and `some zero_count` when the loop is left. -/
def rl2_zero_loop : Nat → Rl2Unpacker → Int → Except Fault (Option Int × Rl2Unpacker)
  | 0, _, _ => Except.error Fault.diverged
  | fuel + 1, rl2, zero_count =>
    let bmask := c_shl 1 rl2.n - 1
    let bv := c_and rl2.b (c_shl bmask (rl2.bi - rl2.n))
    if bv = 0 then
      let zero_count := zero_count + 1
      let rl2 := { rl2 with bi := rl2.bi - rl2.n }
      if rl2.bi ≤ 0 then
        let r := rbuffer_getc rl2.rb
        let rl2 := { rl2 with rb := r.2, b := r.1, bi := 8 }
        if rl2.b = EOF then Except.ok (none, rl2)
        else rl2_zero_loop fuel rl2 zero_count
      else rl2_zero_loop fuel rl2 zero_count
    else Except.ok (some zero_count, rl2)

/-- The second loop of `rl2unpacker_getc`: take whole byte remainders while
`bit_count >= bi`. Returns the state, the remaining `bit_count` and `result`,
the 32-bit `int` that wraps when the word has more than 31 bits. -/
def rl2_word_loop : Nat → Rl2Unpacker → Int → Int → Except Fault (Rl2Unpacker × Int × Int)
  | 0, _, _, _ => Except.error Fault.diverged
  | fuel + 1, rl2, bit_count, result =>
    if bit_count ≥ rl2.bi then
      let mask := c_shl 1 rl2.bi - 1
      let value := c_and rl2.b mask
      let result := int32 (c_or (c_shl result rl2.bi) value)
      let bit_count := bit_count - rl2.bi
      let r := rbuffer_getc rl2.rb
      let rl2 := { rl2 with rb := r.2, b := r.1, bi := 8 }
      if rl2.b = EOF then Except.ok (rl2, bit_count, result)
      else rl2_word_loop fuel rl2 bit_count result
    else Except.ok (rl2, bit_count, result)

/-- `rl2unpacker_getc`: the next integer of the rl2 encoding, or `EOF`. -/
def rl2unpacker_getc (rl2 : Rl2Unpacker) : Except Fault (Int × Rl2Unpacker) :=
  if rl2.b = EOF then Except.ok (EOF, rl2)
  else
    match rl2_zero_loop (rl2_steps rl2) rl2 0 with
    | Except.error e => Except.error e
    | Except.ok (none, rl2) => Except.ok (EOF, rl2)
    | Except.ok (some zero_count, rl2) =>
      let num_chunks := zero_count + 1
      let bit_count := num_chunks * rl2.n
      match rl2_word_loop (rl2_steps rl2) rl2 bit_count 0 with
      | Except.error e => Except.error e
      | Except.ok (rl2, bit_count, result) =>
        if bit_count > 0 then
          let bottom_count := rl2.bi - bit_count
          if ¬ (bottom_count > 0) then Except.error Fault.assertion
          else
            let mask := c_shl 1 bit_count - 1
            let value := c_and (c_shr rl2.b bottom_count) mask
            let result := int32 (c_or (c_shl result bit_count) value)
            Except.ok (result, { rl2 with bi := rl2.bi - bit_count })
        else Except.ok (result, rl2)

/-! ## `rle_bwd_create`: the run-length bitmap decoder -/

/-- The part of a `GBitmap` the code uses: `row_size_bytes`, `bounds.size`, and
the memory that `addr` points into: `addr` holds the pixel bytes from the pointer
on, and `head` the bytes of the same allocated block in front of it. -/
structure GBitmap where
  in_block ::
  row_size_bytes : Int
  size_w : Int
  size_h : Int
  addr : List Byte
  head : List Byte
  deriving DecidableEq, Repr

/-- The `BitmapDataHeader` with `row_size_bytes`, `size_w` and `size_h` set and
the other fields zero, as its 12 bytes in memory (the fields are little-endian
16-bit words). -/
def bitmap_header (row_size_bytes size_w size_h : Int) : List Byte :=
  [toByte row_size_bytes, toByte (c_shr row_size_bytes 8), 0, 0, 0, 0, 0, 0,
    toByte size_w, toByte (c_shr size_w 8), toByte size_h, toByte (c_shr size_h 8)]

/-- A `GBitmap` laid out as `rle_bwd_create` lays it out: one block that holds
the `BitmapDataHeader` of the bitmap and then its pixel bytes. -/
def GBitmap.mk (row_size_bytes size_w size_h : Int) (addr : List Byte) : GBitmap :=
  GBitmap.in_block row_size_bytes size_w size_h addr
    (bitmap_header row_size_bytes size_w size_h)

/-- The `uint16_t` stored at offset `i` of a block. -/
def uint16_at (block : List Byte) (i : Nat) : Int :=
  ((block.getD i 0).val : Int) + 256 * ((block.getD (i + 1) 0).val : Int)

/-- The `int16_t` stored at offset `i` of a block. -/
def int16_at (block : List Byte) (i : Nat) : Int :=
  if uint16_at block i < 32768 then uint16_at block i else uint16_at block i - 65536

/-- The platform's `gbitmap_create_with_data`, which is not part of the source;
modelled from the layout the source gives for the block (`BitmapDataHeader` and
the comment `Bitmap struct` above it): the bitmap takes `row_size_bytes` and
`bounds.size` from the header at the front of the block, and its `addr` points
to the byte after the header. -/
def gbitmap_create_with_data (block : List Byte) : GBitmap :=
  GBitmap.in_block (uint16_at block 0) (int16_at block 8) (int16_at block 10)
    (block.drop 12) (block.take 12)

/-- A bitmap handle with the block it owns; `none` is the `NULL` handle. -/
structure BitmapWithData where
  bitmap : Option GBitmap
  deriving DecidableEq, Repr

/-- Read of `data[i]`; an index outside the object is undefined behaviour. -/
def load (data : List Byte) (i : Int) : Except Fault Byte :=
  if 0 ≤ i ∧ i < data.length then Except.ok (data.getD i.toNat 0)
  else Except.error Fault.undefined

/-- Write of `data[i] = v`; an index outside the object is undefined behaviour. -/
def store (data : List Byte) (i : Int) (v : Byte) : Except Fault (List Byte) :=
  if 0 ≤ i ∧ i < data.length then Except.ok (data.set i.toNat v)
  else Except.error Fault.undefined

/-- The statement `data[i] |= mask` on a `uint8_t` cell. -/
def or_store (data : List Byte) (i : Int) (mask : Int) : Except Fault (List Byte) :=
  match load data i with
  | Except.error e => Except.error e
  | Except.ok old => store data i (toByte (c_or (old.val : Int) mask))

/-- The inner loop of a black run that crosses bytes: write `0xff` to every fully
covered byte. Returns the buffer, `dp` and `b`. -/
def rle_fill (dp_stop b1 : Int) : Nat → List Byte → Int → Int → Except Fault (List Byte × Int × Int)
  | 0, _, _, _ => Except.error Fault.diverged
  | fuel + 1, data, dp, b =>
    if c_div b1 8 ≠ c_div b 8 then
      if ¬ (dp < dp_stop) then Except.error Fault.assertion
      else
        match store data dp 0xff with
        | Except.error e => Except.error e
        | Except.ok data => rle_fill dp_stop b1 fuel data (dp + 1) (b + 8)
    else Except.ok (data, dp, b)

/-- The branch `if (value)` of the decoder loop: generate `count` 1-bits.
Returns the memory, `dp` and `b`. The sum `b + count` is a 32-bit `int`; the
shifts `1 << b` and `1 << b1` are undefined for a negative count and for a
count of 32 or more. -/
def rle_black (dp_stop : Int) (data : List Byte) (dp b count : Int) :
    Except Fault (List Byte × Int × Int) :=
  let b1 := int32 (b + count)
  if b1 < 8 then
    if ¬ (0 ≤ b ∧ b < 32 ∧ 0 ≤ b1) then Except.error Fault.undefined
    else
      let mask := c_not (c_shl 1 b - 1)
      let mask := c_and mask (c_shl 1 b1 - 1)
      match or_store data dp mask with
      | Except.error e => Except.error e
      | Except.ok data => Except.ok (data, dp, b1)
  else
    if ¬ (0 ≤ b ∧ b < 32) then Except.error Fault.undefined
    else
      match or_store data dp (c_not (c_shl 1 b - 1)) with
      | Except.error e => Except.error e
      | Except.ok data =>
        match rle_fill dp_stop b1 (c_div b1 8).toNat data (dp + 1) (b + 8) with
        | Except.error e => Except.error e
        | Except.ok (data, dp, _) =>
          let b1 := c_mod b1 8
          if ¬ (dp < dp_stop) then Except.error Fault.assertion
          else
            match or_store data dp (c_shl 1 b1 - 1) with
            | Except.error e => Except.error e
            | Except.ok data => Except.ok (data, dp, b1)

/-- The `else` branch of the decoder loop: skip over `count` 0-bits. Returns
`dp` and `b`. The sum `b + count` is a 32-bit `int`. -/
def rle_white (dp b count : Int) : Int × Int :=
  let b := int32 (b + count)
  (dp + c_div b 8, c_mod b 8)

/-- The variables of the decoder loop. `data` is the memory that `dp` points
into and `dp` the offset of the write pointer from its first byte. -/
structure RleLoop where
  rl2 : Rl2Unpacker
  data : List Byte
  dp : Int
  value : Int
  b : Int
  count : Int
  deriving DecidableEq, Repr

/-- The loop `while (count != EOF)` of `rle_bwd_create`; each round of the loop
body takes one unit of the step bound. -/
def rle_loop (dp_stop : Int) : Nat → RleLoop → Except Fault RleLoop
  | 0, s => if s.count = EOF then Except.ok s else Except.error Fault.diverged
  | fuel + 1, s =>
    if s.count = EOF then Except.ok s
    else if ¬ (s.dp < dp_stop) then Except.error Fault.assertion
    else
      let painted : Except Fault (List Byte × Int × Int) :=
        if s.value ≠ 0 then rle_black dp_stop s.data s.dp s.b s.count
        else Except.ok (s.data, rle_white s.dp s.b s.count)
      match painted with
      | Except.error e => Except.error e
      | Except.ok (data, dp, b) =>
        match rl2unpacker_getc s.rl2 with
        | Except.error e => Except.error e
        | Except.ok (count, rl2) =>
          rle_loop dp_stop fuel
            { rl2 := rl2, data := data, dp := dp, value := 1 - s.value, b := b, count := count }

/-- The four header bytes as `rle_bwd_create` reads them, and the reader after
them. Each is a byte value or `EOF`. -/
structure RleHeader where
  width : Int
  height : Int
  stride : Int
  n : Int
  rb : RBuffer
  deriving DecidableEq, Repr

/-- The first statements of `rle_bwd_create`: open the reader with `rbuffer_init`
and read `width`, `height`, `stride` and `n` with four successive calls of
`rbuffer_getc` (`rbuffer_after resource i` is the reader after `i` calls). -/
def rle_header (resource : List Byte) : RleHeader :=
  { width := (rbuffer_getc (rbuffer_after resource 0)).1,
    height := (rbuffer_getc (rbuffer_after resource 1)).1,
    stride := (rbuffer_getc (rbuffer_after resource 2)).1,
    n := (rbuffer_getc (rbuffer_after resource 3)).1,
    rb := rbuffer_after resource 4 }

/-- The unpacker as `rle_bwd_create` sets it up: `rl2unpacker_init` on the reader
after the header, with the fourth header byte. -/
def rle_unpacker (resource : List Byte) : Except Fault Rl2Unpacker :=
  rl2unpacker_init (rle_header resource).rb (rle_header resource).n

/-- `sizeof(BitmapDataHeader)`. -/
def BITMAP_HEADER_SIZE : Nat := 12

/-- The block `bitmap` of `rle_bwd_create` after `malloc`, `memset` and the
writes of the three header fields. `data_size` and `total_size` are `size_t`,
which is 32 bits wide, and the allocation is taken to succeed. When
`total_size` is less than the size of the header, the header fields are written
outside the block. -/
def rle_block (hdr : RleHeader) : Except Fault (List Byte) :=
  let data_size := (hdr.height * hdr.stride) % 4294967296
  let total_size := ((BITMAP_HEADER_SIZE : Int) + data_size) % 4294967296
  if total_size < BITMAP_HEADER_SIZE then Except.error Fault.undefined
  else
    Except.ok (bitmap_header hdr.stride hdr.width hdr.height ++
      List.replicate (total_size - BITMAP_HEADER_SIZE).toNat (0 : Byte))

/-- `rle_bwd_create`: decode an rle-encoded resource. Pointers into the block
`bitmap` are offsets from its first byte: `bitmap_data` is the offset 12, and
the returned bitmap is made from the block as the loop leaves it. -/
def rle_bwd_create (resource : List Byte) : Except Fault BitmapWithData :=
  let hdr := rle_header resource
  match rle_unpacker resource with
  | Except.error e => Except.error e
  | Except.ok rl2 =>
    match rle_block hdr with
    | Except.error e => Except.error e
    | Except.ok bitmap =>
      let bitmap_data : Int := BITMAP_HEADER_SIZE
      let dp_stop := bitmap_data + hdr.stride * hdr.height
      match rl2unpacker_getc rl2 with
      | Except.error e => Except.error e
      | Except.ok (count, rl2) =>
        if ¬ (count > 0) then Except.error Fault.assertion
        else
          let count := count - 1
          match rle_loop dp_stop (rl2_steps rl2)
              { rl2 := rl2, data := bitmap, dp := bitmap_data, value := 0, b := 0,
                count := count } with
          | Except.error e => Except.error e
          | Except.ok s => Except.ok { bitmap := some (gbitmap_create_with_data s.data) }

/-! ## `flip_bitmap_x`: the horizontal flip -/

/-- `reverse_bits` with `unsigned long` arithmetic taken modulo `m`. -/
def reverse_bits_mod (m : Nat) (b : Byte) : Byte :=
  let lo := (b.val * 0x0802 % m) &&& 0x22110
  let hi := (b.val * 0x8020 % m) &&& 0x88440
  toByte (((((lo ||| hi) * 0x10101 % m) >>> 16 : Nat) : Int))

/-- `reverse_bits`, for the 32-bit `unsigned long` of the target. -/
def reverse_bits (b : Byte) : Byte := reverse_bits_mod (2 ^ 32) b

/-- The inner loop of `flip_bitmap_x` over `x1`, for the row at offset `row` of
the block `data`. -/
def flip_row (row width_bytes : Int) : Nat → List Byte → Int → Except Fault (List Byte)
  | 0, _, _ => Except.error Fault.diverged
  | fuel + 1, data, x1 =>
    if x1 ≥ 0 then
      let x2 := width_bytes - 1 - x1
      match load data (row + x1) with
      | Except.error e => Except.error e
      | Except.ok v1 =>
        let b := reverse_bits v1
        match load data (row + x2) with
        | Except.error e => Except.error e
        | Except.ok v2 =>
          match store data (row + x1) (reverse_bits v2) with
          | Except.error e => Except.error e
          | Except.ok data =>
            match store data (row + x2) b with
            | Except.error e => Except.error e
            | Except.ok data => flip_row row width_bytes fuel data (x1 - 1)
    else Except.ok data

/-- The outer loop of `flip_bitmap_x` over `y`, on the block `mem` that holds the
pixel bytes from offset `data` on. -/
def flip_rows (data height width_bytes stride : Int) :
    Nat → List Byte → Int → Except Fault (List Byte)
  | 0, _, _ => Except.error Fault.diverged
  | fuel + 1, mem, y =>
    if y < height then
      let x1 := c_div (width_bytes - 1) 2
      match flip_row (data + y * stride) width_bytes (x1.toNat + 2) mem x1 with
      | Except.error e => Except.error e
      | Except.ok mem => flip_rows data height width_bytes stride fuel mem (y + 1)
    else Except.ok mem

/-- `flip_bitmap_x`: flip the bitmap horizontally in place. The rows are
accessed in the block that `image->addr` points into. -/
def flip_bitmap_x (image : GBitmap) : Except Fault GBitmap :=
  let height := image.size_h
  let width := image.size_w
  let width_bytes := c_div width 8
  let stride := image.row_size_bytes
  match flip_rows image.head.length height width_bytes stride (height.toNat + 1)
      (image.head ++ image.addr) 0 with
  | Except.error e => Except.error e
  | Except.ok mem =>
    Except.ok { image with addr := mem.drop image.head.length,
                           head := mem.take image.head.length }

/-! ## Specification vocabulary: bit streams -/

/-- The `w` low bits of `v`, most significant first. -/
def natBits (w v : Nat) : List Bool := (List.range w).map (fun j => v.testBit (w - 1 - j))

/-- The number a bit list spells, most significant bit first. -/
def bitsVal (bits : List Bool) : Nat := bits.foldl (fun acc b => 2 * acc + b.toNat) 0

/-- The eight bits of a byte in the order the unpacker reads them. -/
def byteBits (x : Byte) : List Bool := natBits 8 x.val

/-- The bits of a byte sequence in the order the unpacker reads them. -/
def streamBits (bytes : List Byte) : List Bool := bytes.flatMap byteBits

/-- The unpacker `rl2` reads resource `res` with chunk width `n`, and `bits` is
what it has not consumed yet: the `bi` low bits of the current byte and all
bytes the reader has not returned. At end of stream nothing is left. -/
def Unread (res : List Byte) (n : Nat) (bits : List Bool) (rl2 : Rl2Unpacker) : Prop :=
  rl2.n = (n : Int) ∧ n ∣ 8 ∧ ∃ k, RBufferAt res k rl2.rb ∧
    ((rl2.b = EOF ∧ k = res.length ∧ bits = []) ∨
     (∃ (x : Byte) (bi : Nat), rl2.b = (x.val : Int) ∧ rl2.bi = (bi : Int) ∧ 1 ≤ bi ∧ bi ≤ 8 ∧
        n ∣ bi ∧ bits = (byteBits x).drop (8 - bi) ++ streamBits (res.drop k)))

/-- The state after the unpacker has fetched the next byte. -/
def rl2_fetch (rl2 : Rl2Unpacker) : Rl2Unpacker :=
  { rl2 with rb := (rbuffer_getc rl2.rb).2, b := (rbuffer_getc rl2.rb).1, bi := 8 }

/-- The results of `k` successive calls of `rl2unpacker_getc`. -/
def rl2unpacker_reads : Nat → Rl2Unpacker → Except Fault (List Int)
  | 0, _ => Except.ok []
  | k + 1, rl2 =>
    match rl2unpacker_getc rl2 with
    | Except.error e => Except.error e
    | Except.ok (v, rl2') =>
      match rl2unpacker_reads k rl2' with
      | Except.error e => Except.error e
      | Except.ok vs => Except.ok (v :: vs)

/-- The values `rl2unpacker_getc` returns up to the first `EOF`, within the
step bound `fuel`. -/
def rl2_runs : Nat → Rl2Unpacker → Except Fault (List Int)
  | 0, _ => Except.error Fault.diverged
  | fuel + 1, rl2 =>
    match rl2unpacker_getc rl2 with
    | Except.error e => Except.error e
    | Except.ok (v, rl2') =>
      if v = EOF then Except.ok []
      else
        match rl2_runs fuel rl2' with
        | Except.error e => Except.error e
        | Except.ok vs => Except.ok (v :: vs)

/-! ## Specification vocabulary: the rl2 code -/

/-- Search for the least `k ≥ k0` with `v < 2 ^ (n * k)`, in at most `fuel` steps. -/
def numChunksFrom (n v : Nat) : Nat → Nat → Nat
  | 0, k => k
  | fuel + 1, k => if v < 2 ^ (n * k) then k else numChunksFrom n v fuel (k + 1)

/-- The least number `k ≥ 1` of `n`-bit chunks that hold `v`. -/
def numChunks (n v : Nat) : Nat := numChunksFrom n v v 1

/-- The code of one value: `k - 1` all-zero chunks, then `v` in `k` chunks, most
significant bit first. -/
def encodeValue (n v : Nat) : List Bool :=
  List.replicate ((numChunks n v - 1) * n) false ++ natBits (numChunks n v * n) v

/-- The code of a sequence of values. -/
def encodeValues (n : Nat) (vs : List Nat) : List Bool := vs.flatMap (encodeValue n)

/-- Zero-padding of a bit list to a whole number of bytes. -/
def padBits (bits : List Bool) : List Bool :=
  bits ++ List.replicate ((8 - bits.length % 8) % 8) false

/-- The byte spelled by (up to) eight bits, most significant first. -/
def byteOfBits (bits : List Bool) : Byte := ⟨bitsVal bits % 256, Nat.mod_lt _ (by norm_num)⟩

/-- The first `k` bytes of a bit list. -/
def packBytes : Nat → List Bool → List Byte
  | 0, _ => []
  | k + 1, bits => byteOfBits (bits.take 8) :: packBytes k (bits.drop 8)

/-- The bytes of a bit list whose length is a multiple of 8. -/
def packBits (bits : List Bool) : List Byte := packBytes (bits.length / 8) bits

/-- The rl2 stream of a sequence of values with chunk width `n`. -/
def rl2_pack (n : Nat) (vs : List Nat) : List Byte := packBits (padBits (encodeValues n vs))

/-! ## Specification vocabulary: raster bits -/

/-- The bit at linear position `p` of a pixel buffer in the order the decoder
writes: bit `p % 8` (of weight `2 ^ (p % 8)`) of byte `p / 8`. Positions past the
end of the buffer read as `false`. -/
def getBit (data : List Byte) (p : Nat) : Bool := (data.getD (p / 8) 0).val.testBit (p % 8)

/-- Whether position `p` lies in a black run, for runs `runs` that start at
position `P` with colour `value` (`true` is black) and alternate. -/
def runBlack : Bool → Nat → List Nat → Nat → Bool
  | _, _, [], _ => false
  | value, P, c :: cs, p =>
    (value && decide (P ≤ p ∧ p < P + c)) || runBlack (!value) (P + c) cs p

/-- Whether the decoder loop passes all its assertions on the runs `runs`
started at position `P` with colour `value`, for a buffer of `S` bytes: before
every run the cursor is inside the buffer, and a black run ends before the last
bit of the buffer. -/
def runsFit (S : Nat) : Bool → Nat → List Nat → Bool
  | _, _, [] => true
  | value, P, c :: cs =>
    decide (P / 8 < S) && (!value || decide (P + c < 8 * S)) && runsFit S (!value) (P + c) cs

/-- Whether position `p` lies in a black run, for runs of any sign: the runs
`runs` start at position `P` with colour `value` (`true` is black) and
alternate, a run of length `c` moving the cursor from `P` to `P + c`. -/
def runBlackZ : Bool → Int → List Int → Int → Bool
  | _, _, [], _ => false
  | value, P, c :: cs, p =>
    (value && decide (P ≤ p ∧ p < P + c)) || runBlackZ (!value) (P + c) cs p

/-- The assertions of the decoder loop on runs of any sign, for a buffer that
ends at byte `S`: every run starts before the end of the buffer, and a black run
ends before the last bit of the buffer. -/
def runsFitZ (S : Int) : Bool → Int → List Int → Bool
  | _, _, [] => true
  | value, P, c :: cs =>
    decide (P < 8 * S) && (!value || decide (P + c < 8 * S)) && runsFitZ S (!value) (P + c) cs

/-- No sum `b + count` of the decoder loop overflows the 32-bit `int` on these
run values: each is non-negative and stays below `2^31` when the in-byte bit
index `b < 8` is added. -/
def NoOverflow (runs : List Int) : Prop := ∀ v ∈ runs, 0 ≤ v ∧ v + 7 < 2147483648

instance (runs : List Int) : Decidable (NoOverflow runs) := by
  unfold NoOverflow; infer_instance

/-- All values the unpacker of `rle_bwd_create` returns before `EOF`: the leading
value and the run lengths. -/
def rle_runs (resource : List Byte) : Except Fault (List Int) :=
  match rle_unpacker resource with
  | Except.error e => Except.error e
  | Except.ok rl2 => rl2_runs (rl2_steps rl2 + 1) rl2

/-! ## Specification vocabulary: the companion encoder -/

/-- The bits of a pixel buffer in decoder order: byte by byte, within a byte from
bit 0 up to bit 7. -/
def dataBits (buf : List Byte) : List Bool := (List.range (8 * buf.length)).map (getBit buf)

/-- The lengths of the alternating runs of a bit list, given the colour `c` and
the length `k` so far of the run being read. -/
def runsFrom : Bool → Nat → List Bool → List Nat
  | _, k, [] => [k]
  | c, k, x :: xs => if x = c then runsFrom c (k + 1) xs else k :: runsFrom x 1 xs

/-- The lengths of the alternating white/black runs of a bit list, the first run
being white (of length 0 when the first bit is black). -/
def runLengths (bits : List Bool) : List Nat := runsFrom false 0 bits

/-- The first run increased by one, for the implicit leading black pixel. -/
def bumpFirst : List Nat → List Nat
  | [] => []
  | r :: rs => (r + 1) :: rs

/-- The stride of a raster of width `w`: `ceil(w / 32) * 4`. -/
def rle_stride (w : Nat) : Nat := (w + 31) / 32 * 4

/-- A number as a byte. -/
def byteOfNat (x : Nat) : Byte := ⟨x % 256, Nat.mod_lt _ (by norm_num)⟩

/-- The companion encoding of a pixel buffer: the header bytes width, height,
stride, `n`, then the run lengths of the buffer's bits, the first increased by
one, in the rl2 code of chunk width `n`. -/
def rle_encode (n : Nat) (w h : Byte) (buf : List Byte) : List Byte :=
  w :: h :: byteOfNat (rle_stride w.val) :: byteOfNat n ::
    rl2_pack n (bumpFirst (runLengths (dataBits buf)))

/-! ## Specification vocabulary: the bit cursor -/

/-- The bit-cursor invariant of the unpacker for chunk width `n`: `bi` lies in
1..8 and is a multiple of `n`. -/
def BitCursorOk (n : Int) (rl2 : Rl2Unpacker) : Prop :=
  rl2.n = n ∧ 1 ≤ rl2.bi ∧ rl2.bi ≤ 8 ∧ n ∣ rl2.bi

/-- The unpacker after `k` successive calls of `rl2unpacker_getc`. -/
def rl2unpacker_after : Nat → Rl2Unpacker → Except Fault Rl2Unpacker
  | 0, rl2 => Except.ok rl2
  | k + 1, rl2 =>
    match rl2unpacker_getc rl2 with
    | Except.error e => Except.error e
    | Except.ok (_, rl2') => rl2unpacker_after k rl2'

/-! ## The transition engine -/

/-- `SCREEN_WIDTH`. -/
def SCREEN_WIDTH : Int := 144

/-- `SCREEN_HEIGHT`. -/
def SCREEN_HEIGHT : Int := 168

/-- `NUM_TRANSITION_FRAMES_HOUR`. -/
def NUM_TRANSITION_FRAMES_HOUR : Int := 24

/-- `NUM_SPRITES` (without `TARDIS_ONLY`). -/
def NUM_SPRITES : Nat := 3

/-- `NUM_TARDIS_FRAMES`. -/
def NUM_TARDIS_FRAMES : Int := 7

/-- A non-`NULL` `BitmapWithData` held by the engine: the block that
`rle_bwd_create` allocated for it, named by the serial number of the allocation,
and its bitmap. A variable of type `BitmapWithData` is an `Option Raster`, `none`
when its `bitmap` is `NULL`. -/
structure Raster where
  block : Nat
  image : GBitmap
  deriving DecidableEq, Repr

/-- A `GRect`. -/
structure GRect where
  origin_x : Int
  origin_y : Int
  size_w : Int
  size_h : Int
  deriving DecidableEq, Repr

/-- The compositing modes the engine uses. -/
inductive GCompOp where
  | GCompOpAssign
  | GCompOpOr
  | GCompOpClear
  deriving DecidableEq, Repr

/-- A call on the graphics context, in the order the code makes them. A bitmap
is drawn with the block it lives in when it is one of the engine's rasters. -/
inductive DrawOp where
  /-- The call `graphics_context_set_compositing_mode(ctx, mode)`. -/
  | set_compositing_mode (mode : GCompOp)
  /-- The call `graphics_draw_bitmap_in_rect(ctx, bitmap, rect)`. -/
  | draw_bitmap_in_rect (block : Option Nat) (bitmap : GBitmap) (rect : GRect)
  /-- The call `graphics_context_set_fill_color(ctx, GColorBlack)`. -/
  | set_fill_color_black
  /-- The call `graphics_fill_rect(ctx, rect, 0, GCornerNone)`. -/
  | fill_rect (rect : GRect)
  deriving DecidableEq, Repr

/-- A `TardisFrame`: the number `k` of the resource `RESOURCE_ID_TARDIS_0k` and
the flip flag. -/
structure TardisFrame where
  tardis : Nat
  flip_x : Bool
  deriving DecidableEq, Repr

/-- The table `tardis_frames`. -/
def tardis_frames : List TardisFrame :=
  [⟨1, false⟩, ⟨2, false⟩, ⟨3, false⟩, ⟨4, false⟩, ⟨4, true⟩, ⟨3, true⟩, ⟨2, true⟩]

/-- What the platform and the resource file supply to the engine: the bytes of
the rle resources (a resource id stands for its bytes), the bitmap (or `NULL`)
that `gbitmap_create_with_resource` returns for the TARDIS frame `k`, the
generator behind `rand()` as a function from its state to a value and the next
state, the bitmap of `mins_background` and the frame of the face layer. -/
structure Platform where
  face_resource_ids : List (List Byte)
  RESOURCE_ID_TARDIS_MASK : List Byte
  RESOURCE_ID_K9_MASK : List Byte
  RESOURCE_ID_K9 : List Byte
  RESOURCE_ID_DALEK_MASK : List Byte
  RESOURCE_ID_DALEK : List Byte
  gbitmap_create_with_resource : Nat → Option GBitmap
  rand : Nat → Nat × Nat
  mins_background : GBitmap
  layer_frame : GRect

/-- The global variables of the transition engine, the state of `rand()`, and
the record of the raster blocks: `allocated` counts the blocks `rle_bwd_create`
has allocated (the next block gets this number) and `released` lists the blocks
`bwd_destroy` has released, latest first. -/
structure Engine where
  face_value : Int
  face_image : Option Raster
  face_transition : Bool
  wipe_direction : Bool
  anim_direction : Bool
  transition_frame : Int
  num_transition_frames : Int
  prev_face_value : Int
  prev_image : Option Raster
  sprite_mask : Option Raster
  sprite : Option Raster
  sprite_cx : Int
  anim_timer : Bool
  rand_state : Nat
  allocated : Nat
  released : List Nat
  deriving DecidableEq, Repr

/-- The engine when `handle_init` reaches its call of `start_transition`: the
globals are zero-initialised, `face_transition = false`, `face_value = -1`, and
`srand` has seeded the generator. -/
def engine_init (seed : Nat) : Engine :=
  { face_value := -1, face_image := none, face_transition := false, wipe_direction := false,
    anim_direction := false, transition_frame := 0, num_transition_frames := 0,
    prev_face_value := 0, prev_image := none, sprite_mask := none, sprite := none,
    sprite_cx := 0, anim_timer := false, rand_state := seed, allocated := 0, released := [] }

/-- `bwd_destroy(&bwd)`: release the block of a handle that is not `NULL`. The
caller's variable becomes `NULL`. -/
def bwd_destroy (bwd : Option Raster) (e : Engine) : Engine :=
  match bwd with
  | none => e
  | some r => { e with released := r.block :: e.released }

/-- `stop_transition`. -/
def stop_transition (e : Engine) : Engine :=
  let e := { e with face_transition := false }
  let e := { bwd_destroy e.prev_image e with prev_image := none }
  let e := { bwd_destroy e.sprite_mask e with sprite_mask := none }
  let e := { bwd_destroy e.sprite e with sprite := none }
  { e with anim_timer := false }

/-- `rle_bwd_create` as the engine calls it: decode the resource and record the
block allocated for the raster. -/
def rle_bwd_create_block (resource : List Byte) (e : Engine) :
    Except Fault (Option Raster × Engine) :=
  match rle_bwd_create resource with
  | Except.error f => Except.error f
  | Except.ok bwd =>
    match bwd.bitmap with
    | none => Except.ok (none, e)
    | some g => Except.ok (some ⟨e.allocated, g⟩, { e with allocated := e.allocated + 1 })

/-- `flip_bitmap_x(bwd.bitmap)` on a variable of the engine; a `NULL` bitmap is
dereferenced. -/
def flip_raster (bwd : Option Raster) : Except Fault (Option Raster) :=
  match bwd with
  | none => Except.error Fault.undefined
  | some r =>
    match flip_bitmap_x r.image with
    | Except.error f => Except.error f
    | Except.ok g => Except.ok (some { r with image := g })

/-- The choice of the transition in `start_transition`: forced at startup,
random otherwise. Returns the engine and `sprite_sel`. -/
def choose_transition (P : Platform) (for_startup : Bool) (e : Engine) : Engine × Nat :=
  if for_startup then
    ({ e with wipe_direction := false, anim_direction := false }, 0)
  else
    let r1 := P.rand e.rand_state
    let r2 := P.rand r1.2
    let r3 := P.rand r2.2
    ({ e with wipe_direction := decide (r1.1 % 2 ≠ 0), anim_direction := decide (r3.1 % 2 ≠ 0),
              rand_state := r3.2 }, r2.1 % NUM_SPRITES)

/-- The cases `SPRITE_K9` and `SPRITE_DALEK` of the `switch` in
`start_transition`, for the mask and body resources and the anchor `cx`. -/
def init_fixed_sprite (mask body : List Byte) (cx : Int) (e : Engine) : Except Fault Engine :=
  match rle_bwd_create_block mask e with
  | Except.error f => Except.error f
  | Except.ok (m, e) =>
    let e := { e with sprite_mask := m }
    match rle_bwd_create_block body e with
    | Except.error f => Except.error f
    | Except.ok (s, e) =>
      let e := { e with sprite := s, sprite_cx := cx }
      if e.wipe_direction then
        match flip_raster e.sprite_mask with
        | Except.error f => Except.error f
        | Except.ok m =>
          let e := { e with sprite_mask := m }
          match flip_raster e.sprite with
          | Except.error f => Except.error f
          | Except.ok s =>
            let e := { e with sprite := s }
            match e.sprite with
            | none => Except.error Fault.undefined
            | some r => Except.ok { e with sprite_cx := r.image.size_w - e.sprite_cx }
      else Except.ok e

/-- The `switch (sprite_sel)` of `start_transition`. -/
def init_sprite (P : Platform) (sprite_sel : Nat) (e : Engine) : Except Fault Engine :=
  match sprite_sel with
  | 0 =>
    match rle_bwd_create_block P.RESOURCE_ID_TARDIS_MASK e with
    | Except.error f => Except.error f
    | Except.ok (m, e) => Except.ok { e with sprite_mask := m, sprite_cx := 72 }
  | 1 => init_fixed_sprite P.RESOURCE_ID_K9_MASK P.RESOURCE_ID_K9 41 e
  | 2 => init_fixed_sprite P.RESOURCE_ID_DALEK_MASK P.RESOURCE_ID_DALEK 74 e
  | _ => Except.ok e

/-- The last part of `start_transition`: choose the transition, initialise the
sprite, and start the timer (`layer_mark_dirty; set_next_timer` leaves the timer
registered). -/
def start_sprite (P : Platform) (for_startup : Bool) (e : Engine) : Except Fault Engine :=
  match init_sprite P (choose_transition P for_startup e).2 (choose_transition P for_startup e).1 with
  | Except.error f => Except.error f
  | Except.ok e => Except.ok { e with anim_timer := true }

/-- The middle part of `start_transition`, from `assert(prev_image.bitmap == NULL)`
on: the current face becomes the previous face and the new face is loaded. An
index outside `face_resource_ids[13]` is undefined behaviour. -/
def start_face (P : Platform) (face_new : Int) (for_startup : Bool) (e : Engine) :
    Except Fault Engine :=
  if e.prev_image ≠ none then Except.error Fault.assertion
  else if ¬ (0 ≤ face_new ∧ face_new < 13) then Except.error Fault.undefined
  else
    match rle_bwd_create_block (P.face_resource_ids.getD face_new.toNat [])
        { e with prev_face_value := e.face_value, prev_image := e.face_image,
                 face_value := face_new } with
    | Except.error f => Except.error f
    | Except.ok (img, e) =>
      start_sprite P for_startup
        { e with face_image := img, face_transition := true, transition_frame := 0,
                 num_transition_frames := NUM_TRANSITION_FRAMES_HOUR }

/-- `start_transition(face_new, for_startup)`: a transition in progress is
stopped first. -/
def start_transition (P : Platform) (face_new : Int) (for_startup : Bool) (e : Engine) :
    Except Fault Engine :=
  start_face P face_new for_startup (if e.face_transition then stop_transition e else e)

/-- `handle_timer`: the timer is cleared and `set_next_timer` registers it
again. -/
def handle_timer (e : Engine) : Engine := { e with anim_timer := true }

/-- The wipe coordinate of `face_layer_update_callback` for frame `ti` and a
sprite of width `sprite_width`. -/
def wipe_position (e : Engine) (sprite_width ti : Int) : Int :=
  let wipe_width := SCREEN_WIDTH + sprite_width
  let wipe_x := wipe_width - c_div (ti * wipe_width) e.num_transition_frames
  let wipe_x := if e.wipe_direction then wipe_width - wipe_x else wipe_x
  wipe_x - (sprite_width - e.sprite_cx)

/-- The call `graphics_draw_bitmap_in_rect` on one of the engine's rasters. -/
def draw_raster (r : Raster) (rect : GRect) : DrawOp :=
  DrawOp.draw_bitmap_in_rect (some r.block) r.image rect

/-- The two draws of the wipe in `face_layer_update_callback`, one branch for
each wipe direction. -/
def wipe_ops (e : Engine) (destination : GRect) (wipe_x : Int) : List DrawOp :=
  if e.wipe_direction then
    (if wipe_x < SCREEN_WIDTH then
      match e.prev_image with
      | some p => [DrawOp.set_compositing_mode GCompOp.GCompOpAssign, draw_raster p destination]
      | none => [DrawOp.set_fill_color_black, DrawOp.fill_rect destination]
    else []) ++
    (if wipe_x > 0 then
      match e.face_image with
      | some f => [draw_raster f { destination with size_w := wipe_x }]
      | none => []
    else [])
  else
    (if wipe_x < SCREEN_WIDTH then
      match e.face_image with
      | some f => [DrawOp.set_compositing_mode GCompOp.GCompOpAssign, draw_raster f destination]
      | none => []
    else []) ++
    (if wipe_x > 0 then
      match e.prev_image with
      | some p => [draw_raster p { destination with size_w := wipe_x }]
      | none => [DrawOp.set_fill_color_black,
          DrawOp.fill_rect { destination with size_w := wipe_x }]
    else [])

/-- The TARDIS case of the sprite: load the frame for `ti`, flip it when the table
says so, draw it and destroy it. An index outside `tardis_frames` is undefined
behaviour. -/
def tardis_ops (P : Platform) (e : Engine) (destination : GRect) (ti : Int) :
    Except Fault (List DrawOp) :=
  let af := c_mod ti NUM_TARDIS_FRAMES
  let af := if e.anim_direction then (NUM_TARDIS_FRAMES - 1) - af else af
  if ¬ (0 ≤ af ∧ af < NUM_TARDIS_FRAMES) then Except.error Fault.undefined
  else
    let frame := tardis_frames.getD af.toNat ⟨0, false⟩
    match P.gbitmap_create_with_resource frame.tardis with
    | none => Except.ok []
    | some tardis =>
      match (if frame.flip_x then flip_bitmap_x tardis else Except.ok tardis) with
      | Except.error f => Except.error f
      | Except.ok tardis =>
        Except.ok [DrawOp.set_compositing_mode GCompOp.GCompOpOr,
          DrawOp.draw_bitmap_in_rect none tardis destination]

/-- The draws of the sprite and of the minutes card in
`face_layer_update_callback`. -/
def sprite_ops (P : Platform) (e : Engine) (wipe_x ti : Int) : Except Fault (List DrawOp) :=
  match e.sprite_mask with
  | none => Except.ok []
  | some mask =>
    let destination : GRect :=
      { size_w := mask.image.size_w, size_h := mask.image.size_h,
        origin_y := c_div (SCREEN_HEIGHT - mask.image.size_h) 2,
        origin_x := wipe_x - e.sprite_cx }
    let body : Except Fault (List DrawOp) :=
      match e.sprite with
      | some s => Except.ok [DrawOp.set_compositing_mode GCompOp.GCompOpOr, draw_raster s destination]
      | none => tardis_ops P e destination ti
    match body with
    | Except.error f => Except.error f
    | Except.ok ops =>
      Except.ok ([DrawOp.set_compositing_mode GCompOp.GCompOpClear, draw_raster mask destination]
        ++ ops ++
        [DrawOp.set_compositing_mode GCompOp.GCompOpOr,
          DrawOp.draw_bitmap_in_rect none P.mins_background
            { size_w := 50, size_h := 31, origin_x := SCREEN_WIDTH - 50,
              origin_y := SCREEN_HEIGHT - 31 }])

/-- The branch of `face_layer_update_callback` that animates a transition, for
frame `ti`. A `NULL` sprite mask is dereferenced, and a zero
`num_transition_frames` divides by zero. -/
def face_layer_composite (P : Platform) (e : Engine) (ti : Int) : Except Fault (List DrawOp) :=
  match e.sprite_mask with
  | none => Except.error Fault.undefined
  | some mask =>
    if e.num_transition_frames = 0 then Except.error Fault.undefined
    else
      let wipe_x := wipe_position e mask.image.size_w ti
      let destination : GRect := { P.layer_frame with origin_x := 0, origin_y := 0 }
      match sprite_ops P e wipe_x ti with
      | Except.error f => Except.error f
      | Except.ok ops => Except.ok (wipe_ops e destination wipe_x ++ ops)

/-- The branch of `face_layer_update_callback` that holds the current face. -/
def face_layer_hold (P : Platform) (e : Engine) : List DrawOp :=
  match e.face_image with
  | some f =>
    if e.face_value ≥ 0 then
      [DrawOp.set_compositing_mode GCompOp.GCompOpAssign,
        draw_raster f { P.layer_frame with origin_x := 0, origin_y := 0 }]
    else []
  | none => []

/-- `face_layer_update_callback`: the calls on the graphics context and the
engine after the call. -/
def face_layer_update_callback (P : Platform) (e : Engine) : Except Fault (List DrawOp × Engine) :=
  let ti : Int := if e.face_transition then e.transition_frame else 0
  let e :=
    if e.face_transition then
      let e := { e with transition_frame := e.transition_frame + 1 }
      if ti > e.num_transition_frames then stop_transition e else e
    else e
  if ¬ e.face_transition then Except.ok (face_layer_hold P e, e)
  else
    match face_layer_composite P e ti with
    | Except.error f => Except.error f
    | Except.ok ops => Except.ok (ops, e)

/-- The steps of the engine. -/
inductive EngineStep where
  /-- A call `start_transition(face_new, for_startup)`. -/
  | start (face_new : Int) (for_startup : Bool)
  /-- A call of `face_layer_update_callback`. -/
  | render
  /-- A call of `stop_transition`. -/
  | stop
  /-- A call of `handle_timer`. -/
  | timer
  deriving DecidableEq, Repr

/-- One step of the engine. -/
def engine_step (P : Platform) (s : EngineStep) (e : Engine) : Except Fault Engine :=
  match s with
  | EngineStep.start face_new for_startup => start_transition P face_new for_startup e
  | EngineStep.render =>
    match face_layer_update_callback P e with
    | Except.error f => Except.error f
    | Except.ok r => Except.ok r.2
  | EngineStep.stop => Except.ok (stop_transition e)
  | EngineStep.timer => Except.ok (handle_timer e)

/-- A sequence of steps of the engine. -/
def engine_run (P : Platform) : List EngineStep → Engine → Except Fault Engine
  | [], e => Except.ok e
  | s :: steps, e =>
    match engine_step P s e with
    | Except.error f => Except.error f
    | Except.ok e => engine_run P steps e

/-- The results of `k` successive calls of `face_layer_update_callback`: the
calls on the graphics context of each, and the engine after the last. -/
def render_frames (P : Platform) : Nat → Engine → Except Fault (List (List DrawOp) × Engine)
  | 0, e => Except.ok ([], e)
  | k + 1, e =>
    match face_layer_update_callback P e with
    | Except.error f => Except.error f
    | Except.ok (ops, e) =>
      match render_frames P k e with
      | Except.error f => Except.error f
      | Except.ok (l, e) => Except.ok (ops :: l, e)

/-! ## Specification vocabulary: the rasters of the engine -/

/-- The blocks held in the four raster variables of the engine. -/
def occupied (e : Engine) : List Nat :=
  [e.face_image, e.prev_image, e.sprite_mask, e.sprite].filterMap (fun s => s.map Raster.block)

/-- The number of live rasters: allocated by `rle_bwd_create` and not yet
released by `bwd_destroy`. -/
def live_count (e : Engine) : Nat := e.allocated - e.released.length

/-- The raster bookkeeping is consistent: the blocks held in the four variables
together with the released blocks are exactly the allocated blocks `0, 1, ...`,
each once; and outside a transition the three transition rasters are `NULL`. -/
def EngineOk (e : Engine) : Prop :=
  (occupied e ++ e.released).Perm (List.range e.allocated) ∧
  (e.face_transition = false → e.prev_image = none ∧ e.sprite_mask = none ∧ e.sprite = none)

/-- The wipe width in the words of the specification: screen width plus sprite
width. -/
def wipe_width_spec (sw : Int) : Int := 144 + sw

/-- The raw wipe position in the words of the specification:
`p = wipe_width - frame * wipe_width / total`, mirrored to `wipe_width - p` when
the wipe direction flag is set. -/
def wipe_p_spec (f total : Int) (wipe_direction : Bool) (sw : Int) : Int :=
  if wipe_direction then wipe_width_spec sw - (wipe_width_spec sw - f * wipe_width_spec sw / total)
  else wipe_width_spec sw - f * wipe_width_spec sw / total

/-- The wipe coordinate in the words of the specification:
`wipe_x = p - (sprite_width - sprite_anchor)`. -/
def wipe_x_spec (f total : Int) (wipe_direction : Bool) (sw cx : Int) : Int :=
  wipe_p_spec f total wipe_direction sw - (sw - cx)

/-- A small platform for worked examples: every face is the raster `07 00 00 00`
of width 8, the TARDIS mask is an empty raster of width 32, the fixed sprites
are rasters of width 8, every TARDIS frame is the bitmap `0f 00 00 00` of width
8, and the generator counts up. -/
def demo_platform : Platform :=
  { face_resource_ids := List.replicate 13 [8, 1, 4, 8, 1, 3],
    RESOURCE_ID_TARDIS_MASK := [32, 1, 4, 8, 33],
    RESOURCE_ID_K9_MASK := [8, 1, 4, 8, 1, 3],
    RESOURCE_ID_K9 := [8, 1, 4, 8, 2, 3],
    RESOURCE_ID_DALEK_MASK := [8, 1, 4, 8, 1, 3],
    RESOURCE_ID_DALEK := [8, 1, 4, 8, 2, 3],
    gbitmap_create_with_resource := fun _ => some (GBitmap.mk 4 8 1 [0x0f, 0, 0, 0]),
    rand := fun s => (s, s + 1),
    mins_background := GBitmap.mk 4 8 1 [0, 0, 0, 0],
    layer_frame := ⟨0, 0, 144, 168⟩ }

/-- The engine states the program reaches: from `engine_init` by steps that
return. -/
inductive Reachable (P : Platform) : Engine → Prop where
  /-- The state at the first `start_transition`. -/
  | init (seed : Nat) : Reachable P (engine_init seed)
  /-- A step that returns. -/
  | step (s : EngineStep) (e e' : Engine) :
      Reachable P e → engine_step P s e = Except.ok e' → Reachable P e'

/-- The engine in the worked example of the specification: frame 12 of 24,
`wipe_direction = false`, a fixed sprite of width 30 anchored at 30, the
previous face in block 0 and the new face in block 1. -/
def worked_example : Engine :=
  { face_value := 3, face_image := some ⟨1, GBitmap.mk 4 8 1 [7, 0, 0, 0]⟩,
    face_transition := true, wipe_direction := false, anim_direction := false,
    transition_frame := 12, num_transition_frames := 24, prev_face_value := 2,
    prev_image := some ⟨0, GBitmap.mk 4 8 1 [1, 0, 0, 0]⟩,
    sprite_mask := some ⟨2, GBitmap.mk 4 30 1 [0, 0, 0, 0]⟩,
    sprite := some ⟨3, GBitmap.mk 4 30 1 [0, 0, 0, 0]⟩, sprite_cx := 30, anim_timer := true,
    rand_state := 0, allocated := 4, released := [] }


/-- The engine after the forced start of face 3 on the demo platform, from the
initial engine with generator state 0. -/
def demo_start : Engine :=
  { face_value := 3, face_image := some ⟨0, GBitmap.mk 4 8 1 [7, 0, 0, 0]⟩,
    face_transition := true, wipe_direction := false, anim_direction := false,
    transition_frame := 0, num_transition_frames := 24, prev_face_value := -1,
    prev_image := none, sprite_mask := some ⟨1, GBitmap.mk 4 32 1 [0, 0, 0, 0]⟩,
    sprite := none, sprite_cx := 72, anim_timer := true, rand_state := 0, allocated := 2,
    released := [] }

/-! ## The byte reader over any loader, with its trace -/

/-- A loader in the shape of
`resource_load_byte_range(h, start_offset, buffer, num_bytes)`: the number of
bytes it loaded and the buffer after the call. -/
abbrev Loader := List Byte → Nat → List Byte → Nat → Nat × List Byte

/-- What the platform and the caller see of a reader. -/
inductive RBufferEvent where
  /-- A call of the loader at `start_offset` that loaded `loaded` bytes. -/
  | load (start_offset : Nat) (loaded : Nat)
  /-- A return of `rbuffer_getc` with `result`. -/
  | getc (result : Int)
  deriving DecidableEq, Repr

/-- `rbuffer_init` over the loader `load`: the reader and the call it made. -/
def rbuffer_init_traced (load : Loader) (resource : List Byte) : RBuffer × List RBufferEvent :=
  ({ _rh := resource, _i := 0,
     _filled_size := (load resource 0 (List.replicate RBUFFER_SIZE (0 : Byte)) RBUFFER_SIZE).1,
     _bytes_read := (load resource 0 (List.replicate RBUFFER_SIZE (0 : Byte)) RBUFFER_SIZE).1,
     _buffer := (load resource 0 (List.replicate RBUFFER_SIZE (0 : Byte)) RBUFFER_SIZE).2 },
    [RBufferEvent.load 0
      (load resource 0 (List.replicate RBUFFER_SIZE (0 : Byte)) RBUFFER_SIZE).1])

/-- The first statement of `rbuffer_getc` over the loader `load`: the reload
when the cursor has reached `RBUFFER_SIZE`. -/
def rbuffer_reload_traced (load : Loader) (rb : RBuffer) : RBuffer × List RBufferEvent :=
  if rb._i ≥ RBUFFER_SIZE then
    ({ rb with
        _filled_size := (load rb._rh rb._bytes_read rb._buffer RBUFFER_SIZE).1,
        _bytes_read := rb._bytes_read + (load rb._rh rb._bytes_read rb._buffer RBUFFER_SIZE).1,
        _buffer := (load rb._rh rb._bytes_read rb._buffer RBUFFER_SIZE).2,
        _i := 0 },
      [RBufferEvent.load rb._bytes_read
        (load rb._rh rb._bytes_read rb._buffer RBUFFER_SIZE).1])
  else (rb, [])

/-- `rbuffer_getc` over the loader `load`: the result, the reader, and the
events of the call. -/
def rbuffer_getc_traced (load : Loader) (rb : RBuffer) : Int × RBuffer × List RBufferEvent :=
  match rbuffer_reload_traced load rb with
  | (rb, ev) =>
    if rb._i ≥ rb._filled_size then (EOF, rb, ev ++ [RBufferEvent.getc EOF])
    else (((rb._buffer.getD rb._i 0).val : Int), { rb with _i := rb._i + 1 },
      ev ++ [RBufferEvent.getc ((rb._buffer.getD rb._i 0).val : Int)])

/-- One more call of `rbuffer_getc` on a reader with its trace. -/
def rbuffer_trace_step (load : Loader) (s : RBuffer × List RBufferEvent) :
    RBuffer × List RBufferEvent :=
  match rbuffer_getc_traced load s.1 with
  | (_, rb, ev) => (rb, s.2 ++ ev)

/-- The reader and the trace after `rbuffer_init` and `i` calls of
`rbuffer_getc`, over the loader `load`. -/
def rbuffer_trace (load : Loader) (resource : List Byte) : Nat → RBuffer × List RBufferEvent
  | 0 => rbuffer_init_traced load resource
  | i + 1 => rbuffer_trace_step load (rbuffer_trace load resource i)

/-- The number of bytes loaded in a trace. -/
def bytes_loaded : List RBufferEvent → Nat
  | [] => 0
  | RBufferEvent.load _ n :: es => n + bytes_loaded es
  | RBufferEvent.getc _ :: es => bytes_loaded es

/-- The number of bytes returned to the caller in a trace: the returns of
`rbuffer_getc` other than `EOF`. -/
def bytes_returned : List RBufferEvent → Nat
  | [] => 0
  | RBufferEvent.load _ _ :: es => bytes_returned es
  | RBufferEvent.getc r :: es => (if r = EOF then 0 else 1) + bytes_returned es

/-- The offsets of the loader calls in a trace, in order. -/
def load_offsets : List RBufferEvent → List Nat
  | [] => []
  | RBufferEvent.load off _ :: es => off :: load_offsets es
  | RBufferEvent.getc _ :: es => load_offsets es

/-- The reader invariant over any loader, for a reader `rb` with the trace `ev`
behind it. -/
def StreamOk (rb : RBuffer) (ev : List RBufferEvent) : Prop :=
  rb._i ≤ rb._filled_size ∧ rb._filled_size ≤ 256 ∧
  rb._bytes_read = bytes_loaded ev ∧
  bytes_returned ev + rb._filled_size = rb._bytes_read + rb._i ∧
  bytes_loaded ev + 256 = 256 * (load_offsets ev).length + rb._filled_size ∧
  (∀ (j off n : Nat), ev[j]? = some (RBufferEvent.load off n) →
    off = bytes_loaded (ev.take j) ∧ off = bytes_returned (ev.take j)) ∧
  load_offsets ev = (List.range (load_offsets ev).length).map (fun k => 256 * k)

/-- The index `af` into `tardis_frames` that the TARDIS case of
`face_layer_update_callback` computes for frame `ti`. -/
def tardis_af (e : Engine) (ti : Int) : Int :=
  let af := c_mod ti NUM_TARDIS_FRAMES
  if e.anim_direction then (NUM_TARDIS_FRAMES - 1) - af else af

/-- The TARDIS case of `face_layer_update_callback` once the table entry is
read: load the frame, flip it when the entry says so, draw it and destroy it. -/
def tardis_frame_ops (P : Platform) (frame : TardisFrame) (destination : GRect) :
    Except Fault (List DrawOp) :=
  match P.gbitmap_create_with_resource frame.tardis with
  | none => Except.ok []
  | some tardis =>
    match (if frame.flip_x then flip_bitmap_x tardis else Except.ok tardis) with
    | Except.error f => Except.error f
    | Except.ok tardis =>
      Except.ok [DrawOp.set_compositing_mode GCompOp.GCompOpOr,
        DrawOp.draw_bitmap_in_rect none tardis destination]

/-- The frame counter is consistent: it is not negative, and during a transition
the total is 24 and the sprite mask is loaded. -/
def FrameOk (e : Engine) : Prop :=
  0 ≤ e.transition_frame ∧
  (e.face_transition = true → e.num_transition_frames = 24 ∧ e.sprite_mask ≠ none)

/-- The engine on the demo platform after a random start of face 3 from the
generator state 5 (wipe and spin directions set, the TARDIS sprite) and nine
renders. -/
def demo_spin : Engine :=
  { face_value := 3, face_image := some ⟨0, GBitmap.mk 4 8 1 [7, 0, 0, 0]⟩,
    face_transition := true, wipe_direction := true, anim_direction := true,
    transition_frame := 9, num_transition_frames := 24, prev_face_value := -1,
    prev_image := none, sprite_mask := some ⟨1, GBitmap.mk 4 32 1 [0, 0, 0, 0]⟩,
    sprite := none, sprite_cx := 72, anim_timer := true, rand_state := 8, allocated := 2,
    released := [] }
/-! # Properties -/

/-! ## The byte reader -/

theorem resource_load_length (rh buf : List Byte) (off : Nat) :
    (resource_load_byte_range rh off buf 256).1 = min 256 (rh.length - off) := by
  simp [resource_load_byte_range]

theorem resource_load_get (rh buf : List Byte) (off j : Nat)
    (hj : j < min 256 (rh.length - off)) :
    (resource_load_byte_range rh off buf 256).2[j]? = rh[off + j]? := by
  have h1 : j < ((rh.drop off).take 256).length := by simpa using hj
  simp only [resource_load_byte_range]
  rw [List.getElem?_append_left h1, List.getElem?_take_of_lt (by omega), List.getElem?_drop]

theorem rbuffer_init_at (res : List Byte) : RBufferAt res 0 (rbuffer_init res) := by
  unfold rbuffer_init
  generalize List.replicate RBUFFER_SIZE (0 : Byte) = buf
  have hl := resource_load_length res buf 0
  have hg := resource_load_get res buf 0
  simp only [RBUFFER_SIZE]
  refine ⟨rfl, Nat.le_refl _, Nat.zero_le _, Nat.zero_le _, ?_, ?_, ?_⟩
  · simpa using hl
  · simp
  · intro j hj
    simp only [hl] at hj
    simpa using hg j (by simpa using hj)

theorem rbuffer_getc_at_lt (res : List Byte) (k : Nat) (rb : RBuffer)
    (h : RBufferAt res k rb) (hk : k < res.length) :
    (rbuffer_getc rb).1 = ((res.getD k 0).val : Int) ∧ RBufferAt res (k + 1) (rbuffer_getc rb).2 := by
  obtain ⟨h1, h2, h3, h4, h5, h6, h7⟩ := h
  unfold rbuffer_getc
  simp only [RBUFFER_SIZE]
  by_cases hi : rb._i ≥ 256
  · have hl := resource_load_length rb._rh rb._buffer rb._bytes_read
    have hg := resource_load_get rb._rh rb._buffer rb._bytes_read
    have hbr : rb._bytes_read = k := by omega
    rw [h1, hbr] at hl hg
    simp only [hi, if_true, h1, hbr]
    have hpos : ¬ (0 ≥ (resource_load_byte_range res k rb._buffer 256).1) := by
      rw [hl]; omega
    rw [if_neg hpos]
    refine ⟨?_, rfl, ?_, ?_, ?_, ?_, ?_, ?_⟩
    · have := hg 0 (by omega)
      simp only [Nat.add_zero] at this
      simp [List.getD_eq_getElem?_getD, this]
    · dsimp only; omega
    · dsimp only; omega
    · dsimp only; rw [hl]; omega
    · dsimp only; rw [hl]; omega
    · dsimp only; omega
    · intro j hj
      dsimp only at hj ⊢
      rw [hl] at hj
      have := hg j hj
      simpa using this
  · have hlt : ¬ (rb._i ≥ rb._filled_size) := by omega
    simp only [hi, if_false, hlt]
    refine ⟨?_, h1, ?_, ?_, ?_, ?_, ?_, ?_⟩
    · have := h7 rb._i (by omega)
      have hki : k - rb._i + rb._i = k := by omega
      rw [hki] at this
      simp [List.getD_eq_getElem?_getD, this]
    · dsimp only; omega
    · dsimp only; omega
    · show rb._i + 1 ≤ rb._filled_size
      omega
    · show rb._filled_size = min 256 (res.length - (k + 1 - (rb._i + 1)))
      have : k + 1 - (rb._i + 1) = k - rb._i := by omega
      rw [this]; exact h5
    · show rb._bytes_read = (k + 1 - (rb._i + 1)) + rb._filled_size
      have : k + 1 - (rb._i + 1) = k - rb._i := by omega
      rw [this]; exact h6
    · intro j hj
      show rb._buffer[j]? = res[(k + 1 - (rb._i + 1)) + j]?
      have : k + 1 - (rb._i + 1) = k - rb._i := by omega
      rw [this]; exact h7 j hj

theorem rbuffer_getc_at_end (res : List Byte) (rb : RBuffer)
    (h : RBufferAt res res.length rb) :
    (rbuffer_getc rb).1 = EOF ∧ RBufferAt res res.length (rbuffer_getc rb).2 := by
  obtain ⟨h1, h2, h3, h4, h5, h6, h7⟩ := h
  unfold rbuffer_getc
  simp only [RBUFFER_SIZE]
  by_cases hi : rb._i ≥ 256
  · have hl := resource_load_length rb._rh rb._buffer rb._bytes_read
    have hbr : rb._bytes_read = res.length := by omega
    rw [h1, hbr] at hl
    simp only [Nat.sub_self, Nat.min_zero] at hl
    simp only [hi, if_true, h1, hbr, hl]
    simp only [ge_iff_le, Nat.le_refl, if_true]
    refine ⟨trivial, rfl, Nat.zero_le _, Nat.le_refl _, Nat.le_refl _, ?_, ?_, ?_⟩
    · simp
    · simp
    · intro j hj
      exact absurd hj (by simp)
  · have hge : rb._i ≥ rb._filled_size := by omega
    simp only [hi, if_false, hge, if_true]
    exact ⟨trivial, h1, h2, h3, h4, h5, h6, h7⟩

theorem rbuffer_after_at (res : List Byte) (i : Nat) :
    RBufferAt res (min i res.length) (rbuffer_after res i) := by
  induction i with
  | zero => simpa using rbuffer_init_at res
  | succ i ih =>
    by_cases hi : i < res.length
    · have h1 : min i res.length = i := by omega
      have h2 : min (i + 1) res.length = i + 1 := by omega
      rw [h1] at ih
      rw [h2]
      exact (rbuffer_getc_at_lt res i _ ih hi).2
    · have h1 : min i res.length = res.length := by omega
      have h2 : min (i + 1) res.length = res.length := by omega
      rw [h1] at ih
      rw [h2]
      exact (rbuffer_getc_at_end res _ ih).2

/-- C4. The `i`-th call of `rbuffer_getc` after `rbuffer_init` (counted from 0)
returns byte `i` of the resource when `i` is below the resource's length and
`EOF` otherwise, for a resource of any length, the loader returning
`min 256 (L - offset)` bytes: the reader is a faithful sequential read and its
end of stream is sticky. -/
theorem rbuffer_getc_sequential (res : List Byte) (i : Nat) :
    (rbuffer_getc (rbuffer_after res i)).1 =
      if h : i < res.length then ((res.get ⟨i, h⟩).val : Int) else EOF := by
  have hat := rbuffer_after_at res i
  by_cases hi : i < res.length
  · have h1 : min i res.length = i := by omega
    rw [h1] at hat
    rw [dif_pos hi, (rbuffer_getc_at_lt res i _ hat hi).1]
    simp [List.getD_eq_getElem?_getD, List.getElem?_eq_getElem hi]
  · have h1 : min i res.length = res.length := by omega
    rw [h1] at hat
    rw [dif_neg hi]
    exact (rbuffer_getc_at_end res _ hat).1

/-! ## Bit lists -/

theorem natBits_length (w v : Nat) : (natBits w v).length = w := by
  simp [natBits]

theorem natBits_succ (w v : Nat) : natBits (w + 1) v = v.testBit w :: natBits w v := by
  simp only [natBits, List.range_succ_eq_map, List.map_cons, List.map_map]
  refine congrArg₂ _ (by simp) ?_
  apply List.map_congr_left
  intro j _
  simp only [Function.comp]
  congr 1
  omega

theorem bitsVal_foldl (bits : List Bool) (a : Nat) :
    bits.foldl (fun acc b => 2 * acc + b.toNat) a = a * 2 ^ bits.length + bitsVal bits := by
  induction bits generalizing a with
  | nil => simp [bitsVal]
  | cons x xs ih =>
    simp only [List.foldl_cons, List.length_cons, bitsVal]
    rw [ih, ih (2 * 0 + x.toNat)]
    ring

theorem bitsVal_nil : bitsVal [] = 0 := rfl

theorem bitsVal_cons (x : Bool) (xs : List Bool) :
    bitsVal (x :: xs) = x.toNat * 2 ^ xs.length + bitsVal xs := by
  simp only [bitsVal, List.foldl_cons]
  rw [bitsVal_foldl]
  simp [bitsVal]

theorem bitsVal_append (xs ys : List Bool) :
    bitsVal (xs ++ ys) = bitsVal xs * 2 ^ ys.length + bitsVal ys := by
  simp only [bitsVal, List.foldl_append]
  rw [bitsVal_foldl]
  simp [bitsVal]

theorem bitsVal_lt (xs : List Bool) : bitsVal xs < 2 ^ xs.length := by
  induction xs with
  | nil => simp [bitsVal]
  | cons x xs ih =>
    rw [bitsVal_cons, List.length_cons, pow_succ]
    cases x <;> simp <;> omega

theorem bitsVal_replicate_false (k : Nat) : bitsVal (List.replicate k false) = 0 := by
  induction k with
  | zero => rfl
  | succ k ih => rw [List.replicate_succ, bitsVal_cons, ih]; simp

theorem bitsVal_pos_of_mem (xs : List Bool) (h : true ∈ xs) : 1 ≤ bitsVal xs := by
  induction xs with
  | nil => simp at h
  | cons x xs ih =>
    rw [bitsVal_cons]
    cases x with
    | true => simp; have := Nat.one_le_two_pow (n := xs.length); omega
    | false =>
      simp at h
      have := ih h
      omega

theorem natBits_mod (w v : Nat) : natBits w (v % 2 ^ w) = natBits w v := by
  simp only [natBits]
  apply List.map_congr_left
  intro j hj
  have hj' : j < w := by simpa using hj
  rw [Nat.testBit_mod_two_pow]
  have : w - 1 - j < w := by omega
  simp [this]

theorem bitsVal_natBits (w v : Nat) : bitsVal (natBits w v) = v % 2 ^ w := by
  induction w generalizing v with
  | zero => simp [natBits, bitsVal, Nat.mod_one]
  | succ w ih =>
    rw [natBits_succ, bitsVal_cons, natBits_length, ih]
    have h : v.testBit w = decide (v / 2 ^ w % 2 = 1) := Nat.testBit_to_div_mod
    have h2 : v % 2 ^ (w + 1) = (v / 2 ^ w % 2) * 2 ^ w + v % 2 ^ w := by
      rw [pow_succ, Nat.mod_mul, Nat.mul_comm, Nat.add_comm]
    rw [h2, h]
    rcases Nat.mod_two_eq_zero_or_one (v / 2 ^ w) with h3 | h3 <;> simp [h3]

/-! ## Bit operations of the unpacker on a byte -/

theorem chunk_test_byte : ∀ xv : Nat, xv < 256 → ∀ n : Nat, n < 9 → ∀ bi : Nat, bi < 9 →
    (1 ≤ n ∧ bi % n = 0 ∧ 1 ≤ bi) →
    (decide (c_and (xv : Int) (c_shl (c_shl 1 (n : Int) - 1) ((bi : Int) - (n : Int))) = 0) =
      decide (((natBits 8 xv).drop (8 - bi)).take n = List.replicate n false)) := by
  decide!
theorem low_bits_byte : ∀ xv : Nat, xv < 256 → ∀ bi : Nat, bi < 9 →
    c_and (xv : Int) (c_shl 1 (bi : Int) - 1) = (bitsVal ((natBits 8 xv).drop (8 - bi)) : Int) := by
  decide!

theorem mid_bits_byte : ∀ xv : Nat, xv < 256 → ∀ bi : Nat, bi < 9 → ∀ m : Nat, m < bi →
    c_and (c_shr (xv : Int) ((bi : Int) - (m : Int))) (c_shl 1 (m : Int) - 1) =
      (bitsVal (((natBits 8 xv).drop (8 - bi)).take m) : Int) := by
  decide!

theorem mid_bits_eof : ∀ k : Nat, k < 9 → ∀ m : Nat, m < 9 →
    c_and (c_shr EOF (k : Int)) (c_shl 1 (m : Int) - 1) = ((2 ^ m - 1 : Nat) : Int) := by
  decide!

theorem c_or_shl (r k v : Nat) (hv : v < 2 ^ k) :
    c_or (c_shl (r : Int) (k : Int)) (v : Int) = ((r * 2 ^ k + v : Nat) : Int) := by
  have h : c_shl (r : Int) (k : Int) = Int.ofNat (r * 2 ^ k) := by
    simp [c_shl]
  rw [h]
  show Int.ofNat (r * 2 ^ k ||| v) = _
  rw [Nat.mul_comm r, ← Nat.mul_add_lt_is_or hv]
  rfl

/-! ## The 32-bit `int` -/

theorem int32_eq (x : Int) (h0 : -2147483648 ≤ x) (h1 : x < 2147483648) : int32 x = x := by
  unfold int32; omega

theorem int32_range (x : Int) : -2147483648 ≤ int32 x ∧ int32 x < 2147483648 := by
  unfold int32; omega

theorem int32_zero : int32 0 = 0 := rfl

theorem int32_add_mul (x c : Int) : int32 (x + 4294967296 * c) = int32 x := by
  unfold int32; omega

/-- Reduction to 32 bits may be postponed: the word built from a reduced word is
the reduction of the word built from the exact one. -/
theorem int32_mul_add (a p v : Int) : int32 (int32 a * p + v) = int32 (a * p + v) := by
  have hq : int32 a = a + 4294967296 * (-((a + 2147483648) / 4294967296)) := by
    unfold int32; omega
  rw [hq]
  have : (a + 4294967296 * (-((a + 2147483648) / 4294967296))) * p + v =
      (a * p + v) + 4294967296 * (-((a + 2147483648) / 4294967296) * p) := by ring
  rw [this, int32_add_mul]

theorem and_low_ones (a k v : Nat) (hv : v < 2 ^ k) : ((a + 1) * 2 ^ k - 1) &&& v = v := by
  have hm : (a + 1) * 2 ^ k - 1 = 2 ^ k * a + (2 ^ k - 1) := by
    have := Nat.one_le_two_pow (n := k)
    rw [Nat.add_mul, Nat.mul_comm a]
    omega
  apply Nat.eq_of_testBit_eq
  intro i
  rw [Nat.testBit_and, hm,
    Nat.testBit_mul_pow_two_add a (by have := Nat.one_le_two_pow (n := k); omega) i,
    Nat.testBit_two_pow_sub_one]
  by_cases hi : i < k
  · simp [hi]
  · have : v.testBit i = false :=
      Nat.testBit_lt_two_pow (lt_of_lt_of_le hv (Nat.pow_le_pow_right (by norm_num) (by omega)))
    simp [this]

/-- The word `(x << k) | v` for `v` below `2^k`, before reduction to 32 bits, for
a word `x` of either sign. -/
theorem c_or_shl_int (x : Int) (k v : Nat) (hv : v < 2 ^ k) :
    c_or (c_shl x (k : Int)) (v : Int) = x * 2 ^ k + (v : Int) := by
  cases x with
  | ofNat r =>
    have := c_or_shl r k v hv
    rw [Int.ofNat_eq_coe, this]
    push_cast
    ring
  | negSucc a =>
    have hp := Nat.one_le_two_pow (n := k)
    have hpos : 1 ≤ (a + 1) * 2 ^ k := Nat.mul_pos (by omega) (by omega)
    have h : c_shl (Int.negSucc a) (k : Int) = Int.negSucc ((a + 1) * 2 ^ k - 1) := by
      simp only [c_shl, Int.toNat_ofNat]
      rw [Int.negSucc_eq, Int.negSucc_eq]
      have e : (((a + 1) * 2 ^ k - 1 : Nat) : Int) = ((a : Int) + 1) * 2 ^ k - 1 := by
        rw [Nat.cast_sub hpos]
        push_cast
        ring
      rw [e]
      ring
    rw [h]
    show Int.negSucc ((a + 1) * 2 ^ k - 1 - (((a + 1) * 2 ^ k - 1) &&& v)) = _
    rw [and_low_ones a k v hv, Int.negSucc_eq, Int.negSucc_eq]
    have hle : v ≤ (a + 1) * 2 ^ k - 1 := by
      have : 2 ^ k ≤ (a + 1) * 2 ^ k := Nat.le_mul_of_pos_left _ (by omega)
      omega
    rw [Nat.cast_sub hle, Nat.cast_sub hpos]
    push_cast
    ring

/-! ## The unpacker on an arbitrary byte stream -/

theorem byte_ne_EOF (x : Nat) : (x : Int) ≠ EOF := by
  simp only [EOF]; omega

theorem streamBits_cons (x : Byte) (xs : List Byte) :
    streamBits (x :: xs) = byteBits x ++ streamBits xs := by
  simp [streamBits]

theorem byteBits_length (x : Byte) : (byteBits x).length = 8 := natBits_length 8 _

theorem streamBits_length (xs : List Byte) : (streamBits xs).length = 8 * xs.length := by
  induction xs with
  | nil => rfl
  | cons x xs ih => rw [streamBits_cons, List.length_append, byteBits_length, ih, List.length_cons]; omega

theorem rbuffer_fetch (res : List Byte) (k : Nat) (rb : RBuffer) (h : RBufferAt res k rb) :
    (k = res.length ∧ (rbuffer_getc rb).1 = EOF ∧ RBufferAt res k (rbuffer_getc rb).2) ∨
    (∃ x : Byte, (rbuffer_getc rb).1 = (x.val : Int) ∧ res.drop k = x :: res.drop (k + 1) ∧
      RBufferAt res (k + 1) (rbuffer_getc rb).2) := by
  have hk : k ≤ res.length := h.2.2.1
  by_cases hlt : k < res.length
  · right
    have := rbuffer_getc_at_lt res k rb h hlt
    refine ⟨res.getD k 0, this.1, ?_, this.2⟩
    rw [List.getD_eq_getElem?_getD, List.getElem?_eq_getElem hlt]
    simp
  · left
    have hk' : k = res.length := by omega
    subst hk'
    exact ⟨rfl, rbuffer_getc_at_end res rb h⟩

theorem unread_rh {res : List Byte} {n : Nat} {bits : List Bool} {rl2 : Rl2Unpacker}
    (h : Unread res n bits rl2) : rl2.rb._rh = res := by
  obtain ⟨_, _, k, hk, _⟩ := h
  exact hk.1

theorem unread_length_le {res : List Byte} {n : Nat} {bits : List Bool} {rl2 : Rl2Unpacker}
    (h : Unread res n bits rl2) : bits.length ≤ 8 * res.length + 8 := by
  obtain ⟨_, _, k, hk, h | ⟨x, bi, _, _, _, hbi, _, hb⟩⟩ := h
  · rw [h.2.2]; simp
  · rw [hb, List.length_append, List.length_drop, byteBits_length, streamBits_length,
      List.length_drop]
    omega

theorem unread_steps {res : List Byte} {n : Nat} {bits : List Bool} {rl2 : Rl2Unpacker}
    (h : Unread res n bits rl2) : bits.length < rl2_steps rl2 := by
  have := unread_length_le h
  rw [rl2_steps, unread_rh h]
  omega

theorem unread_eof {res : List Byte} {n : Nat} {bits : List Bool} {rl2 : Rl2Unpacker}
    (h : Unread res n bits rl2) : rl2.b = EOF ↔ bits = [] := by
  obtain ⟨_, _, k, hk, h | ⟨x, bi, hx, _, h1, hbi, _, hb⟩⟩ := h
  · simp [h.1, h.2.2]
  · constructor
    · intro he; rw [hx] at he; exact absurd he (byte_ne_EOF _)
    · intro he
      have : bits.length = 0 := by rw [he]; rfl
      rw [hb, List.length_append, List.length_drop, byteBits_length] at this
      omega

theorem unread_n_pos {res : List Byte} {n : Nat} {bits : List Bool} {rl2 : Rl2Unpacker}
    (h : Unread res n bits rl2) : 1 ≤ n ∧ n ≤ 8 := by
  obtain ⟨_, h8, _⟩ := h
  have := Nat.le_of_dvd (by norm_num) h8
  rcases Nat.eq_zero_or_pos n with h0 | h0
  · subst h0; simp at h8
  · omega

theorem unread_fetch {res : List Byte} {n k : Nat} (rl2 : Rl2Unpacker)
    (hn : rl2.n = (n : Int)) (h8 : n ∣ 8) (hk : RBufferAt res k rl2.rb) :
    Unread res n (streamBits (res.drop k)) (rl2_fetch rl2) := by
  refine ⟨hn, h8, ?_⟩
  rcases rbuffer_fetch res k rl2.rb hk with ⟨h1, h2, h3⟩ | ⟨x, h1, h2, h3⟩
  · refine ⟨k, h3, Or.inl ⟨h2, h1, ?_⟩⟩
    rw [h1]; simp [streamBits]
  · refine ⟨k + 1, h3, Or.inr ⟨x, 8, h1, rfl, by norm_num, by norm_num, h8, ?_⟩⟩
    rw [h2, streamBits_cons]; simp

theorem rl2_zero_loop_succ (fuel : Nat) (rl2 : Rl2Unpacker) (zc : Int) :
    rl2_zero_loop (fuel + 1) rl2 zc =
      if c_and rl2.b (c_shl (c_shl 1 rl2.n - 1) (rl2.bi - rl2.n)) = 0 then
        if rl2.bi - rl2.n ≤ 0 then
          if (rbuffer_getc rl2.rb).1 = EOF then
            Except.ok (none, rl2_fetch { rl2 with bi := rl2.bi - rl2.n })
          else rl2_zero_loop fuel (rl2_fetch { rl2 with bi := rl2.bi - rl2.n }) (zc + 1)
        else rl2_zero_loop fuel { rl2 with bi := rl2.bi - rl2.n } (zc + 1)
      else Except.ok (some zc, rl2) := rfl

/-- One round of the zero-chunk loop on a zero chunk: the chunk is consumed, and
the loop either returns end of stream or goes on. -/
theorem zero_loop_step {res : List Byte} {n : Nat} {bits : List Bool} {rl2 : Rl2Unpacker}
    (h : Unread res n bits rl2) (hb : rl2.b ≠ EOF)
    (hz : bits.take n = List.replicate n false) :
    ∃ rl2', Unread res n (bits.drop n) rl2' ∧
      ((rl2'.b = EOF ∧ ∀ fuel zc, rl2_zero_loop (fuel + 1) rl2 zc = Except.ok (none, rl2')) ∨
       (rl2'.b ≠ EOF ∧ ∀ fuel zc, rl2_zero_loop (fuel + 1) rl2 zc = rl2_zero_loop fuel rl2' (zc + 1))) := by
  have hnpos := unread_n_pos h
  obtain ⟨hn, h8, k, hk, h | ⟨x, bi, hx, hbi, h1, hbi8, hdvd, hbits⟩⟩ := h
  · exact absurd h.1 hb
  have hnbi : n ≤ bi := Nat.le_of_dvd (by omega) hdvd
  have hlow : ((byteBits x).drop (8 - bi)).length = bi := by
    rw [List.length_drop, byteBits_length]; omega
  have hchunk : bits.take n = ((natBits 8 x.val).drop (8 - bi)).take n := by
    rw [hbits, List.take_append_of_le_length (by rw [hlow]; exact hnbi)]; rfl
  have htest : c_and rl2.b (c_shl (c_shl 1 rl2.n - 1) (rl2.bi - rl2.n)) = 0 := by
    have := chunk_test_byte x.val x.isLt n (by omega) bi (by omega)
      ⟨hnpos.1, Nat.mod_eq_zero_of_dvd hdvd, h1⟩
    rw [hx, hn, hbi]
    rw [← hchunk, hz] at this
    simpa using this
  by_cases hlast : bi = n
  · -- the byte is used up: fetch the next one
    have hle : rl2.bi - rl2.n ≤ 0 := by rw [hbi, hn, hlast]; omega
    have hfetch := unread_fetch { rl2 with bi := rl2.bi - rl2.n } hn h8 hk
    have hdrop : bits.drop n = streamBits (res.drop k) := by
      rw [hbits, List.drop_append_of_le_length (by rw [hlow]; omega)]
      rw [List.drop_eq_nil_of_le (by rw [hlow]; omega)]
      rfl
    rw [← hdrop] at hfetch
    refine ⟨_, hfetch, ?_⟩
    by_cases he : (rbuffer_getc rl2.rb).1 = EOF
    · left
      refine ⟨he, ?_⟩
      intro fuel zc
      rw [rl2_zero_loop_succ, if_pos htest, if_pos hle, if_pos he]
    · right
      refine ⟨he, ?_⟩
      intro fuel zc
      rw [rl2_zero_loop_succ, if_pos htest, if_pos hle, if_neg he]
  · -- more chunks are left in the byte
    have hgt : ¬ (rl2.bi - rl2.n ≤ 0) := by
      rw [hbi, hn]
      have : n < bi := by omega
      omega
    have hcast : rl2.bi - rl2.n = ((bi - n : Nat) : Int) := by
      rw [hbi, hn]; omega
    refine ⟨{ rl2 with bi := rl2.bi - rl2.n }, ⟨hn, h8, k, hk, Or.inr ⟨x, bi - n, hx, hcast,
      by omega, by omega, (Nat.dvd_sub' hdvd (dvd_refl n)), ?_⟩⟩, Or.inr ⟨hb, ?_⟩⟩
    · rw [hbits, List.drop_append_of_le_length (by rw [hlow]; omega), List.drop_drop]
      congr 2
      omega
    · intro fuel zc
      rw [rl2_zero_loop_succ, if_pos htest, if_neg hgt]

/-- The zero-chunk loop on a nonzero chunk: the loop is left at once. -/
theorem zero_loop_exit {res : List Byte} {n : Nat} {bits : List Bool} {rl2 : Rl2Unpacker}
    (h : Unread res n bits rl2) (hb : rl2.b ≠ EOF)
    (hz : bits.take n ≠ List.replicate n false) (fuel : Nat) (zc : Int) :
    rl2_zero_loop (fuel + 1) rl2 zc = Except.ok (some zc, rl2) := by
  have hnpos := unread_n_pos h
  obtain ⟨hn, h8, k, hk, h | ⟨x, bi, hx, hbi, h1, hbi8, hdvd, hbits⟩⟩ := h
  · exact absurd h.1 hb
  have hnbi : n ≤ bi := Nat.le_of_dvd (by omega) hdvd
  have hlow : ((byteBits x).drop (8 - bi)).length = bi := by
    rw [List.length_drop, byteBits_length]; omega
  have hchunk : bits.take n = ((natBits 8 x.val).drop (8 - bi)).take n := by
    rw [hbits, List.take_append_of_le_length (by rw [hlow]; exact hnbi)]; rfl
  have htest : ¬ (c_and rl2.b (c_shl (c_shl 1 rl2.n - 1) (rl2.bi - rl2.n)) = 0) := by
    have := chunk_test_byte x.val x.isLt n (by omega) bi (by omega)
      ⟨hnpos.1, Nat.mod_eq_zero_of_dvd hdvd, h1⟩
    rw [hx, hn, hbi]
    rw [← hchunk] at this
    intro h0
    rw [h0] at this
    simp at this
    exact hz this
  rw [rl2_zero_loop_succ, if_neg htest]

theorem ne_replicate_of_mem {l : List Bool} {n : Nat} (h : true ∈ l) :
    l ≠ List.replicate n false := by
  intro he
  rw [he] at h
  simp at h

theorem mem_true_of_ne_replicate {l : List Bool} (h : l ≠ List.replicate l.length false) :
    true ∈ l := by
  induction l with
  | nil => simp at h
  | cons x xs ih =>
    cases x with
    | true => simp
    | false =>
      simp only [List.length_cons, List.replicate_succ, ne_eq, List.cons.injEq, true_and] at h
      simp [ih h]

/-- The zero-chunk loop on `z` zero chunks followed by a nonzero chunk: it
leaves with `zero_count` raised by `z`, in front of the nonzero chunk. -/
theorem zero_loop_zeros {res : List Byte} {n : Nat} (z : Nat) :
    ∀ (bits rest : List Bool) (rl2 : Rl2Unpacker) (fuel : Nat) (zc : Int),
      Unread res n bits rl2 → bits = List.replicate (z * n) false ++ rest →
      true ∈ rest.take n → z < fuel →
      ∃ rl2', rl2_zero_loop fuel rl2 zc = Except.ok (some (zc + z), rl2') ∧
        Unread res n rest rl2' ∧ rl2'.b ≠ EOF := by
  induction z with
  | zero =>
    intro bits rest rl2 fuel zc h hbits hrest hfuel
    simp only [Nat.zero_mul, List.replicate_zero, List.nil_append] at hbits
    subst hbits
    have hb : rl2.b ≠ EOF := by
      rw [Ne, unread_eof h]
      intro he; rw [he] at hrest
      simp at hrest
    obtain ⟨f, rfl⟩ : ∃ f, fuel = f + 1 := ⟨fuel - 1, by omega⟩
    exact ⟨rl2, by rw [zero_loop_exit h hb (ne_replicate_of_mem hrest)]; simp, h, hb⟩
  | succ z ih =>
    intro bits rest rl2 fuel zc h hbits hrest hfuel
    have hnpos := unread_n_pos h
    have hb : rl2.b ≠ EOF := by
      rw [Ne, unread_eof h]
      intro he
      have : bits.length = 0 := by rw [he]; rfl
      rw [hbits, List.length_append, List.length_replicate] at this
      have : (z + 1) * n = 0 := by omega
      have : n ≤ (z + 1) * n := Nat.le_mul_of_pos_left n (by omega)
      omega
    have hsplit : List.replicate ((z + 1) * n) false = List.replicate n false ++ List.replicate (z * n) false := by
      rw [← List.replicate_add]; congr 1; ring
    have htake : bits.take n = List.replicate n false := by
      rw [hbits, hsplit, List.append_assoc, List.take_append_of_le_length (by simp)]
      simp
    have hdrop : bits.drop n = List.replicate (z * n) false ++ rest := by
      rw [hbits, hsplit, List.append_assoc, List.drop_append_of_le_length (by simp)]
      simp
    obtain ⟨f, rfl⟩ : ∃ f, fuel = f + 1 := ⟨fuel - 1, by omega⟩
    obtain ⟨rl2', hun, hcase | hcase⟩ := zero_loop_step h hb htake
    · exfalso
      have := (unread_eof hun).1 hcase.1
      rw [hdrop] at this
      have hr : rest = [] := (List.append_eq_nil.1 this).2
      rw [hr] at hrest
      simp at hrest
    · obtain ⟨rl2'', h1, h2, h3⟩ := ih _ rest rl2' f (zc + 1) hun hdrop hrest (by omega)
      refine ⟨rl2'', ?_, h2, h3⟩
      rw [hcase.2, h1]
      congr 3
      push_cast; ring

/-- The zero-chunk loop on a stream whose unread bits are all zero: it returns
end of stream, with the stream exhausted. -/
theorem zero_loop_all_zero {res : List Byte} {n : Nat} (fuel : Nat) :
    ∀ (bits : List Bool) (rl2 : Rl2Unpacker) (zc : Int),
      Unread res n bits rl2 → rl2.b ≠ EOF → bits = List.replicate bits.length false →
      bits.length ≤ fuel →
      ∃ rl2', rl2_zero_loop fuel rl2 zc = Except.ok (none, rl2') ∧
        Unread res n [] rl2' ∧ rl2'.b = EOF := by
  induction fuel with
  | zero =>
    intro bits rl2 zc h hb hbits hfuel
    exfalso
    have : bits = [] := List.length_eq_zero.1 (by omega)
    exact hb ((unread_eof h).2 this)
  | succ f ih =>
    intro bits rl2 zc h hb hbits hfuel
    have hnpos := unread_n_pos h
    have hne : bits ≠ [] := fun he => hb ((unread_eof h).2 he)
    have hlen : n ≤ bits.length := by
      obtain ⟨hn, h8, k, hk, h | ⟨x, bi, hx, hbi, h1, hbi8, hdvd, hbits'⟩⟩ := h
      · exact absurd h.1 hb
      · have hnbi : n ≤ bi := Nat.le_of_dvd (by omega) hdvd
        rw [hbits', List.length_append, List.length_drop, byteBits_length]
        omega
    have htake : bits.take n = List.replicate n false := by
      rw [hbits, List.take_replicate]
      congr 1; omega
    have hdrop : bits.drop n = List.replicate (bits.drop n).length false := by
      rw [List.length_drop]
      conv_lhs => rw [hbits]
      rw [List.drop_replicate]
    obtain ⟨rl2', hun, hcase | hcase⟩ := zero_loop_step h hb htake
    · refine ⟨rl2', hcase.2 f zc, ?_, hcase.1⟩
      have := (unread_eof hun).1 hcase.1
      rw [this] at hun
      exact hun
    · obtain ⟨rl2'', h1, h2, h3⟩ := ih _ rl2' (zc + 1) hun hcase.1 hdrop
        (by rw [List.length_drop]; omega)
      exact ⟨rl2'', by rw [hcase.2, h1], h2, h3⟩

theorem rl2_word_loop_succ (fuel : Nat) (rl2 : Rl2Unpacker) (bit_count result : Int) :
    rl2_word_loop (fuel + 1) rl2 bit_count result =
      if bit_count ≥ rl2.bi then
        if (rbuffer_getc rl2.rb).1 = EOF then
          Except.ok (rl2_fetch rl2, bit_count - rl2.bi,
            int32 (c_or (c_shl result rl2.bi) (c_and rl2.b (c_shl 1 rl2.bi - 1))))
        else rl2_word_loop fuel (rl2_fetch rl2) (bit_count - rl2.bi)
            (int32 (c_or (c_shl result rl2.bi) (c_and rl2.b (c_shl 1 rl2.bi - 1))))
      else Except.ok (rl2, bit_count, result) := rfl

/-- The whole-byte loop of `rl2unpacker_getc` started with `m` bits to read and
the word `r` read so far, held in 32 bits: it consumes `j` unread bits, a whole
number of chunks, appends them to `r`, holds the word in 32 bits, and stops
either at end of stream or with fewer bits left to read than the current byte
holds. -/
theorem word_loop_spec {res : List Byte} {n : Nat} (fuel : Nat) :
    ∀ (bits : List Bool) (rl2 : Rl2Unpacker) (m r : Nat),
      Unread res n bits rl2 → rl2.b ≠ EOF → bits.length < fuel →
      ∃ (rl2' : Rl2Unpacker) (j : Nat), j ≤ m ∧ j ≤ bits.length ∧ n ∣ j ∧
        rl2_word_loop fuel rl2 (m : Int) (int32 (r : Int)) =
          Except.ok (rl2', ((m - j : Nat) : Int),
            int32 ((r * 2 ^ j + bitsVal (bits.take j) : Nat) : Int)) ∧
        Unread res n (bits.drop j) rl2' ∧
        ((rl2'.b = EOF ∧ rl2'.bi = 8) ∨ (rl2'.b ≠ EOF ∧ ((m - j : Nat) : Int) < rl2'.bi)) := by
  induction fuel with
  | zero => intro bits rl2 m r _ _ hf; omega
  | succ f ih =>
    intro bits rl2 m r h hb hf
    have hun := h
    obtain ⟨hn, h8, k, hk, h | ⟨x, bi, hx, hbi, h1, hbi8, hdvd, hbits⟩⟩ := h
    · exact absurd h.1 hb
    have hlow : ((byteBits x).drop (8 - bi)).length = bi := by
      rw [List.length_drop, byteBits_length]; omega
    by_cases hm : bi ≤ m
    · have hge : (m : Int) ≥ rl2.bi := by rw [hbi]; omega
      have htake : bits.take bi = (byteBits x).drop (8 - bi) := by
        rw [hbits, List.take_append_of_le_length (by omega), List.take_of_length_le (by omega)]
      have hdrop : bits.drop bi = streamBits (res.drop k) := by
        rw [hbits, List.drop_append_of_le_length (by omega), List.drop_eq_nil_of_le (by omega)]
        rfl
      have hval : int32 (c_or (c_shl (int32 (r : Int)) rl2.bi)
            (c_and rl2.b (c_shl 1 rl2.bi - 1))) =
          int32 ((r * 2 ^ bi + bitsVal (bits.take bi) : Nat) : Int) := by
        rw [hx, hbi, low_bits_byte x.val x.isLt bi (by omega), htake]
        rw [c_or_shl_int _ _ _ (by
          have := bitsVal_lt ((byteBits x).drop (8 - bi))
          rw [hlow] at this
          exact this), int32_mul_add]
        push_cast
        rfl
      have hfetch := unread_fetch rl2 hn h8 hk
      rw [← hdrop] at hfetch
      have hsub : (m : Int) - rl2.bi = ((m - bi : Nat) : Int) := by rw [hbi]; omega
      have hlen : bi ≤ bits.length := by
        rw [hbits, List.length_append, hlow]; omega
      by_cases he : (rbuffer_getc rl2.rb).1 = EOF
      · refine ⟨rl2_fetch rl2, bi, hm, hlen, hdvd, ?_, hfetch, Or.inl ⟨he, rfl⟩⟩
        rw [rl2_word_loop_succ, if_pos hge, if_pos he, hval, hsub]
      · obtain ⟨rl2', j, hj1, hj2, hj3, hj4, hj5, hj6⟩ :=
          ih (bits.drop bi) (rl2_fetch rl2) (m - bi) (r * 2 ^ bi + bitsVal (bits.take bi))
            hfetch he (by rw [List.length_drop]; omega)
        rw [List.length_drop] at hj2
        refine ⟨rl2', bi + j, by omega, by omega, Dvd.dvd.add hdvd hj3, ?_, ?_, ?_⟩
        · rw [rl2_word_loop_succ, if_pos hge, if_neg he, hval, hsub, hj4]
          have e1 : m - bi - j = m - (bi + j) := by omega
          have e2 : (r * 2 ^ bi + bitsVal (bits.take bi)) * 2 ^ j + bitsVal ((bits.drop bi).take j)
              = r * 2 ^ (bi + j) + bitsVal (bits.take (bi + j)) := by
            have e3 : bits.take (bi + j) = bits.take bi ++ (bits.drop bi).take j := by
              rw [List.take_add]
            have e4 : ((bits.drop bi).take j).length = j := by
              rw [List.length_take, List.length_drop]; omega
            rw [e3, bitsVal_append, e4, pow_add]
            ring
          rw [e1, e2]
        · rw [List.drop_drop] at hj5
          exact hj5
        · have e1 : m - bi - j = m - (bi + j) := by omega
          rw [e1] at hj6
          exact hj6
    · have hlt : ¬ ((m : Int) ≥ rl2.bi) := by rw [hbi]; omega
      refine ⟨rl2, 0, Nat.zero_le _, Nat.zero_le _, dvd_zero n, ?_, ?_, Or.inr ⟨hb, ?_⟩⟩
      · rw [rl2_word_loop_succ, if_neg hlt]
        simp [bitsVal_nil]
      · simpa using hun
      · rw [hbi]; omega

theorem rl2unpacker_getc_at_eof (rl2 : Rl2Unpacker) (hb : rl2.b = EOF) :
    rl2unpacker_getc rl2 = Except.ok (EOF, rl2) := by
  unfold rl2unpacker_getc
  rw [if_pos hb]

theorem rl2unpacker_getc_none (rl2 rl2' : Rl2Unpacker) (hb : rl2.b ≠ EOF)
    (hz : rl2_zero_loop (rl2_steps rl2) rl2 0 = Except.ok (none, rl2')) :
    rl2unpacker_getc rl2 = Except.ok (EOF, rl2') := by
  unfold rl2unpacker_getc
  rw [if_neg hb]
  simp only [hz]

theorem rl2unpacker_getc_some (rl2 rl2_1 rl2_2 : Rl2Unpacker) (z m r : Int) (hb : rl2.b ≠ EOF)
    (hz : rl2_zero_loop (rl2_steps rl2) rl2 0 = Except.ok (some z, rl2_1))
    (hw : rl2_word_loop (rl2_steps rl2_1) rl2_1 ((z + 1) * rl2_1.n) 0 = Except.ok (rl2_2, m, r)) :
    rl2unpacker_getc rl2 =
      if m > 0 then
        if ¬ (rl2_2.bi - m > 0) then Except.error Fault.assertion
          else Except.ok
          (int32 (c_or (c_shl r m) (c_and (c_shr rl2_2.b (rl2_2.bi - m)) (c_shl 1 m - 1))),
          { rl2_2 with bi := rl2_2.bi - m })
      else Except.ok (r, rl2_2) := by
  unfold rl2unpacker_getc
  rw [if_neg hb]
  simp only [hz, hw]

/-- `rl2unpacker_getc` on a stream whose unread bits are all zero (the padding
of the last byte, or nothing): it returns `EOF` and the stream is exhausted. -/
theorem rl2unpacker_getc_all_zero {res : List Byte} {n : Nat} {bits : List Bool}
    {rl2 : Rl2Unpacker} (h : Unread res n bits rl2)
    (hbits : bits = List.replicate bits.length false) :
    ∃ rl2', rl2unpacker_getc rl2 = Except.ok (EOF, rl2') ∧ Unread res n [] rl2' ∧ rl2'.b = EOF := by
  by_cases hb : rl2.b = EOF
  · refine ⟨rl2, rl2unpacker_getc_at_eof rl2 hb, ?_, hb⟩
    have := (unread_eof h).1 hb
    rw [this] at h
    exact h
  · obtain ⟨rl2', h1, h2, h3⟩ := zero_loop_all_zero (rl2_steps rl2) bits rl2 0 h hb hbits
      (Nat.le_of_lt (unread_steps h))
    exact ⟨rl2', rl2unpacker_getc_none rl2 rl2' hb h1, h2, h3⟩

/-- `rl2unpacker_getc` on `z` zero chunks followed by a nonzero chunk, with all
`(z+1)*n` bits of the value present: it returns the number these bits spell,
held in 32 bits, and leaves the stream right after them. -/
theorem rl2unpacker_getc_value {res : List Byte} {n : Nat} {bits rest : List Bool}
    {rl2 : Rl2Unpacker} (z : Nat) (h : Unread res n bits rl2)
    (hbits : bits = List.replicate (z * n) false ++ rest) (hnz : true ∈ rest.take n)
    (hlen : (z + 1) * n ≤ rest.length) :
    ∃ rl2', rl2unpacker_getc rl2 =
        Except.ok (int32 ((bitsVal (rest.take ((z + 1) * n)) : Nat) : Int), rl2') ∧
      Unread res n (rest.drop ((z + 1) * n)) rl2' := by
  have hnpos := unread_n_pos h
  have hsteps := unread_steps h
  have hzle : z ≤ z * n := Nat.le_mul_of_pos_right z (by omega)
  have hbl : bits.length = z * n + rest.length := by
    rw [hbits, List.length_append, List.length_replicate]
  have hb : rl2.b ≠ EOF := by
    rw [Ne, unread_eof h]
    intro he
    rw [he] at hbl
    simp at hbl
    have : (z + 1) * n = z * n + n := by ring
    omega
  obtain ⟨rl2_1, hz1, hun1, hb1⟩ := zero_loop_zeros z bits rest rl2 (rl2_steps rl2) 0 h hbits hnz
    (by omega)
  obtain ⟨rl2_2, j, hj1, hj2, hj3, hw, hun2, hcase⟩ :=
    word_loop_spec (rl2_steps rl2_1) rest rl2_1 ((z + 1) * n) 0 hun1 hb1 (unread_steps hun1)
  rw [Nat.cast_zero, int32_zero] at hw
  have hn1 : rl2_1.n = (n : Int) := hun1.1
  have hmcast : ((0 : Int) + (z : Int) + 1) * rl2_1.n = (((z + 1) * n : Nat) : Int) := by
    rw [hn1]; push_cast; ring
  rw [← hmcast] at hw
  have hget := rl2unpacker_getc_some rl2 rl2_1 rl2_2 _ _ _ hb hz1 hw
  simp only [Nat.cast_zero, Nat.zero_mul, Nat.zero_add] at hget
  by_cases hdone : j = (z + 1) * n
  · refine ⟨rl2_2, ?_, ?_⟩
    · rw [hget, if_neg (by rw [hdone]; simp), hdone]
    · rw [← hdone]; exact hun2
  · have hq : 0 < (z + 1) * n - j := by omega
    rcases hcase with ⟨he, _⟩ | ⟨hne, hlt⟩
    · exfalso
      have := (unread_eof hun2).1 he
      have hl : (rest.drop j).length = 0 := by rw [this]; rfl
      rw [List.length_drop] at hl
      omega
    · obtain ⟨hn2, h8, k, hk, h' | ⟨x, bi, hx, hbi, h1, hbi8, hdvd, hb2⟩⟩ := hun2
      · exact absurd h'.1 hne
      rw [hbi] at hlt
      have hqlt : (z + 1) * n - j < bi := by omega
      have hlow : ((byteBits x).drop (8 - bi)).length = bi := by
        rw [List.length_drop, byteBits_length]; omega
      have hmid : (rest.drop j).take ((z + 1) * n - j) =
          ((natBits 8 x.val).drop (8 - bi)).take ((z + 1) * n - j) := by
        rw [hb2, List.take_append_of_le_length (by omega)]; rfl
      have hsub : (bi : Int) - (((z + 1) * n - j : Nat) : Int) = ((bi - ((z + 1) * n - j) : Nat) : Int) := by
        omega
      have hval : int32 (c_or (c_shl (int32 ((bitsVal (rest.take j) : Nat) : Int))
            (((z + 1) * n - j : Nat) : Int))
          (c_and (c_shr rl2_2.b (rl2_2.bi - (((z + 1) * n - j : Nat) : Int)))
            (c_shl 1 (((z + 1) * n - j : Nat) : Int) - 1))) =
          int32 ((bitsVal (rest.take ((z + 1) * n)) : Nat) : Int) := by
        rw [hx, hbi, mid_bits_byte x.val x.isLt bi (by omega) _ hqlt, ← hmid]
        have hl : ((rest.drop j).take ((z + 1) * n - j)).length = (z + 1) * n - j := by
          rw [List.length_take, List.length_drop]; omega
        rw [c_or_shl_int _ _ _ (by have := bitsVal_lt ((rest.drop j).take ((z + 1) * n - j)); rwa [hl] at this),
          int32_mul_add]
        have e3 : rest.take ((z + 1) * n) = rest.take j ++ (rest.drop j).take ((z + 1) * n - j) := by
          have : (z + 1) * n = j + ((z + 1) * n - j) := by omega
          conv_lhs => rw [this]
          rw [List.take_add]
        rw [e3, bitsVal_append, hl]
        push_cast
        rfl
      refine ⟨{ rl2_2 with bi := rl2_2.bi - (((z + 1) * n - j : Nat) : Int) }, ?_, ?_⟩
      · rw [hget, if_pos (by omega), if_neg (by rw [hbi]; omega), hval]
      · refine ⟨hn2, h8, k, hk, Or.inr ⟨x, bi - ((z + 1) * n - j), hx, ?_, by omega, by omega, ?_, ?_⟩⟩
        · show rl2_2.bi - _ = _
          rw [hbi]; exact hsub
        · exact Nat.dvd_sub' hdvd (Nat.dvd_sub' (Dvd.intro_left _ rfl) hj3)
        · have : (z + 1) * n = j + ((z + 1) * n - j) := by omega
          conv_lhs => rw [this, ← List.drop_drop, hb2]
          rw [List.drop_append_of_le_length (by omega), List.drop_drop]
          have e : 8 - bi + ((z + 1) * n - j) = 8 - (bi - ((z + 1) * n - j)) := by omega
          rw [e]

/-- `rl2unpacker_getc` on `z` zero chunks followed by a nonzero chunk when the
stream ends before all `(z+1)*n` bits of the value: the call fails
`assert(bottom_count > 0)` or returns the bits read followed by 1-bits taken
from the `EOF` value, held in 32 bits, and the stream is exhausted. -/
theorem rl2unpacker_getc_truncated {res : List Byte} {n : Nat} {bits rest : List Bool}
    {rl2 : Rl2Unpacker} (z : Nat) (h : Unread res n bits rl2)
    (hbits : bits = List.replicate (z * n) false ++ rest) (hnz : true ∈ rest.take n)
    (hlen : rest.length < (z + 1) * n) :
    rl2unpacker_getc rl2 = Except.error Fault.assertion ∨
    ∃ (v : Int) (rl2' : Rl2Unpacker), rl2unpacker_getc rl2 = Except.ok (v, rl2') ∧
      Unread res n [] rl2' ∧ rl2'.b = EOF := by
  have hnpos := unread_n_pos h
  have hsteps := unread_steps h
  have hzle : z ≤ z * n := Nat.le_mul_of_pos_right z (by omega)
  have hbl : bits.length = z * n + rest.length := by
    rw [hbits, List.length_append, List.length_replicate]
  have hrne : rest ≠ [] := by
    intro he; rw [he] at hnz; simp at hnz
  have hrl : 0 < rest.length := List.length_pos.2 hrne
  have hb : rl2.b ≠ EOF := by
    rw [Ne, unread_eof h]
    intro he
    rw [he] at hbl
    simp at hbl
    omega
  obtain ⟨rl2_1, hz1, hun1, hb1⟩ := zero_loop_zeros z bits rest rl2 (rl2_steps rl2) 0 h hbits hnz
    (by omega)
  obtain ⟨rl2_2, j, hj1, hj2, hj3, hw, hun2, hcase⟩ :=
    word_loop_spec (rl2_steps rl2_1) rest rl2_1 ((z + 1) * n) 0 hun1 hb1 (unread_steps hun1)
  rw [Nat.cast_zero, int32_zero] at hw
  have hn1 : rl2_1.n = (n : Int) := hun1.1
  have hmcast : ((0 : Int) + (z : Int) + 1) * rl2_1.n = (((z + 1) * n : Nat) : Int) := by
    rw [hn1]; push_cast; ring
  rw [← hmcast] at hw
  have hget := rl2unpacker_getc_some rl2 rl2_1 rl2_2 _ _ _ hb hz1 hw
  simp only [Nat.cast_zero, Nat.zero_mul, Nat.zero_add] at hget
  have hq : 0 < (z + 1) * n - j := by omega
  rcases hcase with ⟨he, hbi⟩ | ⟨hne, hlt⟩
  · have hnil := (unread_eof hun2).1 he
    rw [hnil] at hun2
    by_cases hbot : (8 : Int) - (((z + 1) * n - j : Nat) : Int) > 0
    · right
      have hq8 : (z + 1) * n - j < 9 := by omega
      have hsub : (8 : Int) - (((z + 1) * n - j : Nat) : Int) = ((8 - ((z + 1) * n - j) : Nat) : Int) := by
        omega
      refine ⟨int32 (c_or (c_shl (int32 ((bitsVal (rest.take j) : Nat) : Int))
            (((z + 1) * n - j : Nat) : Int))
          (c_and (c_shr rl2_2.b (rl2_2.bi - (((z + 1) * n - j : Nat) : Int)))
            (c_shl 1 (((z + 1) * n - j : Nat) : Int) - 1))),
        { rl2_2 with bi := rl2_2.bi - (((z + 1) * n - j : Nat) : Int) }, ?_, ?_, he⟩
      · rw [hget, if_pos (by omega), if_neg (by rw [hbi]; omega)]
      · obtain ⟨hn2, h8, k, hk, h' | ⟨x, bi, hx, _⟩⟩ := hun2
        · exact ⟨hn2, h8, k, hk, Or.inl h'⟩
        · rw [hx] at he; exact absurd he (byte_ne_EOF _)
    · left
      rw [hget, if_pos (by omega), if_pos (by rw [hbi]; exact hbot)]
  · exfalso
    obtain ⟨hn2, h8, k, hk, h' | ⟨x, bi, hx, hbi, h1, hbi8, hdvd, hb2⟩⟩ := hun2
    · exact absurd h'.1 hne
    have hl := congrArg List.length hb2
    rw [List.length_drop, List.length_append, List.length_drop, byteBits_length] at hl
    rw [hbi] at hlt
    omega

/-- Every bit list is all zero or starts with a whole number of zero chunks
followed by a chunk with a set bit. -/
theorem bits_zero_chunks (n : Nat) (hn : 1 ≤ n) (len : Nat) :
    ∀ bits : List Bool, bits.length ≤ len →
      bits = List.replicate bits.length false ∨
      ∃ (z : Nat) (rest : List Bool), bits = List.replicate (z * n) false ++ rest ∧
        true ∈ rest.take n := by
  induction len with
  | zero =>
    intro bits hl
    left
    have : bits = [] := List.length_eq_zero.1 (by omega)
    rw [this]; rfl
  | succ len ih =>
    intro bits hl
    by_cases hz : true ∈ bits.take n
    · exact Or.inr ⟨0, bits, by simp, hz⟩
    · have htake : bits.take n = List.replicate (bits.take n).length false := by
        by_contra hc
        exact hz (mem_true_of_ne_replicate hc)
      by_cases hshort : bits.length ≤ n
      · left
        rw [List.take_of_length_le hshort] at htake
        exact htake
      · have hlt : n < bits.length := by omega
        have htl : (bits.take n).length = n := by rw [List.length_take]; omega
        rw [htl] at htake
        rcases ih (bits.drop n) (by rw [List.length_drop]; omega) with hall | ⟨z, rest, h1, h2⟩
        · left
          have := List.take_append_drop n bits
          rw [htake, hall, ← List.replicate_add, List.length_drop] at this
          rw [← this]
          simp
        · right
          refine ⟨z + 1, rest, ?_, h2⟩
          have := List.take_append_drop n bits
          rw [htake, h1, ← List.append_assoc, ← List.replicate_add] at this
          rw [← this]
          congr 2
          ring

/-! ## The rl2 code -/

theorem numChunksFrom_spec (n v : Nat) (hn : 1 ≤ n) (fuel : Nat) :
    ∀ k, 1 ≤ k → v < fuel + k → (k = 1 ∨ 2 ^ (n * (k - 1)) ≤ v) →
      1 ≤ numChunksFrom n v fuel k ∧ v < 2 ^ (n * numChunksFrom n v fuel k) ∧
      (numChunksFrom n v fuel k = 1 ∨ 2 ^ (n * (numChunksFrom n v fuel k - 1)) ≤ v) := by
  induction fuel with
  | zero =>
    intro k hk hv hmin
    simp only [numChunksFrom]
    refine ⟨hk, ?_, hmin⟩
    have h1 : k < 2 ^ k := Nat.lt_two_pow k
    have h2 : 2 ^ k ≤ 2 ^ (n * k) := Nat.pow_le_pow_right (by norm_num) (Nat.le_mul_of_pos_left k hn)
    omega
  | succ f ih =>
    intro k hk hv hmin
    simp only [numChunksFrom]
    by_cases hlt : v < 2 ^ (n * k)
    · rw [if_pos hlt]
      exact ⟨hk, hlt, hmin⟩
    · rw [if_neg hlt]
      apply ih (k + 1) (by omega) (by omega)
      right
      simp only [Nat.add_sub_cancel]
      omega

theorem numChunks_spec (n v : Nat) (hn : 1 ≤ n) :
    1 ≤ numChunks n v ∧ v < 2 ^ (n * numChunks n v) ∧
      (numChunks n v = 1 ∨ 2 ^ (n * (numChunks n v - 1)) ≤ v) :=
  numChunksFrom_spec n v hn v 1 (Nat.le_refl 1) (by omega) (Or.inl rfl)

theorem natBits_add (a b v : Nat) : natBits (a + b) v = natBits a (v / 2 ^ b) ++ natBits b v := by
  induction a with
  | zero => simp [natBits]
  | succ a ih =>
    have e : a + 1 + b = (a + b) + 1 := by omega
    rw [e, natBits_succ, natBits_succ, ih, List.cons_append]
    congr 1
    rw [← Nat.shiftRight_eq_div_pow, Nat.testBit_shiftRight]
    congr 1
    omega

theorem mem_true_natBits (w x : Nat) (h : x % 2 ^ w ≠ 0) : true ∈ natBits w x := by
  by_contra hc
  have hall : natBits w x = List.replicate (natBits w x).length false := by
    by_contra hne
    exact hc (mem_true_of_ne_replicate hne)
  have := bitsVal_natBits w x
  rw [hall, bitsVal_replicate_false] at this
  exact h this.symm

/-- The code of a value `v ≥ 1`: its top chunk has a set bit. -/
theorem encodeValue_top (n v : Nat) (hn : 1 ≤ n) (hv : 1 ≤ v) (tail : List Bool) :
    true ∈ (natBits (numChunks n v * n) v ++ tail).take n := by
  obtain ⟨h1, h2, h3⟩ := numChunks_spec n v hn
  obtain ⟨m, hm⟩ : ∃ m, numChunks n v = m + 1 := ⟨numChunks n v - 1, by omega⟩
  rw [hm] at h2 h3 ⊢
  have e : (m + 1) * n = n + n * m := by ring
  rw [e, natBits_add, List.append_assoc, List.take_append_of_le_length (by rw [natBits_length]),
    List.take_of_length_le (by rw [natBits_length])]
  apply mem_true_natBits
  have hlt : v / 2 ^ (n * m) < 2 ^ n := by
    rw [Nat.div_lt_iff_lt_mul (by positivity), ← pow_add]
    have : n + n * m = n * (m + 1) := by ring
    rw [this]; exact h2
  rw [Nat.mod_eq_of_lt hlt]
  have hge : 2 ^ (n * m) ≤ v := by
    rcases h3 with h3 | h3
    · have : m = 0 := by omega
      subst this; simpa using hv
    · simpa using h3
  have := Nat.div_pos hge (by positivity)
  omega

theorem encodeValue_val (n v : Nat) (hn : 1 ≤ n) (tail : List Bool) :
    bitsVal ((natBits (numChunks n v * n) v ++ tail).take (numChunks n v * n)) = v := by
  obtain ⟨h1, h2, h3⟩ := numChunks_spec n v hn
  rw [List.take_append_of_le_length (by rw [natBits_length]),
    List.take_of_length_le (by rw [natBits_length]), bitsVal_natBits]
  apply Nat.mod_eq_of_lt
  rw [Nat.mul_comm]; exact h2

/-! ## Packing bits into bytes -/

theorem byteBits_byteOfBits (bits : List Bool) (h : bits.length = 8) :
    byteBits (byteOfBits bits) = bits := by
  match bits, h with
  | [a, b, c, d, e, f, g, i], _ =>
    revert a b c d e f g i
    decide

theorem streamBits_packBytes (k : Nat) :
    ∀ bits : List Bool, bits.length = 8 * k → streamBits (packBytes k bits) = bits := by
  induction k with
  | zero =>
    intro bits h
    have : bits = [] := List.length_eq_zero.1 (by omega)
    rw [this]; rfl
  | succ k ih =>
    intro bits h
    rw [packBytes, streamBits_cons, byteBits_byteOfBits _ (by rw [List.length_take]; omega),
      ih _ (by rw [List.length_drop]; omega), List.take_append_drop]

theorem streamBits_packBits (bits : List Bool) (h : bits.length % 8 = 0) :
    streamBits (packBits bits) = bits := by
  apply streamBits_packBytes
  omega

theorem padBits_length (bits : List Bool) : (padBits bits).length % 8 = 0 := by
  rw [padBits, List.length_append, List.length_replicate]
  omega

/-! ## Run-length fidelity of the unpacker -/

theorem rl2unpacker_init_ok (rb : RBuffer) (n : Nat) (hn : n = 1 ∨ n = 2 ∨ n = 4 ∨ n = 8) :
    rl2unpacker_init rb (n : Int) =
      Except.ok (rl2_fetch { rb := rb, n := (n : Int), b := 0, bi := 0 }) := by
  rcases hn with h | h | h | h <;> subst h <;> rfl

theorem unread_init {res : List Byte} {k : Nat} (rb : RBuffer) (n : Nat)
    (hn : n = 1 ∨ n = 2 ∨ n = 4 ∨ n = 8) (hk : RBufferAt res k rb) :
    ∃ rl2, rl2unpacker_init rb (n : Int) = Except.ok rl2 ∧
      Unread res n (streamBits (res.drop k)) rl2 := by
  refine ⟨_, rl2unpacker_init_ok rb n hn, ?_⟩
  apply unread_fetch _ rfl _ hk
  rcases hn with h | h | h | h <;> subst h <;> norm_num

theorem rl2unpacker_reads_eof {res : List Byte} {n : Nat} (k : Nat) :
    ∀ rl2 : Rl2Unpacker, Unread res n [] rl2 →
      rl2unpacker_reads k rl2 = Except.ok (List.replicate k EOF) := by
  induction k with
  | zero => intro rl2 _; rfl
  | succ k ih =>
    intro rl2 h
    obtain ⟨rl2', h1, h2, _⟩ := rl2unpacker_getc_all_zero h rfl
    simp only [rl2unpacker_reads, h1, ih rl2' h2, List.replicate_succ]

theorem take_append_replicate_succ {α : Type} (a : α) (l : List α) (k : Nat) :
    (l ++ List.replicate (k + 1) a).take k = (l ++ List.replicate k a).take k := by
  rw [List.take_append_eq_append_take, List.take_append_eq_append_take, List.take_replicate,
    List.take_replicate]
  congr 2
  omega

theorem rl2unpacker_reads_encoded {res : List Byte} {n : Nat} (vs : List Nat) :
    ∀ (k pad : Nat) (rl2 : Rl2Unpacker), (∀ v ∈ vs, 1 ≤ v ∧ v < 2 ^ 31) →
      Unread res n (encodeValues n vs ++ List.replicate pad false) rl2 →
      rl2unpacker_reads k rl2 =
        Except.ok ((List.map (fun (v : Nat) => (v : Int)) vs ++ List.replicate k EOF).take k) := by
  induction vs with
  | nil =>
    intro k pad rl2 _ h
    simp only [encodeValues, List.flatMap_nil, List.nil_append] at h
    obtain ⟨rl2', h1, h2, _⟩ := rl2unpacker_getc_all_zero h (by simp)
    cases k with
    | zero => rfl
    | succ k =>
      simp only [rl2unpacker_reads, h1, rl2unpacker_reads_eof k rl2' h2]
      simp [List.replicate_succ]
  | cons v vs ih =>
    intro k pad rl2 hv h
    have hnpos := unread_n_pos h
    cases k with
    | zero => rfl
    | succ k =>
      have hv1 : 1 ≤ v := (hv v (List.mem_cons_self _ _)).1
      have hv2 : v < 2 ^ 31 := (hv v (List.mem_cons_self _ _)).2
      have henc : encodeValues n (v :: vs) ++ List.replicate pad false =
          List.replicate ((numChunks n v - 1) * n) false ++
            (natBits (numChunks n v * n) v ++ (encodeValues n vs ++ List.replicate pad false)) := by
        simp [encodeValues, encodeValue, List.append_assoc]
      obtain ⟨hc1, _, _⟩ := numChunks_spec n v hnpos.1
      have hz : numChunks n v - 1 + 1 = numChunks n v := by omega
      obtain ⟨rl2', h1, h2⟩ := rl2unpacker_getc_value (numChunks n v - 1) h henc
        (encodeValue_top n v hnpos.1 hv1 _)
        (by rw [hz, List.length_append, natBits_length]; omega)
      rw [hz, encodeValue_val n v hnpos.1,
        int32_eq (v : Int) (by omega) (by omega)] at h1
      rw [hz, List.drop_append_of_le_length (by rw [natBits_length]),
        List.drop_eq_nil_of_le (by rw [natBits_length]), List.nil_append] at h2
      have h3 := ih k pad rl2' (fun w hw => hv w (List.mem_cons_of_mem _ hw)) h2
      simp only [rl2unpacker_reads, h1, h3]
      simp only [List.map_cons, List.cons_append, List.take_succ_cons,
        take_append_replicate_succ]

/-- C2. Run-length fidelity: for `n` in {1,2,4,8} and a list `vs` of integers
with `1 ≤ v < 2^31`, let the stream hold for each `v`, in order, `k-1` all-zero
`n`-bit chunks and then `v` in `k` chunks, most significant bit first (`k` the
least number of chunks that hold `v`), zero-padded to a whole byte. Then
`rl2unpacker_init` succeeds and any number `calls` of successive
`rl2unpacker_getc` calls returns the elements of `vs` in order followed by `EOF`
on every later call. -/
theorem rl2unpacker_fidelity (n : Nat) (vs : List Nat) (calls : Nat)
    (hn : n = 1 ∨ n = 2 ∨ n = 4 ∨ n = 8) (hvs : ∀ v ∈ vs, 1 ≤ v ∧ v < 2 ^ 31) :
    ∃ rl2, rl2unpacker_init (rbuffer_init (rl2_pack n vs)) (n : Int) = Except.ok rl2 ∧
      rl2unpacker_reads calls rl2 =
        Except.ok ((List.map (fun (v : Nat) => (v : Int)) vs ++ List.replicate calls EOF).take calls) := by
  obtain ⟨rl2, h1, h2⟩ := unread_init (rbuffer_init (rl2_pack n vs)) n hn (rbuffer_init_at _)
  refine ⟨rl2, h1, ?_⟩
  rw [List.drop_zero, rl2_pack, streamBits_packBits _ (padBits_length _), padBits] at h2
  exact rl2unpacker_reads_encoded vs calls _ rl2 hvs h2

/-- C2 at `n = 4` and the values 1, 15, 16, 255, 256: eight calls return the five
values and then `EOF` three times. -/
theorem rl2unpacker_fidelity_witness :
    ((4 : Nat) = 1 ∨ (4 : Nat) = 2 ∨ (4 : Nat) = 4 ∨ (4 : Nat) = 8) ∧
    (∀ v ∈ ([1, 15, 16, 255, 256] : List Nat), 1 ≤ v ∧ v < 2 ^ 31) ∧
    ∃ rl2, rl2unpacker_init (rbuffer_init (rl2_pack 4 [1, 15, 16, 255, 256])) ((4 : Nat) : Int)
        = Except.ok rl2 ∧
      rl2unpacker_reads 8 rl2 =
        Except.ok ((List.map (fun (v : Nat) => (v : Int)) [1, 15, 16, 255, 256]
          ++ List.replicate 8 EOF).take 8) :=
  ⟨by decide, by decide,
    rl2unpacker_fidelity 4 [1, 15, 16, 255, 256] 8 (by decide) (by decide)⟩

/-! ## End of stream inside a value -/

/-- C10, the failing input. With `n = 4` the one-byte stream `0x01` holds a zero
chunk and then the nonzero top chunk of a two-chunk value whose second chunk is
missing: the bytes run out inside the value, and the first `rl2unpacker_getc`
after `rl2unpacker_init` returns 31 (the chunk `0001` followed by four 1-bits
taken from the `EOF` value), not `EOF`. With `n = 8` and the stream `0x00 0x01`
eight bits are missing and the call fails `assert(bottom_count > 0)`. -/
theorem rl2unpacker_getc_eof_inside_value :
    ((rl2unpacker_init (rbuffer_init [0x01]) 4).bind rl2unpacker_getc).map Prod.fst
      = Except.ok 31 ∧
    ((rl2unpacker_init (rbuffer_init [0x00, 0x01]) 8).bind rl2unpacker_getc).map Prod.fst
      = Except.error Fault.assertion := by
  decide

/-- A value that ends exactly on the last bit of the last byte is returned:
with `n = 8` the stream `0x00 0x01 0x23` is one zero chunk and the two-chunk
value `0x0123`; the calls return it and then `EOF`. -/
theorem rl2unpacker_getc_value_at_end :
    (rl2unpacker_init (rbuffer_init [0x00, 0x01, 0x23]) 8).bind (rl2unpacker_reads 3)
      = Except.ok [0x0123, EOF, EOF] := by
  decide
/-! ## Bit operations of the painter on a byte -/

theorem toByte_natCast (v : Nat) (h : v < 256) : (toByte (v : Int)).val = v := by
  simp only [toByte]
  omega

theorem c_or_natCast (a b : Nat) : c_or (a : Int) (b : Int) = ((a ||| b : Nat) : Int) := rfl

theorem mask_same_byte : ∀ b : Nat, b < 8 → ∀ b1 : Nat, b1 < 8 → b ≤ b1 →
    c_and (c_not (c_shl 1 (b : Int) - 1)) (c_shl 1 (b1 : Int) - 1) = ((2 ^ b1 - 2 ^ b : Nat) : Int) := by
  decide!

theorem mask_high_byte : ∀ old : Nat, old < 256 → ∀ b : Nat, b < 8 →
    (toByte (c_or (old : Int) (c_not (c_shl 1 (b : Int) - 1)))).val = old ||| (256 - 2 ^ b) := by
  decide!

theorem mask_low : ∀ b1 : Nat, b1 < 8 → c_shl 1 (b1 : Int) - 1 = ((2 ^ b1 - 1 : Nat) : Int) := by
  decide!

theorem testBit_pow_sub_pow : ∀ b : Nat, b < 9 → ∀ b1 : Nat, b1 < 9 → b ≤ b1 → ∀ j : Nat, j < 8 →
    (2 ^ b1 - 2 ^ b).testBit j = (decide (b ≤ j) && decide (j < b1)) := by
  decide!

theorem or_lt_256 (a m : Nat) (ha : a < 256) (hm : m < 256) : a ||| m < 256 :=
  Nat.or_lt_two_pow (n := 8) ha hm

theorem testBit_byte_high (v j : Nat) (hv : v < 256) (hj : 8 ≤ j) : v.testBit j = false := by
  apply Nat.testBit_lt_two_pow
  calc v < 2 ^ 8 := hv
    _ ≤ 2 ^ j := Nat.pow_le_pow_right (by norm_num) hj

/-- The byte stored by `*dp |= mask` for a run that stays in the byte: bits `b`
to `b1 - 1` are set, the others kept. -/
theorem byte_or_same (old : Byte) (b b1 j : Nat) (hb : b ≤ b1) (hb1 : b1 < 8) :
    (toByte (c_or (old.val : Int)
        (c_and (c_not (c_shl 1 (b : Int) - 1)) (c_shl 1 (b1 : Int) - 1)))).val.testBit j
      = (old.val.testBit j || (decide (b ≤ j) && decide (j < b1))) := by
  have hm : 2 ^ b1 - 2 ^ b < 256 := by
    have h1 : 2 ^ b1 ≤ 2 ^ 7 := Nat.pow_le_pow_right (by norm_num) (by omega)
    have h2 : 2 ^ b1 - 2 ^ b ≤ 2 ^ b1 := Nat.sub_le _ _
    omega
  rw [mask_same_byte b (by omega) b1 hb1 hb, c_or_natCast,
    toByte_natCast _ (or_lt_256 _ _ old.isLt hm), Nat.testBit_or]
  by_cases hj : j < 8
  · rw [testBit_pow_sub_pow b (by omega) b1 (by omega) hb j hj]
  · rw [testBit_byte_high _ j hm (by omega)]
    have : ¬ j < b1 := by omega
    simp [this]

/-- The byte stored by `*dp |= ~((1 << b) - 1)`: bits `b` to 7 are set. -/
theorem byte_or_high (old : Byte) (b j : Nat) (hb : b < 8) :
    (toByte (c_or (old.val : Int) (c_not (c_shl 1 (b : Int) - 1)))).val.testBit j
      = (old.val.testBit j || (decide (b ≤ j) && decide (j < 8))) := by
  have hm : 256 - 2 ^ b < 256 := by
    have := Nat.one_le_two_pow (n := b)
    omega
  rw [mask_high_byte old.val old.isLt b hb, Nat.testBit_or]
  by_cases hj : j < 8
  · have := testBit_pow_sub_pow b (by omega) 8 (by omega) (by omega) j hj
    simp only [Nat.reducePow] at this
    rw [this]
  · rw [testBit_byte_high _ j hm (by omega)]
    simp [hj]

/-- The byte stored by `*dp |= (1 << b1) - 1`: bits 0 to `b1 - 1` are set. -/
theorem byte_or_low (old : Byte) (b1 j : Nat) (hb1 : b1 < 8) :
    (toByte (c_or (old.val : Int) (c_shl 1 (b1 : Int) - 1))).val.testBit j
      = (old.val.testBit j || decide (j < b1)) := by
  have hm : 2 ^ b1 - 1 < 256 := by
    have : 2 ^ b1 ≤ 2 ^ 7 := Nat.pow_le_pow_right (by norm_num) (by omega)
    omega
  rw [mask_low b1 hb1, c_or_natCast, toByte_natCast _ (or_lt_256 _ _ old.isLt hm),
    Nat.testBit_or, Nat.testBit_two_pow_sub_one]

/-! ## The painter: one run -/

theorem getBit_set (data : List Byte) (i : Nat) (v : Byte) (p : Nat) (hi : i < data.length) :
    getBit (data.set i v) p = if p / 8 = i then v.val.testBit (p % 8) else getBit data p := by
  unfold getBit
  by_cases h : p / 8 = i
  · rw [if_pos h, h, List.getD_eq_getElem?_getD, List.getElem?_set_self hi]
    rfl
  · rw [if_neg h, List.getD_eq_getElem?_getD, List.getD_eq_getElem?_getD,
      List.getElem?_set_ne (Ne.symm h)]

theorem load_nat (data : List Byte) (i : Nat) (h : i < data.length) :
    load data (i : Int) = Except.ok (data.getD i 0) := by
  unfold load
  rw [if_pos ⟨by omega, by omega⟩]
  simp

theorem store_nat (data : List Byte) (i : Nat) (v : Byte) (h : i < data.length) :
    store data (i : Int) v = Except.ok (data.set i v) := by
  unfold store
  rw [if_pos ⟨by omega, by omega⟩]
  simp

theorem or_store_nat (data : List Byte) (i : Nat) (mask : Int) (h : i < data.length) :
    or_store data (i : Int) mask =
      Except.ok (data.set i (toByte (c_or ((data.getD i 0).val : Int) mask))) := by
  unfold or_store
  rw [load_nat data i h]
  exact store_nat data i _ h

/-- A white run of `c` bits from position `8 * dp + b` only moves the cursor to
position `8 * dp + b + c`, when the sum `b + c` does not overflow. -/
theorem rle_white_spec (dp b c : Nat) (hc : b + c < 2147483648) :
    rle_white (dp : Int) (b : Int) (c : Int) =
      ((((8 * dp + b + c) / 8 : Nat) : Int), (((8 * dp + b + c) % 8 : Nat) : Int)) := by
  show ((dp : Int) + Int.tdiv (int32 ((b : Int) + (c : Int))) 8,
    Int.tmod (int32 ((b : Int) + (c : Int))) 8) = _
  rw [int32_eq _ (by omega) (by omega),
    Int.tdiv_eq_ediv (by omega) (by norm_num), Int.tmod_eq_emod (by omega) (by norm_num)]
  apply Prod.ext <;> simp only <;> omega

/-- The `0xff` loop of a black run: with `t` bytes to fill from byte `dp`, it
fills them when they lie inside the buffer and fails an assertion otherwise. -/
theorem rle_fill_spec (b1 : Nat) (t : Nat) :
    ∀ (fuel : Nat) (data : List Byte) (dp bb : Nat), bb / 8 + t = b1 / 8 → t < fuel →
      dp ≤ data.length →
      (dp + t ≤ data.length →
        ∃ data', rle_fill (data.length : Int) (b1 : Int) fuel data (dp : Int) (bb : Int) =
            Except.ok (data', ((dp + t : Nat) : Int), ((bb + 8 * t : Nat) : Int)) ∧
          data'.length = data.length ∧
          ∀ p, getBit data' p = (getBit data p || decide (8 * dp ≤ p ∧ p < 8 * (dp + t)))) ∧
      (data.length < dp + t →
        rle_fill (data.length : Int) (b1 : Int) fuel data (dp : Int) (bb : Int) =
          Except.error Fault.assertion) := by
  induction t with
  | zero =>
    intro fuel data dp bb hbb hfuel hdple
    obtain ⟨f, rfl⟩ : ∃ f, fuel = f + 1 := ⟨fuel - 1, by omega⟩
    have hdiv : c_div (b1 : Int) 8 = c_div (bb : Int) 8 := by
      unfold c_div
      rw [Int.tdiv_eq_ediv (by omega) (by norm_num), Int.tdiv_eq_ediv (by omega) (by norm_num)]
      omega
    constructor
    · intro _
      refine ⟨data, ?_, rfl, ?_⟩
      · simp only [rle_fill, hdiv, ne_eq, not_true_eq_false, if_false]
        simp
      · intro p
        have : ¬ (8 * dp ≤ p ∧ p < 8 * (dp + 0)) := by omega
        simp [this]
    · intro h; omega
  | succ t ih =>
    intro fuel data dp bb hbb hfuel hdple
    obtain ⟨f, rfl⟩ : ∃ f, fuel = f + 1 := ⟨fuel - 1, by omega⟩
    have hdiv : c_div (b1 : Int) 8 ≠ c_div (bb : Int) 8 := by
      unfold c_div
      rw [Int.tdiv_eq_ediv (by omega) (by norm_num), Int.tdiv_eq_ediv (by omega) (by norm_num)]
      omega
    have hnext : ((dp : Int) + 1) = ((dp + 1 : Nat) : Int) := by omega
    have hbnext : ((bb : Int) + 8) = ((bb + 8 : Nat) : Int) := by omega
    by_cases hdp : dp < data.length
    · have hlt : (dp : Int) < (data.length : Int) := by omega
      have hlen : (data.set dp 0xff).length = data.length := List.length_set _ _ _
      have hstep : rle_fill (data.length : Int) (b1 : Int) (f + 1) data (dp : Int) (bb : Int) =
          rle_fill ((data.set dp 0xff).length : Int) (b1 : Int) f (data.set dp 0xff)
            ((dp + 1 : Nat) : Int) ((bb + 8 : Nat) : Int) := by
        simp only [rle_fill, hdiv, ne_eq, not_false_eq_true, if_true, hlt, not_true_eq_false,
          if_false, store_nat data dp 0xff hdp, hnext, hbnext, hlen]
      obtain ⟨ih1, ih2⟩ := ih f (data.set dp 0xff) (dp + 1) (bb + 8) (by omega) (by omega)
        (by rw [hlen]; omega)
      rw [hstep]
      constructor
      · intro hfit
        obtain ⟨data', h1, h2, h3⟩ := ih1 (by rw [hlen]; omega)
        refine ⟨data', ?_, by rw [h2, hlen], ?_⟩
        · rw [h1]
          have e1 : dp + 1 + t = dp + (t + 1) := by omega
          have e2 : bb + 8 + 8 * t = bb + 8 * (t + 1) := by omega
          rw [e1, e2]
        · intro p
          rw [h3, getBit_set data dp 0xff p hdp]
          by_cases hp : p / 8 = dp
          · have h1 : 8 * dp ≤ p ∧ p < 8 * (dp + (t + 1)) := by omega
            have h2 : ((0xff : Byte).val).testBit (p % 8) = true := by
              have : p % 8 < 8 := Nat.mod_lt _ (by norm_num)
              interval_cases (p % 8) <;> rfl
            simp [hp, h1, h2]
          · rw [if_neg hp]
            congr 1
            apply decide_eq_decide.2
            omega
      · intro hover
        rw [ih2 (by rw [hlen]; omega)]
    · constructor
      · intro h; omega
      · intro _
        have hlt : ¬ ((dp : Int) < (data.length : Int)) := by omega
        simp only [rle_fill, hdiv, ne_eq, not_false_eq_true, if_true, hlt]

theorem rle_fill_spec_len (S b1 t fuel : Nat) (data : List Byte) (dp bb : Nat)
    (hS : data.length = S) (hbb : bb / 8 + t = b1 / 8) (hfuel : t < fuel) (hdp : dp ≤ S) :
    (dp + t ≤ S →
      ∃ data', rle_fill (S : Int) (b1 : Int) fuel data (dp : Int) (bb : Int) =
          Except.ok (data', ((dp + t : Nat) : Int), ((bb + 8 * t : Nat) : Int)) ∧
        data'.length = S ∧
        ∀ p, getBit data' p = (getBit data p || decide (8 * dp ≤ p ∧ p < 8 * (dp + t)))) ∧
    (S < dp + t →
      rle_fill (S : Int) (b1 : Int) fuel data (dp : Int) (bb : Int) =
        Except.error Fault.assertion) := by
  subst hS
  exact rle_fill_spec b1 t fuel data dp bb hbb hfuel hdp

theorem getBit_byte (data : List Byte) (p i : Nat) (h : p / 8 = i) :
    getBit data p = (data.getD i 0).val.testBit (p % 8) := by
  unfold getBit; rw [h]

/-- A black run of `c` bits from position `P = 8 * dp + b` inside the buffer,
when the sum `b + c` does not overflow: when the run ends before the last bit of
the buffer it sets exactly the bits `P .. P + c - 1` and moves the cursor to
`P + c`; otherwise an assertion fails. -/
theorem rle_black_spec (data : List Byte) (dp b c : Nat) (hb : b < 8) (hdp : dp < data.length)
    (hc : b + c < 2147483648) :
    (8 * dp + b + c < 8 * data.length →
      ∃ data', rle_black (data.length : Int) data (dp : Int) (b : Int) (c : Int) =
          Except.ok (data', (((8 * dp + b + c) / 8 : Nat) : Int),
            (((8 * dp + b + c) % 8 : Nat) : Int)) ∧
        data'.length = data.length ∧
        ∀ p, getBit data' p = (getBit data p || decide (8 * dp + b ≤ p ∧ p < 8 * dp + b + c))) ∧
    (8 * data.length ≤ 8 * dp + b + c →
      rle_black (data.length : Int) data (dp : Int) (b : Int) (c : Int) =
        Except.error Fault.assertion) := by
  have hcast : int32 ((b : Int) + (c : Int)) = ((b + c : Nat) : Int) := by
    rw [int32_eq _ (by omega) (by omega)]; omega
  have hg1 : (0 : Int) ≤ (b : Int) ∧ (b : Int) < 32 ∧ (0 : Int) ≤ ((b + c : Nat) : Int) :=
    ⟨by omega, by omega, by omega⟩
  have hg2 : (0 : Int) ≤ (b : Int) ∧ (b : Int) < 32 := ⟨by omega, by omega⟩
  clear hc
  by_cases hsame : b + c < 8
  · -- the run stays in the byte
    have hlt : ((b + c : Nat) : Int) < 8 := by omega
    have hrun : rle_black (data.length : Int) data (dp : Int) (b : Int) (c : Int) =
        Except.ok (data.set dp (toByte (c_or ((data.getD dp 0).val : Int)
          (c_and (c_not (c_shl 1 (b : Int) - 1)) (c_shl 1 ((b + c : Nat) : Int) - 1)))),
          (dp : Int), ((b + c : Nat) : Int)) := by
      unfold rle_black
      simp only [hcast]
      rw [if_pos hlt, if_neg (not_not.2 hg1)]
      simp only [or_store_nat data dp _ hdp]
    clear hcast
    constructor
    · intro _
      refine ⟨data.set dp (toByte (c_or ((data.getD dp 0).val : Int)
          (c_and (c_not (c_shl 1 (b : Int) - 1)) (c_shl 1 ((b + c : Nat) : Int) - 1)))),
        ?_, List.length_set _ _ _, ?_⟩
      · rw [hrun]
        clear hrun
        congr 3 <;> omega
      · intro p
        clear hrun
        rw [getBit_set data dp _ p hdp]
        by_cases hp : p / 8 = dp
        · rw [if_pos hp, byte_or_same _ b (b + c) (p % 8) (by omega) hsame, getBit_byte data p dp hp]
          congr 1
          rw [← Bool.decide_and]
          apply decide_eq_decide.2
          omega
        · rw [if_neg hp]
          have : ¬ (8 * dp + b ≤ p ∧ p < 8 * dp + b + c) := by omega
          simp [this]
    · intro h; omega
  · -- the run crosses a byte boundary
    have hge : ¬ (((b + c : Nat) : Int) < 8) := by omega
    have hlen1 : ∀ v, (data.set dp v).length = data.length := fun v => List.length_set _ _ _
    have hfuel : (c_div ((b + c : Nat) : Int) 8).toNat = (b + c) / 8 := by
      unfold c_div
      rw [Int.tdiv_eq_ediv (by omega) (by norm_num)]
      omega
    have hmod : c_mod ((b + c : Nat) : Int) 8 = (((b + c) % 8 : Nat) : Int) := by
      unfold c_mod
      rw [Int.tmod_eq_emod (by omega) (by norm_num)]
      omega
    have hdp1 : (dp : Int) + 1 = ((dp + 1 : Nat) : Int) := by omega
    have hb8 : (b : Int) + 8 = ((b + 8 : Nat) : Int) := by omega
    obtain ⟨t, ht⟩ : ∃ t, (b + c) / 8 = t + 1 := ⟨(b + c) / 8 - 1, by omega⟩
    obtain ⟨hf1, hf2⟩ := rle_fill_spec_len data.length (b + c) t ((b + c) / 8)
      (data.set dp (toByte (c_or ((data.getD dp 0).val : Int) (c_not (c_shl 1 (b : Int) - 1)))))
      (dp + 1) (b + 8) (hlen1 _) (by omega) (by omega) (by omega)
    have hdp2 : (8 * dp + b + c) / 8 = dp + 1 + t := by omega
    constructor
    · intro hfit
      obtain ⟨data2, h1, h2, h3⟩ := hf1 (by omega)
      have hlt2 : dp + 1 + t < data2.length := by rw [h2]; omega
      have hassert : ((dp + 1 + t : Nat) : Int) < (data.length : Int) := by omega
      refine ⟨data2.set (dp + 1 + t) (toByte (c_or ((data2.getD (dp + 1 + t) 0).val : Int)
          (c_shl 1 (((b + c) % 8 : Nat) : Int) - 1))), ?_, ?_, ?_⟩
      · unfold rle_black
        simp only [hcast]
        rw [if_neg hge, if_neg (not_not.2 hg2)]
        simp only [or_store_nat data dp _ hdp, hdp1, hb8, hfuel,
          h1, hmod, hassert, not_true_eq_false, if_false, or_store_nat data2 _ _ hlt2]
        clear hcast
        congr 3 <;> omega
      · rw [List.length_set, h2]
      · intro p
        clear hcast
        rw [getBit_set data2 _ _ p hlt2, h3, getBit_set data dp _ p hdp]
        have hm8 : p % 8 < 8 := Nat.mod_lt _ (by norm_num)
        have hmm : (b + c) % 8 < 8 := Nat.mod_lt _ (by norm_num)
        by_cases hp2 : p / 8 = dp + 1 + t
        · have hne : ¬ (p / 8 = dp) := by omega
          rw [if_pos hp2, byte_or_low _ _ _ hmm, ← getBit_byte data2 p _ hp2, h3,
            getBit_set data dp _ p hdp, if_neg hne]
          have e1 : decide (8 * (dp + 1) ≤ p ∧ p < 8 * (dp + 1 + t)) = false := by
            apply decide_eq_false; omega
          rw [e1, Bool.or_false]
          congr 1
          apply decide_eq_decide.2
          omega
        · rw [if_neg hp2]
          by_cases hp : p / 8 = dp
          · have e1 : decide (8 * (dp + 1) ≤ p ∧ p < 8 * (dp + 1 + t)) = false := by
              apply decide_eq_false; omega
            rw [if_pos hp, byte_or_high _ b (p % 8) hb, getBit_byte data p dp hp, e1,
              Bool.or_false, ← Bool.decide_and]
            congr 1
            apply decide_eq_decide.2
            omega
          · rw [if_neg hp]
            congr 1
            apply decide_eq_decide.2
            omega
    · intro hover
      by_cases hfill : dp + 1 + t ≤ data.length
      · obtain ⟨data2, h1, h2, h3⟩ := hf1 hfill
        have hassert : ¬ (((dp + 1 + t : Nat) : Int) < (data.length : Int)) := by omega
        unfold rle_black
        simp only [hcast]
        rw [if_neg hge, if_neg (not_not.2 hg2)]
        simp only [or_store_nat data dp _ hdp, hdp1, hb8, hfuel,
          h1, hmod, hassert, not_false_eq_true, if_true]
      · have h1 := hf2 (by omega)
        unfold rle_black
        simp only [hcast]
        rw [if_neg hge, if_neg (not_not.2 hg2)]
        simp only [or_store_nat data dp _ hdp, hdp1, hb8, hfuel, h1]

/-! ## The run stream of an arbitrary resource -/

theorem rl2_word_loop_range (fuel : Nat) :
    ∀ (rl2 rl2' : Rl2Unpacker) (bc bc' r r' : Int),
      (-2147483648 ≤ r ∧ r < 2147483648) →
      rl2_word_loop fuel rl2 bc r = Except.ok (rl2', bc', r') →
      -2147483648 ≤ r' ∧ r' < 2147483648 := by
  induction fuel with
  | zero =>
    intro rl2 rl2' bc bc' r r' _ h
    exact absurd h (by simp [rl2_word_loop])
  | succ f ih =>
    intro rl2 rl2' bc bc' r r' hr h
    rw [rl2_word_loop_succ] at h
    by_cases hge : bc ≥ rl2.bi
    · rw [if_pos hge] at h
      by_cases he : (rbuffer_getc rl2.rb).1 = EOF
      · rw [if_pos he] at h
        simp only [Except.ok.injEq, Prod.mk.injEq] at h
        rw [← h.2.2]
        exact int32_range _
      · rw [if_neg he] at h
        exact ih _ _ _ _ _ _ (int32_range _) h
    · rw [if_neg hge] at h
      simp only [Except.ok.injEq, Prod.mk.injEq] at h
      rw [← h.2.2]
      exact hr

/-- Every value `rl2unpacker_getc` returns is a 32-bit `int`. -/
theorem rl2unpacker_getc_range (rl2 rl2' : Rl2Unpacker) (v : Int)
    (h : rl2unpacker_getc rl2 = Except.ok (v, rl2')) :
    -2147483648 ≤ v ∧ v < 2147483648 := by
  by_cases hb : rl2.b = EOF
  · rw [rl2unpacker_getc_at_eof rl2 hb] at h
    simp only [Except.ok.injEq, Prod.mk.injEq] at h
    rw [← h.1]
    decide
  · cases hz : rl2_zero_loop (rl2_steps rl2) rl2 0 with
    | error e =>
      unfold rl2unpacker_getc at h
      rw [if_neg hb] at h
      simp only [hz] at h
      exact absurd h (by simp)
    | ok t =>
      obtain ⟨o, rl2_1⟩ := t
      cases o with
      | none =>
        rw [rl2unpacker_getc_none rl2 rl2_1 hb hz] at h
        simp only [Except.ok.injEq, Prod.mk.injEq] at h
        rw [← h.1]
        decide
      | some z =>
        cases hw : rl2_word_loop (rl2_steps rl2_1) rl2_1 ((z + 1) * rl2_1.n) 0 with
        | error e =>
          unfold rl2unpacker_getc at h
          rw [if_neg hb] at h
          simp only [hz, hw] at h
          exact absurd h (by simp)
        | ok u =>
          obtain ⟨rl2_2, m, r⟩ := u
          have hr := rl2_word_loop_range _ _ _ _ _ _ _ (by decide) hw
          rw [rl2unpacker_getc_some rl2 rl2_1 rl2_2 z m r hb hz hw] at h
          by_cases hm : m > 0
          · rw [if_pos hm] at h
            by_cases hbc : ¬ (rl2_2.bi - m > 0)
            · rw [if_pos hbc] at h
              exact absurd h (by simp)
            · rw [if_neg hbc] at h
              simp only [Except.ok.injEq, Prod.mk.injEq] at h
              rw [← h.1]
              exact int32_range _
          · rw [if_neg hm] at h
            simp only [Except.ok.injEq, Prod.mk.injEq] at h
            rw [← h.1]
            exact hr

/-- What one call of `rl2unpacker_getc` can do on any stream: fail
`assert(bottom_count > 0)`, or return a 32-bit value; a value other than `EOF`
has consumed at least one bit. -/
theorem rl2unpacker_getc_cases {res : List Byte} {n : Nat} {bits : List Bool}
    {rl2 : Rl2Unpacker} (h : Unread res n bits rl2) :
    rl2unpacker_getc rl2 = Except.error Fault.assertion ∨
    ∃ (v : Int) (rl2' : Rl2Unpacker) (bits' : List Bool),
      rl2unpacker_getc rl2 = Except.ok (v, rl2') ∧ Unread res n bits' rl2' ∧
      (-2147483648 ≤ v ∧ v < 2147483648) ∧ bits'.length ≤ bits.length ∧
      (v ≠ EOF → bits'.length < bits.length) := by
  have hnpos := unread_n_pos h
  rcases bits_zero_chunks n hnpos.1 bits.length bits (Nat.le_refl _) with hall | ⟨z, rest, h1, h2⟩
  · obtain ⟨rl2', g1, g2, _⟩ := rl2unpacker_getc_all_zero h hall
    exact Or.inr ⟨EOF, rl2', [], g1, g2, by decide, Nat.zero_le _, fun hne => absurd rfl hne⟩
  · have hrne : rest ≠ [] := by
      intro he; rw [he] at h2; simp at h2
    have hrl : 0 < rest.length := List.length_pos.2 hrne
    have hbl : bits.length = z * n + rest.length := by
      rw [h1, List.length_append, List.length_replicate]
    by_cases hlen : (z + 1) * n ≤ rest.length
    · obtain ⟨rl2', g1, g2⟩ := rl2unpacker_getc_value z h h1 h2 hlen
      have hlt : (rest.drop ((z + 1) * n)).length < bits.length := by
        rw [List.length_drop, hbl]
        have : n ≤ (z + 1) * n := Nat.le_mul_of_pos_left n (by omega)
        omega
      exact Or.inr ⟨_, rl2', _, g1, g2, int32_range _, Nat.le_of_lt hlt, fun _ => hlt⟩
    · rcases rl2unpacker_getc_truncated z h h1 h2 (by omega) with g | ⟨v, rl2', g1, g3, _⟩
      · exact Or.inl g
      · have hlt : ([] : List Bool).length < bits.length := by
          rw [hbl]; simp; omega
        exact Or.inr ⟨v, rl2', [], g1, g3, rl2unpacker_getc_range _ _ _ g1, Nat.le_of_lt hlt,
          fun _ => hlt⟩

/-- The run stream of any resource is read within the step bound: the values are
32-bit values, and the only failure is a failed assertion of
`rl2unpacker_getc`. -/
theorem rl2_runs_total {res : List Byte} {n : Nat} (fuel : Nat) :
    ∀ (bits : List Bool) (rl2 : Rl2Unpacker), Unread res n bits rl2 → bits.length < fuel →
      rl2_runs fuel rl2 = Except.error Fault.assertion ∨
      ∃ cs, rl2_runs fuel rl2 = Except.ok cs ∧
        ∀ v ∈ cs, v ≠ EOF ∧ -2147483648 ≤ v ∧ v < 2147483648 := by
  induction fuel with
  | zero => intro bits rl2 _ hf; omega
  | succ f ih =>
    intro bits rl2 h hf
    rcases rl2unpacker_getc_cases h with g | ⟨v, rl2', bits', g1, g2, g3, _, g5⟩
    · left
      simp only [rl2_runs, g]
    · by_cases hne : v = EOF
      · right
        refine ⟨[], ?_, by simp⟩
        simp only [rl2_runs, g1, hne, if_true]
      · rcases ih bits' rl2' g2 (by have := g5 hne; omega) with e | ⟨cs, e1, e2⟩
        · left
          simp only [rl2_runs, g1, hne, if_false, e]
        · right
          refine ⟨v :: cs, ?_, ?_⟩
          · simp only [rl2_runs, g1, hne, if_false, e1]
          · intro w hw
            rcases List.mem_cons.1 hw with rfl | hw
            · exact ⟨hne, g3⟩
            · exact e2 w hw
/-! ## The decoder loop -/

theorem rle_loop_eof (dp_stop : Int) (fuel : Nat) (s : RleLoop) (h : s.count = EOF) :
    rle_loop dp_stop fuel s = Except.ok s := by
  cases fuel <;> simp [rle_loop, h]

theorem rle_loop_succ (dp_stop : Int) (fuel : Nat) (s : RleLoop) :
    rle_loop dp_stop (fuel + 1) s =
      if s.count = EOF then Except.ok s
      else if ¬ (s.dp < dp_stop) then Except.error Fault.assertion
      else
        match (if s.value ≠ 0 then rle_black dp_stop s.data s.dp s.b s.count
               else Except.ok (s.data, rle_white s.dp s.b s.count)) with
        | Except.error e => Except.error e
        | Except.ok (data, dp, b) =>
          match rl2unpacker_getc s.rl2 with
          | Except.error e => Except.error e
          | Except.ok (count, rl2) =>
            rle_loop dp_stop fuel
              { rl2 := rl2, data := data, dp := dp, value := 1 - s.value, b := b, count := count } :=
  rfl

/-- One run of the decoder loop, black or white, started inside the buffer, when
the sum `b + c` does not overflow. -/
theorem rle_paint_spec (data : List Byte) (value : Bool) (dp b c : Nat) (hb : b < 8)
    (hdp : dp < data.length) (hc : b + c < 2147483648) :
    ((!value || decide (8 * dp + b + c < 8 * data.length)) = true →
      ∃ data', (if (if value then (1 : Int) else 0) ≠ 0
            then rle_black (data.length : Int) data (dp : Int) (b : Int) (c : Int)
            else Except.ok (data, rle_white (dp : Int) (b : Int) (c : Int))) =
          Except.ok (data', (((8 * dp + b + c) / 8 : Nat) : Int),
            (((8 * dp + b + c) % 8 : Nat) : Int)) ∧
        data'.length = data.length ∧
        ∀ p, getBit data' p =
          (getBit data p || (value && decide (8 * dp + b ≤ p ∧ p < 8 * dp + b + c)))) ∧
    ((!value || decide (8 * dp + b + c < 8 * data.length)) = false →
      (if (if value then (1 : Int) else 0) ≠ 0
          then rle_black (data.length : Int) data (dp : Int) (b : Int) (c : Int)
          else Except.ok (data, rle_white (dp : Int) (b : Int) (c : Int))) =
        Except.error Fault.assertion) := by
  obtain ⟨hb1, hb2⟩ := rle_black_spec data dp b c hb hdp hc
  have hw := rle_white_spec dp b c hc
  clear hc
  cases value with
  | false =>
    simp only [Bool.not_false, Bool.true_or, forall_true_left, Bool.false_and, Bool.or_false,
      if_false, ne_eq, not_true_eq_false, hw]
    exact ⟨⟨data, rfl, rfl, fun _ => rfl⟩, fun h => absurd h (by simp)⟩
  | true =>
    simp only [Bool.not_true, Bool.false_or, decide_eq_true_eq, decide_eq_false_iff_not,
      if_true, ne_eq, one_ne_zero, not_false_eq_true, Bool.true_and]
    exact ⟨hb1, fun h => hb2 (by omega)⟩

/-- The decoder loop against the run stream, when no sum overflows. With the
unread stream giving the values `cs` before `EOF` and the current run of length
`c` to paint at position `P = 8 * dp + b`: when all assertions pass (`runsFit`)
the loop ends and has set exactly the bits of the black runs; otherwise it stops
on a failed assertion. -/
theorem rle_loop_runs {res : List Byte} {n : Nat} (S : Nat) (fuel : Nat) :
    ∀ (bits : List Bool) (s : RleLoop) (value : Bool) (dp b c : Nat) (cs : List Int),
      Unread res n bits s.rl2 → bits.length < fuel → s.data.length = S →
      s.dp = (dp : Int) → s.b = (b : Int) → b < 8 → s.count = (c : Int) →
      (b : Int) + (c : Int) < 2147483648 →
      s.value = (if value then 1 else 0) →
      rl2_runs fuel s.rl2 = Except.ok cs → NoOverflow cs →
      (runsFit S value (8 * dp + b) (c :: cs.map Int.toNat) = true →
        ∃ s', rle_loop (S : Int) fuel s = Except.ok s' ∧ s'.data.length = S ∧
          ∀ p, getBit s'.data p =
            (getBit s.data p || runBlack value (8 * dp + b) (c :: cs.map Int.toNat) p)) ∧
      (runsFit S value (8 * dp + b) (c :: cs.map Int.toNat) = false →
        rle_loop (S : Int) fuel s = Except.error Fault.assertion) := by
  induction fuel with
  | zero => intro bits s value dp b c cs _ hf; omega
  | succ f ih =>
    intro bits s value dp b c cs hun hf hS hdp hb hb8 hc hcb hv hcs htame
    have hcne : s.count ≠ EOF := by rw [hc]; exact byte_ne_EOF c
    have hPdiv : (8 * dp + b) / 8 = dp := by omega
    by_cases hin : dp < S
    swap
    · -- the cursor is at or past the end of the buffer
      have hassert : ¬ (s.dp < (S : Int)) := by rw [hdp]; omega
      have hloop : rle_loop (S : Int) (f + 1) s = Except.error Fault.assertion := by
        rw [rle_loop_succ, if_neg hcne, if_pos hassert]
      have hfit : ∀ cs : List Nat, runsFit S value (8 * dp + b) (c :: cs) = false := by
        intro cs
        simp [runsFit, hPdiv, hin]
      refine ⟨fun h => ?_, fun _ => hloop⟩
      rw [hfit] at h
      exact absurd h (by simp)
    have hassert : ¬ ¬ (s.dp < (S : Int)) := by rw [hdp]; omega
    have hin' : dp < s.data.length := by omega
    obtain ⟨hp1, hp2⟩ := rle_paint_spec s.data value dp b c hb8 hin' (by omega)
    rw [hS, ← hdp, ← hb, ← hc, ← hv] at hp1 hp2
    by_cases hok : (!value || decide (8 * dp + b + c < 8 * S)) = true
    swap
    · -- a black run that does not end before the last bit of the buffer
      have hok' : (!value || decide (8 * dp + b + c < 8 * S)) = false := by
        simpa using hok
      have hloop : rle_loop (S : Int) (f + 1) s = Except.error Fault.assertion := by
        rw [rle_loop_succ, if_neg hcne, if_neg hassert, hp2 hok']
      have hfit : ∀ cs : List Nat, runsFit S value (8 * dp + b) (c :: cs) = false := by
        intro cs
        simp only [runsFit, hok', Bool.and_false, Bool.false_and]
      refine ⟨fun h => ?_, fun _ => hloop⟩
      rw [hfit] at h
      exact absurd h (by simp)
    obtain ⟨data', hpaint, hlen', hbits'⟩ := hp1 hok
    have hfit : ∀ cs : List Nat, runsFit S value (8 * dp + b) (c :: cs) =
        runsFit S (!value) (8 * dp + b + c) cs := by
      intro cs
      simp [runsFit, hPdiv, hin, hok]
    have hP' : 8 * ((8 * dp + b + c) / 8) + (8 * dp + b + c) % 8 = 8 * dp + b + c := by omega
    have hval' : (1 : Int) - s.value = (if (!value) = true then 1 else 0) := by
      rw [hv]; cases value <;> simp
    rcases rl2unpacker_getc_cases hun with g | ⟨v, rl2', bits', g1, g2, _, _, g5⟩
    · -- reading the next value fails
      simp [rl2_runs, g] at hcs
    by_cases hve : v = EOF
    · -- the stream ends
      have hloop : rle_loop (S : Int) (f + 1) s = Except.ok
          { rl2 := rl2', data := data', dp := (((8 * dp + b + c) / 8 : Nat) : Int),
            value := 1 - s.value, b := (((8 * dp + b + c) % 8 : Nat) : Int), count := v } := by
        rw [rle_loop_succ, if_neg hcne, if_neg hassert, hpaint]
        simp only [g1]
        exact rle_loop_eof _ _ _ hve
      have hruns : rl2_runs (f + 1) s.rl2 = Except.ok [] := by
        simp only [rl2_runs, g1, hve, if_true]
      rw [hruns] at hcs
      have hcs' : cs = [] := by simpa using hcs.symm
      subst hcs'
      refine ⟨fun _ => ⟨_, hloop, hlen', ?_⟩, fun h => ?_⟩
      · intro p
        rw [hbits']
        simp [runBlack]
      · rw [List.map_nil, hfit] at h
        simp [runsFit] at h
    · -- a further run
      have hloop : rle_loop (S : Int) (f + 1) s = rle_loop (S : Int) f
          { rl2 := rl2', data := data', dp := (((8 * dp + b + c) / 8 : Nat) : Int),
            value := 1 - s.value, b := (((8 * dp + b + c) % 8 : Nat) : Int), count := v } := by
        rw [rle_loop_succ, if_neg hcne, if_neg hassert, hpaint]
        simp only [g1]
      simp only [rl2_runs, g1, hve, if_false] at hcs
      cases hr : rl2_runs f rl2' with
      | error e => rw [hr] at hcs; simp at hcs
      | ok cs' =>
        rw [hr] at hcs
        have hcs' : cs = v :: cs' := by simpa using hcs.symm
        subst hcs'
        have hv0 := htame v (List.mem_cons_self _ _)
        have hvc : v = ((v.toNat : Nat) : Int) := by omega
        obtain ⟨i1, i2⟩ := ih bits'
          { rl2 := rl2', data := data', dp := (((8 * dp + b + c) / 8 : Nat) : Int),
            value := 1 - s.value, b := (((8 * dp + b + c) % 8 : Nat) : Int), count := v }
          (!value) ((8 * dp + b + c) / 8) ((8 * dp + b + c) % 8) v.toNat cs' g2
          (by have := g5 hve; omega)
          hlen' rfl rfl (Nat.mod_lt _ (by norm_num)) hvc (by omega) hval' hr
          (fun w hw => htame w (List.mem_cons_of_mem _ hw))
        rw [hP'] at i1 i2
        rw [List.map_cons, hfit, hloop]
        refine ⟨fun h => ?_, i2⟩
        obtain ⟨s', j1, j2, j3⟩ := i1 h
        refine ⟨s', j1, j2, ?_⟩
        intro p
        rw [j3, hbits']
        simp only [runBlack, Bool.or_assoc]
/-! ## The block of the decoder -/

theorem bytes_ext_of_getBit (a b : List Byte) (hlen : a.length = b.length)
    (hbits : ∀ p, getBit a p = getBit b p) : a = b := by
  apply List.ext_getElem hlen
  intro i h1 h2
  apply Fin.ext
  apply Nat.eq_of_testBit_eq
  intro j
  by_cases hj : j < 8
  · have := hbits (8 * i + j)
    unfold getBit at this
    have e1 : (8 * i + j) / 8 = i := by omega
    have e2 : (8 * i + j) % 8 = j := by omega
    rw [e1, e2, List.getD_eq_getElem?_getD, List.getD_eq_getElem?_getD,
      List.getElem?_eq_getElem h1, List.getElem?_eq_getElem h2] at this
    exact this
  · rw [testBit_byte_high _ j (a[i]).isLt (by omega), testBit_byte_high _ j (b[i]).isLt (by omega)]

theorem getBit_past (l : List Byte) (p : Nat) (h : 8 * l.length ≤ p) : getBit l p = false := by
  unfold getBit
  rw [List.getD_eq_getElem?_getD, List.getElem?_eq_none (by omega)]
  exact Nat.zero_testBit _

theorem getBit_drop (l : List Byte) (k q : Nat) : getBit (l.drop k) q = getBit l (8 * k + q) := by
  unfold getBit
  have e1 : (8 * k + q) / 8 = k + q / 8 := by omega
  have e2 : (8 * k + q) % 8 = q % 8 := by omega
  rw [e1, e2, List.getD_eq_getElem?_getD, List.getD_eq_getElem?_getD, List.getElem?_drop]

theorem getBit_take (l : List Byte) (k p : Nat) (h : p < 8 * k) :
    getBit (l.take k) p = getBit l p := by
  unfold getBit
  rw [List.getD_eq_getElem?_getD, List.getD_eq_getElem?_getD, List.getElem?_take_of_lt (by omega)]

theorem getBit_append_left (a b : List Byte) (p : Nat) (h : p < 8 * a.length) :
    getBit (a ++ b) p = getBit a p := by
  unfold getBit
  rw [List.getD_eq_getElem?_getD, List.getD_eq_getElem?_getD,
    List.getElem?_append_left (by omega)]

theorem getBit_append_right (a b : List Byte) (q : Nat) :
    getBit (a ++ b) (8 * a.length + q) = getBit b q := by
  rw [← getBit_drop, List.drop_left]

theorem getBit_replicate_zero (S p : Nat) : getBit (List.replicate S (0 : Byte)) p = false := by
  unfold getBit
  have : (List.replicate S (0 : Byte)).getD (p / 8) 0 = 0 := by
    rw [List.getD_eq_getElem?_getD]
    by_cases h : p / 8 < S
    · rw [List.getElem?_eq_getElem (by simpa using h)]; simp
    · rw [List.getElem?_eq_none (by simpa using h)]; rfl
  rw [this]
  exact Nat.zero_testBit _

theorem bitmap_header_length (a b c : Int) : (bitmap_header a b c).length = 12 := rfl

theorem header_word : ∀ x : Nat, x < 256 →
    ((toByte (x : Int)).val : Int) + 256 * ((toByte (c_shr (x : Int) 8)).val : Int) = (x : Int) := by
  decide!

/-- The bitmap made from a block that holds the header of a raster with byte
sized fields and then its pixel bytes. -/
theorem gbitmap_create_with_data_header (st w h : Byte) (data : List Byte) :
    gbitmap_create_with_data (bitmap_header (st.val : Int) (w.val : Int) (h.val : Int) ++ data) =
      GBitmap.mk (st.val : Int) (w.val : Int) (h.val : Int) data := by
  have e1 := header_word st.val st.isLt
  have e2 := header_word w.val w.isLt
  have e3 := header_word h.val h.isLt
  unfold gbitmap_create_with_data GBitmap.mk
  have d1 : uint16_at (bitmap_header (st.val : Int) (w.val : Int) (h.val : Int) ++ data) 0 =
      (st.val : Int) := by
    exact Eq.trans rfl e1
  have d2 : uint16_at (bitmap_header (st.val : Int) (w.val : Int) (h.val : Int) ++ data) 8 =
      (w.val : Int) := by
    exact Eq.trans rfl e2
  have d3 : uint16_at (bitmap_header (st.val : Int) (w.val : Int) (h.val : Int) ++ data) 10 =
      (h.val : Int) := by
    exact Eq.trans rfl e3
  have i2 : int16_at (bitmap_header (st.val : Int) (w.val : Int) (h.val : Int) ++ data) 8 =
      (w.val : Int) := by
    unfold int16_at
    rw [d2, if_pos (by have := w.isLt; omega)]
  have i3 : int16_at (bitmap_header (st.val : Int) (w.val : Int) (h.val : Int) ++ data) 10 =
      (h.val : Int) := by
    unfold int16_at
    rw [d3, if_pos (by have := h.isLt; omega)]
  rw [d1, i2, i3]
  rfl

theorem runsFit_shift (S : Nat) (runs : List Nat) :
    ∀ (value : Bool) (P : Nat),
      runsFit (12 + S) value (96 + P) runs = runsFit S value P runs := by
  induction runs with
  | nil => intro value P; rfl
  | cons c cs ih =>
    intro value P
    have e1 : decide ((96 + P) / 8 < 12 + S) = decide (P / 8 < S) := by
      apply decide_eq_decide.2; omega
    have e2 : decide (96 + P + c < 8 * (12 + S)) = decide (P + c < 8 * S) := by
      apply decide_eq_decide.2; omega
    have e3 : 96 + P + c = 96 + (P + c) := by omega
    simp only [runsFit, e1, e2]
    rw [e3, ih]

theorem runBlack_shift (runs : List Nat) :
    ∀ (value : Bool) (P q : Nat),
      runBlack value (96 + P) runs (96 + q) = runBlack value P runs q := by
  induction runs with
  | nil => intro value P q; rfl
  | cons c cs ih =>
    intro value P q
    have e1 : decide (96 + P ≤ 96 + q ∧ 96 + q < 96 + P + c) = decide (P ≤ q ∧ q < P + c) := by
      apply decide_eq_decide.2; omega
    have e3 : 96 + P + c = 96 + (P + c) := by omega
    simp only [runBlack, e1]
    rw [e3, ih]

theorem runBlack_lt (runs : List Nat) :
    ∀ (value : Bool) (P p : Nat), p < P → runBlack value P runs p = false := by
  induction runs with
  | nil => intro value P p _; rfl
  | cons c cs ih =>
    intro value P p hp
    have h1 : ¬ (P ≤ p ∧ p < P + c) := by omega
    simp [runBlack, h1, ih (!value) (P + c) p (by omega)]

/-- A block of `12 + S` bytes whose bits are those of a header followed by `S`
zero bytes, with the bits of runs painted from bit 96 on, is that header
followed by a buffer with the bits of the runs painted from bit 0 on. -/
theorem block_split (mem hdr : List Byte) (S : Nat) (runs : List Nat) (hh : hdr.length = 12)
    (hlen : mem.length = 12 + S)
    (hbits : ∀ p, getBit mem p =
      (getBit (hdr ++ List.replicate S (0 : Byte)) p || runBlack false 96 runs p)) :
    mem = hdr ++ mem.drop 12 ∧ (mem.drop 12).length = S ∧
      ∀ q, getBit (mem.drop 12) q = runBlack false 0 runs q := by
  have htake : mem.take 12 = hdr := by
    apply bytes_ext_of_getBit
    · rw [List.length_take, hlen, hh]; omega
    · intro p
      by_cases hp : p < 96
      · rw [getBit_take _ _ _ (by omega), hbits, runBlack_lt _ _ _ _ hp, Bool.or_false,
          getBit_append_left _ _ _ (by omega)]
      · rw [getBit_past _ _ (by rw [List.length_take, hlen]; omega),
          getBit_past _ _ (by omega)]
  refine ⟨?_, by rw [List.length_drop, hlen]; omega, ?_⟩
  · conv_lhs => rw [← List.take_append_drop 12 mem, htake]
  · intro q
    have e : 8 * 12 + q = 8 * hdr.length + q := by rw [hh]
    rw [getBit_drop, hbits, e, getBit_append_right, getBit_replicate_zero, Bool.false_or]
    have e2 : 8 * hdr.length + q = 96 + q := by omega
    rw [e2]
    exact runBlack_shift runs false 0 q
/-! ## `rle_bwd_create` against the run stream -/

theorem rle_header_long (w h st nb : Byte) (rest : List Byte) :
    (rle_header (w :: h :: st :: nb :: rest)).width = (w.val : Int) ∧
    (rle_header (w :: h :: st :: nb :: rest)).height = (h.val : Int) ∧
    (rle_header (w :: h :: st :: nb :: rest)).stride = (st.val : Int) ∧
    (rle_header (w :: h :: st :: nb :: rest)).n = (nb.val : Int) ∧
    RBufferAt (w :: h :: st :: nb :: rest) 4 (rle_header (w :: h :: st :: nb :: rest)).rb := by
  simp only [rle_header]
  refine ⟨?_, ?_, ?_, ?_, ?_⟩
  · simpa using rbuffer_getc_sequential (w :: h :: st :: nb :: rest) 0
  · simpa using rbuffer_getc_sequential (w :: h :: st :: nb :: rest) 1
  · simpa using rbuffer_getc_sequential (w :: h :: st :: nb :: rest) 2
  · simpa using rbuffer_getc_sequential (w :: h :: st :: nb :: rest) 3
  · simpa using rbuffer_after_at (w :: h :: st :: nb :: rest) 4

theorem rle_header_short (res : List Byte) (h : res.length < 4) :
    (rle_header res).n = EOF ∧ RBufferAt res res.length (rle_header res).rb := by
  simp only [rle_header]
  constructor
  · have := rbuffer_getc_sequential res 3
    rw [dif_neg (by omega)] at this
    exact this
  · have := rbuffer_after_at res 4
    rwa [Nat.min_eq_right (by omega)] at this

theorem rl2unpacker_init_eof (rb : RBuffer) :
    rl2unpacker_init rb EOF = Except.ok (rl2_fetch { rb := rb, n := EOF, b := 0, bi := 0 }) := rfl

/-- The unpacker of a resource with a full header and a valid chunk width reads
the bytes after the header. -/
theorem rle_unpacker_ok (w h st nb : Byte) (rest : List Byte)
    (hn : nb.val = 1 ∨ nb.val = 2 ∨ nb.val = 4 ∨ nb.val = 8) :
    ∃ rl2, rle_unpacker (w :: h :: st :: nb :: rest) = Except.ok rl2 ∧
      Unread (w :: h :: st :: nb :: rest) nb.val (streamBits rest) rl2 := by
  obtain ⟨_, _, _, h4, h5⟩ := rle_header_long w h st nb rest
  obtain ⟨rl2, g1, g2⟩ := unread_init _ nb.val hn h5
  refine ⟨rl2, ?_, ?_⟩
  · rw [rle_unpacker, h4]; exact g1
  · simpa using g2

theorem rl2unpacker_init_invalid : ∀ n : Nat, n < 256 →
    ¬ (n = 1 ∨ n = 2 ∨ n = 4 ∨ n = 8) →
    (n = 0 ∨ ¬ ((n : Int) * c_div 8 (n : Int) = 8)) := by
  decide!

/-- The block of a resource with a full header: the header of the bitmap and
`height * stride` zero bytes. -/
theorem rle_block_long (w h st nb : Byte) (rest : List Byte) :
    rle_block (rle_header (w :: h :: st :: nb :: rest)) =
      Except.ok (bitmap_header (st.val : Int) (w.val : Int) (h.val : Int) ++
        List.replicate (h.val * st.val) (0 : Byte)) := by
  obtain ⟨hw, hh, hst, _, _⟩ := rle_header_long w h st nb rest
  have hle : h.val * st.val ≤ 255 * 255 :=
    Nat.mul_le_mul (by have := h.isLt; omega) (by have := st.isLt; omega)
  have hp : (h.val : Int) * (st.val : Int) = ((h.val * st.val : Nat) : Int) := by push_cast; ring
  unfold rle_block
  rw [hw, hh, hst, hp]
  generalize h.val * st.val = S at hle
  have e1 : ((S : Nat) : Int) % 4294967296 = (S : Int) := by omega
  have e2 : (((BITMAP_HEADER_SIZE : Nat) : Int) + (S : Int)) % 4294967296 = 12 + (S : Int) := by
    simp only [BITMAP_HEADER_SIZE]; omega
  have e3 : ¬ ((12 : Int) + (S : Int) < ((BITMAP_HEADER_SIZE : Nat) : Int)) := by
    simp only [BITMAP_HEADER_SIZE]; omega
  have e4 : ((12 : Int) + (S : Int) - ((BITMAP_HEADER_SIZE : Nat) : Int)).toNat = S := by
    simp only [BITMAP_HEADER_SIZE]; omega
  simp only [e1, e2, e3, if_false, e4]

theorem rle_bwd_create_unpacker_error (res : List Byte) (e : Fault)
    (h : rle_unpacker res = Except.error e) : rle_bwd_create res = Except.error e := by
  unfold rle_bwd_create
  simp only [h]

theorem rle_bwd_create_block_error (res : List Byte) (rl2 : Rl2Unpacker) (e : Fault)
    (h : rle_unpacker res = Except.ok rl2) (hb : rle_block (rle_header res) = Except.error e) :
    rle_bwd_create res = Except.error e := by
  unfold rle_bwd_create
  simp only [h, hb]

theorem rle_bwd_create_getc_error (res : List Byte) (rl2 : Rl2Unpacker) (bitmap : List Byte)
    (e : Fault) (h : rle_unpacker res = Except.ok rl2)
    (hb : rle_block (rle_header res) = Except.ok bitmap)
    (hg : rl2unpacker_getc rl2 = Except.error e) :
    rle_bwd_create res = Except.error e := by
  unfold rle_bwd_create
  simp only [h, hb, hg]

theorem rle_bwd_create_count_le (res : List Byte) (rl2 rl2' : Rl2Unpacker) (bitmap : List Byte)
    (c : Int) (h : rle_unpacker res = Except.ok rl2)
    (hb : rle_block (rle_header res) = Except.ok bitmap)
    (hg : rl2unpacker_getc rl2 = Except.ok (c, rl2'))
    (hc : c ≤ 0) : rle_bwd_create res = Except.error Fault.assertion := by
  have hc' : ¬ (c > 0) := by omega
  unfold rle_bwd_create
  simp only [h, hb, hg, hc', not_false_eq_true, if_true]

/-- `rle_bwd_create` from its loop on: after the unpacker is set up, the block
allocated and a positive first value read. -/
theorem rle_bwd_create_loop (res : List Byte) (rl2 rl2' : Rl2Unpacker) (bitmap : List Byte)
    (c : Int) (h : rle_unpacker res = Except.ok rl2)
    (hb : rle_block (rle_header res) = Except.ok bitmap)
    (hg : rl2unpacker_getc rl2 = Except.ok (c, rl2')) (hc : 0 < c) :
    rle_bwd_create res =
      match rle_loop (12 + (rle_header res).stride * (rle_header res).height) (rl2_steps rl2')
          { rl2 := rl2', data := bitmap, dp := 12, value := 0, b := 0, count := c - 1 } with
      | Except.error e => Except.error e
      | Except.ok s => Except.ok { bitmap := some (gbitmap_create_with_data s.data) } := by
  have hc' : c > 0 := hc
  unfold rle_bwd_create
  simp only [h, hb, hg, hc', not_true_eq_false, if_false]
  rfl

theorem list_four {α : Type} (l : List α) (h : 4 ≤ l.length) :
    ∃ (a b c d : α) (rest : List α), l = a :: b :: c :: d :: rest := by
  rcases l with _ | ⟨a, _ | ⟨b, _ | ⟨c, _ | ⟨d, rest⟩⟩⟩⟩
  · simp at h
  · simp at h
  · simp at h
  · simp at h
  · exact ⟨a, b, c, d, rest, rfl⟩

/-- A resource on which `rle_bwd_create` returns has a full header with chunk
width 1, 2, 4 or 8. -/
theorem rle_bwd_create_ok_header (res : List Byte) (bwd : BitmapWithData)
    (hok : rle_bwd_create res = Except.ok bwd) :
    ∃ (w h st nb : Byte) (rest : List Byte), res = w :: h :: st :: nb :: rest ∧
      (nb.val = 1 ∨ nb.val = 2 ∨ nb.val = 4 ∨ nb.val = 8) := by
  by_cases hlen : res.length < 4
  · exfalso
    obtain ⟨h1, h2⟩ := rle_header_short res hlen
    have hinit : rle_unpacker res =
        Except.ok (rl2_fetch { rb := (rle_header res).rb, n := EOF, b := 0, bi := 0 }) := by
      rw [rle_unpacker, h1, rl2unpacker_init_eof]
    have hb : (rl2_fetch { rb := (rle_header res).rb, n := EOF, b := 0, bi := 0 }).b = EOF := by
      have := (rbuffer_getc_at_end res _ h2).1
      simp only [rl2_fetch]
      exact this
    have hget := rl2unpacker_getc_at_eof _ hb
    cases hblk : rle_block (rle_header res) with
    | error e =>
      rw [rle_bwd_create_block_error res _ e hinit hblk] at hok
      exact absurd hok (by simp)
    | ok bitmap =>
      rw [rle_bwd_create_count_le res _ _ bitmap EOF hinit hblk hget (by decide)] at hok
      exact absurd hok (by simp)
  · obtain ⟨w, h, st, nb, rest, rfl⟩ := list_four res (by omega)
    refine ⟨w, h, st, nb, rest, rfl, ?_⟩
    by_contra hn
    obtain ⟨_, _, _, h4, _⟩ := rle_header_long w h st nb rest
    have hinit : ∃ e, rle_unpacker (w :: h :: st :: nb :: rest) = Except.error e := by
      rw [rle_unpacker, h4]
      rcases rl2unpacker_init_invalid nb.val nb.isLt hn with h0 | h0
      · exact ⟨Fault.undefined, by simp [rl2unpacker_init, h0]⟩
      · by_cases hz : (nb.val : Int) = 0
        · exact ⟨Fault.undefined, by simp [rl2unpacker_init, hz]⟩
        · exact ⟨Fault.assertion, by simp [rl2unpacker_init, hz, h0]⟩
    obtain ⟨e, he⟩ := hinit
    rw [rle_bwd_create_unpacker_error _ e he] at hok
    exact absurd hok (by simp)

theorem rl2_runs_succ_error (fuel : Nat) (rl2 : Rl2Unpacker) (e : Fault)
    (h : rl2unpacker_getc rl2 = Except.error e) : rl2_runs (fuel + 1) rl2 = Except.error e := by
  simp only [rl2_runs, h]

theorem rl2_runs_succ_eof (fuel : Nat) (rl2 rl2' : Rl2Unpacker)
    (h : rl2unpacker_getc rl2 = Except.ok (EOF, rl2')) : rl2_runs (fuel + 1) rl2 = Except.ok [] := by
  simp only [rl2_runs, h, if_true]

theorem rl2_runs_succ_value (fuel : Nat) (rl2 rl2' : Rl2Unpacker) (v : Int)
    (h : rl2unpacker_getc rl2 = Except.ok (v, rl2')) (hv : v ≠ EOF) :
    rl2_runs (fuel + 1) rl2 =
      match rl2_runs fuel rl2' with
      | Except.error e => Except.error e
      | Except.ok vs => Except.ok (v :: vs) := by
  rw [rl2_runs]
  simp only [h, hv, if_false]

/-- The run stream `c0 :: cs` of a resource with a full header and a valid
chunk width: the first call of `rl2unpacker_getc` returns `c0`, a 32-bit value
other than `EOF`, and the later calls return `cs` within the step bound. -/
theorem rle_runs_cons (w h st nb : Byte) (rest : List Byte)
    (hn : nb.val = 1 ∨ nb.val = 2 ∨ nb.val = 4 ∨ nb.val = 8) (c0 : Int) (cs : List Int)
    (hruns : rle_runs (w :: h :: st :: nb :: rest) = Except.ok (c0 :: cs)) :
    ∃ (rl2 rl2' : Rl2Unpacker) (bits' : List Bool),
      rle_unpacker (w :: h :: st :: nb :: rest) = Except.ok rl2 ∧
      rl2unpacker_getc rl2 = Except.ok (c0, rl2') ∧
      Unread (w :: h :: st :: nb :: rest) nb.val bits' rl2' ∧
      rl2_runs (rl2_steps rl2') rl2' = Except.ok cs ∧
      c0 ≠ EOF ∧ -2147483648 ≤ c0 ∧ c0 < 2147483648 := by
  obtain ⟨rl2, hunp, hun⟩ := rle_unpacker_ok w h st nb rest hn
  have hr : rle_runs (w :: h :: st :: nb :: rest) = rl2_runs (rl2_steps rl2 + 1) rl2 := by
    simp only [rle_runs, hunp]
  rw [hr] at hruns
  rcases rl2unpacker_getc_cases hun with g | ⟨v, rl2', bits', g1, g2, g3, _, _⟩
  · rw [rl2_runs_succ_error _ _ _ g] at hruns
    exact absurd hruns (by simp)
  · by_cases hve : v = EOF
    · rw [rl2_runs_succ_eof _ _ rl2' (hve ▸ g1)] at hruns
      exact absurd hruns (by simp)
    · have hsteps : rl2_steps rl2' = rl2_steps rl2 := by
        rw [rl2_steps, rl2_steps, unread_rh hun, unread_rh g2]
      rw [rl2_runs_succ_value _ _ _ _ g1 hve, ← hsteps] at hruns
      cases hr' : rl2_runs (rl2_steps rl2') rl2' with
      | error e => rw [hr'] at hruns; exact absurd hruns (by simp)
      | ok cs' =>
        rw [hr'] at hruns
        simp only [Except.ok.injEq, List.cons.injEq] at hruns
        obtain ⟨rfl, rfl⟩ := hruns
        exact ⟨rl2, rl2', bits', hunp, g1, g2, hr', hve, g3⟩

/-- The decoder against the run stream, for a resource with a full header
`w, h, st, nb`, chunk width `nb` in {1,2,4,8} and a run stream `c0 :: cs` with a
positive leading value on which no sum overflows. The runs are the leading value
minus one, then the later values, painted white, black, white, ... from
position 0 of a buffer of `h * st` zero bytes. When they pass the loop's
assertions the decoder returns the raster with the header's fields and exactly
the bits of the black runs set; otherwise it fails an assertion. -/
theorem rle_bwd_create_spec (w h st nb : Byte) (rest : List Byte)
    (hn : nb.val = 1 ∨ nb.val = 2 ∨ nb.val = 4 ∨ nb.val = 8) (c0 : Int) (cs : List Int)
    (hruns : rle_runs (w :: h :: st :: nb :: rest) = Except.ok (c0 :: cs)) (hc0 : 1 ≤ c0)
    (htame : NoOverflow cs) :
    (runsFit (h.val * st.val) false 0 ((c0 - 1).toNat :: cs.map Int.toNat) = true →
      ∃ data, rle_bwd_create (w :: h :: st :: nb :: rest) =
          Except.ok (BitmapWithData.mk (some (GBitmap.mk (st.val : Int) (w.val : Int)
            (h.val : Int) data))) ∧
        data.length = h.val * st.val ∧
        ∀ p, getBit data p = runBlack false 0 ((c0 - 1).toNat :: cs.map Int.toNat) p) ∧
    (runsFit (h.val * st.val) false 0 ((c0 - 1).toNat :: cs.map Int.toNat) = false →
      rle_bwd_create (w :: h :: st :: nb :: rest) = Except.error Fault.assertion) := by
  obtain ⟨_, hh, hst, _, _⟩ := rle_header_long w h st nb rest
  obtain ⟨rl2, rl2', bits', hunp, g1, g2, hr, _, _, hlt⟩ := rle_runs_cons w h st nb rest hn c0 cs hruns
  have hblk := rle_block_long w h st nb rest
  have hstop : (12 : Int) + (rle_header (w :: h :: st :: nb :: rest)).stride *
      (rle_header (w :: h :: st :: nb :: rest)).height = ((12 + h.val * st.val : Nat) : Int) := by
    rw [hh, hst]; push_cast; ring
  have hloop := rle_bwd_create_loop _ rl2 rl2' _ c0 hunp hblk g1 (by omega)
  rw [hstop] at hloop
  have hc : c0 - 1 = (((c0 - 1).toNat : Nat) : Int) := by omega
  obtain ⟨l1, l2⟩ := rle_loop_runs (12 + h.val * st.val) (rl2_steps rl2') bits'
    { rl2 := rl2',
      data := bitmap_header (st.val : Int) (w.val : Int) (h.val : Int) ++
        List.replicate (h.val * st.val) (0 : Byte),
      dp := 12, value := 0, b := 0, count := c0 - 1 }
    false 12 0 (c0 - 1).toNat cs g2 (unread_steps g2)
    (by rw [List.length_append, List.length_replicate, bitmap_header_length]) rfl rfl
    (by norm_num) hc (by omega) rfl hr htame
  clear hlt
  have e96 : 8 * 12 + 0 = 96 + 0 := rfl
  rw [e96, runsFit_shift] at l1 l2
  constructor
  · intro hfit
    obtain ⟨s', k1, k2, k3⟩ := l1 hfit
    obtain ⟨m1, m2, m3⟩ := block_split s'.data
      (bitmap_header (st.val : Int) (w.val : Int) (h.val : Int)) (h.val * st.val) _
      (bitmap_header_length _ _ _) k2 k3
    have e : gbitmap_create_with_data s'.data =
        GBitmap.mk (st.val : Int) (w.val : Int) (h.val : Int) (s'.data.drop 12) := by
      conv_lhs => rw [m1]
      exact gbitmap_create_with_data_header st w h _
    refine ⟨s'.data.drop 12, ?_, m2, m3⟩
    rw [hloop, k1]
    simp only
    rw [e]
  · intro hfit
    rw [hloop, l2 hfit]
/-! ## The decoder loop on runs of any sign -/

theorem c_div_mod_8 (x : Int) :
    8 * c_div x 8 + c_mod x 8 = x ∧ -8 < c_mod x 8 ∧ c_mod x 8 < 8 ∧
      (0 ≤ x → 0 ≤ c_mod x 8) ∧ (x ≤ 0 → c_mod x 8 ≤ 0) := by
  unfold c_div c_mod
  rcases le_total 0 x with h | h
  · rw [Int.tdiv_eq_ediv h (by norm_num), Int.tmod_eq_emod h (by norm_num)]
    omega
  · obtain ⟨y, rfl⟩ : ∃ y, x = -y := ⟨-x, by omega⟩
    have hy : 0 ≤ y := by omega
    rw [Int.tmod_def, Int.neg_tdiv, Int.tdiv_eq_ediv hy (by norm_num)]
    omega

theorem or_store_ok (data data' : List Byte) (i mask : Int)
    (h : or_store data i mask = Except.ok data') :
    0 ≤ i ∧ i < data.length ∧
      data' = data.set i.toNat (toByte (c_or ((data.getD i.toNat 0).val : Int) mask)) := by
  by_cases hi : 0 ≤ i ∧ i < data.length
  · refine ⟨hi.1, hi.2, ?_⟩
    have e : i = ((i.toNat : Nat) : Int) := by omega
    rw [e, or_store_nat data i.toNat mask (by omega)] at h
    exact (Except.ok.inj h).symm
  · exfalso
    unfold or_store load at h
    rw [if_neg hi] at h
    exact absurd h (by simp)

theorem mask_empty : ∀ b : Nat, b < 8 → ∀ b1 : Nat, b1 ≤ b →
    c_and (c_not (c_shl 1 (b : Int) - 1)) (c_shl 1 (b1 : Int) - 1) = 0 := by
  decide!

theorem toByte_or_zero (x : Byte) : toByte (c_or (x.val : Int) 0) = x := by
  apply Fin.ext
  have : c_or (x.val : Int) 0 = ((x.val ||| 0 : Nat) : Int) := c_or_natCast x.val 0
  rw [this, Nat.or_zero, toByte_natCast _ x.isLt]

theorem list_set_getD (data : List Byte) (i : Nat) (h : i < data.length) :
    data.set i (data.getD i 0) = data := by
  apply List.ext_getElem (List.length_set _ _ _)
  intro j h1 h2
  by_cases hj : i = j
  · subst hj
    rw [List.getElem_set_self, List.getD_eq_getElem?_getD, List.getElem?_eq_getElem h]
    rfl
  · rw [List.getElem_set_ne hj]

/-- A black run of any 32-bit length `c` that `rle_black` completes, started at
a byte before the end of the block with `-8 < b < 8`: the run started inside the
block at a bit index `b ≥ 0`, it ends before the last bit of the block, it sets
exactly the bits at the positions `P .. P + c - 1` for `P = 8 * dp + b` (none
when `c ≤ 0`), and the cursor is at `P + c`. -/
theorem rle_black_sound (data data' : List Byte) (dp b c dp' b' : Int)
    (hb : -8 < b ∧ b < 8) (hc : -2147483648 ≤ c ∧ c < 2147483648)
    (h : rle_black (data.length : Int) data dp b c = Except.ok (data', dp', b')) :
    0 ≤ dp ∧ dp < data.length ∧ 0 ≤ b ∧ 8 * dp' + b' = 8 * dp + b + c ∧ 0 ≤ b' ∧ b' < 8 ∧
      data'.length = data.length ∧ 8 * dp + b + c < 8 * data.length ∧
      ∀ p : Nat, getBit data' p =
        (getBit data p || decide (8 * dp + b ≤ (p : Int) ∧ (p : Int) < 8 * dp + b + c)) := by
  have hstart : 0 ≤ b ∧ 0 ≤ dp ∧ dp < data.length := by
    unfold rle_black at h
    dsimp only at h
    split at h
    · split at h
      · exact absurd h (by simp)
      · rename_i hg
        split at h
        · exact absurd h (by simp)
        · rename_i d hs
          have := or_store_ok _ _ _ _ hs
          exact ⟨(not_not.1 hg).1, this.1, this.2.1⟩
    · split at h
      · exact absurd h (by simp)
      · rename_i hg
        split at h
        · exact absurd h (by simp)
        · rename_i d hs
          have := or_store_ok _ _ _ _ hs
          exact ⟨(not_not.1 hg).1, this.1, this.2.1⟩
  obtain ⟨hb0, hdp0, hdplt⟩ := hstart
  obtain ⟨dpn, rfl⟩ : ∃ dpn : Nat, dp = (dpn : Int) := ⟨dp.toNat, by omega⟩
  obtain ⟨bn, rfl⟩ : ∃ bn : Nat, b = (bn : Int) := ⟨b.toNat, by omega⟩
  have hbn : bn < 8 := by omega
  have hdpn : dpn < data.length := by omega
  by_cases hcn : 0 ≤ c
  · obtain ⟨cn, rfl⟩ : ∃ cn : Nat, c = (cn : Int) := ⟨c.toNat, by omega⟩
    by_cases hov : bn + cn < 2147483648
    · obtain ⟨h1, h2⟩ := rle_black_spec data dpn bn cn hbn hdpn hov
      clear hov hc
      by_cases hfit : 8 * dpn + bn + cn < 8 * data.length
      · obtain ⟨d, g1, g2, g3⟩ := h1 hfit
        rw [g1] at h
        simp only [Except.ok.injEq, Prod.mk.injEq] at h
        obtain ⟨rfl, rfl, rfl⟩ := h
        refine ⟨by omega, by omega, by omega, by omega, by omega, by omega, g2, by omega, ?_⟩
        intro p
        rw [g3]
        have e : decide (8 * dpn + bn ≤ p ∧ p < 8 * dpn + bn + cn) =
            decide (8 * (dpn : Int) + (bn : Int) ≤ (p : Int) ∧
              (p : Int) < 8 * (dpn : Int) + (bn : Int) + (cn : Int)) := by
          apply decide_eq_decide.2; omega
        rw [e]
      · rw [h2 (by omega)] at h
        exact absurd h (by simp)
    · exfalso
      have hneg : int32 ((bn : Int) + (cn : Int)) < 0 := by
        unfold int32; omega
      clear hov hc
      have c1 : int32 ((bn : Int) + (cn : Int)) < 8 := by omega
      have c2 : ¬ (0 ≤ (bn : Int) ∧ (bn : Int) < 32 ∧ 0 ≤ int32 ((bn : Int) + (cn : Int))) := by
        intro hh
        omega
      unfold rle_black at h
      dsimp only at h
      rw [if_pos c1, if_pos c2] at h
      exact Except.noConfusion h
  · have e : int32 ((bn : Int) + c) = (bn : Int) + c := by
      unfold int32; omega
    unfold rle_black at h
    dsimp only at h
    rw [e, if_pos (by omega)] at h
    by_cases hb1 : 0 ≤ (bn : Int) + c
    · obtain ⟨b1, hb1e⟩ : ∃ b1 : Nat, (bn : Int) + c = (b1 : Int) := ⟨((bn : Int) + c).toNat, by omega⟩
      rw [if_neg (by omega), hb1e, mask_empty bn hbn b1 (by omega),
        or_store_nat data dpn _ hdpn, toByte_or_zero, list_set_getD data dpn hdpn] at h
      simp only [Except.ok.injEq, Prod.mk.injEq] at h
      obtain ⟨rfl, rfl, rfl⟩ := h
      refine ⟨by omega, by omega, by omega, by omega, by omega, by omega, rfl, by omega, ?_⟩
      intro p
      have e2 : decide (8 * (dpn : Int) + (bn : Int) ≤ (p : Int) ∧
          (p : Int) < 8 * (dpn : Int) + (bn : Int) + c) = false := by
        apply decide_eq_false; omega
      rw [e2, Bool.or_false]
    · rw [if_pos (by omega)] at h
      exact absurd h (by simp)

/-- A white run of any 32-bit length `c` from a bit index `0 ≤ b < 8`: when the
sum `b + c` does not overflow the cursor moves from `P = 8 * dp + b` to `P + c`;
when it overflows the pointer is left more than `2^28 - 1` bytes below `dp`. -/
theorem rle_white_sound (dp b c : Int) (hb : 0 ≤ b ∧ b < 8)
    (hc : -2147483648 ≤ c ∧ c < 2147483648) :
    -8 < (rle_white dp b c).2 ∧ (rle_white dp b c).2 < 8 ∧
    ((b + c < 2147483648 ∧ 8 * (rle_white dp b c).1 + (rle_white dp b c).2 = 8 * dp + b + c) ∨
      (2147483648 ≤ b + c ∧ (rle_white dp b c).1 ≤ dp - 268435455)) := by
  have hw : rle_white dp b c = (dp + c_div (int32 (b + c)) 8, c_mod (int32 (b + c)) 8) := rfl
  obtain ⟨d1, d2, d3, _, _⟩ := c_div_mod_8 (int32 (b + c))
  rw [hw]
  dsimp only
  refine ⟨d2, d3, ?_⟩
  by_cases hov : b + c < 2147483648
  · left
    have e : int32 (b + c) = b + c := by unfold int32; omega
    rw [e] at d1 ⊢
    exact ⟨hov, by omega⟩
  · right
    have e : int32 (b + c) = b + c - 4294967296 := by unfold int32; omega
    rw [e] at d1 d2 d3 ⊢
    exact ⟨by omega, by omega⟩
/-- One run of the decoder loop that completes, black or white, of any 32-bit
length `c`, started at a byte before the end of a block of `S < 2^28` bytes: the
run started at the position `P`, a black run ends before the last bit of the
block and sets exactly its bits, the block keeps its length, and the cursor is
at `P + c`, or left below the block by a white run whose sum overflowed. -/
theorem rle_paint_sound (S : Nat) (hS : S < 268435456) (data d : List Byte) (value : Bool)
    (dp b c dp1 b1 P : Int) (hlen : data.length = S) (hdp : dp < S)
    (hc : -2147483648 ≤ c ∧ c < 2147483648) (hb : -8 < b ∧ b < 8) (hw : value = false → 0 ≤ b)
    (hP : 8 * dp + b = P ∨ (value = true ∧ dp < 0))
    (h : (if (if value then (1 : Int) else 0) ≠ 0 then rle_black (S : Int) data dp b c
          else Except.ok (data, rle_white dp b c)) = Except.ok (d, dp1, b1)) :
    d.length = S ∧ P < 8 * S ∧ (value = true → P + c < 8 * S) ∧
    (-8 < b1 ∧ b1 < 8) ∧ (value = true → 0 ≤ b1) ∧
    (8 * dp1 + b1 = P + c ∨ (value = false ∧ dp1 < 0)) ∧
    ∀ p : Nat, getBit d p =
      (getBit data p || (value && decide (P ≤ (p : Int) ∧ (p : Int) < P + c))) := by
  cases value with
  | false =>
    simp only [Bool.false_eq_true, if_false, ne_eq, not_true_eq_false, Except.ok.injEq,
      Prod.mk.injEq] at h
    obtain ⟨rfl, hwhite⟩ := h
    have hb0 := hw rfl
    have hPe : 8 * dp + b = P := by
      rcases hP with hP | hP
      · exact hP
      · exact absurd hP.1 (by simp)
    obtain ⟨w1, w2, w3⟩ := rle_white_sound dp b c ⟨hb0, hb.2⟩ hc
    have e1 : (rle_white dp b c).1 = dp1 := congrArg Prod.fst hwhite
    have e2 : (rle_white dp b c).2 = b1 := congrArg Prod.snd hwhite
    rw [e1, e2] at w3
    rw [e2] at w1 w2
    refine ⟨hlen, by omega, fun hh => absurd hh (by simp), ⟨w1, w2⟩,
      fun hh => absurd hh (by simp), ?_, fun p => by simp⟩
    rcases w3 with ⟨_, w3⟩ | ⟨_, w3⟩
    · left; omega
    · right; exact ⟨rfl, by omega⟩
  | true =>
    simp only [if_true, ne_eq, one_ne_zero, not_false_eq_true] at h
    rw [← hlen] at h
    obtain ⟨k1, _, k3, k4, k5, k6, k7, k8, k9⟩ := rle_black_sound data d dp b c dp1 b1 hb hc h
    have hPe : 8 * dp + b = P := by
      rcases hP with hP | hP
      · exact hP
      · omega
    subst hPe
    refine ⟨by rw [k7, hlen], by omega, fun _ => by omega, ⟨by omega, k6⟩, fun _ => k5,
      Or.inl k4, ?_⟩
    intro p
    rw [k9, Bool.true_and]

/-- The decoder loop on runs of any sign. When the loop, started on the run
`s.count` of colour `value` at position `P` of a block of `S < 2^28` bytes,
returns, then the stream gave the values `cs` before `EOF`, the runs passed the
assertions of the loop, and the block has kept its length and has exactly the
bits of the black runs set in addition. -/
theorem rle_loop_sound (S : Nat) (hS : S < 268435456) (fuel : Nat) :
    ∀ (s s' : RleLoop) (value : Bool) (P : Int),
      rle_loop (S : Int) fuel s = Except.ok s' → s.count ≠ EOF → s.data.length = S →
      (-2147483648 ≤ s.count ∧ s.count < 2147483648) →
      s.value = (if value then 1 else 0) →
      (-8 < s.b ∧ s.b < 8) → (value = false → 0 ≤ s.b) →
      (8 * s.dp + s.b = P ∨ (value = true ∧ s.dp < 0)) →
      ∃ cs, rl2_runs fuel s.rl2 = Except.ok cs ∧ s'.data.length = S ∧
        runsFitZ S value P (s.count :: cs) = true ∧
        ∀ p : Nat, getBit s'.data p =
          (getBit s.data p || runBlackZ value P (s.count :: cs) p) := by
  induction fuel with
  | zero =>
    intro s s' value P h hne
    simp only [rle_loop, hne, if_false] at h
    exact Except.noConfusion h
  | succ f ih =>
    intro s s' value P h hne hlen hc hv hb hw hP
    rw [rle_loop_succ, if_neg hne] at h
    by_cases hdp : s.dp < (S : Int)
    swap
    · rw [if_pos hdp] at h
      exact Except.noConfusion h
    rw [if_neg (not_not.2 hdp), hv] at h
    cases hpaint : (if (if value then (1 : Int) else 0) ≠ 0
        then rle_black (S : Int) s.data s.dp s.b s.count
        else Except.ok (s.data, rle_white s.dp s.b s.count)) with
    | error e =>
      rw [hpaint] at h
      exact Except.noConfusion h
    | ok r =>
      obtain ⟨d, dp1, b1⟩ := r
      obtain ⟨q1, q2, q3, q4, q5, q6, q7⟩ :=
        rle_paint_sound S hS s.data d value s.dp s.b s.count dp1 b1 P hlen hdp hc hb hw hP hpaint
      rw [hpaint] at h
      cases hg : rl2unpacker_getc s.rl2 with
      | error e =>
        simp only [hg] at h
        exact Except.noConfusion h
      | ok t =>
        obtain ⟨c', rl2'⟩ := t
        simp only [hg] at h
        have hfit0 : (decide (P < 8 * (S : Int)) && (!value || decide (P + s.count < 8 * (S : Int))))
            = true := by
          cases value with
          | false => simp [q2]
          | true => simp [q2, q3 rfl]
        by_cases hce : c' = EOF
        · rw [rle_loop_eof _ _ _ hce] at h
          have hs' := (Except.ok.inj h).symm
          subst hs'
          refine ⟨[], ?_, q1, ?_, ?_⟩
          · simp only [rl2_runs, hg, hce, if_true]
          · simp only [runsFitZ, hfit0, Bool.and_self]
          · intro p
            show getBit d p = _
            rw [q7]
            simp [runBlackZ]
        · have hval' : (1 : Int) - (if value then 1 else 0) = (if (!value) = true then 1 else 0) := by
            cases value <;> simp
          obtain ⟨cs', i1, i2, i3, i4⟩ := ih
            { rl2 := rl2', data := d, dp := dp1, value := 1 - (if value then 1 else 0), b := b1,
              count := c' }
            s' (!value) (P + s.count) h hce q1 (rl2unpacker_getc_range _ _ _ hg) hval' q4
            (fun hh => q5 (by simpa using hh))
            (by
              rcases q6 with q6 | q6
              · exact Or.inl q6
              · exact Or.inr ⟨by simp [q6.1], q6.2⟩)
          refine ⟨c' :: cs', ?_, i2, ?_, ?_⟩
          · simp only [rl2_runs, hg, hce, if_false, i1]
          · rw [runsFitZ, hfit0, i3]
            rfl
          · intro p
            rw [i4]
            show (getBit d p || _) = _
            rw [q7, runBlackZ, Bool.or_assoc]
            rfl
theorem runBlackZ_shift (d : Int) (runs : List Int) :
    ∀ (value : Bool) (P p : Int),
      runBlackZ value (P + d) runs (p + d) = runBlackZ value P runs p := by
  induction runs with
  | nil => intro value P p; rfl
  | cons c cs ih =>
    intro value P p
    have e1 : decide (P + d ≤ p + d ∧ p + d < P + d + c) = decide (P ≤ p ∧ p < P + c) := by
      apply decide_eq_decide.2; omega
    have e3 : P + d + c = P + c + d := by omega
    simp only [runBlackZ, e1]
    rw [e3, ih]

theorem runsFitZ_shift (k S : Int) (runs : List Int) :
    ∀ (value : Bool) (P : Int),
      runsFitZ (S + k) value (P + 8 * k) runs = runsFitZ S value P runs := by
  induction runs with
  | nil => intro value P; rfl
  | cons c cs ih =>
    intro value P
    have e1 : decide (P + 8 * k < 8 * (S + k)) = decide (P < 8 * S) := by
      apply decide_eq_decide.2; omega
    have e2 : decide (P + 8 * k + c < 8 * (S + k)) = decide (P + c < 8 * S) := by
      apply decide_eq_decide.2; omega
    have e3 : P + 8 * k + c = P + c + 8 * k := by omega
    simp only [runsFitZ, e1, e2]
    rw [e3, ih]

/-- Whenever `rle_bwd_create` returns, the resource has a full header
`w, h, st, nb` with chunk width 1, 2, 4 or 8, the run stream is `c0 :: cs` with
`c0 > 0`, and the bitmap is made from a block of `12 + h * st` bytes: the header
and `h * st` zero bytes, with exactly the bits of the black runs set in
addition, the runs `c0 - 1 :: cs` alternating white, black, ... from bit 96 (the
first bit of the pixel data) and passing the assertions of the loop. -/
theorem rle_bwd_create_sound (res : List Byte) (bwd : BitmapWithData)
    (hok : rle_bwd_create res = Except.ok bwd) :
    ∃ (w h st nb : Byte) (rest : List Byte) (c0 : Int) (cs : List Int) (mem : List Byte),
      res = w :: h :: st :: nb :: rest ∧ (nb.val = 1 ∨ nb.val = 2 ∨ nb.val = 4 ∨ nb.val = 8) ∧
      rle_runs res = Except.ok (c0 :: cs) ∧ 1 ≤ c0 ∧
      bwd = BitmapWithData.mk (some (gbitmap_create_with_data mem)) ∧
      mem.length = 12 + h.val * st.val ∧
      runsFitZ ((12 + h.val * st.val : Nat) : Int) false 96 ((c0 - 1) :: cs) = true ∧
      ∀ p : Nat, getBit mem p =
        (getBit (bitmap_header (st.val : Int) (w.val : Int) (h.val : Int) ++
            List.replicate (h.val * st.val) (0 : Byte)) p ||
          runBlackZ false 96 ((c0 - 1) :: cs) p) := by
  obtain ⟨w, h, st, nb, rest, rfl, hn⟩ := rle_bwd_create_ok_header res bwd hok
  obtain ⟨_, hh, hst, _, _⟩ := rle_header_long w h st nb rest
  obtain ⟨rl2, hunp, hun⟩ := rle_unpacker_ok w h st nb rest hn
  have hblk := rle_block_long w h st nb rest
  have hle : h.val * st.val ≤ 255 * 255 :=
    Nat.mul_le_mul (by have := h.isLt; omega) (by have := st.isLt; omega)
  rcases rl2unpacker_getc_cases hun with g | ⟨v, rl2', bits', g1, g2, g3, _, _⟩
  · rw [rle_bwd_create_getc_error _ rl2 _ _ hunp hblk g] at hok
    exact Except.noConfusion hok
  by_cases hv : v ≤ 0
  · rw [rle_bwd_create_count_le _ rl2 rl2' _ v hunp hblk g1 hv] at hok
    exact Except.noConfusion hok
  have hstop : (12 : Int) + (rle_header (w :: h :: st :: nb :: rest)).stride *
      (rle_header (w :: h :: st :: nb :: rest)).height = ((12 + h.val * st.val : Nat) : Int) := by
    rw [hh, hst]; push_cast; ring
  rw [rle_bwd_create_loop _ rl2 rl2' _ v hunp hblk g1 (by omega), hstop] at hok
  cases hl : rle_loop ((12 + h.val * st.val : Nat) : Int) (rl2_steps rl2')
      { rl2 := rl2',
        data := bitmap_header (st.val : Int) (w.val : Int) (h.val : Int) ++
          List.replicate (h.val * st.val) (0 : Byte),
        dp := 12, value := 0, b := 0, count := v - 1 } with
  | error e =>
    rw [hl] at hok
    exact Except.noConfusion hok
  | ok s' =>
    rw [hl] at hok
    have hne : v - 1 ≠ EOF := by simp only [EOF]; omega
    obtain ⟨cs, r1, r2, r3, r4⟩ := rle_loop_sound (12 + h.val * st.val) (by omega)
      (rl2_steps rl2') _ s' false 96 hl hne
      (by rw [List.length_append, List.length_replicate, bitmap_header_length])
      (by constructor <;> simp only <;> omega) rfl (by constructor <;> simp only <;> omega)
      (fun _ => by simp only; omega) (Or.inl (by simp only; omega))
    have hve : v ≠ EOF := by simp only [EOF]; omega
    have hsteps : rl2_steps rl2' = rl2_steps rl2 := by
      rw [rl2_steps, rl2_steps, unread_rh hun, unread_rh g2]
    refine ⟨w, h, st, nb, rest, v, cs, s'.data, rfl, hn, ?_, by omega,
      (Except.ok.inj hok).symm, r2, r3, r4⟩
    simp only [rle_runs, hunp]
    rw [rl2_runs_succ_value _ _ _ _ g1 hve, ← hsteps, r1]

/-- Whenever `rle_bwd_create` returns a raster, the resource has a full header
`w, h, st, nb` with chunk width 1, 2, 4 or 8, the run stream is `c0 :: cs` with
`c0 > 0`, and the data of the raster is the zero buffer of `h * st` bytes with
exactly the bits of the black runs set, for the runs `c0 - 1 :: cs` alternating
white, black, ... from position 0; the runs pass the assertions of the loop. -/
theorem rle_bwd_create_ok_runs (res : List Byte) (bwd : BitmapWithData)
    (hok : rle_bwd_create res = Except.ok bwd) :
    ∃ (w h st nb : Byte) (rest : List Byte) (c0 : Int) (cs : List Int) (g : GBitmap),
      res = w :: h :: st :: nb :: rest ∧ (nb.val = 1 ∨ nb.val = 2 ∨ nb.val = 4 ∨ nb.val = 8) ∧
      rle_runs res = Except.ok (c0 :: cs) ∧ 1 ≤ c0 ∧ bwd.bitmap = some g ∧
      g.addr.length = h.val * st.val ∧
      runsFitZ ((h.val * st.val : Nat) : Int) false 0 ((c0 - 1) :: cs) = true ∧
      ∀ q : Nat, getBit g.addr q = runBlackZ false 0 ((c0 - 1) :: cs) q := by
  obtain ⟨w, h, st, nb, rest, c0, cs, mem, h1, h2, h3, h4, h5, h6, h7, h8⟩ :=
    rle_bwd_create_sound res bwd hok
  refine ⟨w, h, st, nb, rest, c0, cs, gbitmap_create_with_data mem, h1, h2, h3, h4,
    by rw [h5], ?_, ?_, ?_⟩
  · show (mem.drop 12).length = _
    rw [List.length_drop, h6]; omega
  · have := runsFitZ_shift 12 ((h.val * st.val : Nat) : Int) ((c0 - 1) :: cs) false 0
    have e1 : ((12 + h.val * st.val : Nat) : Int) = ((h.val * st.val : Nat) : Int) + 12 := by
      omega
    have e2 : (0 : Int) + 8 * 12 = 96 := by norm_num
    rw [e2, ← e1] at this
    rw [← this]
    exact h7
  · intro q
    show getBit (mem.drop 12) q = _
    have e : 8 * 12 + q = 8 * (bitmap_header (st.val : Int) (w.val : Int) (h.val : Int)).length + q := rfl
    rw [getBit_drop, h8, e, getBit_append_right, getBit_replicate_zero, Bool.false_or]
    have := runBlackZ_shift 96 ((c0 - 1) :: cs) false 0 (q : Int)
    have e3 : ((8 * (bitmap_header (st.val : Int) (w.val : Int) (h.val : Int)).length + q : Nat)
        : Int) = (q : Int) + 96 := by
      rw [bitmap_header_length]; omega
    have e4 : (0 : Int) + 96 = 96 := by norm_num
    rw [e4] at this
    rw [e3]
    exact this
theorem runsFit_toNat (S : Nat) (runs : List Int) :
    ∀ (value : Bool) (P : Nat), (∀ v ∈ runs, 0 ≤ v) →
      runsFit S value P (runs.map Int.toNat) = runsFitZ (S : Int) value (P : Int) runs := by
  induction runs with
  | nil => intro value P _; rfl
  | cons c cs ih =>
    intro value P hpos
    have hc := hpos c (List.mem_cons_self _ _)
    have e1 : decide (P / 8 < S) = decide ((P : Int) < 8 * (S : Int)) := by
      apply decide_eq_decide.2; omega
    have e2 : decide (P + c.toNat < 8 * S) = decide ((P : Int) + c < 8 * (S : Int)) := by
      apply decide_eq_decide.2; omega
    have e3 : (P : Int) + c = ((P + c.toNat : Nat) : Int) := by omega
    simp only [List.map_cons, runsFit, runsFitZ, e1, e2]
    rw [e3, ih (!value) (P + c.toNat) (fun v hv => hpos v (List.mem_cons_of_mem _ hv))]

theorem runBlack_toNat (runs : List Int) :
    ∀ (value : Bool) (P p : Nat), (∀ v ∈ runs, 0 ≤ v) →
      runBlack value P (runs.map Int.toNat) p = runBlackZ value (P : Int) runs (p : Int) := by
  induction runs with
  | nil => intro value P p _; rfl
  | cons c cs ih =>
    intro value P p hpos
    have hc := hpos c (List.mem_cons_self _ _)
    have e1 : decide (P ≤ p ∧ p < P + c.toNat) =
        decide ((P : Int) ≤ (p : Int) ∧ (p : Int) < (P : Int) + c) := by
      apply decide_eq_decide.2; omega
    have e3 : (P : Int) + c = ((P + c.toNat : Nat) : Int) := by omega
    simp only [List.map_cons, runBlack, runBlackZ, e1]
    rw [e3, ih (!value) (P + c.toNat) p (fun v hv => hpos v (List.mem_cons_of_mem _ hv))]

/-- The decoder against the run stream, for a resource with a full header
`w, h, st, nb`, chunk width `nb` in {1,2,4,8} and a run stream `c0 :: cs` with a
positive leading value on which no sum overflows: when the runs pass the
assertions of the loop the decoder returns the raster with the header's fields
and exactly the bits of the black runs set; otherwise it fails an assertion. -/
theorem rle_bwd_create_no_overflow (w h st nb : Byte) (rest : List Byte)
    (hn : nb.val = 1 ∨ nb.val = 2 ∨ nb.val = 4 ∨ nb.val = 8) (c0 : Int) (cs : List Int)
    (hruns : rle_runs (w :: h :: st :: nb :: rest) = Except.ok (c0 :: cs)) (hc0 : 1 ≤ c0)
    (htame : NoOverflow cs) :
    (runsFitZ ((h.val * st.val : Nat) : Int) false 0 ((c0 - 1) :: cs) = true →
      ∃ data, rle_bwd_create (w :: h :: st :: nb :: rest) =
          Except.ok (BitmapWithData.mk (some (GBitmap.mk (st.val : Int) (w.val : Int)
            (h.val : Int) data))) ∧
        data.length = h.val * st.val ∧
        ∀ q : Nat, getBit data q = runBlackZ false 0 ((c0 - 1) :: cs) q) ∧
    (runsFitZ ((h.val * st.val : Nat) : Int) false 0 ((c0 - 1) :: cs) = false →
      rle_bwd_create (w :: h :: st :: nb :: rest) = Except.error Fault.assertion) := by
  have hpos : ∀ v ∈ (c0 - 1) :: cs, 0 ≤ v := by
    intro v hv
    rcases List.mem_cons.1 hv with rfl | hv
    · omega
    · exact (htame v hv).1
  have e1 := runsFit_toNat (h.val * st.val) ((c0 - 1) :: cs) false 0 hpos
  have e2 := fun p => runBlack_toNat ((c0 - 1) :: cs) false 0 p hpos
  simp only [List.map_cons, Nat.cast_zero] at e1 e2
  obtain ⟨s1, s2⟩ := rle_bwd_create_spec w h st nb rest hn c0 cs hruns hc0 htame
  rw [e1] at s1 s2
  refine ⟨fun hfit => ?_, s2⟩
  obtain ⟨data, d1, d2, d3⟩ := s1 hfit
  exact ⟨data, d1, d2, fun q => by rw [d3, e2]⟩

/-- C8, the failing input. Header width 8, height 1, stride 1 (a buffer of 8
bits), `n = 8`, values 1 and 8: the leading value is well formed and the runs
after the leading pixel, a white run of 0 bits and a black run of 8 bits, total
exactly the 8 bits of the buffer, the black run ending on its last bit. The
decoder fails `assert(dp < dp_stop)` before the zero-bit store to the byte after
the run, and returns no raster. -/
theorem rle_black_run_to_last_bit :
    rle_runs [8, 1, 1, 8, 1, 8] = Except.ok [1, 8] ∧
    rle_bwd_create [8, 1, 1, 8, 1, 8] = Except.error Fault.assertion := by
  decide
/-! ## The leading run value -/

theorem runBlackZ_lt (runs : List Int) :
    ∀ (value : Bool) (P p : Int), p < P → (∀ v ∈ runs, 0 ≤ v) →
      runBlackZ value P runs p = false := by
  induction runs with
  | nil => intro value P p _ _; rfl
  | cons c cs ih =>
    intro value P p hp hpos
    have hc := hpos c (List.mem_cons_self _ _)
    have h1 : ¬ (P ≤ p ∧ p < P + c) := by omega
    simp [runBlackZ, h1, ih (!value) (P + c) p (by omega)
      (fun v hv => hpos v (List.mem_cons_of_mem _ hv))]

theorem rl2_steps_pos (rl2 : Rl2Unpacker) : rl2_steps rl2 = (rl2_steps rl2 - 1) + 1 := by
  unfold rl2_steps; omega

/-- The first round of the decoder loop after a positive leading value `c0`:
the run is white and has length `c0 - 1`; it stores nothing and moves the cursor
to bit `c0 - 1` of the pixel data, and the next value is painted black. -/
theorem rle_bwd_create_first_run (res : List Byte) (rl2 rl2' : Rl2Unpacker)
    (bitmap : List Byte) (c0 : Int) (h : rle_unpacker res = Except.ok rl2)
    (hb : rle_block (rle_header res) = Except.ok bitmap)
    (hg : rl2unpacker_getc rl2 = Except.ok (c0, rl2')) (hc : 0 < c0) :
    rle_bwd_create res =
      if ¬ ((12 : Int) < 12 + (rle_header res).stride * (rle_header res).height) then
        Except.error Fault.assertion
      else
        match rl2unpacker_getc rl2' with
        | Except.error e => Except.error e
        | Except.ok (c1, rl2'') =>
          match rle_loop (12 + (rle_header res).stride * (rle_header res).height)
              (rl2_steps rl2' - 1)
              { rl2 := rl2'', data := bitmap, dp := 12 + (c0 - 1) / 8, value := 1,
                b := (c0 - 1) % 8, count := c1 } with
          | Except.error e => Except.error e
          | Except.ok s => Except.ok { bitmap := some (gbitmap_create_with_data s.data) } := by
  have hr := rl2unpacker_getc_range _ _ _ hg
  have hne : c0 - 1 ≠ EOF := by simp only [EOF]; omega
  have hw : rle_white 12 0 (c0 - 1) = (12 + (c0 - 1) / 8, (c0 - 1) % 8) := by
    show ((12 : Int) + Int.tdiv (int32 (0 + (c0 - 1))) 8, Int.tmod (int32 (0 + (c0 - 1))) 8) = _
    rw [int32_eq _ (by omega) (by omega), Int.tdiv_eq_ediv (by omega) (by norm_num),
      Int.tmod_eq_emod (by omega) (by norm_num), Int.zero_add]
  rw [rle_bwd_create_loop res rl2 rl2' bitmap c0 h hb hg hc, rl2_steps_pos rl2', rle_loop_succ]
  simp only [hne, if_false, ne_eq, not_true_eq_false, hw, Int.sub_zero]
  by_cases hstop : (12 : Int) < 12 + (rle_header res).stride * (rle_header res).height
  · simp only [hstop, not_true_eq_false, if_false]
    cases hg' : rl2unpacker_getc rl2' with
    | error e => rfl
    | ok t => rfl
  · simp only [hstop, not_false_eq_true, if_true]

/-- C9. The leading run value. (1) Whenever the first value returned by
`rl2unpacker_getc` is `EOF` or another value `≤ 0`, `rle_bwd_create` ends in a
failed assertion. (2) Otherwise, the first value `c0` being positive, the first
run painted is white and has length `c0 - 1`: after `assert(dp < dp_stop)` the
first round of the loop stores nothing and leaves the cursor at bit `c0 - 1` of
the pixel data, and the next value is painted as a black run; with `c0 = 1` the
white run is empty and the image starts with the black run. (3) Whenever
`rle_bwd_create` returns a raster, the first value `c0` is positive and the bits
of the raster are those of the black runs of `c0 - 1 :: cs`, the first run being
white: the bits of the next run, of length `c1`, at positions
`c0 - 1 .. c0 - 1 + c1 - 1` are set, and when no run value makes a sum of the
loop overflow the bits at the positions below `c0 - 1` are clear. (4) A
resource that ends after the four header bytes fails the assertion, and so does
the resource `08 01 04 08 00 00 00 ff ff ff f0`, whose first value is `-16`. -/
theorem rle_leading_run :
    (∀ (res : List Byte) (rl2 rl2' : Rl2Unpacker) (bitmap : List Byte) (c : Int),
      rle_unpacker res = Except.ok rl2 → rle_block (rle_header res) = Except.ok bitmap →
      rl2unpacker_getc rl2 = Except.ok (c, rl2') →
      (c = EOF ∨ c ≤ 0) → rle_bwd_create res = Except.error Fault.assertion) ∧
    (∀ (res : List Byte) (rl2 rl2' : Rl2Unpacker) (bitmap : List Byte) (c0 : Int),
      rle_unpacker res = Except.ok rl2 → rle_block (rle_header res) = Except.ok bitmap →
      rl2unpacker_getc rl2 = Except.ok (c0, rl2') → 0 < c0 →
      rle_bwd_create res =
        if ¬ ((12 : Int) < 12 + (rle_header res).stride * (rle_header res).height) then
          Except.error Fault.assertion
        else
          match rl2unpacker_getc rl2' with
          | Except.error e => Except.error e
          | Except.ok (c1, rl2'') =>
            match rle_loop (12 + (rle_header res).stride * (rle_header res).height)
                (rl2_steps rl2' - 1)
                { rl2 := rl2'', data := bitmap, dp := 12 + (c0 - 1) / 8, value := 1,
                  b := (c0 - 1) % 8, count := c1 } with
            | Except.error e => Except.error e
            | Except.ok s => Except.ok { bitmap := some (gbitmap_create_with_data s.data) }) ∧
    (∀ (res : List Byte) (bwd : BitmapWithData), rle_bwd_create res = Except.ok bwd →
      ∃ (rl2 rl2' : Rl2Unpacker) (c0 : Int) (cs : List Int) (g : GBitmap),
        rle_unpacker res = Except.ok rl2 ∧ rl2unpacker_getc rl2 = Except.ok (c0, rl2') ∧
        rle_runs res = Except.ok (c0 :: cs) ∧ 0 < c0 ∧ bwd.bitmap = some g ∧
        (∀ p : Nat, getBit g.addr p = runBlackZ false 0 ((c0 - 1) :: cs) p) ∧
        (∀ (c1 : Int) (cs' : List Int), cs = c1 :: cs' →
          ∀ p : Nat, c0 - 1 ≤ (p : Int) → (p : Int) < c0 - 1 + c1 → getBit g.addr p = true) ∧
        (NoOverflow cs → ∀ p : Nat, (p : Int) < c0 - 1 → getBit g.addr p = false)) ∧
    (rle_bwd_create [8, 1, 4, 1] = Except.error Fault.assertion ∧
      rle_runs [8, 1, 4, 8, 0, 0, 0, 0xff, 0xff, 0xff, 0xf0] = Except.ok [-16] ∧
      rle_bwd_create [8, 1, 4, 8, 0, 0, 0, 0xff, 0xff, 0xff, 0xf0] =
        Except.error Fault.assertion) := by
  refine ⟨?_, rle_bwd_create_first_run, ?_, by decide⟩
  · intro res rl2 rl2' bitmap c hu hb hg hc
    apply rle_bwd_create_count_le res rl2 rl2' bitmap c hu hb hg
    rcases hc with hc | hc
    · rw [hc]; decide
    · exact hc
  · intro res bwd hok
    obtain ⟨w, h, st, nb, rest, c0, cs, g, rfl, hn, h3, h4, h5, _, _, h8⟩ :=
      rle_bwd_create_ok_runs res bwd hok
    obtain ⟨rl2, rl2', _, g1, g2, _, _, _, _, _⟩ := rle_runs_cons w h st nb rest hn c0 cs h3
    refine ⟨rl2, rl2', c0, cs, g, g1, g2, h3, by omega, h5, h8, ?_, ?_⟩
    · intro c1 cs' hcs p hp1 hp2
      have h3' : (0 + (c0 - 1) ≤ (p : Int) ∧ (p : Int) < 0 + (c0 - 1) + c1) := by omega
      rw [h8, hcs, runBlackZ, runBlackZ, decide_eq_true h3']
      rfl
    · intro htame p hp
      have hlt := runBlackZ_lt cs (!false) (0 + (c0 - 1)) p (by omega)
        (fun v hv => (htame v hv).1)
      rw [h8, runBlackZ, hlt]
      rfl

/-- C9 at concrete inputs. The resource `08 01 04 08 01 03` has the first value
1: the decoder returns the raster `07 00 00 00`, whose white leading run is empty
and which starts with the black run of 3 bits. -/
theorem rle_leading_run_witness :
    rle_bwd_create [8, 1, 4, 8, 1, 3] =
      Except.ok (BitmapWithData.mk (some (GBitmap.mk 4 8 1 [0x07, 0, 0, 0]))) ∧
    rle_runs [8, 1, 4, 8, 1, 3] = Except.ok [1, 3] ∧
    ∃ (rl2 rl2' : Rl2Unpacker) (c0 : Int) (cs : List Int) (g : GBitmap),
      rle_unpacker [8, 1, 4, 8, 1, 3] = Except.ok rl2 ∧
      rl2unpacker_getc rl2 = Except.ok (c0, rl2') ∧
      rle_runs [8, 1, 4, 8, 1, 3] = Except.ok (c0 :: cs) ∧ 0 < c0 ∧
      (BitmapWithData.mk (some (GBitmap.mk 4 8 1 [0x07, 0, 0, 0]))).bitmap = some g ∧
      (∀ p : Nat, getBit g.addr p = runBlackZ false 0 ((c0 - 1) :: cs) p) ∧
      (∀ (c1 : Int) (cs' : List Int), cs = c1 :: cs' →
        ∀ p : Nat, c0 - 1 ≤ (p : Int) → (p : Int) < c0 - 1 + c1 → getBit g.addr p = true) ∧
      (NoOverflow cs → ∀ p : Nat, (p : Int) < c0 - 1 → getBit g.addr p = false) :=
  ⟨by decide, by decide, rle_leading_run.2.2.1 _ _ (by decide)⟩
/-! ## Run lengths of a bit list -/

theorem runBlack_runsFrom (xs : List Bool) :
    ∀ (c : Bool) (k P p : Nat),
      runBlack c P (runsFrom c k xs) p =
        ((c && decide (P ≤ p ∧ p < P + k)) ||
          (decide (P + k ≤ p) && xs.getD (p - (P + k)) false)) := by
  induction xs with
  | nil =>
    intro c k P p
    simp [runsFrom, runBlack]
  | cons x xs ih =>
    intro c k P p
    by_cases hx : x = c
    · subst hx
      rw [runsFrom, if_pos rfl, ih]
      by_cases hp : p = P + k
      · subst hp
        cases x <;> simp
      · by_cases hlt : p < P + k
        · have h1 : ¬ (P + (k + 1) ≤ p) := by omega
          have h2 : ¬ (P + k ≤ p) := by omega
          have h3 : (P ≤ p ∧ p < P + (k + 1)) ↔ (P ≤ p ∧ p < P + k) := by omega
          simp [h1, h2, h3]
        · have h1 : P + (k + 1) ≤ p := by omega
          have h2 : P + k ≤ p := by omega
          have h3 : ¬ (P ≤ p ∧ p < P + (k + 1)) := by omega
          have h4 : ¬ (P ≤ p ∧ p < P + k) := by omega
          obtain ⟨d, hd⟩ : ∃ d, p - (P + k) = d + 1 := ⟨p - (P + k) - 1, by omega⟩
          have h5 : p - (P + (k + 1)) = d := by omega
          simp [h1, h2, h3, h4, hd, h5]
    · have hxc : x = !c := by cases x <;> cases c <;> simp at hx ⊢
      rw [runsFrom, if_neg hx, runBlack, ← hxc, ih]
      by_cases hp : p = P + k
      · subst hp
        simp
      · by_cases hlt : p < P + k
        · have h1 : ¬ (P + k + 1 ≤ p) := by omega
          have h2 : ¬ (P + k ≤ p) := by omega
          have h3 : ¬ (P + k ≤ p ∧ p < P + k + 1) := by omega
          simp [h1, h2, h3]
        · have h1 : P + k + 1 ≤ p := by omega
          have h2 : P + k ≤ p := by omega
          have h3 : ¬ (P + k ≤ p ∧ p < P + k + 1) := by omega
          have h4 : ¬ (P ≤ p ∧ p < P + k) := by omega
          obtain ⟨d, hd⟩ : ∃ d, p - (P + k) = d + 1 := ⟨p - (P + k) - 1, by omega⟩
          have h5 : p - (P + k + 1) = d := by omega
          simp [h1, h2, h3, h4, hd, h5]

theorem runsFit_runsFrom (S : Nat) (xs : List Bool) :
    ∀ (c : Bool) (k P : Nat), P < 8 * S → P + k + xs.length ≤ 8 * S →
      (c :: xs).getLast (List.cons_ne_nil _ _) = false →
      runsFit S c P (runsFrom c k xs) = true := by
  induction xs with
  | nil =>
    intro c k P hP _ hlast
    have hc : c = false := by simpa using hlast
    subst hc
    have : P / 8 < S := by omega
    simp [runsFrom, runsFit, this]
  | cons x xs ih =>
    intro c k P hP hlen hlast
    simp only [List.length_cons] at hlen
    have hPS : P / 8 < S := by omega
    by_cases hx : x = c
    · subst hx
      rw [runsFrom, if_pos rfl]
      apply ih x (k + 1) P hP (by omega)
      rw [List.getLast_cons (List.cons_ne_nil _ _)] at hlast
      exact hlast
    · rw [runsFrom, if_neg hx]
      have hxc : (!c) = x := by cases x <;> cases c <;> simp at hx ⊢
      have hfit : P + k < 8 * S := by omega
      have hrec := ih x 1 (P + k) hfit (by omega)
        (by rw [List.getLast_cons (List.cons_ne_nil _ _)] at hlast; exact hlast)
      simp [runsFit, hPS, hfit, hxc, hrec]

theorem runsFrom_pos (xs : List Bool) :
    ∀ (c : Bool) (k : Nat), ∃ r0 rs, runsFrom c k xs = r0 :: rs ∧ k ≤ r0 ∧ ∀ r ∈ rs, 1 ≤ r := by
  induction xs with
  | nil => intro c k; exact ⟨k, [], rfl, Nat.le_refl _, by simp⟩
  | cons x xs ih =>
    intro c k
    by_cases hx : x = c
    · obtain ⟨r0, rs, h1, h2, h3⟩ := ih c (k + 1)
      refine ⟨r0, rs, ?_, by omega, h3⟩
      rw [runsFrom, if_pos hx, h1]
    · obtain ⟨r0, rs, h1, h2, h3⟩ := ih x 1
      refine ⟨k, r0 :: rs, ?_, Nat.le_refl _, ?_⟩
      · rw [runsFrom, if_neg hx, h1]
      · intro r hr
        rcases List.mem_cons.1 hr with rfl | hr
        · exact h2
        · exact h3 r hr

/-! ## Pixel buffers and their bits -/

theorem dataBits_getD (buf : List Byte) (p : Nat) :
    (dataBits buf).getD p false = getBit buf p := by
  unfold dataBits
  rw [List.getD_eq_getElem?_getD]
  by_cases hp : p < 8 * buf.length
  · rw [List.getElem?_map, List.getElem?_range hp]
    rfl
  · rw [List.getElem?_eq_none (by simpa using hp)]
    unfold getBit
    rw [List.getD_eq_getElem?_getD, List.getElem?_eq_none (by omega)]
    exact (Nat.zero_testBit _).symm

theorem dataBits_length (buf : List Byte) : (dataBits buf).length = 8 * buf.length := by
  simp [dataBits]

/-! ## Bitmap round trip -/

theorem encodeValue_length_pos (n v : Nat) (hn : 1 ≤ n) : 1 ≤ (encodeValue n v).length := by
  obtain ⟨h1, _, _⟩ := numChunks_spec n v hn
  rw [encodeValue, List.length_append, natBits_length]
  have : 1 * 1 ≤ numChunks n v * n := Nat.mul_le_mul h1 hn
  omega

theorem rl2_runs_encoded {res : List Byte} {n : Nat} (vs : List Nat) :
    ∀ (fuel pad : Nat) (rl2 : Rl2Unpacker), (∀ v ∈ vs, 1 ≤ v ∧ v < 2147483648) →
      Unread res n (encodeValues n vs ++ List.replicate pad false) rl2 →
      (encodeValues n vs ++ List.replicate pad false).length < fuel →
      rl2_runs fuel rl2 = Except.ok (List.map (fun (v : Nat) => (v : Int)) vs) := by
  induction vs with
  | nil =>
    intro fuel pad rl2 _ h hf
    obtain ⟨f, rfl⟩ : ∃ f, fuel = f + 1 := ⟨fuel - 1, by omega⟩
    simp only [encodeValues, List.flatMap_nil, List.nil_append] at h
    obtain ⟨rl2', h1, _, _⟩ := rl2unpacker_getc_all_zero h (by simp)
    rw [rl2_runs_succ_eof _ _ _ h1]
    rfl
  | cons v vs ih =>
    intro fuel pad rl2 hv h hf
    have hnpos := unread_n_pos h
    obtain ⟨f, rfl⟩ : ∃ f, fuel = f + 1 := ⟨fuel - 1, by omega⟩
    have hv1 : 1 ≤ v := (hv v (List.mem_cons_self _ _)).1
    have hv2 : v < 2147483648 := (hv v (List.mem_cons_self _ _)).2
    have henc : encodeValues n (v :: vs) ++ List.replicate pad false =
        List.replicate ((numChunks n v - 1) * n) false ++
          (natBits (numChunks n v * n) v ++ (encodeValues n vs ++ List.replicate pad false)) := by
      simp [encodeValues, encodeValue, List.append_assoc]
    have hlen : (encodeValues n (v :: vs) ++ List.replicate pad false).length =
        (encodeValue n v).length + (encodeValues n vs ++ List.replicate pad false).length := by
      simp [encodeValues, List.append_assoc]
    have hpos := encodeValue_length_pos n v hnpos.1
    obtain ⟨hc1, _, _⟩ := numChunks_spec n v hnpos.1
    have hz : numChunks n v - 1 + 1 = numChunks n v := by omega
    obtain ⟨rl2', h1, h2⟩ := rl2unpacker_getc_value (numChunks n v - 1) h henc
      (encodeValue_top n v hnpos.1 hv1 _)
      (by rw [hz, List.length_append, natBits_length]; omega)
    rw [hz, encodeValue_val n v hnpos.1, int32_eq (v : Int) (by omega) (by omega)] at h1
    rw [hz, List.drop_append_of_le_length (by rw [natBits_length]),
      List.drop_eq_nil_of_le (by rw [natBits_length]), List.nil_append] at h2
    have h3 := ih f pad rl2' (fun w hw => hv w (List.mem_cons_of_mem _ hw)) h2 (by omega)
    rw [rl2_runs_succ_value _ _ _ _ h1 (byte_ne_EOF v), h3]
    rfl

theorem rle_stride_le (w : Byte) : rle_stride w.val < 256 := by
  have := w.isLt
  unfold rle_stride
  omega

theorem runsFrom_le (xs : List Bool) :
    ∀ (c : Bool) (k : Nat), ∀ v ∈ runsFrom c k xs, v ≤ k + xs.length := by
  induction xs with
  | nil =>
    intro c k v hv
    simp only [runsFrom, List.mem_singleton] at hv
    omega
  | cons x xs ih =>
    intro c k v hv
    by_cases hx : x = c
    · rw [runsFrom, if_pos hx] at hv
      have := ih c (k + 1) v hv
      simp only [List.length_cons]
      omega
    · rw [runsFrom, if_neg hx] at hv
      rcases List.mem_cons.1 hv with rfl | hv
      · omega
      · have := ih x 1 v hv
        simp only [List.length_cons]
        omega

/-- The run lengths of a buffer of `stride * h` bytes, the first increased by
one, are positive and no sum of the decoder loop overflows on them. -/
theorem runs_small (w h : Byte) (buf : List Byte) (r0 : Nat) (rs : List Nat)
    (hlen : buf.length = rle_stride w.val * h.val)
    (hr : runsFrom false 0 (dataBits buf) = r0 :: rs) (hrs : ∀ v ∈ rs, 1 ≤ v) :
    (∀ v ∈ (r0 + 1) :: rs, 1 ≤ v ∧ v < 2147483648) ∧
      NoOverflow (List.map (fun (v : Nat) => (v : Int)) rs) := by
  have hle := runsFrom_le (dataBits buf) false 0
  rw [hr, dataBits_length, hlen] at hle
  have hst : rle_stride w.val ≤ 32 := by
    have := w.isLt
    unfold rle_stride
    omega
  have hb : rle_stride w.val * h.val ≤ 32 * 255 :=
    Nat.mul_le_mul hst (by have := h.isLt; omega)
  constructor
  · intro v hv
    rcases List.mem_cons.1 hv with rfl | hv
    · have := hle r0 (List.mem_cons_self _ _)
      omega
    · have := hle v (List.mem_cons_of_mem _ hv)
      have := hrs v hv
      omega
  · intro v hv
    obtain ⟨u, hu, rfl⟩ := List.mem_map.1 hv
    have := hle u (List.mem_cons_of_mem _ hu)
    omega

/-- C1, the claim as stated fails. Width 8, height 1, stride 4, `n = 8` and the
buffer `00 00 00 80`, whose last bit is black: its runs are 31 white bits and 1
black bit, so its companion encoding is the header followed by the values 32
and 1. The black run ends on the last bit of the buffer and `rle_bwd_create`
fails an assertion instead of returning the buffer. The empty buffer of width 0
(stride 0) and height 2 fails too: its encoding holds the leading value 1 alone,
and the assertion before the first run finds the cursor at the end of the
buffer. -/
theorem rle_round_trip_fails :
    (rle_encode 8 8 1 [0, 0, 0, 0x80] = [8, 1, 4, 8, 32, 1] ∧
      rle_bwd_create (rle_encode 8 8 1 [0, 0, 0, 0x80]) = Except.error Fault.assertion) ∧
    (rle_encode 4 0 2 [] = [0, 2, 0, 4, 0x10] ∧
      rle_bwd_create (rle_encode 4 0 2 []) = Except.error Fault.assertion) := by
  decide

/-- C1 as amended. Bitmap round trip: for every chunk width `n` in {1,2,4,8},
every width `w` and height `h` in 0..255 with stride `ceil(w / 32) * 4` and
every pixel buffer of `stride * h` bytes that is not empty and whose last bit
(bit 7 of the last byte) is white, `rle_bwd_create` applied to the companion
encoding of the buffer returns the raster with that header whose data bytes are
the buffer. -/
theorem rle_round_trip (n : Nat) (w h : Byte) (buf : List Byte)
    (hn : n = 1 ∨ n = 2 ∨ n = 4 ∨ n = 8) (hlen : buf.length = rle_stride w.val * h.val)
    (hne : buf ≠ []) (hlast : getBit buf (8 * buf.length - 1) = false) :
    rle_bwd_create (rle_encode n w h buf) =
      Except.ok (BitmapWithData.mk (some
        (GBitmap.mk (rle_stride w.val : Int) (w.val : Int) (h.val : Int) buf))) := by
  have hst : (byteOfNat (rle_stride w.val)).val = rle_stride w.val :=
    Nat.mod_eq_of_lt (rle_stride_le w)
  have hnb : (byteOfNat n).val = n := by
    rcases hn with h | h | h | h <;> subst h <;> rfl
  have hn' : (byteOfNat n).val = 1 ∨ (byteOfNat n).val = 2 ∨ (byteOfNat n).val = 4 ∨
      (byteOfNat n).val = 8 := by rw [hnb]; exact hn
  have hS : h.val * (byteOfNat (rle_stride w.val)).val = buf.length := by
    rw [hst, hlen, Nat.mul_comm]
  have hbl : 0 < buf.length := List.length_pos.2 hne
  -- the runs of the buffer
  obtain ⟨r0, rs, hr, _, hrs⟩ := runsFrom_pos (dataBits buf) false 0
  have hvs : bumpFirst (runLengths (dataBits buf)) = (r0 + 1) :: rs := by
    rw [runLengths, hr]; rfl
  obtain ⟨hpos, htame⟩ := runs_small w h buf r0 rs hlen hr hrs
  -- the run stream of the encoding
  obtain ⟨rl2, hunp, hun⟩ := rle_unpacker_ok w h (byteOfNat (rle_stride w.val)) (byteOfNat n)
    (rl2_pack n ((r0 + 1) :: rs)) hn'
  have hruns : rle_runs (rle_encode n w h buf) =
      Except.ok (((r0 + 1 : Nat) : Int) :: List.map (fun (v : Nat) => (v : Int)) rs) := by
    rw [rle_encode, hvs]
    simp only [rle_runs, hunp]
    rw [hnb, rl2_pack, streamBits_packBits _ (padBits_length _), padBits] at hun
    have := rl2_runs_encoded ((r0 + 1) :: rs) (rl2_steps rl2 + 1) _ rl2 hpos hun
      (by have := unread_steps hun; omega)
    rw [this]; rfl
  rw [rle_encode, hvs] at hruns ⊢
  obtain ⟨e4, _⟩ := rle_bwd_create_spec w h (byteOfNat (rle_stride w.val)) (byteOfNat n)
    (rl2_pack n ((r0 + 1) :: rs)) hn' _ _ hruns (by omega) htame
  · have hc0 : (((r0 + 1 : Nat) : Int) - 1).toNat = r0 := by omega
    have hcs : List.map Int.toNat (List.map (fun (v : Nat) => (v : Int)) rs) = rs := by
      rw [List.map_map]
      conv_rhs => rw [← List.map_id rs]
      apply List.map_congr_left
      intro a _
      simp
    rw [hc0, hcs, hS, ← hr] at e4
    have hfit : runsFit buf.length false 0 (runsFrom false 0 (dataBits buf)) = true := by
      apply runsFit_runsFrom _ _ false 0 0 (by omega) (by rw [dataBits_length]; omega)
      have hdne : dataBits buf ≠ [] := by
        apply List.length_pos.1
        rw [dataBits_length]
        omega
      rw [List.getLast_cons hdne, List.getLast_eq_getElem]
      have := dataBits_getD buf (8 * buf.length - 1)
      rw [List.getD_eq_getElem?_getD,
        List.getElem?_eq_getElem (by rw [dataBits_length]; omega)] at this
      simp only [dataBits_length]
      rw [← hlast]
      simpa using this
    obtain ⟨data, d1, d2, d3⟩ := e4 hfit
    have hdata : data = buf := by
      apply bytes_ext_of_getBit _ _ d2
      intro p
      rw [d3, runBlack_runsFrom, dataBits_getD]
      simp
    rw [d1, hdata, hst]

/-- C1 as amended, at the spec's worked example: width 8, height 1, stride 4,
`n = 1` and the buffer `18 00 00 00`. -/
theorem rle_round_trip_witness :
    ((1 : Nat) = 1 ∨ (1 : Nat) = 2 ∨ (1 : Nat) = 4 ∨ (1 : Nat) = 8) ∧
    ([0x18, 0, 0, 0] : List Byte).length = rle_stride (8 : Byte).val * (1 : Byte).val ∧
    ([0x18, 0, 0, 0] : List Byte) ≠ [] ∧
    getBit [0x18, 0, 0, 0] (8 * ([0x18, 0, 0, 0] : List Byte).length - 1) = false ∧
    rle_bwd_create (rle_encode 1 8 1 [0x18, 0, 0, 0]) =
      Except.ok (BitmapWithData.mk (some
        (GBitmap.mk (rle_stride (8 : Byte).val : Int) ((8 : Byte).val : Int)
          ((1 : Byte).val : Int) [0x18, 0, 0, 0]))) :=
  ⟨by decide, by decide, by decide, by decide,
    rle_round_trip 1 8 1 [0x18, 0, 0, 0] (by decide) (by decide) (by decide) (by decide)⟩

/-! ## The horizontal flip -/

theorem reverse_bits_twice : ∀ b : Byte, reverse_bits (reverse_bits b) = b := by
  decide!

theorem reverse_bits_testBit : ∀ b : Byte, ∀ i : Fin 8,
    (reverse_bits b).val.testBit i.val = b.val.testBit (7 - i.val) := by
  decide!

theorem load_getD (data : List Byte) (i : Nat) (h : i < data.length) :
    load data (i : Int) = Except.ok (data.getD i 0) := by
  unfold load
  rw [if_pos ⟨by omega, by omega⟩]
  rfl

theorem flip_row_done (row width_bytes : Int) (fuel : Nat) (data : List Byte) (x1 : Int)
    (h : x1 < 0) : flip_row row width_bytes (fuel + 1) data x1 = Except.ok data := by
  unfold flip_row
  rw [if_neg (by omega)]

theorem flip_row_step (r k t : Nat) (fuel : Nat) (d : List Byte)
    (ht : 2 * t + 1 ≤ k) (hlen : r + k ≤ d.length) :
    flip_row (r : Int) (k : Int) (fuel + 1) d (t : Int) =
      flip_row (r : Int) (k : Int) fuel
        ((d.set (r + t) (reverse_bits (d.getD (r + (k - 1 - t)) 0))).set (r + (k - 1 - t))
          (reverse_bits (d.getD (r + t) 0))) ((t : Int) - 1) := by
  rw [flip_row]
  rw [if_pos (by omega)]
  have e1 : (r : Int) + (t : Int) = ((r + t : Nat) : Int) := by push_cast; ring
  have e2 : (r : Int) + ((k : Int) - 1 - (t : Int)) = ((r + (k - 1 - t) : Nat) : Int) := by
    omega
  simp only [e1, e2]
  rw [load_getD _ _ (by omega), load_getD _ _ (by omega)]
  simp only []
  rw [store_nat _ _ _ (by omega)]
  simp only []
  rw [store_nat _ _ _ (by rw [List.length_set]; omega)]

theorem getD_set (d : List Byte) (i j : Nat) (v : Byte) (hi : i < d.length) :
    (d.set i v).getD j 0 = if j = i then v else d.getD j 0 := by
  rw [List.getD_eq_getElem?_getD, List.getD_eq_getElem?_getD, List.getElem?_set]
  by_cases h : i = j
  · subst h
    simp [hi]
  · rw [if_neg h, if_neg (fun e => h e.symm)]

theorem flip_row_spec (r k : Nat) (t : Nat) : ∀ (fuel : Nat) (d : List Byte),
    t + 2 ≤ fuel → 2 * t + 1 ≤ k → r + k ≤ d.length →
    ∃ d', flip_row (r : Int) (k : Int) fuel d (t : Int) = Except.ok d' ∧
      d'.length = d.length ∧
      ∀ i, d'.getD i 0 =
        if r ≤ i ∧ i < r + k ∧ (i - r ≤ t ∨ k - 1 - (i - r) ≤ t)
        then reverse_bits (d.getD (r + (k - 1 - (i - r))) 0) else d.getD i 0 := by
  induction t with
  | zero =>
    intro fuel d hf ht hlen
    obtain ⟨f, rfl⟩ : ∃ f, fuel = f + 2 := ⟨fuel - 2, by omega⟩
    have := flip_row_step r k 0 (f + 1) d ht hlen
    rw [Nat.cast_zero] at this ⊢
    rw [this, flip_row_done _ _ _ _ _ (by omega)]
    refine ⟨_, rfl, by simp, ?_⟩
    intro i
    rw [getD_set _ _ _ _ (by rw [List.length_set]; omega), getD_set _ _ _ _ (by omega)]
    by_cases h1 : i = r + (k - 1 - 0)
    · rw [if_pos h1, if_pos ⟨by omega, by omega, by omega⟩]
      congr 2
      omega
    · rw [if_neg h1]
      by_cases h2 : i = r + 0
      · rw [if_pos h2, if_pos ⟨by omega, by omega, by omega⟩]
        congr 2
        omega
      · rw [if_neg h2, if_neg (by omega)]
  | succ t ih =>
    intro fuel d hf ht hlen
    obtain ⟨f, rfl⟩ : ∃ f, fuel = f + 1 := ⟨fuel - 1, by omega⟩
    have hstep := flip_row_step r k (t + 1) f d ht hlen
    have hcast : (((t + 1 : Nat) : Int) - 1) = (t : Int) := by omega
    rw [hcast] at hstep
    obtain ⟨d', h1, h2, h3⟩ := ih f
      ((d.set (r + (t + 1)) (reverse_bits (d.getD (r + (k - 1 - (t + 1))) 0))).set
        (r + (k - 1 - (t + 1))) (reverse_bits (d.getD (r + (t + 1)) 0)))
      (by omega) (by omega) (by rw [List.length_set, List.length_set]; exact hlen)
    refine ⟨d', by rw [hstep, h1], by rw [h2, List.length_set, List.length_set], ?_⟩
    intro i
    rw [h3 i]
    have hs1 : r + (k - 1 - (t + 1)) < (d.set (r + (t + 1))
        (reverse_bits (d.getD (r + (k - 1 - (t + 1))) 0))).length := by
      rw [List.length_set]; omega
    have hs2 : r + (t + 1) < d.length := by omega
    by_cases c1 : r ≤ i ∧ i < r + k ∧ (i - r ≤ t ∨ k - 1 - (i - r) ≤ t)
    · rw [if_pos c1, if_pos ⟨c1.1, c1.2.1, by omega⟩, getD_set _ _ _ _ hs1,
        getD_set _ _ _ _ hs2, if_neg (by omega), if_neg (by omega)]
    · rw [if_neg c1, getD_set _ _ _ _ hs1, getD_set _ _ _ _ hs2]
      by_cases h1 : i = r + (k - 1 - (t + 1))
      · rw [if_pos h1, if_pos ⟨by omega, by omega, by omega⟩]
        congr 2
        omega
      · rw [if_neg h1]
        by_cases h2 : i = r + (t + 1)
        · rw [if_pos h2, if_pos ⟨by omega, by omega, by omega⟩]
          congr 2
          omega
        · rw [if_neg h2, if_neg (by omega)]

theorem row_cases (st q y : Nat) :
    (q < y ∧ q * st + st ≤ y * st) ∨ q = y ∨ (y < q ∧ y * st + st ≤ q * st) := by
  rcases Nat.lt_trichotomy q y with h | h | h
  · left
    have := Nat.mul_le_mul_right st (Nat.succ_le_of_lt h)
    rw [Nat.succ_mul] at this
    exact ⟨h, this⟩
  · right; left; exact h
  · right; right
    have := Nat.mul_le_mul_right st (Nat.succ_le_of_lt h)
    rw [Nat.succ_mul] at this
    exact ⟨h, this⟩

theorem flip_rows_done (data height width_bytes stride : Int) (fuel : Nat) (mem : List Byte)
    (y : Int) (h : ¬ y < height) :
    flip_rows data height width_bytes stride (fuel + 1) mem y = Except.ok mem := by
  unfold flip_rows
  rw [if_neg h]

theorem flip_rows_step (data height width_bytes stride : Int) (fuel : Nat) (mem mem' : List Byte)
    (y : Int) (h : y < height)
    (hrow : flip_row (data + y * stride) width_bytes ((c_div (width_bytes - 1) 2).toNat + 2) mem
      (c_div (width_bytes - 1) 2) = Except.ok mem') :
    flip_rows data height width_bytes stride (fuel + 1) mem y =
      flip_rows data height width_bytes stride fuel mem' (y + 1) := by
  rw [flip_rows, if_pos h]
  simp only [hrow]

/-- The rows of a block whose pixel bytes start at offset `o`: for a positive
byte width `k ≤ st` the loop over the rows from `y` on returns, and byte `i` of
the pixel data is the bit-reversed mirror byte of its row when it lies in one
of the first `k` bytes of a row `≥ y`; every other byte of the block keeps its
value. -/
theorem flip_rows_spec (o h k st : Nat) (hk : 1 ≤ k) (hks : k ≤ st) (m : Nat) :
    ∀ (y fuel : Nat) (d : List Byte), y + m = h → m + 1 ≤ fuel → o + h * st ≤ d.length →
    ∃ d', flip_rows (o : Int) (h : Int) (k : Int) (st : Int) fuel d (y : Int) = Except.ok d' ∧
      d'.length = d.length ∧
      (∀ i, d'.getD (o + i) 0 =
        if y ≤ i / st ∧ i / st < h ∧ i % st < k
        then reverse_bits (d.getD (o + (i / st * st + (k - 1 - i % st))) 0)
        else d.getD (o + i) 0) ∧
      ∀ i, i < o → d'.getD i 0 = d.getD i 0 := by
  induction m with
  | zero =>
    intro y fuel d hy hf hlen
    obtain ⟨f, rfl⟩ : ∃ f, fuel = f + 1 := ⟨fuel - 1, by omega⟩
    refine ⟨d, flip_rows_done _ _ _ _ _ _ _ (by omega), rfl, ?_, fun _ _ => rfl⟩
    intro i
    rw [if_neg (by omega)]
  | succ m ih =>
    intro y fuel d hy hf hlen
    obtain ⟨f, rfl⟩ : ∃ f, fuel = f + 1 := ⟨fuel - 1, by omega⟩
    have hdiv : c_div ((k : Int) - 1) 2 = (((k - 1) / 2 : Nat) : Int) := by
      unfold c_div
      have : ((k : Int) - 1) = ((k - 1 : Nat) : Int) := by omega
      rw [this]
      rfl
    have hyh : (y + 1) * st ≤ h * st := Nat.mul_le_mul_right st (by omega)
    rw [Nat.succ_mul] at hyh
    obtain ⟨d1, e1, l1, s1⟩ := flip_row_spec (o + y * st) k ((k - 1) / 2) ((k - 1) / 2 + 2) d
      (by omega) (by omega) (by omega)
    have hrow : flip_row ((o : Int) + (y : Int) * (st : Int)) (k : Int)
        ((c_div ((k : Int) - 1) 2).toNat + 2) d (c_div ((k : Int) - 1) 2) = Except.ok d1 := by
      have e : (o : Int) + (y : Int) * (st : Int) = ((o + y * st : Nat) : Int) := by
        push_cast; ring
      rw [hdiv, Int.toNat_ofNat, e]
      exact e1
    obtain ⟨d2, e2, l2, s2, t2⟩ := ih (y + 1) f d1 (by omega) (by omega) (by omega)
    refine ⟨d2, ?_, by rw [l2, l1], ?_, ?_⟩
    · rw [flip_rows_step _ _ _ _ _ _ _ _ (by omega) hrow]
      exact e2
    · intro i
      rw [s2 i]
      have hdm := Nat.div_add_mod i st
      have hmod : i % st < st := Nat.mod_lt _ (by omega)
      rw [Nat.mul_comm] at hdm
      rcases row_cases st (i / st) y with ⟨c, hc⟩ | c | ⟨c, hc⟩
      · rw [if_neg (by omega), if_neg (by omega), s1 (o + i), if_neg (by omega)]
      · rw [if_neg (by omega), s1 (o + i)]
        rw [c] at hdm ⊢
        by_cases hj : i % st < k
        · rw [if_pos ⟨by omega, by omega, by omega⟩, if_pos ⟨le_refl _, by omega, hj⟩]
          congr 2
          omega
        · rw [if_neg (by omega), if_neg (by omega)]
      · by_cases hj : i / st < h ∧ i % st < k
        · rw [if_pos ⟨by omega, hj.1, hj.2⟩, if_pos ⟨by omega, hj.1, hj.2⟩, s1, if_neg (by omega)]
        · rw [if_neg (by omega), if_neg (by omega), s1 (o + i), if_neg (by omega)]
    · intro i hi
      rw [t2 i hi, s1 i, if_neg (by omega)]

theorem getD_ext (a b : List Byte) (hlen : a.length = b.length)
    (h : ∀ i, a.getD i 0 = b.getD i 0) : a = b := by
  apply List.ext_getElem hlen
  intro i h1 h2
  have := h i
  rw [List.getD_eq_getElem?_getD, List.getD_eq_getElem?_getD, List.getElem?_eq_getElem h1,
    List.getElem?_eq_getElem h2] at this
  simpa using this

theorem getD_drop (l : List Byte) (n i : Nat) : (l.drop n).getD i 0 = l.getD (n + i) 0 := by
  rw [List.getD_eq_getElem?_getD, List.getD_eq_getElem?_getD, List.getElem?_drop]

theorem getD_append_right (a b : List Byte) (i : Nat) :
    (a ++ b).getD (a.length + i) 0 = b.getD i 0 := by
  rw [← getD_drop, List.drop_left]

theorem getD_append_left (a b : List Byte) (i : Nat) (h : i < a.length) :
    (a ++ b).getD i 0 = a.getD i 0 := by
  rw [List.getD_eq_getElem?_getD, List.getD_eq_getElem?_getD, List.getElem?_append_left h]

/-- A block whose first bytes are those of `hd` is `hd` followed by the rest. -/
theorem take_eq_of_getD (mem hd : List Byte) (hlen : hd.length ≤ mem.length)
    (h : ∀ i, i < hd.length → mem.getD i 0 = hd.getD i 0) : mem.take hd.length = hd := by
  apply getD_ext
  · rw [List.length_take]; omega
  · intro i
    by_cases hi : i < hd.length
    · rw [← h i hi, List.getD_eq_getElem?_getD, List.getD_eq_getElem?_getD,
        List.getElem?_take_of_lt hi]
    · rw [List.getD_eq_getElem?_getD, List.getD_eq_getElem?_getD,
        List.getElem?_eq_none (by rw [List.length_take]; omega),
        List.getElem?_eq_none (by omega)]

theorem flip_bitmap_x_spec (h k st : Nat) (d : List Byte) (hk : 1 ≤ k) (hks : k ≤ st)
    (hlen : h * st ≤ d.length) :
    ∃ d', flip_bitmap_x (GBitmap.mk (st : Int) ((8 * k : Nat) : Int) (h : Int) d) =
        Except.ok (GBitmap.mk (st : Int) ((8 * k : Nat) : Int) (h : Int) d') ∧
      d'.length = d.length ∧
      ∀ i, d'.getD i 0 =
        if i / st < h ∧ i % st < k
        then reverse_bits (d.getD (i / st * st + (k - 1 - i % st)) 0) else d.getD i 0 := by
  have hhd : (bitmap_header (st : Int) ((8 * k : Nat) : Int) (h : Int)).length = 12 := rfl
  obtain ⟨m', e, l, s, t⟩ := flip_rows_spec 12 h k st hk hks h 0 (h + 1)
    (bitmap_header (st : Int) ((8 * k : Nat) : Int) (h : Int) ++ d) (by omega) (by omega)
    (by rw [List.length_append, hhd]; omega)
  have htake : m'.take 12 = bitmap_header (st : Int) ((8 * k : Nat) : Int) (h : Int) := by
    have := take_eq_of_getD m' (bitmap_header (st : Int) ((8 * k : Nat) : Int) (h : Int))
      (by rw [l, List.length_append]; omega)
      (fun i hi => by rw [t i (by omega), getD_append_left _ _ _ hi])
    rw [hhd] at this
    exact this
  refine ⟨m'.drop 12, ?_, by rw [List.length_drop, l, List.length_append, hhd]; omega, ?_⟩
  · have hdiv : c_div ((8 * k : Nat) : Int) 8 = (k : Int) := by
      unfold c_div
      rw [← Int.ofNat_eq_coe, ← Int.ofNat_eq_coe]
      show Int.ofNat (8 * k / 8) = Int.ofNat k
      rw [Nat.mul_div_cancel_left k (by norm_num)]
    rw [Nat.cast_zero] at e
    have hrun : flip_rows ((12 : Nat) : Int) (h : Int) (c_div ((8 * k : Nat) : Int) 8) (st : Int)
        ((h : Int).toNat + 1)
        (bitmap_header (st : Int) ((8 * k : Nat) : Int) (h : Int) ++ d) 0 = Except.ok m' := by
      rw [hdiv, Int.toNat_ofNat]
      exact e
    show (match flip_rows ((12 : Nat) : Int) (h : Int) (c_div ((8 * k : Nat) : Int) 8) (st : Int)
        ((h : Int).toNat + 1)
        (bitmap_header (st : Int) ((8 * k : Nat) : Int) (h : Int) ++ d) 0 with
      | Except.error e => Except.error e
      | Except.ok mem =>
        Except.ok (GBitmap.in_block (st : Int) ((8 * k : Nat) : Int) (h : Int) (mem.drop 12)
          (mem.take 12))) = _
    rw [hrun]
    show Except.ok (GBitmap.in_block _ _ _ (m'.drop 12) (m'.take 12)) = _
    rw [htake]
    rfl
  · intro i
    have e1 : ∀ j, (bitmap_header (st : Int) ((8 * k : Nat) : Int) (h : Int) ++ d).getD (12 + j) 0 =
        d.getD j 0 := by
      intro j
      rw [← hhd]
      exact getD_append_right _ _ _
    rw [getD_drop, s i, e1, e1]
    simp

theorem row_index (st q j : Nat) (hj : j < st) : (q * st + j) / st = q ∧ (q * st + j) % st = j := by
  constructor
  · apply Nat.div_eq_of_lt_le
    · omega
    · rw [Nat.succ_mul]; omega
  · rw [Nat.add_comm, Nat.add_mul_mod_self_right, Nat.mod_eq_of_lt hj]

/-- The horizontal flip on a raster of positive width `8 * k` with `k ≤ stride`
and a buffer of `height * stride` bytes: `flip_bitmap_x` returns, touches no
byte outside the buffer, and in every row `y < height` byte `j < k` becomes the
bit-reversed byte `k - 1 - j` of the row before the call while the bytes at
`j ≥ k` are unchanged; so pixel `x < 8 * k` of the row (bit `x % 8` of byte
`x / 8`) is pixel `8 * k - 1 - x` of the row before the call. -/
theorem flip_bitmap_x_mirror (h k st : Nat) (d : List Byte) (hk : 1 ≤ k) (hks : k ≤ st)
    (hlen : d.length = h * st) :
    ∃ d', flip_bitmap_x (GBitmap.mk (st : Int) ((8 * k : Nat) : Int) (h : Int) d) =
        Except.ok (GBitmap.mk (st : Int) ((8 * k : Nat) : Int) (h : Int) d') ∧
      d'.length = d.length ∧
      (∀ y j, y < h → j < st → d'.getD (y * st + j) 0 =
        if j < k then reverse_bits (d.getD (y * st + (k - 1 - j)) 0)
        else d.getD (y * st + j) 0) ∧
      (∀ y x, y < h → x < 8 * k →
        getBit d' (8 * (y * st) + x) = getBit d (8 * (y * st) + (8 * k - 1 - x))) := by
  obtain ⟨d', e, l, s⟩ := flip_bitmap_x_spec h k st d hk hks (by omega)
  have hbytes : ∀ y j, y < h → j < st → d'.getD (y * st + j) 0 =
      if j < k then reverse_bits (d.getD (y * st + (k - 1 - j)) 0)
      else d.getD (y * st + j) 0 := by
    intro y j hy hj
    obtain ⟨r1, r2⟩ := row_index st y j hj
    rw [s, r1, r2]
    by_cases c : j < k
    · rw [if_pos ⟨hy, c⟩, if_pos c]
    · rw [if_neg (by omega), if_neg c]
  refine ⟨d', e, l, hbytes, ?_⟩
  intro y x hy hx
  unfold getBit
  have p1 : (8 * (y * st) + x) / 8 = y * st + x / 8 := by omega
  have p2 : (8 * (y * st) + (8 * k - 1 - x)) / 8 = y * st + (k - 1 - x / 8) := by omega
  have p3 : (8 * (y * st) + (8 * k - 1 - x)) % 8 = 7 - (8 * (y * st) + x) % 8 := by omega
  rw [p1, p2, p3, hbytes y (x / 8) hy (by omega), if_pos (by omega)]
  exact reverse_bits_testBit _ ⟨(8 * (y * st) + x) % 8, Nat.mod_lt _ (by norm_num)⟩

/-- The horizontal flip is an involution on every raster of positive width
`8 * k` with `k ≤ stride` and a buffer of `height * stride` bytes. -/
theorem flip_bitmap_x_involution (h k st : Nat) (d : List Byte) (hk : 1 ≤ k) (hks : k ≤ st)
    (hlen : d.length = h * st) :
    (flip_bitmap_x (GBitmap.mk (st : Int) ((8 * k : Nat) : Int) (h : Int) d)).bind flip_bitmap_x =
      Except.ok (GBitmap.mk (st : Int) ((8 * k : Nat) : Int) (h : Int) d) := by
  obtain ⟨d1, e1, l1, s1⟩ := flip_bitmap_x_spec h k st d hk hks (by omega)
  obtain ⟨d2, e2, l2, s2⟩ := flip_bitmap_x_spec h k st d1 hk hks (by omega)
  rw [e1]
  show flip_bitmap_x _ = _
  rw [e2]
  have : d2 = d := by
    apply getD_ext _ _ (by rw [l2, l1])
    intro i
    rw [s2 i]
    by_cases c : i / st < h ∧ i % st < k
    · obtain ⟨r1, r2⟩ := row_index st (i / st) (k - 1 - i % st) (by omega)
      rw [if_pos c, s1, r1, r2, if_pos ⟨c.1, by omega⟩, reverse_bits_twice]
      congr 1
      have := Nat.div_add_mod i st
      rw [Nat.mul_comm] at this
      omega
    · rw [if_neg c, s1 i, if_neg c]
  rw [this]

/-- C5, the failing input. A raster of width 0 (a multiple of 8), height 1 and
stride 4, as `rle_bwd_create` returns it for the resource `00 01 04 08 01 01`:
its data is `01 00 00 00`. In `flip_bitmap_x` the start index
`(width_bytes - 1) / 2` is `(0 - 1) / 2 = 0` by C's truncating division, so the
loop body runs once with `x1 = 0` and `x2 = -1`: it swaps `row[0]` with
`row[-1]`, the last byte of the bitmap's header in the same block (the high byte
of `size_h`). The call returns with the data `00 00 00 00`: `row[0]`, a byte at
an offset `≥ width / 8`, has changed from `01` to `00`, and the header byte
outside the buffer has changed from `00` to `80`. -/
theorem flip_bitmap_x_width_zero :
    rle_bwd_create [0, 1, 4, 8, 1, 1] =
      Except.ok (BitmapWithData.mk (some (GBitmap.mk 4 0 1 [1, 0, 0, 0]))) ∧
    (GBitmap.mk 4 0 1 [1, 0, 0, 0]).head = [4, 0, 0, 0, 0, 0, 0, 0, 0, 0, 1, 0] ∧
    c_div (c_div 0 8 - 1) 2 = 0 ∧
    flip_bitmap_x (GBitmap.mk 4 0 1 [1, 0, 0, 0]) =
      Except.ok (GBitmap.in_block 4 0 1 [0, 0, 0, 0] [4, 0, 0, 0, 0, 0, 0, 0, 0, 0, 1, 0x80]) := by
  decide

/-- An instance with an odd byte width: a raster of width 24, height 2 and
stride 4 (with padding bytes `aa`, `bb`) flipped once has its three row bytes
reversed and bit-reversed, and flipped twice is unchanged. -/
theorem flip_bitmap_x_example :
    flip_bitmap_x (GBitmap.mk 4 24 2 [0x01, 0x02, 0x07, 0xaa, 0x80, 0x10, 0xff, 0xbb]) =
      Except.ok (GBitmap.mk 4 24 2 [0xe0, 0x40, 0x80, 0xaa, 0xff, 0x08, 0x01, 0xbb]) ∧
    (flip_bitmap_x (GBitmap.mk 4 24 2 [0x01, 0x02, 0x07, 0xaa, 0x80, 0x10, 0xff, 0xbb])).bind
        flip_bitmap_x =
      Except.ok (GBitmap.mk 4 24 2 [0x01, 0x02, 0x07, 0xaa, 0x80, 0x10, 0xff, 0xbb]) := by
  decide
/-! ## The chunk-width check -/

theorem chunk_check_table : ∀ k : Nat, k < 257 →
    decide (((k : Int) - 1) * c_div 8 ((k : Int) - 1) = 8) =
      decide (k = 0 ∨ k = 2 ∨ k = 3 ∨ k = 5 ∨ k = 9) := by
  decide!

theorem chunk_check (n : Int) (h1 : -1 ≤ n) (h2 : n ≤ 255) :
    n * c_div 8 n = 8 ↔ (n = -1 ∨ n = 1 ∨ n = 2 ∨ n = 4 ∨ n = 8) := by
  have ht := chunk_check_table (n + 1).toNat (by omega)
  have hc : (((n + 1).toNat : Nat) : Int) - 1 = n := by omega
  rw [hc] at ht
  have := decide_eq_decide.1 ht
  rw [this]
  omega

theorem rle_header_n (res : List Byte) :
    (rle_header res).n = if h : 3 < res.length then ((res.get ⟨3, h⟩).val : Int) else EOF := by
  simp only [rle_header]
  exact rbuffer_getc_sequential res 3

theorem rl2unpacker_init_pass (rb : RBuffer) (n : Int) (h0 : n ≠ 0) (hp : n * c_div 8 n = 8) :
    ∃ rl2, rl2unpacker_init rb n = Except.ok rl2 ∧ rl2.n = n ∧ rl2.bi = 8 := by
  unfold rl2unpacker_init
  rw [if_neg h0, if_neg (by simpa using hp)]
  exact ⟨_, rfl, rfl, rfl⟩

theorem rl2unpacker_init_fail (rb : RBuffer) (n : Int) (h0 : n ≠ 0) (hp : ¬ n * c_div 8 n = 8) :
    rl2unpacker_init rb n = Except.error Fault.assertion := by
  unfold rl2unpacker_init
  rw [if_neg h0, if_pos hp]

theorem rl2unpacker_init_zero (rb : RBuffer) :
    rl2unpacker_init rb 0 = Except.error Fault.undefined := rfl

/-- C11, the claim as stated fails. The resource `08 01 04` is shorter than four
bytes, so `rle_bwd_create` reads `n = EOF = -1` and passes it to
`rl2unpacker_init`; the check `n * (8 / n) == 8` passes for it
(`-1 * (8 / -1) = -1 * -8 = 8`) although `-1` is none of 1, 2, 4, 8, and
`rl2unpacker_init` returns. -/
theorem rl2unpacker_init_accepts_eof :
    (rle_header [8, 1, 4]).n = -1 ∧ (-1 : Int) * c_div 8 (-1) = 8 ∧
    (rle_unpacker [8, 1, 4]).map (fun rl2 => (rl2.n, rl2.b, rl2.bi)) = Except.ok (-1, EOF, 8) := by
  decide

/-- C11 as amended. The value `n` that `rle_bwd_create` passes to
`rl2unpacker_init` is a header byte 0..255, or `EOF = -1` exactly when the
resource is shorter than four bytes. For every such `n`, `rl2unpacker_init`
passes the check `n * (8 / n) == 8` and returns exactly when `n` is one of
-1, 1, 2, 4, 8. It does not pass for any other value: for `n = 0` the check
divides by zero, and for every other header byte the product is not 8 and the
assertion fails. -/
theorem rl2unpacker_init_check (res : List Byte) :
    (-1 ≤ (rle_header res).n ∧ (rle_header res).n ≤ 255) ∧
    ((rle_header res).n = EOF ↔ res.length < 4) ∧
    ((∃ rl2, rle_unpacker res = Except.ok rl2) ↔
      ((rle_header res).n = -1 ∨ (rle_header res).n = 1 ∨ (rle_header res).n = 2 ∨
        (rle_header res).n = 4 ∨ (rle_header res).n = 8)) ∧
    (((rle_header res).n = -1 ∨ (rle_header res).n = 1 ∨ (rle_header res).n = 2 ∨
        (rle_header res).n = 4 ∨ (rle_header res).n = 8) →
      (rle_header res).n * c_div 8 (rle_header res).n = 8 ∧
      ∃ rl2, rle_unpacker res = Except.ok rl2 ∧ rl2.n = (rle_header res).n ∧ rl2.bi = 8) ∧
    ((rle_header res).n = 0 → rle_unpacker res = Except.error Fault.undefined) ∧
    ((rle_header res).n ≠ 0 →
      ¬ ((rle_header res).n = -1 ∨ (rle_header res).n = 1 ∨ (rle_header res).n = 2 ∨
        (rle_header res).n = 4 ∨ (rle_header res).n = 8) →
      ¬ ((rle_header res).n * c_div 8 (rle_header res).n = 8) ∧
      rle_unpacker res = Except.error Fault.assertion) := by
  have hn := rle_header_n res
  have hrange : -1 ≤ (rle_header res).n ∧ (rle_header res).n ≤ 255 := by
    by_cases hl : 3 < res.length
    · rw [dif_pos hl] at hn
      have := (res.get ⟨3, hl⟩).isLt
      omega
    · rw [dif_neg hl] at hn
      rw [hn]; decide
  have heof : (rle_header res).n = EOF ↔ res.length < 4 := by
    by_cases hl : 3 < res.length
    · rw [dif_pos hl] at hn
      simp only [EOF]
      omega
    · rw [dif_neg hl] at hn
      simp only [EOF] at hn ⊢
      omega
  have hchk := chunk_check _ hrange.1 hrange.2
  have hpass : ((rle_header res).n = -1 ∨ (rle_header res).n = 1 ∨ (rle_header res).n = 2 ∨
        (rle_header res).n = 4 ∨ (rle_header res).n = 8) →
      (rle_header res).n * c_div 8 (rle_header res).n = 8 ∧
      ∃ rl2, rle_unpacker res = Except.ok rl2 ∧ rl2.n = (rle_header res).n ∧ rl2.bi = 8 := by
    intro hset
    exact ⟨hchk.2 hset, rl2unpacker_init_pass _ _ (by omega) (hchk.2 hset)⟩
  have hzero : (rle_header res).n = 0 → rle_unpacker res = Except.error Fault.undefined := by
    intro h0
    rw [rle_unpacker, h0]
    rfl
  have hfail : (rle_header res).n ≠ 0 →
      ¬ ((rle_header res).n = -1 ∨ (rle_header res).n = 1 ∨ (rle_header res).n = 2 ∨
        (rle_header res).n = 4 ∨ (rle_header res).n = 8) →
      ¬ ((rle_header res).n * c_div 8 (rle_header res).n = 8) ∧
      rle_unpacker res = Except.error Fault.assertion := by
    intro h0 hset
    have hf : ¬ ((rle_header res).n * c_div 8 (rle_header res).n = 8) := fun h => hset (hchk.1 h)
    exact ⟨hf, rl2unpacker_init_fail _ _ h0 hf⟩
  refine ⟨hrange, heof, ⟨?_, fun hset => ?_⟩, hpass, hzero, hfail⟩
  · rintro ⟨rl2, hok⟩
    by_contra hset
    by_cases h0 : (rle_header res).n = 0
    · rw [hzero h0] at hok
      exact Except.noConfusion hok
    · rw [(hfail h0 hset).2] at hok
      exact Except.noConfusion hok
  · obtain ⟨_, rl2, h1, _⟩ := hpass hset
    exact ⟨rl2, h1⟩

/-- C11 as amended, at the resources `08 01 04 03` (`n = 3`, the assertion
fails), `08 01 04 00` (`n = 0`, division by zero) and `08 01 04 02` (`n = 2`,
the check passes). -/
theorem rl2unpacker_init_check_witness :
    ((rle_header [8, 1, 4, 3]).n = 3 ∧
      rle_unpacker [8, 1, 4, 3] = Except.error Fault.assertion) ∧
    ((rle_header [8, 1, 4, 0]).n = 0 ∧
      rle_unpacker [8, 1, 4, 0] = Except.error Fault.undefined) ∧
    ((rle_header [8, 1, 4, 2]).n = 2 ∧ ∃ rl2, rle_unpacker [8, 1, 4, 2] = Except.ok rl2) :=
  ⟨⟨by decide, ((rl2unpacker_init_check [8, 1, 4, 3]).2.2.2.2.2 (by decide) (by decide)).2⟩,
    ⟨by decide, (rl2unpacker_init_check [8, 1, 4, 0]).2.2.2.2.1 (by decide)⟩,
    ⟨by decide, (rl2unpacker_init_check [8, 1, 4, 2]).2.2.1.2 (by decide)⟩⟩

/-! ## Bit order of the raster -/

/-- On a run stream on which no sum of the loop overflows, the decoder stores
only inside the pixel buffer: for a full header with `n` in {1,2,4,8} it either
fails an assertion or returns the raster of `stride * height` bytes with the
header as written. -/
theorem rle_no_overflow_outcome (w h st nb : Byte) (rest : List Byte)
    (hn : nb.val = 1 ∨ nb.val = 2 ∨ nb.val = 4 ∨ nb.val = 8) (c0 : Int) (cs : List Int)
    (hruns : rle_runs (w :: h :: st :: nb :: rest) = Except.ok (c0 :: cs))
    (htame : NoOverflow cs) :
    rle_bwd_create (w :: h :: st :: nb :: rest) = Except.error Fault.assertion ∨
      ∃ data, rle_bwd_create (w :: h :: st :: nb :: rest) =
          Except.ok (BitmapWithData.mk (some (GBitmap.mk (st.val : Int) (w.val : Int)
            (h.val : Int) data))) ∧
        data.length = st.val * h.val := by
  by_cases hc0 : 1 ≤ c0
  · obtain ⟨s1, s2⟩ := rle_bwd_create_no_overflow w h st nb rest hn c0 cs hruns hc0 htame
    by_cases hfit : runsFitZ ((h.val * st.val : Nat) : Int) false 0 ((c0 - 1) :: cs) = true
    · obtain ⟨data, d1, d2, _⟩ := s1 hfit
      exact Or.inr ⟨data, d1, by rw [d2, Nat.mul_comm]⟩
    · exact Or.inl (s2 (by simpa using hfit))
  · obtain ⟨rl2, rl2', _, hunp, g1, _, _, _, _, _⟩ := rle_runs_cons w h st nb rest hn c0 cs hruns
    exact Or.inl (rle_bwd_create_count_le _ rl2 rl2' _ c0 hunp (rle_block_long w h st nb rest) g1
      (by omega))

/-- C19, the failing input. The resource `08 01 04 08 01 08 00 00 00 ff ff ff f0
08` has the header width 8, height 1, stride 4, `n = 8` and holds the values 1,
8, `ff ff ff f0` and 8; the third value is `-16` in the 32-bit `int`. After the
white run of 0 bits and the black run of 8 bits the cursor is at byte 1 of the
pixel data (offset 13 of the block). The white run of `-16` bits moves it to
offset 11, the byte `bitmap_data[-1]`; `assert(dp < dp_stop)` passes, and the
black run of 8 bits stores `0xff` at `bitmap_data[-1]`, which is the high byte of
`size_h` in the header. No assertion fails: the decoder returns a raster, with
the height `-255`. -/
theorem rle_store_below_buffer :
    rle_runs [8, 1, 4, 8, 1, 8, 0, 0, 0, 0xff, 0xff, 0xff, 0xf0, 8] =
      Except.ok [1, 8, -16, 8] ∧
    rle_black 16 [4, 0, 0, 0, 0, 0, 0, 0, 8, 0, 1, 0, 0, 0, 0, 0] 12 0 8 =
      Except.ok ([4, 0, 0, 0, 0, 0, 0, 0, 8, 0, 1, 0, 0xff, 0, 0, 0], 13, 0) ∧
    rle_white 13 0 (-16) = (11, 0) ∧
    rle_black 16 [4, 0, 0, 0, 0, 0, 0, 0, 8, 0, 1, 0, 0xff, 0, 0, 0] 11 0 8 =
      Except.ok ([4, 0, 0, 0, 0, 0, 0, 0, 8, 0, 1, 0xff, 0xff, 0, 0, 0], 12, 0) ∧
    rle_bwd_create [8, 1, 4, 8, 1, 8, 0, 0, 0, 0xff, 0xff, 0xff, 0xf0, 8] =
      Except.ok (BitmapWithData.mk (some (GBitmap.in_block 4 8 (-255) [0xff, 0, 0, 0]
        [4, 0, 0, 0, 0, 0, 0, 0, 8, 0, 1, 0xff]))) := by
  decide

/-! ## The bit cursor of the unpacker -/

theorem zero_loop_cursor (n : Int) (h8 : n ∣ 8) (hpos : 1 ≤ n) (fuel : Nat) :
    ∀ (rl2 : Rl2Unpacker) (zc : Int) (r : Option Int) (rl2' : Rl2Unpacker),
      BitCursorOk n rl2 → rl2_zero_loop fuel rl2 zc = Except.ok (r, rl2') → BitCursorOk n rl2' := by
  induction fuel with
  | zero => intro rl2 zc r rl2' _ h; simp [rl2_zero_loop] at h
  | succ f ih =>
    intro rl2 zc r rl2' hc h
    obtain ⟨c1, c2, c3, c4⟩ := hc
    rw [rl2_zero_loop_succ] at h
    split at h
    · split at h
      · have hf : BitCursorOk n (rl2_fetch { rl2 with bi := rl2.bi - rl2.n }) :=
          ⟨c1, by simp [rl2_fetch], by simp [rl2_fetch], by simpa [rl2_fetch] using h8⟩
        split at h
        · simp only [Except.ok.injEq, Prod.mk.injEq] at h
          rw [← h.2]; exact hf
        · exact ih _ _ _ _ hf h
      · rename_i hgt
        have hf : BitCursorOk n { rl2 with bi := rl2.bi - rl2.n } := by
          refine ⟨c1, ?_, ?_, ?_⟩
          · show 1 ≤ rl2.bi - rl2.n; omega
          · show rl2.bi - rl2.n ≤ 8; rw [c1]; omega
          · show n ∣ rl2.bi - rl2.n; rw [c1]; exact Int.dvd_sub c4 (dvd_refl n)
        exact ih _ _ _ _ hf h
    · simp only [Except.ok.injEq, Prod.mk.injEq] at h
      rw [← h.2]; exact ⟨c1, c2, c3, c4⟩

theorem word_loop_cursor (n : Int) (h8 : n ∣ 8) (fuel : Nat) :
    ∀ (rl2 : Rl2Unpacker) (m r : Int) (rl2' : Rl2Unpacker) (m' r' : Int),
      BitCursorOk n rl2 → n ∣ m → rl2_word_loop fuel rl2 m r = Except.ok (rl2', m', r') →
      BitCursorOk n rl2' ∧ n ∣ m' ∧ (rl2'.b ≠ EOF → m' < rl2'.bi) := by
  induction fuel with
  | zero => intro rl2 m r rl2' m' r' _ _ h; simp [rl2_word_loop] at h
  | succ f ih =>
    intro rl2 m r rl2' m' r' hc hm h
    obtain ⟨c1, c2, c3, c4⟩ := hc
    rw [rl2_word_loop_succ] at h
    split at h
    · have hf : BitCursorOk n (rl2_fetch rl2) :=
        ⟨c1, by simp [rl2_fetch], by simp [rl2_fetch], by simpa [rl2_fetch] using h8⟩
      have hm2 : n ∣ m - rl2.bi := Int.dvd_sub hm c4
      split at h
      · rename_i heof
        simp only [Except.ok.injEq, Prod.mk.injEq] at h
        obtain ⟨e1, e2, _⟩ := h
        rw [← e1, ← e2]
        refine ⟨hf, hm2, ?_⟩
        intro hne
        exact absurd heof hne
      · exact ih _ _ _ _ _ _ hf hm2 h
    · rename_i hlt
      simp only [Except.ok.injEq, Prod.mk.injEq] at h
      obtain ⟨e1, e2, _⟩ := h
      rw [← e1, ← e2]
      exact ⟨⟨c1, c2, c3, c4⟩, hm, fun _ => by omega⟩

theorem rl2unpacker_getc_cursor (n : Int) (h8 : n ∣ 8) (hpos : 1 ≤ n) (rl2 rl2' : Rl2Unpacker)
    (v : Int) (hc : BitCursorOk n rl2) (h : rl2unpacker_getc rl2 = Except.ok (v, rl2')) :
    BitCursorOk n rl2' := by
  by_cases hb : rl2.b = EOF
  · rw [rl2unpacker_getc_at_eof rl2 hb] at h
    simp only [Except.ok.injEq, Prod.mk.injEq] at h
    rw [← h.2]; exact hc
  · cases hz : rl2_zero_loop (rl2_steps rl2) rl2 0 with
    | error e =>
      unfold rl2unpacker_getc at h
      rw [if_neg hb] at h
      simp only [hz] at h
      exact absurd h (by simp)
    | ok res =>
      obtain ⟨r, rl2_1⟩ := res
      have hc1 := zero_loop_cursor n h8 hpos _ _ _ _ _ hc hz
      cases r with
      | none =>
        rw [rl2unpacker_getc_none rl2 rl2_1 hb hz] at h
        simp only [Except.ok.injEq, Prod.mk.injEq] at h
        rw [← h.2]; exact hc1
      | some z =>
        cases hw : rl2_word_loop (rl2_steps rl2_1) rl2_1 ((z + 1) * rl2_1.n) 0 with
        | error e =>
          unfold rl2unpacker_getc at h
          rw [if_neg hb] at h
          simp only [hz, hw] at h
          exact absurd h (by simp)
        | ok res2 =>
          obtain ⟨rl2_2, m, r⟩ := res2
          have hdvd : n ∣ (z + 1) * rl2_1.n := by
            rw [hc1.1]; exact Dvd.intro_left _ rfl
          obtain ⟨hc2, hm, _⟩ := word_loop_cursor n h8 _ _ _ _ _ _ _ hc1 hdvd hw
          rw [rl2unpacker_getc_some rl2 rl2_1 rl2_2 z m r hb hz hw] at h
          split at h
          · split at h
            · exact absurd h (by simp)
            · rename_i hm0 hbot
              simp only [Except.ok.injEq, Prod.mk.injEq] at h
              rw [← h.2]
              obtain ⟨d1, d2, d3, d4⟩ := hc2
              refine ⟨d1, ?_, ?_, ?_⟩
              · show 1 ≤ rl2_2.bi - m; omega
              · show rl2_2.bi - m ≤ 8; omega
              · show n ∣ rl2_2.bi - m; exact Int.dvd_sub d4 hm
          · simp only [Except.ok.injEq, Prod.mk.injEq] at h
            rw [← h.2]; exact hc2

theorem rl2unpacker_after_cursor (n : Int) (h8 : n ∣ 8) (hpos : 1 ≤ n) (k : Nat) :
    ∀ (rl2 rl2' : Rl2Unpacker), BitCursorOk n rl2 → rl2unpacker_after k rl2 = Except.ok rl2' →
      BitCursorOk n rl2' := by
  induction k with
  | zero =>
    intro rl2 rl2' hc h
    simp only [rl2unpacker_after, Except.ok.injEq] at h
    rw [← h]; exact hc
  | succ k ih =>
    intro rl2 rl2' hc h
    rw [rl2unpacker_after] at h
    cases hg : rl2unpacker_getc rl2 with
    | error e => rw [hg] at h; exact absurd h (by simp)
    | ok res =>
      obtain ⟨v, rl2_1⟩ := res
      rw [hg] at h
      exact ih _ _ (rl2unpacker_getc_cursor n h8 hpos _ _ _ hc hg) h

/-- C20. The bit-cursor invariant, for `n` in {1,2,4,8} and any byte reader.
(1) `rl2unpacker_init` returns with `bi = 8`, and after it and after every
later `rl2unpacker_getc` call that returns, `1 ≤ bi ≤ 8` and `n` divides `bi`.
(2) A fetch of the next byte sets `bi` to 8, in `rl2unpacker_init` and in both
loops of `rl2unpacker_getc`. (3) At the partial-word step (after the whole-byte
loop, with `m'` bits left to read), whenever the current byte is not `EOF`,
`bottom_count = bi - m'` is positive. -/
theorem rl2unpacker_bit_cursor (n : Nat) (rb : RBuffer) (hn : n = 1 ∨ n = 2 ∨ n = 4 ∨ n = 8) :
    (∃ rl2, rl2unpacker_init rb (n : Int) = Except.ok rl2 ∧ rl2.bi = 8 ∧
      ∀ (k : Nat) (rl2' : Rl2Unpacker), rl2unpacker_after k rl2 = Except.ok rl2' →
        BitCursorOk (n : Int) rl2') ∧
    (rl2unpacker_init rb (n : Int) =
        Except.ok (rl2_fetch { rb := rb, n := (n : Int), b := 0, bi := 0 }) ∧
      (∀ rl2 : Rl2Unpacker, (rl2_fetch rl2).bi = 8 ∧ (rl2_fetch rl2).b = (rbuffer_getc rl2.rb).1) ∧
      (∀ (fuel : Nat) (rl2 : Rl2Unpacker) (zc : Int),
        c_and rl2.b (c_shl (c_shl 1 rl2.n - 1) (rl2.bi - rl2.n)) = 0 → rl2.bi - rl2.n ≤ 0 →
        rl2_zero_loop (fuel + 1) rl2 zc =
          if (rbuffer_getc rl2.rb).1 = EOF then
            Except.ok (none, rl2_fetch { rl2 with bi := rl2.bi - rl2.n })
          else rl2_zero_loop fuel (rl2_fetch { rl2 with bi := rl2.bi - rl2.n }) (zc + 1)) ∧
      (∀ (fuel : Nat) (rl2 : Rl2Unpacker) (m r : Int), m ≥ rl2.bi →
        rl2_word_loop (fuel + 1) rl2 m r =
          if (rbuffer_getc rl2.rb).1 = EOF then
            Except.ok (rl2_fetch rl2, m - rl2.bi,
              int32 (c_or (c_shl r rl2.bi) (c_and rl2.b (c_shl 1 rl2.bi - 1))))
          else rl2_word_loop fuel (rl2_fetch rl2) (m - rl2.bi)
            (int32 (c_or (c_shl r rl2.bi) (c_and rl2.b (c_shl 1 rl2.bi - 1)))))) ∧
    (∀ (fuel : Nat) (rl2 rl2' : Rl2Unpacker) (m r m' r' : Int), BitCursorOk (n : Int) rl2 →
      rl2_word_loop fuel rl2 m r = Except.ok (rl2', m', r') → rl2'.b ≠ EOF → rl2'.bi - m' > 0) := by
  have h8 : (n : Int) ∣ 8 := by
    rcases hn with h | h | h | h <;> subst h <;> decide
  have hpos : (1 : Int) ≤ (n : Int) := by omega
  have hinit := rl2unpacker_init_ok rb n hn
  refine ⟨⟨_, hinit, rfl, ?_⟩, ⟨hinit, fun rl2 => ⟨rfl, rfl⟩, ?_, ?_⟩, ?_⟩
  · intro k rl2' h
    exact rl2unpacker_after_cursor (n : Int) h8 hpos k _ rl2'
      ⟨rfl, by simp [rl2_fetch], by simp [rl2_fetch], by simpa [rl2_fetch] using h8⟩ h
  · intro fuel rl2 zc hz hle
    rw [rl2_zero_loop_succ, if_pos hz, if_pos hle]
  · intro fuel rl2 m r hm
    rw [rl2_word_loop_succ, if_pos hm]
  · intro fuel rl2 rl2' m r m' r' hc h hne
    have hstep : ∀ (f : Nat) (s : Rl2Unpacker) (a b : Int) (s' : Rl2Unpacker) (a' b' : Int),
        rl2_word_loop f s a b = Except.ok (s', a', b') → s'.b ≠ EOF → a' < s'.bi := by
      intro f
      induction f with
      | zero => intro s a b s' a' b' h; simp [rl2_word_loop] at h
      | succ f ih =>
        intro s a b s' a' b' h hne
        rw [rl2_word_loop_succ] at h
        split at h
        · split at h
          · rename_i heof
            simp only [Except.ok.injEq, Prod.mk.injEq] at h
            rw [← h.1] at hne
            exact absurd heof hne
          · exact ih _ _ _ _ _ _ h hne
        · simp only [Except.ok.injEq, Prod.mk.injEq] at h
          rw [← h.1, ← h.2.1]
          omega
    have := hstep fuel rl2 m r rl2' m' r' h hne
    omega

/-- C20 at `n = 4` and the stream `01 23`: after `rl2unpacker_init` and two
calls of `rl2unpacker_getc` the cursor satisfies the invariant. -/
theorem rl2unpacker_bit_cursor_witness :
    ((4 : Nat) = 1 ∨ (4 : Nat) = 2 ∨ (4 : Nat) = 4 ∨ (4 : Nat) = 8) ∧
    (rl2unpacker_init (rbuffer_init [0x01, 0x23]) 4).bind (rl2unpacker_reads 3) =
      Except.ok [0x12, 3, EOF] ∧
    ∃ rl2, rl2unpacker_init (rbuffer_init [0x01, 0x23]) ((4 : Nat) : Int) = Except.ok rl2 ∧
      rl2.bi = 8 ∧
      ∀ (k : Nat) (rl2' : Rl2Unpacker), rl2unpacker_after k rl2 = Except.ok rl2' →
        BitCursorOk ((4 : Nat) : Int) rl2' :=
  ⟨by decide, by decide, (rl2unpacker_bit_cursor 4 (rbuffer_init [0x01, 0x23]) (by decide)).1⟩
/-! ## The render callback -/

/-- The blocks `stop_transition` releases, latest release first. -/
theorem stop_transition_eq (e : Engine) :
    stop_transition e =
      { e with face_transition := false, prev_image := none, sprite_mask := none, sprite := none,
               anim_timer := false,
               released := [e.sprite, e.sprite_mask, e.prev_image].filterMap
                 (fun s => s.map Raster.block) ++ e.released } := by
  obtain ⟨fv, fi, ft, wd, ad, tf, nf, pfv, pi, sm, sp, cx, tm, rs, al, rl⟩ := e
  cases pi <;> cases sm <;> cases sp <;> rfl

theorem stop_transition_idle (e : Engine) : (stop_transition e).face_transition = false := by
  rw [stop_transition_eq]

/-- A render during a transition whose frame counter has not passed the total:
the frame `ti` is the counter before the increment, and the call composites. -/
theorem callback_active (P : Platform) (e : Engine) (hact : e.face_transition = true)
    (hle : e.transition_frame ≤ e.num_transition_frames) :
    face_layer_update_callback P e =
      (face_layer_composite P { e with transition_frame := e.transition_frame + 1 }
          e.transition_frame).map
        (fun ops => (ops, { e with transition_frame := e.transition_frame + 1 })) := by
  obtain ⟨fv, fi, ft, wd, ad, tf, nf, pfv, pi, sm, sp, cx, tm, rs, al, rl⟩ := e
  simp only at hact hle
  subst hact
  have hn : ¬ (tf > nf) := by omega
  unfold face_layer_update_callback
  simp only [if_true, hn, if_false, Bool.not_eq_true, Bool.true_eq_false, not_true_eq_false]
  generalize face_layer_composite P _ tf = r
  cases r <;> rfl

/-- A render during a transition whose frame counter has passed the total: the
transition is stopped and the current face is held. -/
theorem callback_finish (P : Platform) (e : Engine) (hact : e.face_transition = true)
    (hgt : e.transition_frame > e.num_transition_frames) :
    face_layer_update_callback P e =
      Except.ok (face_layer_hold P
          (stop_transition { e with transition_frame := e.transition_frame + 1 }),
        stop_transition { e with transition_frame := e.transition_frame + 1 }) := by
  obtain ⟨fv, fi, ft, wd, ad, tf, nf, pfv, pi, sm, sp, cx, tm, rs, al, rl⟩ := e
  simp only at hact hgt
  subst hact
  unfold face_layer_update_callback
  simp only [if_true, hgt, stop_transition_idle, Bool.not_eq_true]

/-- A render outside a transition holds the current face. -/
theorem callback_idle (P : Platform) (e : Engine) (hidle : e.face_transition = false) :
    face_layer_update_callback P e = Except.ok (face_layer_hold P e, e) := by
  obtain ⟨fv, fi, ft, wd, ad, tf, nf, pfv, pi, sm, sp, cx, tm, rs, al, rl⟩ := e
  simp only at hidle
  subst hidle
  unfold face_layer_update_callback
  simp only [Bool.false_eq_true, if_false, Bool.not_eq_true, if_true, not_false_eq_true]

/-! ## The wipe coordinate -/

theorem wipe_position_spec (e : Engine) (sw f : Int) (h0 : 0 ≤ f) (hsw : 0 ≤ sw)
    (hnum : 0 ≤ e.num_transition_frames) :
    wipe_position e sw f =
      wipe_x_spec f e.num_transition_frames e.wipe_direction sw e.sprite_cx := by
  have hdiv : c_div (f * (SCREEN_WIDTH + sw)) e.num_transition_frames =
      f * (144 + sw) / e.num_transition_frames := by
    unfold c_div SCREEN_WIDTH
    exact Int.tdiv_eq_ediv (Int.mul_nonneg h0 (by omega)) hnum
  unfold wipe_position wipe_x_spec wipe_p_spec wipe_width_spec
  simp only [hdiv]
  cases e.wipe_direction <;> simp [SCREEN_WIDTH]

/-- C13. Wipe coordinate. In an Active render (`face_transition` set, frame
counter `f` with `0 ≤ f ≤ total`, `total = 24`) with a sprite mask of width
`sw ≥ 0` and anchor `sprite_cx`, the coordinate the code computes is
`wipe_x = p - (sw - cx)` with `wipe_width = 144 + sw` and
`p = wipe_width - f * wipe_width / total`, mirrored to `wipe_width - p` when
`wipe_direction` is true; and the render uses it: its calls are the wipe draws
at `wipe_x` followed by the sprite draws at `wipe_x`, and the frame counter
becomes `f + 1`. -/
theorem wipe_coordinate (P : Platform) (e : Engine) (mask : Raster)
    (hact : e.face_transition = true) (h0 : 0 ≤ e.transition_frame)
    (hle : e.transition_frame ≤ e.num_transition_frames) (hnum : e.num_transition_frames = 24)
    (hmask : e.sprite_mask = some mask) (hsw : 0 ≤ mask.image.size_w) :
    wipe_position e mask.image.size_w e.transition_frame =
      wipe_x_spec e.transition_frame 24 e.wipe_direction mask.image.size_w e.sprite_cx ∧
    face_layer_update_callback P e =
      (sprite_ops P { e with transition_frame := e.transition_frame + 1 }
        (wipe_x_spec e.transition_frame 24 e.wipe_direction mask.image.size_w e.sprite_cx)
        e.transition_frame).map
      (fun ops =>
        (wipe_ops { e with transition_frame := e.transition_frame + 1 }
            { P.layer_frame with origin_x := 0, origin_y := 0 }
            (wipe_x_spec e.transition_frame 24 e.wipe_direction mask.image.size_w e.sprite_cx)
          ++ ops,
        { e with transition_frame := e.transition_frame + 1 })) := by
  have hspec := wipe_position_spec e mask.image.size_w e.transition_frame h0 hsw (by omega)
  rw [hnum] at hspec
  refine ⟨hspec, ?_⟩
  rw [callback_active P e hact hle]
  obtain ⟨fv, fi, ft, wd, ad, tf, nf, pfv, pi, sm, sp, cx, tm, rs, al, rl⟩ := e
  simp only at hact hnum hmask hspec ⊢
  subst hact hnum hmask
  have hspec1 : wipe_position
      { face_value := fv, face_image := fi, face_transition := true, wipe_direction := wd,
        anim_direction := ad, transition_frame := tf + 1, num_transition_frames := 24,
        prev_face_value := pfv, prev_image := pi, sprite_mask := some mask, sprite := sp,
        sprite_cx := cx, anim_timer := tm, rand_state := rs, allocated := al, released := rl }
      mask.image.size_w tf = wipe_x_spec tf 24 wd mask.image.size_w cx := hspec
  unfold face_layer_composite
  simp only []
  rw [if_neg (by decide), hspec1]
  generalize sprite_ops P _ _ tf = r
  cases r <;> rfl

/-- C13 at the worked example: `f = 12`, `total = 24`, `wipe_direction = false`,
`sw = 30` give `wipe_width = 174` and `p = 87`; with the anchor 30 the render
draws at `wipe_x = 87`. -/
theorem wipe_coordinate_witness :
    wipe_width_spec 30 = 174 ∧ wipe_p_spec 12 24 false 30 = 87 ∧
    wipe_x_spec 12 24 false 30 30 = 87 ∧
    wipe_position worked_example 30 12 = 87 ∧
    (face_layer_update_callback demo_platform worked_example).map Prod.fst =
      Except.ok
        [DrawOp.set_compositing_mode GCompOp.GCompOpAssign,
          DrawOp.draw_bitmap_in_rect (some 1) (GBitmap.mk 4 8 1 [7, 0, 0, 0]) ⟨0, 0, 144, 168⟩,
          DrawOp.draw_bitmap_in_rect (some 0) (GBitmap.mk 4 8 1 [1, 0, 0, 0]) ⟨0, 0, 87, 168⟩,
          DrawOp.set_compositing_mode GCompOp.GCompOpClear,
          DrawOp.draw_bitmap_in_rect (some 2) (GBitmap.mk 4 30 1 [0, 0, 0, 0]) ⟨57, 83, 30, 1⟩,
          DrawOp.set_compositing_mode GCompOp.GCompOpOr,
          DrawOp.draw_bitmap_in_rect (some 3) (GBitmap.mk 4 30 1 [0, 0, 0, 0]) ⟨57, 83, 30, 1⟩,
          DrawOp.set_compositing_mode GCompOp.GCompOpOr,
          DrawOp.draw_bitmap_in_rect none (GBitmap.mk 4 8 1 [0, 0, 0, 0]) ⟨94, 137, 50, 31⟩] ∧
    face_layer_update_callback demo_platform worked_example =
      (sprite_ops demo_platform { worked_example with transition_frame := 12 + 1 }
        (wipe_x_spec 12 24 false 30 30) 12).map
      (fun ops =>
        (wipe_ops { worked_example with transition_frame := 12 + 1 }
            { demo_platform.layer_frame with origin_x := 0, origin_y := 0 }
            (wipe_x_spec 12 24 false 30 30)
          ++ ops,
        { worked_example with transition_frame := 12 + 1 })) :=
  ⟨by decide, by decide, by decide, by decide, by decide,
    (wipe_coordinate demo_platform worked_example ⟨2, GBitmap.mk 4 30 1 [0, 0, 0, 0]⟩ rfl
      (by decide) (by decide) rfl rfl (by decide)).2⟩

/-! ## The order of the wipe draws -/

/-- C14, the claim as stated fails for `wipe_direction = false`. In the worked
example (frame 12 of 24, sprite width 30, anchor 30, so `wipe_x = 87`) the first
raster drawn is the new face (block 1), full-frame, and the raster drawn on top
of it, clipped to width 87, is the previous face (block 0). At startup (a forced
start from the initial engine, where `wipe_direction` is always false and there
is no previous raster) the render of frame 12 draws the new face full-frame
first and the solid fill on top, clipped to `wipe_x = 128`. -/
theorem wipe_order_new_face_first :
    (face_layer_update_callback demo_platform worked_example).map (fun r => r.1.take 3) =
      Except.ok
        [DrawOp.set_compositing_mode GCompOp.GCompOpAssign,
          DrawOp.draw_bitmap_in_rect (some 1) (GBitmap.mk 4 8 1 [7, 0, 0, 0]) ⟨0, 0, 144, 168⟩,
          DrawOp.draw_bitmap_in_rect (some 0) (GBitmap.mk 4 8 1 [1, 0, 0, 0]) ⟨0, 0, 87, 168⟩] ∧
    ((start_transition demo_platform 3 true (engine_init 0)).bind
        (render_frames demo_platform 13)).map (fun r => (r.1.getD 12 []).take 4) =
      Except.ok
        [DrawOp.set_compositing_mode GCompOp.GCompOpAssign,
          DrawOp.draw_bitmap_in_rect (some 0) (GBitmap.mk 4 8 1 [7, 0, 0, 0]) ⟨0, 0, 144, 168⟩,
          DrawOp.set_fill_color_black,
          DrawOp.fill_rect ⟨0, 0, 128, 168⟩] := by
  decide

/-- C14 as amended. In every Active render that returns, with the new face
raster `fc` present and `wipe_x` the wipe coordinate of the frame: when
`wipe_direction` is true, the face not yet revealed (the previous raster drawn
full-frame, or a solid fill when there is none) is drawn first when
`wipe_x < 144`, and then the new face raster is drawn on top clipped to width
`wipe_x` when `wipe_x > 0`; when `wipe_direction` is false the order is the
other way round: the new face raster is drawn first, full-frame, when
`wipe_x < 144`, and then the previous raster (or the solid fill) is drawn on top
clipped to width `wipe_x` when `wipe_x > 0`. The sprite draws follow. -/
theorem wipe_compositing_order (P : Platform) (e e' : Engine) (ops : List DrawOp) (fc : Raster)
    (hact : e.face_transition = true) (hle : e.transition_frame ≤ e.num_transition_frames)
    (hface : e.face_image = some fc)
    (hok : face_layer_update_callback P e = Except.ok (ops, e')) :
    ∃ (mask : Raster) (rest : List DrawOp), e.sprite_mask = some mask ∧
      sprite_ops P e' (wipe_position e mask.image.size_w e.transition_frame) e.transition_frame =
        Except.ok rest ∧
      (e.wipe_direction = true →
        ops =
          (if wipe_position e mask.image.size_w e.transition_frame < 144 then
            match e.prev_image with
            | some p =>
              [DrawOp.set_compositing_mode GCompOp.GCompOpAssign,
                draw_raster p { P.layer_frame with origin_x := 0, origin_y := 0 }]
            | none =>
              [DrawOp.set_fill_color_black,
                DrawOp.fill_rect { P.layer_frame with origin_x := 0, origin_y := 0 }]
          else []) ++
          (if wipe_position e mask.image.size_w e.transition_frame > 0 then
            [draw_raster fc { P.layer_frame with
                origin_x := 0, origin_y := 0,
                size_w := wipe_position e mask.image.size_w e.transition_frame }]
          else []) ++ rest) ∧
      (e.wipe_direction = false →
        ops =
          (if wipe_position e mask.image.size_w e.transition_frame < 144 then
            [DrawOp.set_compositing_mode GCompOp.GCompOpAssign,
              draw_raster fc { P.layer_frame with origin_x := 0, origin_y := 0 }]
          else []) ++
          (if wipe_position e mask.image.size_w e.transition_frame > 0 then
            match e.prev_image with
            | some p =>
              [draw_raster p { P.layer_frame with
                  origin_x := 0, origin_y := 0,
                  size_w := wipe_position e mask.image.size_w e.transition_frame }]
            | none =>
              [DrawOp.set_fill_color_black,
                DrawOp.fill_rect { P.layer_frame with
                    origin_x := 0, origin_y := 0,
                    size_w := wipe_position e mask.image.size_w e.transition_frame }]
          else []) ++ rest) := by
  rw [callback_active P e hact hle] at hok
  obtain ⟨fv, fi, ft, wd, ad, tf, nf, pfv, pi, sm, sp, cx, tm, rs, al, rl⟩ := e
  simp only at hact hface hle hok ⊢
  subst hact hface
  unfold face_layer_composite at hok
  cases sm with
  | none => simp [Except.map] at hok
  | some mask =>
    simp only at hok
    by_cases hz : nf = 0
    · rw [if_pos hz] at hok; simp [Except.map] at hok
    · rw [if_neg hz] at hok
      cases hs : sprite_ops P
          { face_value := fv, face_image := some fc, face_transition := true,
            wipe_direction := wd, anim_direction := ad, transition_frame := tf + 1,
            num_transition_frames := nf, prev_face_value := pfv, prev_image := pi,
            sprite_mask := some mask, sprite := sp, sprite_cx := cx, anim_timer := tm,
            rand_state := rs, allocated := al, released := rl }
          (wipe_position
            { face_value := fv, face_image := some fc, face_transition := true,
              wipe_direction := wd, anim_direction := ad, transition_frame := tf + 1,
              num_transition_frames := nf, prev_face_value := pfv, prev_image := pi,
              sprite_mask := some mask, sprite := sp, sprite_cx := cx, anim_timer := tm,
              rand_state := rs, allocated := al, released := rl } mask.image.size_w tf) tf with
      | error f => rw [hs] at hok; simp [Except.map] at hok
      | ok rest =>
        rw [hs] at hok
        simp only [Except.map, Except.ok.injEq, Prod.mk.injEq] at hok
        obtain ⟨h1, h2⟩ := hok
        subst h2
        refine ⟨mask, rest, rfl, hs, ?_, ?_⟩
        · intro hwd
          subst hwd
          rw [← h1]
          cases pi <;> simp [wipe_ops, wipe_position, SCREEN_WIDTH]
        · intro hwd
          subst hwd
          rw [← h1]
          cases pi <;> simp [wipe_ops, wipe_position, SCREEN_WIDTH]

/-- C14 as amended, at the worked example (`wipe_direction = false`, `wipe_x = 87`):
the new face is drawn first, full-frame, and the previous face on top, clipped
to width 87. -/
theorem wipe_compositing_order_witness :
    worked_example.face_transition = true ∧
    worked_example.transition_frame ≤ worked_example.num_transition_frames ∧
    worked_example.face_image = some ⟨1, GBitmap.mk 4 8 1 [7, 0, 0, 0]⟩ ∧
    wipe_position worked_example 30 12 = 87 ∧
    ∃ (mask : Raster) (rest : List DrawOp), worked_example.sprite_mask = some mask ∧
      (worked_example.wipe_direction = false →
        [DrawOp.set_compositing_mode GCompOp.GCompOpAssign,
          DrawOp.draw_bitmap_in_rect (some 1) (GBitmap.mk 4 8 1 [7, 0, 0, 0]) ⟨0, 0, 144, 168⟩,
          DrawOp.draw_bitmap_in_rect (some 0) (GBitmap.mk 4 8 1 [1, 0, 0, 0]) ⟨0, 0, 87, 168⟩,
          DrawOp.set_compositing_mode GCompOp.GCompOpClear,
          DrawOp.draw_bitmap_in_rect (some 2) (GBitmap.mk 4 30 1 [0, 0, 0, 0]) ⟨57, 83, 30, 1⟩,
          DrawOp.set_compositing_mode GCompOp.GCompOpOr,
          DrawOp.draw_bitmap_in_rect (some 3) (GBitmap.mk 4 30 1 [0, 0, 0, 0]) ⟨57, 83, 30, 1⟩,
          DrawOp.set_compositing_mode GCompOp.GCompOpOr,
          DrawOp.draw_bitmap_in_rect none (GBitmap.mk 4 8 1 [0, 0, 0, 0]) ⟨94, 137, 50, 31⟩] =
          (if wipe_position worked_example mask.image.size_w worked_example.transition_frame < 144
            then
              [DrawOp.set_compositing_mode GCompOp.GCompOpAssign,
                draw_raster ⟨1, GBitmap.mk 4 8 1 [7, 0, 0, 0]⟩
                  { demo_platform.layer_frame with origin_x := 0, origin_y := 0 }]
          else []) ++
          (if wipe_position worked_example mask.image.size_w worked_example.transition_frame > 0
            then
              match worked_example.prev_image with
              | some p =>
                [draw_raster p { demo_platform.layer_frame with
                    origin_x := 0, origin_y := 0,
                    size_w := wipe_position worked_example mask.image.size_w
                      worked_example.transition_frame }]
              | none =>
                [DrawOp.set_fill_color_black,
                  DrawOp.fill_rect { demo_platform.layer_frame with
                      origin_x := 0, origin_y := 0,
                      size_w := wipe_position worked_example mask.image.size_w
                        worked_example.transition_frame }]
          else []) ++ rest) :=
  ⟨rfl, by decide, rfl, by decide,
    match wipe_compositing_order demo_platform worked_example
      { worked_example with transition_frame := 13 } _ ⟨1, GBitmap.mk 4 8 1 [7, 0, 0, 0]⟩
      rfl (by decide) rfl (by decide) with
    | ⟨mask, rest, h1, _, _, h4⟩ => ⟨mask, rest, h1, h4⟩⟩

/-! ## `start_transition` -/

section StartTransition

attribute [local irreducible] rle_bwd_create flip_bitmap_x

theorem rle_bwd_create_bitmap (res : List Byte) (bwd : BitmapWithData)
    (h : rle_bwd_create res = Except.ok bwd) : ∃ g, bwd = BitmapWithData.mk (some g) := by
  obtain ⟨_, _, _, _, _, _, _, mem, _, _, _, _, h5, _⟩ := rle_bwd_create_sound res bwd h
  exact ⟨_, h5⟩

/-- A call of `rle_bwd_create` that returns gives the raster the next block. -/
theorem rle_bwd_create_block_ok (res : List Byte) (e e' : Engine) (img : Option Raster)
    (h : rle_bwd_create_block res e = Except.ok (img, e')) :
    ∃ g, rle_bwd_create res = Except.ok (BitmapWithData.mk (some g)) ∧
      img = some ⟨e.allocated, g⟩ ∧ e' = { e with allocated := e.allocated + 1 } := by
  unfold rle_bwd_create_block at h
  cases hr : rle_bwd_create res with
  | error f => rw [hr] at h; simp at h
  | ok bwd =>
    obtain ⟨g, rfl⟩ := rle_bwd_create_bitmap res bwd hr
    rw [hr] at h
    simp only [Except.ok.injEq, Prod.mk.injEq] at h
    exact ⟨g, rfl, h.1.symm, h.2.symm⟩

theorem flip_raster_ok (r : Raster) (r' : Option Raster)
    (h : flip_raster (some r) = Except.ok r') : ∃ g, r' = some ⟨r.block, g⟩ := by
  unfold flip_raster at h
  cases hf : flip_bitmap_x r.image with
  | error f => simp [hf] at h
  | ok g =>
    simp only [hf, Except.ok.injEq] at h
    exact ⟨g, h.symm⟩

/-- The fixed sprites: a call that returns has allocated the mask and the body,
in this order, and changed nothing else but the anchor. -/
theorem init_fixed_sprite_ok (mask body : List Byte) (cx : Int) (e e' : Engine)
    (h : init_fixed_sprite mask body cx e = Except.ok e') :
    ∃ (gm gs : GBitmap) (cx' : Int),
      e' = { e with sprite_mask := some ⟨e.allocated, gm⟩, sprite := some ⟨e.allocated + 1, gs⟩,
                    sprite_cx := cx', allocated := e.allocated + 2 } := by
  unfold init_fixed_sprite at h
  cases h1 : rle_bwd_create_block mask e with
  | error f => simp [h1] at h
  | ok r1 =>
    obtain ⟨m, e1⟩ := r1
    obtain ⟨gm, _, rfl, rfl⟩ := rle_bwd_create_block_ok _ _ _ _ h1
    simp only [h1] at h
    cases h2 : rle_bwd_create_block body
        { e with allocated := e.allocated + 1, sprite_mask := some ⟨e.allocated, gm⟩ } with
    | error f => simp [h2] at h
    | ok r2 =>
      obtain ⟨s, e2⟩ := r2
      obtain ⟨gs, _, rfl, rfl⟩ := rle_bwd_create_block_ok _ _ _ _ h2
      simp only [h2] at h
      by_cases hwd : e.wipe_direction = true
      · simp only [hwd, if_true] at h
        cases h3 : flip_raster (some ⟨e.allocated, gm⟩) with
        | error f => simp [h3] at h
        | ok m' =>
          obtain ⟨gm', rfl⟩ := flip_raster_ok _ _ h3
          simp only [h3] at h
          cases h4 : flip_raster (some ⟨e.allocated + 1, gs⟩) with
          | error f => simp [h4] at h
          | ok s' =>
            obtain ⟨gs', rfl⟩ := flip_raster_ok _ _ h4
            simp only [h4, Except.ok.injEq] at h
            refine ⟨gm', gs', gs'.size_w - cx, ?_⟩
            rw [← h]
            simp only [hwd]
      · have hwf : e.wipe_direction = false := by simpa using hwd
        simp only [hwf, Bool.false_eq_true, if_false, Except.ok.injEq] at h
        refine ⟨gm, gs, cx, ?_⟩
        rw [← h]
        simp only [hwf]

theorem init_sprite_zero (P : Platform) (e : Engine) :
    init_sprite P 0 e =
      match rle_bwd_create_block P.RESOURCE_ID_TARDIS_MASK e with
      | Except.error f => Except.error f
      | Except.ok (m, e) => Except.ok { e with sprite_mask := m, sprite_cx := 72 } := by
  unfold init_sprite
  rfl

theorem init_sprite_one (P : Platform) (e : Engine) :
    init_sprite P 1 e = init_fixed_sprite P.RESOURCE_ID_K9_MASK P.RESOURCE_ID_K9 41 e := by
  unfold init_sprite
  rfl

theorem init_sprite_two (P : Platform) (e : Engine) :
    init_sprite P 2 e = init_fixed_sprite P.RESOURCE_ID_DALEK_MASK P.RESOURCE_ID_DALEK 74 e := by
  unfold init_sprite
  rfl

theorem init_sprite_ok (P : Platform) (sel : Nat) (e e' : Engine) (hsel : sel < 3)
    (h : init_sprite P sel e = Except.ok e') :
    (sel = 0 ∧ ∃ gm, rle_bwd_create P.RESOURCE_ID_TARDIS_MASK =
          Except.ok (BitmapWithData.mk (some gm)) ∧
        e' = { e with sprite_mask := some ⟨e.allocated, gm⟩, sprite_cx := 72,
                      allocated := e.allocated + 1 }) ∨
    (∃ (gm gs : GBitmap) (cx' : Int),
      e' = { e with sprite_mask := some ⟨e.allocated, gm⟩, sprite := some ⟨e.allocated + 1, gs⟩,
                    sprite_cx := cx', allocated := e.allocated + 2 }) := by
  match sel, hsel with
  | 0, _ =>
    left
    rw [init_sprite_zero] at h
    cases h1 : rle_bwd_create_block P.RESOURCE_ID_TARDIS_MASK e with
    | error f => simp [h1] at h
    | ok r1 =>
      obtain ⟨m, e1⟩ := r1
      obtain ⟨gm, hg, rfl, rfl⟩ := rle_bwd_create_block_ok _ _ _ _ h1
      simp only [h1, Except.ok.injEq] at h
      exact ⟨rfl, gm, hg, h.symm⟩
  | 1, _ =>
    right
    rw [init_sprite_one] at h
    exact init_fixed_sprite_ok _ _ _ _ _ h
  | 2, _ =>
    right
    rw [init_sprite_two] at h
    exact init_fixed_sprite_ok _ _ _ _ _ h

/-- The shape of the engine after a `start_transition` that returns, in terms
of the engine `e1` after the preemption (`stop_transition` when a transition was
active). -/
theorem start_transition_ok (P : Platform) (f : Int) (fs : Bool) (e e1 e' : Engine)
    (he1 : e1 = if e.face_transition then stop_transition e else e)
    (h : start_transition P f fs e = Except.ok e') :
    ∃ (g0 gm : GBitmap) (sp : Option Raster) (k : Nat) (wd ad : Bool) (rs : Nat) (cx : Int),
      e1.prev_image = none ∧ 0 ≤ f ∧ f < 13 ∧
      rle_bwd_create (P.face_resource_ids.getD f.toNat []) =
        Except.ok (BitmapWithData.mk (some g0)) ∧
      e' = { face_value := f, face_image := some ⟨e1.allocated, g0⟩, face_transition := true,
             wipe_direction := wd, anim_direction := ad, transition_frame := 0,
             num_transition_frames := 24, prev_face_value := e1.face_value,
             prev_image := e1.face_image, sprite_mask := some ⟨e1.allocated + 1, gm⟩,
             sprite := sp, sprite_cx := cx, anim_timer := true, rand_state := rs,
             allocated := e1.allocated + 2 + k, released := e1.released } ∧
      ((sp = e1.sprite ∧ k = 0 ∧ cx = 72 ∧
          rle_bwd_create P.RESOURCE_ID_TARDIS_MASK = Except.ok (BitmapWithData.mk (some gm))) ∨
        (∃ gs, sp = some ⟨e1.allocated + 2, gs⟩ ∧ k = 1)) ∧
      (fs = true → wd = false ∧ ad = false ∧ rs = e1.rand_state ∧ sp = e1.sprite ∧ k = 0 ∧
        cx = 72 ∧
        rle_bwd_create P.RESOURCE_ID_TARDIS_MASK = Except.ok (BitmapWithData.mk (some gm))) := by
  unfold start_transition at h
  rw [← he1] at h
  unfold start_face at h
  by_cases hp : e1.prev_image = none
  swap
  · rw [if_pos hp] at h; simp at h
  rw [if_neg (by simpa using hp)] at h
  by_cases hf : 0 ≤ f ∧ f < 13
  swap
  · rw [if_pos hf] at h; simp at h
  rw [if_neg (by simpa using hf)] at h
  cases h1 : rle_bwd_create_block (P.face_resource_ids.getD f.toNat [])
      { e1 with prev_face_value := e1.face_value, prev_image := e1.face_image,
                face_value := f } with
  | error x => rw [h1] at h; simp at h
  | ok r1 =>
    obtain ⟨img, e2⟩ := r1
    obtain ⟨g0, hg0, rfl, rfl⟩ := rle_bwd_create_block_ok _ _ _ _ h1
    rw [h1] at h
    simp only at h
    unfold start_sprite at h
    cases fs with
    | true =>
      simp only [choose_transition, if_true] at h
      rw [init_sprite_zero] at h
      cases h3 : rle_bwd_create_block P.RESOURCE_ID_TARDIS_MASK
          { face_value := f, face_image := some ⟨e1.allocated, g0⟩, face_transition := true,
            wipe_direction := false, anim_direction := false, transition_frame := 0,
            num_transition_frames := NUM_TRANSITION_FRAMES_HOUR,
            prev_face_value := e1.face_value, prev_image := e1.face_image,
            sprite_mask := e1.sprite_mask, sprite := e1.sprite, sprite_cx := e1.sprite_cx,
            anim_timer := e1.anim_timer, rand_state := e1.rand_state,
            allocated := e1.allocated + 1, released := e1.released } with
      | error x => rw [h3] at h; simp at h
      | ok r3 =>
        obtain ⟨m, e4⟩ := r3
        obtain ⟨gm, hgm, rfl, rfl⟩ := rle_bwd_create_block_ok _ _ _ _ h3
        rw [h3] at h
        simp only [Except.ok.injEq] at h
        exact ⟨g0, gm, e1.sprite, 0, false, false, e1.rand_state, 72, hp, hf.1, hf.2, hg0,
          h.symm, Or.inl ⟨rfl, rfl, rfl, hgm⟩, fun _ => ⟨rfl, rfl, rfl, rfl, rfl, rfl, hgm⟩⟩
    | false =>
      simp only [choose_transition, Bool.false_eq_true, if_false] at h
      have hsel : (P.rand (P.rand e1.rand_state).2).1 % NUM_SPRITES < 3 :=
        Nat.mod_lt _ (by decide)
      generalize (P.rand (P.rand e1.rand_state).2).1 % NUM_SPRITES = sel at h hsel
      cases h2 : init_sprite P sel
          { face_value := f, face_image := some ⟨e1.allocated, g0⟩, face_transition := true,
            wipe_direction := decide ((P.rand e1.rand_state).1 % 2 ≠ 0),
            anim_direction := decide ((P.rand (P.rand (P.rand e1.rand_state).2).2).1 % 2 ≠ 0),
            transition_frame := 0, num_transition_frames := NUM_TRANSITION_FRAMES_HOUR,
            prev_face_value := e1.face_value, prev_image := e1.face_image,
            sprite_mask := e1.sprite_mask, sprite := e1.sprite, sprite_cx := e1.sprite_cx,
            anim_timer := e1.anim_timer,
            rand_state := (P.rand (P.rand (P.rand e1.rand_state).2).2).2,
            allocated := e1.allocated + 1, released := e1.released } with
      | error x => rw [h2] at h; simp at h
      | ok e3 =>
        rw [h2] at h
        simp only [Except.ok.injEq] at h
        rcases init_sprite_ok P sel _ e3 hsel h2 with ⟨_, gm, hgm, rfl⟩ | ⟨gm, gs, cx', rfl⟩
        · exact ⟨g0, gm, e1.sprite, 0, _, _, _, 72, hp, hf.1, hf.2, hg0, h.symm,
            Or.inl ⟨rfl, rfl, rfl, hgm⟩, fun hx => absurd hx (by decide)⟩
        · exact ⟨g0, gm, some ⟨e1.allocated + 2, gs⟩, 1, _, _, _, cx', hp, hf.1, hf.2, hg0,
            h.symm, Or.inr ⟨gs, rfl, rfl⟩, fun hx => absurd hx (by decide)⟩

end StartTransition

/-! ## The rasters of the engine -/

theorem count_range_succ (a n : Nat) :
    List.count a (List.range (n + 1)) = List.count a (List.range n) + if n = a then 1 else 0 := by
  rw [List.range_succ, List.count_append, List.count_singleton]
  simp only [beq_iff_eq]

theorem count_range (a n : Nat) : List.count a (List.range n) = if a < n then 1 else 0 := by
  induction n with
  | zero => simp
  | succ n ih =>
    rw [count_range_succ, ih]
    split_ifs <;> omega

theorem engine_ok_init (seed : Nat) : EngineOk (engine_init seed) :=
  ⟨List.Perm.refl _, fun _ => ⟨rfl, rfl, rfl⟩⟩

/-- `stop_transition` keeps the bookkeeping consistent. -/
theorem engine_ok_stop (e : Engine) (h : EngineOk e) : EngineOk (stop_transition e) := by
  obtain ⟨h1, _⟩ := h
  rw [stop_transition_eq]
  refine ⟨?_, fun _ => ⟨rfl, rfl, rfl⟩⟩
  rw [List.perm_iff_count] at h1 ⊢
  intro a
  rw [← h1 a]
  obtain ⟨fv, fi, ft, wd, ad, tf, nf, pfv, pi, sm, sp, cx, tm, rs, al, rl⟩ := e
  cases fi <;> cases pi <;> cases sm <;> cases sp <;>
    simp [occupied, List.count_cons, List.count_append] <;> omega

theorem engine_ok_frame (e : Engine) (tf : Int) (h : EngineOk e) :
    EngineOk { e with transition_frame := tf } := h

theorem engine_ok_timer (e : Engine) (h : EngineOk e) : EngineOk (handle_timer e) := h

/-- The engine after the preemption of `start_transition` holds at most the
current face. -/
theorem engine_ok_preempt (e : Engine) (h : EngineOk e) :
    EngineOk (if e.face_transition then stop_transition e else e) ∧
    (if e.face_transition then stop_transition e else e).prev_image = none ∧
    (if e.face_transition then stop_transition e else e).sprite_mask = none ∧
    (if e.face_transition then stop_transition e else e).sprite = none := by
  by_cases ha : e.face_transition = true
  · rw [if_pos ha]
    refine ⟨engine_ok_stop e h, ?_, ?_, ?_⟩ <;> rw [stop_transition_eq]
  · rw [if_neg ha]
    have := h.2 (by simpa using ha)
    exact ⟨h, this.1, this.2.1, this.2.2⟩

/-- `start_transition` keeps the bookkeeping consistent. -/
theorem engine_ok_start (P : Platform) (f : Int) (fs : Bool) (e e' : Engine) (h : EngineOk e)
    (hs : start_transition P f fs e = Except.ok e') : EngineOk e' := by
  obtain ⟨⟨h1, _⟩, hp, hm, hsp⟩ := engine_ok_preempt e h
  obtain ⟨g0, gm, sp, k, wd, ad, rs, cx, _, _, _, _, he', hcase, _⟩ :=
    start_transition_ok P f fs e _ e' rfl hs
  generalize (if e.face_transition then stop_transition e else e) = e1 at *
  subst he'
  refine ⟨?_, fun hx => absurd hx (by simp)⟩
  rw [List.perm_iff_count] at h1 ⊢
  intro a
  have h1a := h1 a
  obtain ⟨fv, fi, ft, wd1, ad1, tf, nf, pfv, pi, sm, sp1, cx1, tm, rs1, al, rl⟩ := e1
  simp only at hp hm hsp hcase h1a ⊢
  subst hp hm hsp
  rcases hcase with ⟨rfl, rfl, _, _⟩ | ⟨gs, rfl, rfl⟩
  · cases fi <;>
      simp [occupied, List.count_cons, List.count_append, count_range] at h1a ⊢ <;>
      split_ifs at h1a ⊢ <;> omega
  · cases fi <;>
      simp [occupied, List.count_cons, List.count_append, count_range] at h1a ⊢ <;>
      split_ifs at h1a ⊢ <;> omega

/-- A render keeps the bookkeeping consistent. -/
theorem engine_ok_render (P : Platform) (e e' : Engine) (ops : List DrawOp) (h : EngineOk e)
    (hr : face_layer_update_callback P e = Except.ok (ops, e')) : EngineOk e' := by
  by_cases ha : e.face_transition = true
  · by_cases hle : e.transition_frame ≤ e.num_transition_frames
    · rw [callback_active P e ha hle] at hr
      cases hc : face_layer_composite P { e with transition_frame := e.transition_frame + 1 }
          e.transition_frame with
      | error x => rw [hc] at hr; simp [Except.map] at hr
      | ok o =>
        rw [hc] at hr
        simp only [Except.map, Except.ok.injEq, Prod.mk.injEq] at hr
        rw [← hr.2]
        exact engine_ok_frame e _ h
    · rw [callback_finish P e ha (by omega)] at hr
      simp only [Except.ok.injEq, Prod.mk.injEq] at hr
      rw [← hr.2]
      exact engine_ok_stop _ (engine_ok_frame e _ h)
  · rw [callback_idle P e (by simpa using ha)] at hr
    simp only [Except.ok.injEq, Prod.mk.injEq] at hr
    rw [← hr.2]
    exact h

/-- Every step of the engine that returns keeps the bookkeeping consistent. -/
theorem engine_ok_step (P : Platform) (s : EngineStep) (e e' : Engine) (h : EngineOk e)
    (hs : engine_step P s e = Except.ok e') : EngineOk e' := by
  cases s with
  | start f fs => exact engine_ok_start P f fs e e' h hs
  | render =>
    unfold engine_step at hs
    cases hr : face_layer_update_callback P e with
    | error x => rw [hr] at hs; simp at hs
    | ok r =>
      rw [hr] at hs
      simp only [Except.ok.injEq] at hs
      rw [← hs]
      exact engine_ok_render P e r.2 r.1 h hr
  | stop =>
    simp only [engine_step, Except.ok.injEq] at hs
    rw [← hs]
    exact engine_ok_stop e h
  | timer =>
    simp only [engine_step, Except.ok.injEq] at hs
    rw [← hs]
    exact engine_ok_timer e h

theorem engine_ok_run (P : Platform) (steps : List EngineStep) :
    ∀ (e e' : Engine), EngineOk e → engine_run P steps e = Except.ok e' → EngineOk e' := by
  induction steps with
  | nil =>
    intro e e' h hr
    simp only [engine_run, Except.ok.injEq] at hr
    rw [← hr]; exact h
  | cons s steps ih =>
    intro e e' h hr
    rw [engine_run] at hr
    cases hs : engine_step P s e with
    | error x => rw [hs] at hr; simp at hr
    | ok e1 =>
      rw [hs] at hr
      exact ih e1 e' (engine_ok_step P s e e1 h hs) hr

/-- Every engine state the program reaches has consistent bookkeeping. -/
theorem engine_ok_reachable (P : Platform) (e : Engine) (h : Reachable P e) : EngineOk e := by
  induction h with
  | init seed => exact engine_ok_init seed
  | step s e e' _ hs ih => exact engine_ok_step P s e e' ih hs

/-- What consistent bookkeeping means for the rasters. -/
theorem engine_ok_facts (e : Engine) (h : EngineOk e) :
    e.released.Nodup ∧ (occupied e).Nodup ∧ (∀ b, b ∈ occupied e → b ∉ e.released) ∧
    (∀ b, b < e.allocated → b ∈ occupied e ∨ b ∈ e.released) ∧
    live_count e = (occupied e).length ∧ (occupied e).length ≤ 4 := by
  obtain ⟨h1, _⟩ := h
  have hnd : (occupied e ++ e.released).Nodup := h1.nodup_iff.2 (List.nodup_range _)
  rw [List.nodup_append] at hnd
  obtain ⟨n1, n2, n3⟩ := hnd
  have hlen := h1.length_eq
  rw [List.length_append, List.length_range] at hlen
  refine ⟨n2, n1, fun b hb hr => n3 hb hr, ?_, ?_, ?_⟩
  · intro b hb
    have : b ∈ occupied e ++ e.released := h1.mem_iff.2 (List.mem_range.2 hb)
    exact List.mem_append.1 this
  · unfold live_count; omega
  · exact le_trans (List.length_filterMap_le _ _) (by simp)

/-! ## Preemption -/

theorem start_transition_active (P : Platform) (f : Int) (fs : Bool) (e : Engine)
    (ha : e.face_transition = true) :
    start_transition P f fs e = start_face P f fs (stop_transition e) ∧
    start_transition P f fs (stop_transition e) = start_face P f fs (stop_transition e) := by
  unfold start_transition
  rw [if_pos ha, stop_transition_idle]
  exact ⟨rfl, rfl⟩

/-- C16. Preemption safety, with the four raster variables as optional handles,
`allocated` counting the rasters `rle_bwd_create` allocated and `released` listing
the rasters `bwd_destroy` released. (1) After every sequence of
`start_transition`, render, `stop_transition` and timer steps from the initial
engine: no raster was released twice, no raster is held twice, no held raster
was released, every allocated raster is held or was released (none is dropped),
and the live count equals the number of occupied variables, at most 4. (2) A
`start_transition` issued while a transition is active is `stop_transition`
followed by the start: it releases the previous transition's previous-face,
sprite-mask and sprite-body rasters, each once and none of them released
before, and only then allocates; the rasters it allocates are new blocks. -/
theorem preemption_safety (P : Platform) :
    (∀ (steps : List EngineStep) (seed : Nat) (e : Engine),
      engine_run P steps (engine_init seed) = Except.ok e →
      e.released.Nodup ∧ (occupied e).Nodup ∧ (∀ b, b ∈ occupied e → b ∉ e.released) ∧
      (∀ b, b < e.allocated → b ∈ occupied e ∨ b ∈ e.released) ∧
      live_count e = (occupied e).length ∧ (occupied e).length ≤ 4) ∧
    (∀ (steps : List EngineStep) (seed : Nat) (e : Engine) (f : Int) (fs : Bool),
      engine_run P steps (engine_init seed) = Except.ok e → e.face_transition = true →
      start_transition P f fs e = start_transition P f fs (stop_transition e) ∧
      (stop_transition e).released =
        [e.sprite, e.sprite_mask, e.prev_image].filterMap (fun s => s.map Raster.block)
          ++ e.released ∧
      ([e.sprite, e.sprite_mask, e.prev_image].filterMap (fun s => s.map Raster.block)).Nodup ∧
      (∀ b, b ∈ [e.sprite, e.sprite_mask, e.prev_image].filterMap (fun s => s.map Raster.block) →
        b ∉ e.released ∧ b < e.allocated) ∧
      (stop_transition e).prev_image = none ∧ (stop_transition e).sprite_mask = none ∧
      (stop_transition e).sprite = none ∧ (stop_transition e).allocated = e.allocated ∧
      ∀ e', start_transition P f fs e = Except.ok e' →
        e'.released =
          [e.sprite, e.sprite_mask, e.prev_image].filterMap (fun s => s.map Raster.block)
            ++ e.released ∧
        e'.prev_image = e.face_image ∧
        (∃ g, e'.face_image = some ⟨e.allocated, g⟩) ∧
        (∃ g, e'.sprite_mask = some ⟨e.allocated + 1, g⟩) ∧
        (e'.sprite = none ∨ ∃ g, e'.sprite = some ⟨e.allocated + 2, g⟩)) := by
  constructor
  · intro steps seed e hr
    exact engine_ok_facts e (engine_ok_run P steps _ e (engine_ok_init seed) hr)
  · intro steps seed e f fs hr ha
    have hok := engine_ok_run P steps _ e (engine_ok_init seed) hr
    obtain ⟨n1, n2, n3, _, _, _⟩ := engine_ok_facts e hok
    obtain ⟨s1, s2⟩ := start_transition_active P f fs e ha
    have hsub : ∀ b, b ∈ [e.sprite, e.sprite_mask, e.prev_image].filterMap
        (fun s => s.map Raster.block) → b ∈ occupied e := by
      intro b hb
      simp only [occupied, List.mem_filterMap, List.mem_cons, List.mem_singleton,
        List.not_mem_nil, or_false] at hb ⊢
      obtain ⟨s, hs, hb⟩ := hb
      exact ⟨s, by tauto, hb⟩
    have hnd : ([e.sprite, e.sprite_mask, e.prev_image].filterMap
        (fun s => s.map Raster.block)).Nodup := by
      obtain ⟨fv, fi, ft, wd, ad, tf, nf, pfv, pi, sm, sp, cx, tm, rs, al, rl⟩ := e
      revert n2
      cases fi <;> cases pi <;> cases sm <;> cases sp <;> simp [occupied] <;> tauto
    have hlt : ∀ b, b ∈ occupied e → b < e.allocated := by
      intro b hb
      have : b ∈ occupied e ++ e.released := List.mem_append_left _ hb
      exact List.mem_range.1 (hok.1.mem_iff.1 this)
    refine ⟨by rw [s1, s2], by rw [stop_transition_eq], hnd,
      fun b hb => ⟨n3 b (hsub b hb), hlt b (hsub b hb)⟩, by rw [stop_transition_eq],
      by rw [stop_transition_eq], by rw [stop_transition_eq], by rw [stop_transition_eq], ?_⟩
    intro e' hs
    obtain ⟨g0, gm, sp, k, wd, ad, rs, cx, _, _, _, _, he', hcase, _⟩ :=
      start_transition_ok P f fs e _ e' rfl hs
    rw [if_pos ha] at he' hcase
    rw [stop_transition_eq] at he' hcase
    subst he'
    refine ⟨rfl, rfl, ⟨g0, rfl⟩, ⟨gm, rfl⟩, ?_⟩
    rcases hcase with ⟨h1, _⟩ | ⟨gs, h1, _⟩
    · exact Or.inl h1
    · exact Or.inr ⟨gs, h1⟩

/-- C16 at a concrete run: a random start (the K9 sprite), a render, a second
start while the first transition is active, a render, a forced start and two
stops. The second start releases blocks 1 and 2 (mask and body; there was no
previous face), the third releases 0, 4, 5, and the stops release 3 and 7;
block 6, the current face, is live. -/
theorem preemption_safety_witness :
    (engine_run demo_platform
        [EngineStep.start 3 false, EngineStep.render, EngineStep.start 4 false,
          EngineStep.render] (engine_init 0)).map
        (fun e => (occupied e, e.released, e.allocated, live_count e)) =
      Except.ok ([3, 0, 4, 5], [2, 1], 6, 4) ∧
    (engine_run demo_platform
        [EngineStep.start 3 false, EngineStep.render, EngineStep.start 4 false,
          EngineStep.render, EngineStep.start 5 true, EngineStep.stop, EngineStep.stop]
        (engine_init 0)).map
        (fun e => (occupied e, e.released, e.allocated, live_count e)) =
      Except.ok ([6], [7, 3, 5, 4, 0, 2, 1], 8, 1) ∧
    ∀ (steps : List EngineStep) (seed : Nat) (e : Engine),
      engine_run demo_platform steps (engine_init seed) = Except.ok e →
      e.released.Nodup ∧ (occupied e).Nodup ∧ (∀ b, b ∈ occupied e → b ∉ e.released) ∧
      (∀ b, b < e.allocated → b ∈ occupied e ∨ b ∈ e.released) ∧
      live_count e = (occupied e).length ∧ (occupied e).length ≤ 4 :=
  ⟨by decide, by decide, (preemption_safety demo_platform).1⟩

/-! ## The forced start -/

section ForcedStart

attribute [local irreducible] rle_bwd_create flip_bitmap_x

theorem start_sprite_forced_rand (P : Platform) (e : Engine) (rs : Nat) :
    start_sprite P true { e with rand_state := rs } =
      (start_sprite P true e).map (fun s => { s with rand_state := rs }) := by
  unfold start_sprite
  simp only [choose_transition, if_true]
  rw [init_sprite_zero, init_sprite_zero]
  unfold rle_bwd_create_block
  cases rle_bwd_create P.RESOURCE_ID_TARDIS_MASK with
  | error x => rfl
  | ok bwd =>
    obtain ⟨b⟩ := bwd
    cases b <;> rfl

theorem start_face_forced_rand (P : Platform) (f : Int) (e : Engine) (rs : Nat) :
    start_face P f true { e with rand_state := rs } =
      (start_face P f true e).map (fun s => { s with rand_state := rs }) := by
  obtain ⟨fv, fi, ft, wd, ad, tf, nf, pfv, pi, sm, sp, cx, tm, rs0, al, rl⟩ := e
  unfold start_face
  dsimp only
  by_cases hp : pi = none
  swap
  · have hp' : pi ≠ none := hp
    simp only [if_pos hp']; rfl
  have hp' : ¬ (pi ≠ none) := by simpa using hp
  simp only [if_neg hp']
  by_cases hf : 0 ≤ f ∧ f < 13
  swap
  · simp only [if_pos hf]; rfl
  have hf' : ¬ ¬ (0 ≤ f ∧ f < 13) := by simpa using hf
  simp only [if_neg hf']
  unfold rle_bwd_create_block
  cases rle_bwd_create (P.face_resource_ids.getD f.toNat []) with
  | error x => rfl
  | ok bwd =>
    obtain ⟨b⟩ := bwd
    cases b with
    | none =>
      exact start_sprite_forced_rand P
        { face_value := f, face_image := none, face_transition := true, wipe_direction := wd,
          anim_direction := ad, transition_frame := 0,
          num_transition_frames := NUM_TRANSITION_FRAMES_HOUR, prev_face_value := fv,
          prev_image := fi, sprite_mask := sm, sprite := sp, sprite_cx := cx, anim_timer := tm,
          rand_state := rs0, allocated := al, released := rl } rs
    | some g =>
      exact start_sprite_forced_rand P
        { face_value := f, face_image := some ⟨al, g⟩, face_transition := true,
          wipe_direction := wd, anim_direction := ad, transition_frame := 0,
          num_transition_frames := NUM_TRANSITION_FRAMES_HOUR, prev_face_value := fv,
          prev_image := fi, sprite_mask := sm, sprite := sp, sprite_cx := cx, anim_timer := tm,
          rand_state := rs0, allocated := al + 1, released := rl } rs

/-- A forced start does not read the generator state: run from an engine whose
generator state is replaced by `rs`, it gives the same result with `rs` in
place. -/
theorem start_transition_forced_rand (P : Platform) (f : Int) (e : Engine) (rs : Nat) :
    start_transition P f true { e with rand_state := rs } =
      (start_transition P f true e).map (fun s => { s with rand_state := rs }) := by
  obtain ⟨fv, fi, ft, wd, ad, tf, nf, pfv, pi, sm, sp, cx, tm, rs0, al, rl⟩ := e
  unfold start_transition
  cases ft with
  | true =>
    simp only [if_true]
    have : stop_transition
        { face_value := fv, face_image := fi, face_transition := true, wipe_direction := wd,
          anim_direction := ad, transition_frame := tf, num_transition_frames := nf,
          prev_face_value := pfv, prev_image := pi, sprite_mask := sm, sprite := sp,
          sprite_cx := cx, anim_timer := tm, rand_state := rs, allocated := al, released := rl } =
        { stop_transition
            { face_value := fv, face_image := fi, face_transition := true, wipe_direction := wd,
              anim_direction := ad, transition_frame := tf, num_transition_frames := nf,
              prev_face_value := pfv, prev_image := pi, sprite_mask := sm, sprite := sp,
              sprite_cx := cx, anim_timer := tm, rand_state := rs0, allocated := al,
              released := rl } with rand_state := rs } := by
      rw [stop_transition_eq, stop_transition_eq]
    rw [this]
    exact start_face_forced_rand P f _ rs
  | false =>
    simp only [Bool.false_eq_true, if_false]
    exact start_face_forced_rand P f
      { face_value := fv, face_image := fi, face_transition := false, wipe_direction := wd,
        anim_direction := ad, transition_frame := tf, num_transition_frames := nf,
        prev_face_value := pfv, prev_image := pi, sprite_mask := sm, sprite := sp,
        sprite_cx := cx, anim_timer := tm, rand_state := rs0, allocated := al, released := rl } rs

/-- A forced start does not call the generator: it gives the same result on a
platform with any other generator. -/
theorem start_sprite_forced_gen (P : Platform) (e : Engine) (gen : Nat → Nat × Nat) :
    start_sprite { P with rand := gen } true e = start_sprite P true e := by
  unfold start_sprite
  simp only [choose_transition, if_true]
  rw [init_sprite_zero, init_sprite_zero]

theorem start_transition_forced_gen (P : Platform) (f : Int) (e : Engine)
    (gen : Nat → Nat × Nat) :
    start_transition { P with rand := gen } f true e = start_transition P f true e := by
  unfold start_transition start_face
  simp only [start_sprite_forced_gen]

end ForcedStart


/-- C17. A forced start is deterministic. For every engine state the program
reaches and every state of the generator, a `start_transition(face, true)` that
returns ends with `wipe_direction = false`, `anim_direction = false`, the TARDIS
sprite (the sprite mask is the decoded TARDIS mask, not mirrored; there is no
sprite body; the anchor is 72), frame counter 0 and total 24, and leaves the
generator state as it was. It does not consult the generator: from the same
engine with any other generator state it ends in the same state (with that
generator state in place), and on a platform with any other generator it ends
in the same state. -/
theorem forced_start_deterministic (P : Platform) (f : Int) (e e' : Engine)
    (hreach : Reachable P e) (hs : start_transition P f true e = Except.ok e') :
    e'.wipe_direction = false ∧ e'.anim_direction = false ∧
    (∃ gm, rle_bwd_create P.RESOURCE_ID_TARDIS_MASK = Except.ok (BitmapWithData.mk (some gm)) ∧
      ∃ b, e'.sprite_mask = some ⟨b, gm⟩) ∧
    e'.sprite = none ∧ e'.sprite_cx = 72 ∧ e'.transition_frame = 0 ∧
    e'.num_transition_frames = 24 ∧ e'.face_transition = true ∧ e'.face_value = f ∧
    e'.rand_state = e.rand_state ∧
    (∀ rs : Nat, start_transition P f true { e with rand_state := rs } =
      Except.ok { e' with rand_state := rs }) ∧
    (∀ gen : Nat → Nat × Nat, start_transition { P with rand := gen } f true e = Except.ok e') := by
  have hok := engine_ok_reachable P e hreach
  obtain ⟨_, _, _, hsp⟩ := engine_ok_preempt e hok
  obtain ⟨g0, gm, sp, k, wd, ad, rs, cx, _, _, _, _, he', _, hforced⟩ :=
    start_transition_ok P f true e _ e' rfl hs
  obtain ⟨rfl, rfl, rfl, rfl, rfl, rfl, hgm⟩ := hforced rfl
  have hrs : (if e.face_transition then stop_transition e else e).rand_state = e.rand_state := by
    by_cases ha : e.face_transition = true
    · rw [if_pos ha, stop_transition_eq]
    · rw [if_neg ha]
  refine ⟨by rw [he'], by rw [he'], ⟨gm, hgm, _, by rw [he']⟩, by rw [he']; exact hsp,
    by rw [he'], by rw [he'], by rw [he'], by rw [he'], by rw [he'], by rw [he']; exact hrs,
    ?_, ?_⟩
  · intro rs
    rw [start_transition_forced_rand, hs]
    rfl
  · intro gen
    rw [start_transition_forced_gen, hs]

/-- C17 at the startup of the demo platform, with generator state 5. -/
theorem forced_start_deterministic_witness :
    start_transition demo_platform 3 true (engine_init 5) =
      Except.ok
        { face_value := 3, face_image := some ⟨0, GBitmap.mk 4 8 1 [7, 0, 0, 0]⟩,
          face_transition := true, wipe_direction := false, anim_direction := false,
          transition_frame := 0, num_transition_frames := 24, prev_face_value := -1,
          prev_image := none, sprite_mask := some ⟨1, GBitmap.mk 4 32 1 [0, 0, 0, 0]⟩,
          sprite := none, sprite_cx := 72, anim_timer := true, rand_state := 5, allocated := 2,
          released := [] } ∧
    ∀ rs : Nat, start_transition demo_platform 3 true { engine_init 5 with rand_state := rs } =
      Except.ok
        { face_value := 3, face_image := some ⟨0, GBitmap.mk 4 8 1 [7, 0, 0, 0]⟩,
          face_transition := true, wipe_direction := false, anim_direction := false,
          transition_frame := 0, num_transition_frames := 24, prev_face_value := -1,
          prev_image := none, sprite_mask := some ⟨1, GBitmap.mk 4 32 1 [0, 0, 0, 0]⟩,
          sprite := none, sprite_cx := 72, anim_timer := true, rand_state := rs, allocated := 2,
          released := [] } :=
  ⟨by decide,
    (forced_start_deterministic demo_platform 3 (engine_init 5)
      { face_value := 3, face_image := some ⟨0, GBitmap.mk 4 8 1 [7, 0, 0, 0]⟩,
        face_transition := true, wipe_direction := false, anim_direction := false,
        transition_frame := 0, num_transition_frames := 24, prev_face_value := -1,
        prev_image := none, sprite_mask := some ⟨1, GBitmap.mk 4 32 1 [0, 0, 0, 0]⟩,
        sprite := none, sprite_cx := 72, anim_timer := true, rand_state := 5, allocated := 2,
        released := [] }
      (Reachable.init 5) (by decide)).2.2.2.2.2.2.2.2.2.2.1⟩

/-! ## Progress of a transition -/

section Progress

attribute [local irreducible] rle_bwd_create flip_bitmap_x

theorem tardis_ops_ok (P : Platform) (e : Engine) (destination : GRect) (ti : Int)
    (h0 : 0 ≤ ti)
    (hflip : ∀ k g, P.gbitmap_create_with_resource k = some g →
      ∃ g', flip_bitmap_x g = Except.ok g') :
    ∃ ops, tardis_ops P e destination ti = Except.ok ops := by
  unfold tardis_ops
  have hm0 : 0 ≤ c_mod ti NUM_TARDIS_FRAMES := Int.tmod_nonneg _ h0
  have hm7 : c_mod ti NUM_TARDIS_FRAMES < 7 := Int.tmod_lt_of_pos _ (by decide)
  have hr : 0 ≤ (if e.anim_direction then (NUM_TARDIS_FRAMES - 1) - c_mod ti NUM_TARDIS_FRAMES
      else c_mod ti NUM_TARDIS_FRAMES) ∧
      (if e.anim_direction then (NUM_TARDIS_FRAMES - 1) - c_mod ti NUM_TARDIS_FRAMES
        else c_mod ti NUM_TARDIS_FRAMES) < NUM_TARDIS_FRAMES := by
    unfold NUM_TARDIS_FRAMES at hm0 hm7 ⊢
    split <;> omega
  simp only []
  rw [if_neg (by simpa using hr)]
  generalize tardis_frames.getD _ _ = frame
  cases hg : P.gbitmap_create_with_resource frame.tardis with
  | none => exact ⟨[], rfl⟩
  | some g =>
    simp only []
    cases frame.flip_x with
    | false => exact ⟨_, rfl⟩
    | true =>
      obtain ⟨g', hg'⟩ := hflip _ g hg
      simp only [if_true, hg']
      exact ⟨_, rfl⟩

theorem sprite_ops_ok (P : Platform) (e : Engine) (wipe_x ti : Int) (h0 : 0 ≤ ti)
    (hflip : ∀ k g, P.gbitmap_create_with_resource k = some g →
      ∃ g', flip_bitmap_x g = Except.ok g') :
    ∃ ops, sprite_ops P e wipe_x ti = Except.ok ops := by
  unfold sprite_ops
  cases e.sprite_mask with
  | none => exact ⟨[], rfl⟩
  | some mask =>
    simp only []
    cases e.sprite with
    | some s => exact ⟨_, rfl⟩
    | none =>
      simp only []
      obtain ⟨ops, hops⟩ := tardis_ops_ok P e
        { size_w := mask.image.size_w, size_h := mask.image.size_h,
          origin_y := c_div (SCREEN_HEIGHT - mask.image.size_h) 2,
          origin_x := wipe_x - e.sprite_cx } ti h0 hflip
      rw [hops]
      exact ⟨_, rfl⟩

theorem face_layer_composite_ok (P : Platform) (e : Engine) (mask : Raster) (ti : Int)
    (h0 : 0 ≤ ti) (hmask : e.sprite_mask = some mask) (hnum : e.num_transition_frames ≠ 0)
    (hflip : ∀ k g, P.gbitmap_create_with_resource k = some g →
      ∃ g', flip_bitmap_x g = Except.ok g') :
    ∃ ops, face_layer_composite P e ti = Except.ok ops := by
  unfold face_layer_composite
  rw [hmask]
  simp only []
  rw [if_neg hnum]
  obtain ⟨ops, hops⟩ := sprite_ops_ok P e (wipe_position e mask.image.size_w ti) ti h0 hflip
  rw [hops]
  exact ⟨_, rfl⟩

end Progress


theorem render_frames_succ_ok (P : Platform) (k : Nat) (e e1 e2 : Engine) (ops : List DrawOp)
    (l : List (List DrawOp)) (h1 : face_layer_update_callback P e = Except.ok (ops, e1))
    (h2 : render_frames P k e1 = Except.ok (l, e2)) :
    render_frames P (k + 1) e = Except.ok (ops :: l, e2) := by
  rw [render_frames, h1]
  simp only [h2]

theorem render_frames_append (P : Platform) (a : Nat) :
    ∀ (b : Nat) (e e1 e2 : Engine) (l1 l2 : List (List DrawOp)),
      render_frames P a e = Except.ok (l1, e1) → render_frames P b e1 = Except.ok (l2, e2) →
      render_frames P (a + b) e = Except.ok (l1 ++ l2, e2) := by
  induction a with
  | zero =>
    intro b e e1 e2 l1 l2 h1 h2
    simp only [render_frames, Except.ok.injEq, Prod.mk.injEq] at h1
    rw [Nat.zero_add, ← h1.1, h1.2]
    exact h2
  | succ a ih =>
    intro b e e1 e2 l1 l2 h1 h2
    rw [render_frames] at h1
    cases hc : face_layer_update_callback P e with
    | error x => rw [hc] at h1; simp at h1
    | ok r =>
      obtain ⟨ops, e'⟩ := r
      rw [hc] at h1
      simp only at h1
      cases hr : render_frames P a e' with
      | error x => rw [hr] at h1; simp at h1
      | ok r2 =>
        obtain ⟨l, e''⟩ := r2
        rw [hr] at h1
        simp only [Except.ok.injEq, Prod.mk.injEq] at h1
        obtain ⟨rfl, rfl⟩ := h1
        have := ih b e' e'' e2 l l2 hr h2
        rw [Nat.add_right_comm]
        exact render_frames_succ_ok P (a + b) e e' e2 ops (l ++ l2) hc this

/-- Renders outside a transition hold the current face and leave the engine as
it is. -/
theorem render_frames_idle (P : Platform) (k : Nat) (e : Engine)
    (hidle : e.face_transition = false) :
    render_frames P k e = Except.ok (List.replicate k (face_layer_hold P e), e) := by
  induction k with
  | zero => rfl
  | succ k ih => exact render_frames_succ_ok P k e e e _ _ (callback_idle P e hidle) ih

/-- A render of frame `t ≤ 24` of a transition composites the frame and
advances the counter. -/
theorem active_render (P : Platform) (e : Engine) (mask : Raster) (t : Int)
    (hact : e.face_transition = true) (hmask : e.sprite_mask = some mask)
    (hnum : e.num_transition_frames = 24) (h0 : 0 ≤ t) (hle : t ≤ 24)
    (hflip : ∀ k g, P.gbitmap_create_with_resource k = some g →
      ∃ g', flip_bitmap_x g = Except.ok g') :
    ∃ ops, face_layer_update_callback P { e with transition_frame := t } =
        Except.ok (ops, { e with transition_frame := t + 1 }) ∧
      face_layer_composite P { e with transition_frame := t + 1 } t = Except.ok ops := by
  obtain ⟨ops, hops⟩ := face_layer_composite_ok P { e with transition_frame := t + 1 } mask t h0
    hmask (by show e.num_transition_frames ≠ 0; omega) hflip
  refine ⟨ops, ?_, hops⟩
  rw [callback_active P { e with transition_frame := t } hact (by show t ≤ e.num_transition_frames; omega)]
  show Except.map _ (face_layer_composite P { e with transition_frame := t + 1 } t) = _
  rw [hops]
  rfl

/-- The first renders of a transition: `k` renders from frame `t` with
`t + k ≤ 25` composite the frames `t, ..., t + k - 1` and leave the counter at
`t + k`. -/
theorem render_frames_active (P : Platform) (e : Engine) (mask : Raster)
    (hact : e.face_transition = true) (hmask : e.sprite_mask = some mask)
    (hnum : e.num_transition_frames = 24)
    (hflip : ∀ k g, P.gbitmap_create_with_resource k = some g →
      ∃ g', flip_bitmap_x g = Except.ok g') (k : Nat) :
    ∀ (t : Nat), t + k ≤ 25 →
      ∃ l, render_frames P k { e with transition_frame := (t : Int) } =
          Except.ok (l, { e with transition_frame := ((t + k : Nat) : Int) }) ∧
        l.length = k ∧
        ∀ i, i < k → face_layer_composite P { e with transition_frame := ((t + i : Nat) : Int) + 1 }
          ((t + i : Nat) : Int) = Except.ok (l.getD i []) := by
  induction k with
  | zero =>
    intro t _
    exact ⟨[], rfl, rfl, fun i hi => absurd hi (Nat.not_lt_zero i)⟩
  | succ k ih =>
    intro t ht
    obtain ⟨ops, h1, h2⟩ := active_render P e mask (t : Int) hact hmask hnum (by omega)
      (by omega) hflip
    obtain ⟨l, h3, h4, h5⟩ := ih (t + 1) (by omega)
    have hc : ((t : Int) + 1) = ((t + 1 : Nat) : Int) := by omega
    rw [hc] at h1
    have hk : t + 1 + k = t + (k + 1) := by omega
    rw [hk] at h3
    refine ⟨ops :: l, render_frames_succ_ok P k _ _ _ ops l h1 h3, by simp [h4], ?_⟩
    intro i hi
    cases i with
    | zero => simpa using h2
    | succ i =>
      have := h5 i (by omega)
      have hi2 : t + 1 + i = t + (i + 1) := by omega
      rw [hi2] at this
      simpa using this


/-- C15. Transition progress and completion. After a `start_transition` that
returns (on a platform whose TARDIS frame bitmaps `flip_bitmap_x` can flip) the
engine is Active with frame counter 0 and total 24. With no further start, the
first 25 calls of the render step composite the frames 0, 1, ..., 24 in this
order (call `i` draws the composite of frame `i`) and leave the counter at 25;
the next call, the first at which the counter exceeds the total, releases the
previous-face, sprite-mask and sprite-body rasters, sets the engine Idle and
draws the current face unclipped; every later call finds the engine Idle, in the
same state, and draws the current face again. -/
theorem transition_progress (P : Platform) (f : Int) (fs : Bool) (e s0 : Engine)
    (hflip : ∀ k g, P.gbitmap_create_with_resource k = some g →
      ∃ g', flip_bitmap_x g = Except.ok g')
    (hs : start_transition P f fs e = Except.ok s0) :
    s0.face_transition = true ∧ s0.transition_frame = 0 ∧ s0.num_transition_frames = 24 ∧
    ∃ (l : List (List DrawOp)) (face : Raster),
      render_frames P 25 s0 = Except.ok (l, { s0 with transition_frame := 25 }) ∧
      l.length = 25 ∧
      (∀ i : Nat, i < 25 →
        face_layer_composite P { s0 with transition_frame := (i : Int) + 1 } (i : Int) =
          Except.ok (l.getD i [])) ∧
      s0.face_image = some face ∧
      face_layer_update_callback P { s0 with transition_frame := 25 } =
        Except.ok
          ([DrawOp.set_compositing_mode GCompOp.GCompOpAssign,
            draw_raster face { P.layer_frame with origin_x := 0, origin_y := 0 }],
          stop_transition { s0 with transition_frame := 26 }) ∧
      (stop_transition { s0 with transition_frame := 26 }).face_transition = false ∧
      (stop_transition { s0 with transition_frame := 26 }).prev_image = none ∧
      (stop_transition { s0 with transition_frame := 26 }).sprite_mask = none ∧
      (stop_transition { s0 with transition_frame := 26 }).sprite = none ∧
      (stop_transition { s0 with transition_frame := 26 }).face_image = some face ∧
      (stop_transition { s0 with transition_frame := 26 }).released =
        [s0.sprite, s0.sprite_mask, s0.prev_image].filterMap (fun s => s.map Raster.block)
          ++ s0.released ∧
      ∀ j : Nat, render_frames P (25 + (1 + j)) s0 =
        Except.ok
          (l ++ List.replicate (1 + j)
            [DrawOp.set_compositing_mode GCompOp.GCompOpAssign,
              draw_raster face { P.layer_frame with origin_x := 0, origin_y := 0 }],
          stop_transition { s0 with transition_frame := 26 }) := by
  obtain ⟨g0, gm, sp, k, wd, ad, rs, cx, _, hf0, _, _, he', _, _⟩ :=
    start_transition_ok P f fs e _ s0 rfl hs
  generalize (if e.face_transition then stop_transition e else e) = e1 at he'
  subst he'
  refine ⟨rfl, rfl, rfl, ?_⟩
  obtain ⟨l, h1, h2, h3⟩ := render_frames_active P ⟨e1.allocated + 1, gm⟩ rfl rfl rfl hflip 25 0
    (by omega)
    (e := { face_value := f, face_image := some ⟨e1.allocated, g0⟩, face_transition := true,
            wipe_direction := wd, anim_direction := ad, transition_frame := 0,
            num_transition_frames := 24, prev_face_value := e1.face_value,
            prev_image := e1.face_image, sprite_mask := some ⟨e1.allocated + 1, gm⟩,
            sprite := sp, sprite_cx := cx, anim_timer := true, rand_state := rs,
            allocated := e1.allocated + 2 + k, released := e1.released })
  simp only [Nat.cast_zero, Nat.zero_add, Nat.cast_ofNat] at h1 h3
  have hhold : face_layer_hold P
      (stop_transition
        { face_value := f, face_image := some ⟨e1.allocated, g0⟩, face_transition := true,
          wipe_direction := wd, anim_direction := ad, transition_frame := 25 + 1,
          num_transition_frames := 24, prev_face_value := e1.face_value,
          prev_image := e1.face_image, sprite_mask := some ⟨e1.allocated + 1, gm⟩,
          sprite := sp, sprite_cx := cx, anim_timer := true, rand_state := rs,
          allocated := e1.allocated + 2 + k, released := e1.released }) =
      [DrawOp.set_compositing_mode GCompOp.GCompOpAssign,
        draw_raster ⟨e1.allocated, g0⟩ { P.layer_frame with origin_x := 0, origin_y := 0 }] := by
    rw [stop_transition_eq]
    simp only [face_layer_hold]
    rw [if_pos (by omega)]
  have hfin := callback_finish P
    { face_value := f, face_image := some ⟨e1.allocated, g0⟩, face_transition := true,
      wipe_direction := wd, anim_direction := ad, transition_frame := 25,
      num_transition_frames := 24, prev_face_value := e1.face_value,
      prev_image := e1.face_image, sprite_mask := some ⟨e1.allocated + 1, gm⟩,
      sprite := sp, sprite_cx := cx, anim_timer := true, rand_state := rs,
      allocated := e1.allocated + 2 + k, released := e1.released } rfl
    (show (25 : Int) > 24 by decide)
  simp only [] at hfin
  rw [hhold] at hfin
  refine ⟨l, ⟨e1.allocated, g0⟩, h1, h2, h3, rfl, hfin, by rw [stop_transition_eq],
    by rw [stop_transition_eq], by rw [stop_transition_eq], by rw [stop_transition_eq],
    by rw [stop_transition_eq], by rw [stop_transition_eq], ?_⟩
  intro j
  apply render_frames_append P 25 (1 + j) _ _ _ l _ h1
  rw [Nat.add_comm 1 j]
  refine render_frames_succ_ok P j _ _ _ _ _ hfin ?_
  have := render_frames_idle P j _ (stop_transition_idle
    { face_value := f, face_image := some ⟨e1.allocated, g0⟩, face_transition := true,
      wipe_direction := wd, anim_direction := ad, transition_frame := 25 + 1,
      num_transition_frames := 24, prev_face_value := e1.face_value,
      prev_image := e1.face_image, sprite_mask := some ⟨e1.allocated + 1, gm⟩,
      sprite := sp, sprite_cx := cx, anim_timer := true, rand_state := rs,
      allocated := e1.allocated + 2 + k, released := e1.released })
  rw [hhold] at this
  exact this


theorem demo_platform_flip : ∀ k g, demo_platform.gbitmap_create_with_resource k = some g →
    ∃ g', flip_bitmap_x g = Except.ok g' := by
  intro k g h
  simp only [demo_platform, Option.some.injEq] at h
  subst h
  exact ⟨GBitmap.mk 4 8 1 [0xf0, 0, 0, 0], by decide⟩

/-- C15 on the demo platform: the forced start of face 3 gives `demo_start`; 27
renders make 25 composites (eight or ten calls each), then the hold of the current
face (two calls) twice, and end Idle with the sprite mask (block 1) released. -/
theorem transition_progress_witness :
    start_transition demo_platform 3 true (engine_init 0) = Except.ok demo_start ∧
    (render_frames demo_platform 27 demo_start).map
        (fun r => (r.1.map List.length, r.2.face_transition, r.2.transition_frame,
          occupied r.2, r.2.released)) =
      Except.ok (List.replicate 10 8 ++ List.replicate 15 10 ++ [2, 2], false, 26, [0], [1]) ∧
    ∃ (l : List (List DrawOp)) (face : Raster),
      render_frames demo_platform 25 demo_start =
        Except.ok (l, { demo_start with transition_frame := 25 }) ∧
      l.length = 25 ∧
      (∀ i : Nat, i < 25 →
        face_layer_composite demo_platform { demo_start with transition_frame := (i : Int) + 1 }
          (i : Int) = Except.ok (l.getD i [])) ∧
      demo_start.face_image = some face ∧
      face_layer_update_callback demo_platform { demo_start with transition_frame := 25 } =
        Except.ok
          ([DrawOp.set_compositing_mode GCompOp.GCompOpAssign,
            draw_raster face { demo_platform.layer_frame with origin_x := 0, origin_y := 0 }],
          stop_transition { demo_start with transition_frame := 26 }) :=
  ⟨by decide, by decide,
    match transition_progress demo_platform 3 true (engine_init 0) demo_start
      demo_platform_flip (by decide) with
    | ⟨_, _, _, l, face, h1, h2, h3, h4, h5, _⟩ => ⟨l, face, h1, h2, h3, h4, h5⟩⟩
/-! ## The byte reader over any loader -/

theorem bytes_loaded_append (a b : List RBufferEvent) :
    bytes_loaded (a ++ b) = bytes_loaded a + bytes_loaded b := by
  induction a with
  | nil => simp [bytes_loaded]
  | cons x a ih => cases x <;> simp [bytes_loaded, ih, Nat.add_assoc]

theorem bytes_returned_append (a b : List RBufferEvent) :
    bytes_returned (a ++ b) = bytes_returned a + bytes_returned b := by
  induction a with
  | nil => simp [bytes_returned]
  | cons x a ih => cases x <;> simp [bytes_returned, ih, Nat.add_assoc]

theorem load_offsets_append (a b : List RBufferEvent) :
    load_offsets (a ++ b) = load_offsets a ++ load_offsets b := by
  induction a with
  | nil => simp [load_offsets]
  | cons x a ih => cases x <;> simp [load_offsets, ih]

/-- The loads of a trace stay in order when events that are in order after it
are appended. -/
theorem loads_in_order_append (ev new : List RBufferEvent)
    (h : ∀ (j off n : Nat), ev[j]? = some (RBufferEvent.load off n) →
      off = bytes_loaded (ev.take j) ∧ off = bytes_returned (ev.take j))
    (hnew : ∀ (j off n : Nat), new[j]? = some (RBufferEvent.load off n) →
      off = bytes_loaded ev + bytes_loaded (new.take j) ∧
      off = bytes_returned ev + bytes_returned (new.take j)) :
    ∀ (j off n : Nat), (ev ++ new)[j]? = some (RBufferEvent.load off n) →
      off = bytes_loaded ((ev ++ new).take j) ∧ off = bytes_returned ((ev ++ new).take j) := by
  intro j off n hj
  by_cases hlt : j < ev.length
  · rw [List.getElem?_append_left hlt] at hj
    rw [List.take_append_of_le_length (Nat.le_of_lt hlt)]
    exact h j off n hj
  · rw [List.getElem?_append_right (Nat.le_of_not_lt hlt)] at hj
    rw [List.take_append_eq_append_take, List.take_of_length_le (Nat.le_of_not_lt hlt),
      bytes_loaded_append, bytes_returned_append]
    exact hnew _ off n hj

theorem rbuffer_getc_traced_eq (load : Loader) (rb : RBuffer) :
    rbuffer_getc_traced load rb =
      if (rbuffer_reload_traced load rb).1._i ≥ (rbuffer_reload_traced load rb).1._filled_size then
        (EOF, (rbuffer_reload_traced load rb).1,
          (rbuffer_reload_traced load rb).2 ++ [RBufferEvent.getc EOF])
      else
        ((((rbuffer_reload_traced load rb).1._buffer.getD
            (rbuffer_reload_traced load rb).1._i 0).val : Int),
          { (rbuffer_reload_traced load rb).1 with
            _i := (rbuffer_reload_traced load rb).1._i + 1 },
          (rbuffer_reload_traced load rb).2 ++
            [RBufferEvent.getc
              (((rbuffer_reload_traced load rb).1._buffer.getD
                (rbuffer_reload_traced load rb).1._i 0).val : Int)]) := rfl

theorem rbuffer_trace_succ (load : Loader) (res : List Byte) (i : Nat) :
    rbuffer_trace load res (i + 1) =
      ((rbuffer_getc_traced load (rbuffer_trace load res i).1).2.1,
        (rbuffer_trace load res i).2 ++
          (rbuffer_getc_traced load (rbuffer_trace load res i).1).2.2) := rfl

theorem stream_ok_init (load : Loader)
    (hload : ∀ rh off buf, (load rh off buf RBUFFER_SIZE).1 ≤ 256) (res : List Byte) :
    StreamOk (rbuffer_init_traced load res).1 (rbuffer_init_traced load res).2 := by
  have hl := hload res 0 (List.replicate RBUFFER_SIZE (0 : Byte))
  unfold rbuffer_init_traced
  generalize (load res 0 (List.replicate RBUFFER_SIZE (0 : Byte)) RBUFFER_SIZE) = r at hl ⊢
  refine ⟨Nat.zero_le _, hl, ?_, ?_, ?_, ?_, ?_⟩
  · simp [bytes_loaded]
  · simp [bytes_returned]
  · simp [bytes_loaded, load_offsets]; omega
  · intro j off n hj
    match j, hj with
    | 0, hj =>
      simp only [List.getElem?_cons_zero, Option.some.injEq, RBufferEvent.load.injEq] at hj
      simp [bytes_loaded, bytes_returned, ← hj.1]
    | j + 1, hj => simp at hj
  · rfl

/-- The reload keeps the invariant, with the cursor at most `RBUFFER_SIZE` after
it only if it was so before. -/
theorem stream_ok_reload (load : Loader)
    (hload : ∀ rh off buf, (load rh off buf RBUFFER_SIZE).1 ≤ 256) (rb : RBuffer)
    (ev : List RBufferEvent) (h : StreamOk rb ev) :
    StreamOk (rbuffer_reload_traced load rb).1 (ev ++ (rbuffer_reload_traced load rb).2) := by
  obtain ⟨h1, h2, h3, h4, h5, h6, h7⟩ := h
  unfold rbuffer_reload_traced
  by_cases hi : rb._i ≥ RBUFFER_SIZE
  · rw [if_pos hi]
    have hl := hload rb._rh rb._bytes_read rb._buffer
    generalize (load rb._rh rb._bytes_read rb._buffer RBUFFER_SIZE) = r at hl ⊢
    unfold RBUFFER_SIZE at hi
    have hfull : rb._filled_size = 256 := by omega
    have hi256 : rb._i = 256 := by omega
    refine ⟨Nat.zero_le _, hl, ?_, ?_, ?_, ?_, ?_⟩
    · simp only [bytes_loaded_append, bytes_loaded]; omega
    · simp only [bytes_returned_append, bytes_returned]; omega
    · simp only [bytes_loaded_append, bytes_loaded, load_offsets_append, load_offsets,
        List.length_append, List.length_singleton]
      omega
    · apply loads_in_order_append ev _ h6
      intro j off n hj
      match j, hj with
      | 0, hj =>
        simp only [List.getElem?_cons_zero, Option.some.injEq, RBufferEvent.load.injEq] at hj
        simp only [List.take_zero, bytes_loaded, bytes_returned]
        omega
      | j + 1, hj => simp at hj
    · simp only [load_offsets_append, load_offsets, List.length_append, List.length_singleton]
      rw [List.range_succ, List.map_append, ← h7]
      simp only [List.map_cons, List.map_nil]
      congr 2
      omega
  · rw [if_neg hi]
    simp only [List.append_nil]
    exact ⟨h1, h2, h3, h4, h5, h6, h7⟩

/-- A call of `rbuffer_getc` keeps the invariant. -/
theorem stream_ok_getc (load : Loader)
    (hload : ∀ rh off buf, (load rh off buf RBUFFER_SIZE).1 ≤ 256) (rb : RBuffer)
    (ev : List RBufferEvent) (h : StreamOk rb ev) :
    StreamOk (rbuffer_getc_traced load rb).2.1 (ev ++ (rbuffer_getc_traced load rb).2.2) := by
  have hr := stream_ok_reload load hload rb ev h
  rw [rbuffer_getc_traced_eq]
  generalize rbuffer_reload_traced load rb = s at hr ⊢
  obtain ⟨rb1, ev1⟩ := s
  simp only at hr ⊢
  obtain ⟨h1, h2, h3, h4, h5, h6, h7⟩ := hr
  have hnew : ∀ (r : Int) (j off n : Nat),
      [RBufferEvent.getc r][j]? = some (RBufferEvent.load off n) →
      off = bytes_loaded (ev ++ ev1) + bytes_loaded ([RBufferEvent.getc r].take j) ∧
      off = bytes_returned (ev ++ ev1) + bytes_returned ([RBufferEvent.getc r].take j) := by
    intro r j off n hj
    match j, hj with
    | 0, hj => simp at hj
    | j + 1, hj => simp at hj
  by_cases he : rb1._i ≥ rb1._filled_size
  · rw [if_pos he]
    simp only [← List.append_assoc]
    refine ⟨h1, h2, ?_, ?_, ?_, loads_in_order_append _ _ h6 (hnew EOF), ?_⟩
    · rw [bytes_loaded_append]; simp only [bytes_loaded]; omega
    · rw [bytes_returned_append]; simp only [bytes_returned, if_true]; omega
    · rw [bytes_loaded_append, load_offsets_append]
      simp only [bytes_loaded, load_offsets, List.append_nil]; omega
    · rw [load_offsets_append]
      simp only [load_offsets, List.append_nil]
      exact h7
  · rw [if_neg he]
    simp only [← List.append_assoc]
    have hne : ((rb1._buffer.getD rb1._i 0).val : Int) ≠ EOF := by
      unfold EOF; omega
    refine ⟨by show rb1._i + 1 ≤ rb1._filled_size; omega, h2, ?_, ?_, ?_,
      loads_in_order_append _ _ h6 (hnew _), ?_⟩
    · rw [bytes_loaded_append]; simp only [bytes_loaded]; omega
    · rw [bytes_returned_append]
      simp only [bytes_returned, if_neg hne]
      show _ = rb1._bytes_read + (rb1._i + 1)
      omega
    · rw [bytes_loaded_append, load_offsets_append]
      simp only [bytes_loaded, load_offsets, List.append_nil]
      exact h5
    · rw [load_offsets_append]
      simp only [load_offsets, List.append_nil]
      exact h7

/-- The invariant holds after `rbuffer_init` and after every `rbuffer_getc`. -/
theorem stream_ok_trace (load : Loader)
    (hload : ∀ rh off buf, (load rh off buf RBUFFER_SIZE).1 ≤ 256) (res : List Byte) (i : Nat) :
    StreamOk (rbuffer_trace load res i).1 (rbuffer_trace load res i).2 := by
  induction i with
  | zero => exact stream_ok_init load hload res
  | succ i ih =>
    rw [rbuffer_trace_succ]
    exact stream_ok_getc load hload _ _ ih

/-- Over the loader of the specification the traced reader is the reader of
`rbuffer_getc`. -/
theorem rbuffer_getc_traced_spec (rb : RBuffer) :
    (rbuffer_getc_traced resource_load_byte_range rb).1 = (rbuffer_getc rb).1 ∧
    (rbuffer_getc_traced resource_load_byte_range rb).2.1 = (rbuffer_getc rb).2 := by
  rw [rbuffer_getc_traced_eq]
  unfold rbuffer_reload_traced rbuffer_getc
  by_cases h1 : rb._i ≥ RBUFFER_SIZE
  · simp only [h1, if_true]
    split <;> exact ⟨rfl, rfl⟩
  · simp only [h1, if_false]
    split <;> exact ⟨rfl, rfl⟩

theorem rbuffer_trace_spec (res : List Byte) (i : Nat) :
    (rbuffer_trace resource_load_byte_range res i).1 = rbuffer_after res i := by
  induction i with
  | zero => rfl
  | succ i ih =>
    rw [rbuffer_trace_succ]
    show (rbuffer_getc_traced resource_load_byte_range _).2.1 = (rbuffer_getc _).2
    rw [(rbuffer_getc_traced_spec _).2, ih]

/-- The loader of the specification returns at most 256 bytes. -/
theorem resource_load_le (rh buf : List Byte) (off : Nat) :
    (resource_load_byte_range rh off buf RBUFFER_SIZE).1 ≤ 256 := by
  show (resource_load_byte_range rh off buf 256).1 ≤ 256
  rw [resource_load_length]
  omega

/-- C21. Byte-stream invariant. Over any loader that returns at most 256 bytes
for a request of 256, after `rbuffer_init` and after every `rbuffer_getc`:
`_i ≤ _filled_size ≤ 256`; `_bytes_read` is the number of bytes loaded so far;
every call of the loader (the first at offset 0, each reload at `_bytes_read`) is
issued at the number of bytes loaded before it, which is also the number of
bytes returned to the caller before it, so no offset is loaded twice or skipped;
and the offsets of the calls are `0, 256, 512, ...`, strictly increasing. -/
theorem rbuffer_stream_invariant (load : Loader)
    (hload : ∀ rh off buf, (load rh off buf RBUFFER_SIZE).1 ≤ 256) (res : List Byte) (i : Nat) :
    (rbuffer_trace load res i).1._i ≤ (rbuffer_trace load res i).1._filled_size ∧
    (rbuffer_trace load res i).1._filled_size ≤ 256 ∧
    (rbuffer_trace load res i).1._bytes_read = bytes_loaded (rbuffer_trace load res i).2 ∧
    bytes_returned (rbuffer_trace load res i).2 + (rbuffer_trace load res i).1._filled_size =
      (rbuffer_trace load res i).1._bytes_read + (rbuffer_trace load res i).1._i ∧
    (∀ (j off n : Nat), (rbuffer_trace load res i).2[j]? = some (RBufferEvent.load off n) →
      off = bytes_loaded ((rbuffer_trace load res i).2.take j) ∧
      off = bytes_returned ((rbuffer_trace load res i).2.take j)) ∧
    load_offsets (rbuffer_trace load res i).2 =
      (List.range (load_offsets (rbuffer_trace load res i).2).length).map (fun k => 256 * k) ∧
    (load_offsets (rbuffer_trace load res i).2).Pairwise (fun a b => a < b) := by
  obtain ⟨h1, h2, h3, h4, _, h6, h7⟩ := stream_ok_trace load hload res i
  refine ⟨h1, h2, h3, h4, h6, h7, ?_⟩
  rw [h7, List.pairwise_map]
  exact List.Pairwise.imp (fun h => by omega) (List.pairwise_lt_range _)

/-- C21 over the loader of the specification, on a resource of 300 bytes: after
257 calls the loader was called at 0 and 256, the reader has loaded all 300
bytes and returned 257 of them, and 1 of the 44 bytes in the buffer is consumed. -/
theorem rbuffer_stream_invariant_witness :
    (∀ rh off buf, (resource_load_byte_range rh off buf RBUFFER_SIZE).1 ≤ 256) ∧
    load_offsets (rbuffer_trace resource_load_byte_range (List.replicate 300 7) 257).2 =
      [0, 256] ∧
    (rbuffer_trace resource_load_byte_range (List.replicate 300 7) 257).1._bytes_read = 300 ∧
    (rbuffer_trace resource_load_byte_range (List.replicate 300 7) 257).1._filled_size = 44 ∧
    (rbuffer_trace resource_load_byte_range (List.replicate 300 7) 257).1._i = 1 ∧
    bytes_returned (rbuffer_trace resource_load_byte_range (List.replicate 300 7) 257).2 = 257 ∧
    (rbuffer_trace resource_load_byte_range (List.replicate 300 7) 257).1._bytes_read =
      bytes_loaded (rbuffer_trace resource_load_byte_range (List.replicate 300 7) 257).2 :=
  ⟨fun rh off buf => resource_load_le rh buf off, by decide!, by decide!, by decide!, by decide!,
    by decide!,
    (rbuffer_stream_invariant resource_load_byte_range
      (fun rh off buf => resource_load_le rh buf off) (List.replicate 300 7) 257).2.2.1⟩

/-! ## Reachable states -/

/-- A run of the engine from a reachable state ends in a reachable state. -/
theorem reachable_run (P : Platform) (steps : List EngineStep) :
    ∀ (e e' : Engine), Reachable P e → engine_run P steps e = Except.ok e' → Reachable P e' := by
  induction steps with
  | nil =>
    intro e e' h hr
    simp only [engine_run, Except.ok.injEq] at hr
    rw [← hr]; exact h
  | cons s steps ih =>
    intro e e' h hr
    rw [engine_run] at hr
    cases hs : engine_step P s e with
    | error x => rw [hs] at hr; simp at hr
    | ok e1 =>
      rw [hs] at hr
      exact ih e1 e' (Reachable.step s e e1 h hs) hr

/-- C22. Idle holds no transition rasters. In every state the engine reaches
from the initial state (all slots empty, not in transition) by
`start_transition`, render, `stop_transition` and timer steps: if
`face_transition` is false then `prev_image`, `sprite_mask` and `sprite` are
absent; and a `start_transition` from the state evaluates
`assert(prev_image.bitmap == NULL)`, the first test of `start_face`, on an engine
whose `prev_image` is absent (the state itself when Idle, the state after
`stop_transition` when Active), so this assertion does not fail. -/
theorem idle_holds_no_rasters (P : Platform) (e : Engine) (hreach : Reachable P e) :
    (e.face_transition = false →
      e.prev_image = none ∧ e.sprite_mask = none ∧ e.sprite = none) ∧
    (stop_transition e).face_transition = false ∧
    (stop_transition e).prev_image = none ∧ (stop_transition e).sprite_mask = none ∧
    (stop_transition e).sprite = none ∧
    ∀ (face_new : Int) (for_startup : Bool),
      start_transition P face_new for_startup e =
        start_face P face_new for_startup (if e.face_transition then stop_transition e else e) ∧
      (if e.face_transition then stop_transition e else e).prev_image = none := by
  have hok := engine_ok_reachable P e hreach
  obtain ⟨_, hp, _, _⟩ := engine_ok_preempt e hok
  refine ⟨hok.2, by rw [stop_transition_eq], by rw [stop_transition_eq],
    by rw [stop_transition_eq], by rw [stop_transition_eq], fun _ _ => ⟨rfl, hp⟩⟩

/-- C22 on the demo platform: after the forced start the engine holds the sprite
mask; after a `stop_transition` it is Idle and holds no transition raster. -/
theorem idle_holds_no_rasters_witness :
    Reachable demo_platform (stop_transition demo_start) ∧
    demo_start.sprite_mask = some ⟨1, GBitmap.mk 4 32 1 [0, 0, 0, 0]⟩ ∧
    (stop_transition demo_start).face_transition = false ∧
    (stop_transition demo_start).prev_image = none ∧
    (stop_transition demo_start).sprite_mask = none ∧
    (stop_transition demo_start).sprite = none :=
  have hr : Reachable demo_platform (stop_transition demo_start) :=
    reachable_run demo_platform [EngineStep.start 3 true, EngineStep.stop] (engine_init 0) _
      (Reachable.init 0) (by decide)
  ⟨hr, by decide, by decide,
    (idle_holds_no_rasters demo_platform (stop_transition demo_start) hr).1 (by decide)⟩

/-! ## The draws of the sprite -/

/-- The sprite's destination x origin `wipe_x - sprite_cx` at frame `g` of 24, in
closed form. -/
theorem sprite_origin (e : Engine) (sw g : Int) (hnum : e.num_transition_frames = 24)
    (hsw : 0 ≤ sw) (hg : 0 ≤ g) :
    wipe_position e sw g - e.sprite_cx =
      if e.wipe_direction then g * (144 + sw) / 24 - sw else 144 - g * (144 + sw) / 24 := by
  rw [wipe_position_spec e sw g hg hsw (by omega), hnum]
  unfold wipe_x_spec wipe_p_spec wipe_width_spec
  split <;> omega

/-- The draws of a fixed sprite: mask, body and minutes card. -/
theorem sprite_ops_fixed (P : Platform) (e : Engine) (mask s : Raster) (wipe_x ti : Int)
    (hmask : e.sprite_mask = some mask) (hbody : e.sprite = some s) :
    sprite_ops P e wipe_x ti =
      Except.ok
        [DrawOp.set_compositing_mode GCompOp.GCompOpClear,
          draw_raster mask ⟨wipe_x - e.sprite_cx, c_div (SCREEN_HEIGHT - mask.image.size_h) 2,
            mask.image.size_w, mask.image.size_h⟩,
          DrawOp.set_compositing_mode GCompOp.GCompOpOr,
          draw_raster s ⟨wipe_x - e.sprite_cx, c_div (SCREEN_HEIGHT - mask.image.size_h) 2,
            mask.image.size_w, mask.image.size_h⟩,
          DrawOp.set_compositing_mode GCompOp.GCompOpOr,
          DrawOp.draw_bitmap_in_rect none P.mins_background
            ⟨SCREEN_WIDTH - 50, SCREEN_HEIGHT - 31, 50, 31⟩] := by
  unfold sprite_ops
  rw [hmask, hbody]
  rfl

/-- The draws of the streamed sprite: mask, the frame drawn by `tardis_ops`, and
the minutes card. -/
theorem sprite_ops_streamed (P : Platform) (e : Engine) (mask : Raster) (wipe_x ti : Int)
    (hmask : e.sprite_mask = some mask) (hbody : e.sprite = none) :
    sprite_ops P e wipe_x ti =
      (tardis_ops P e
          ⟨wipe_x - e.sprite_cx, c_div (SCREEN_HEIGHT - mask.image.size_h) 2,
            mask.image.size_w, mask.image.size_h⟩ ti).map
        (fun ops =>
          [DrawOp.set_compositing_mode GCompOp.GCompOpClear,
            draw_raster mask ⟨wipe_x - e.sprite_cx, c_div (SCREEN_HEIGHT - mask.image.size_h) 2,
              mask.image.size_w, mask.image.size_h⟩] ++ ops ++
          [DrawOp.set_compositing_mode GCompOp.GCompOpOr,
            DrawOp.draw_bitmap_in_rect none P.mins_background
              ⟨SCREEN_WIDTH - 50, SCREEN_HEIGHT - 31, 50, 31⟩]) := by
  unfold sprite_ops
  rw [hmask, hbody]
  simp only []
  generalize tardis_ops P e _ ti = r
  cases r <;> rfl

/-! ## The frame counter -/

theorem frame_ok_init (seed : Nat) : FrameOk (engine_init seed) :=
  ⟨Int.le_refl 0, fun h => absurd h (by simp [engine_init])⟩

theorem frame_ok_stop (e : Engine) (h : FrameOk e) : FrameOk (stop_transition e) := by
  rw [stop_transition_eq]
  exact ⟨h.1, fun hx => absurd hx (by simp)⟩

theorem frame_ok_start (P : Platform) (f : Int) (fs : Bool) (e e' : Engine)
    (hs : start_transition P f fs e = Except.ok e') : FrameOk e' := by
  obtain ⟨g0, gm, sp, k, wd, ad, rs, cx, _, _, _, _, he', _, _⟩ :=
    start_transition_ok P f fs e _ e' rfl hs
  subst he'
  exact ⟨Int.le_refl 0, fun _ => ⟨rfl, by simp⟩⟩

theorem frame_ok_render (P : Platform) (e e' : Engine) (ops : List DrawOp) (h : FrameOk e)
    (hr : face_layer_update_callback P e = Except.ok (ops, e')) : FrameOk e' := by
  by_cases ha : e.face_transition = true
  · have hstep : FrameOk { e with transition_frame := e.transition_frame + 1 } :=
      ⟨by show 0 ≤ e.transition_frame + 1; have := h.1; omega, h.2⟩
    by_cases hle : e.transition_frame ≤ e.num_transition_frames
    · rw [callback_active P e ha hle] at hr
      cases hc : face_layer_composite P { e with transition_frame := e.transition_frame + 1 }
          e.transition_frame with
      | error x => rw [hc] at hr; simp [Except.map] at hr
      | ok o =>
        rw [hc] at hr
        simp only [Except.map, Except.ok.injEq, Prod.mk.injEq] at hr
        rw [← hr.2]
        exact hstep
    · rw [callback_finish P e ha (by omega)] at hr
      simp only [Except.ok.injEq, Prod.mk.injEq] at hr
      rw [← hr.2]
      exact frame_ok_stop _ hstep
  · rw [callback_idle P e (by simpa using ha)] at hr
    simp only [Except.ok.injEq, Prod.mk.injEq] at hr
    rw [← hr.2]
    exact h

theorem frame_ok_step (P : Platform) (s : EngineStep) (e e' : Engine) (h : FrameOk e)
    (hs : engine_step P s e = Except.ok e') : FrameOk e' := by
  cases s with
  | start f fs => exact frame_ok_start P f fs e e' hs
  | render =>
    unfold engine_step at hs
    cases hr : face_layer_update_callback P e with
    | error x => rw [hr] at hs; simp at hs
    | ok r =>
      rw [hr] at hs
      simp only [Except.ok.injEq] at hs
      rw [← hs]
      exact frame_ok_render P e r.2 r.1 h hr
  | stop =>
    simp only [engine_step, Except.ok.injEq] at hs
    rw [← hs]
    exact frame_ok_stop e h
  | timer =>
    simp only [engine_step, Except.ok.injEq] at hs
    rw [← hs]
    exact h

/-- In every state the program reaches the frame counter is consistent. -/
theorem frame_ok_reachable (P : Platform) (e : Engine) (h : Reachable P e) : FrameOk e := by
  induction h with
  | init seed => exact frame_ok_init seed
  | step s e e' _ hs ih => exact frame_ok_step P s e e' ih hs

/-! ## The streamed sprite -/

/-- For a frame that is not negative the index is `ti mod 7`, counted from the
other end when `anim_direction` is set, and lies in the table. -/
theorem tardis_af_spec (e : Engine) (ti : Int) (h0 : 0 ≤ ti) :
    tardis_af e ti = (if e.anim_direction then 6 - ti % 7 else ti % 7) ∧
    0 ≤ tardis_af e ti ∧ tardis_af e ti ≤ 6 := by
  have hm : c_mod ti NUM_TARDIS_FRAMES = ti % 7 := by
    unfold c_mod NUM_TARDIS_FRAMES
    exact Int.tmod_eq_emod h0 (by decide)
  unfold tardis_af
  simp only [hm]
  unfold NUM_TARDIS_FRAMES
  refine ⟨by split <;> omega, by split <;> omega, by split <;> omega⟩

theorem except_map_map {α β γ : Type} (f : α → β) (g : β → γ) (x : Except Fault α) :
    (x.map f).map g = x.map (fun a => g (f a)) := by
  cases x <;> rfl

section Streamed

attribute [local irreducible] flip_bitmap_x

/-- With the index in the table, `tardis_ops` draws the frame of the table entry. -/
theorem tardis_ops_at (P : Platform) (e : Engine) (destination : GRect) (ti : Int)
    (h0 : 0 ≤ tardis_af e ti) (h6 : tardis_af e ti ≤ 6) :
    tardis_ops P e destination ti =
      tardis_frame_ops P (tardis_frames.getD (tardis_af e ti).toNat ⟨0, false⟩) destination := by
  have hr : 0 ≤ tardis_af e ti ∧ tardis_af e ti < NUM_TARDIS_FRAMES := by
    unfold NUM_TARDIS_FRAMES; omega
  unfold tardis_ops
  simp only []
  unfold tardis_af at hr ⊢
  simp only [] at hr ⊢
  rw [if_neg (by simpa using hr)]
  rfl

end Streamed

/-- The composite of a frame is the wipe followed by the sprite. -/
theorem face_layer_composite_eq (P : Platform) (e : Engine) (mask : Raster) (ti : Int)
    (hmask : e.sprite_mask = some mask) (hnum : e.num_transition_frames ≠ 0) :
    face_layer_composite P e ti =
      (sprite_ops P e (wipe_position e mask.image.size_w ti) ti).map
        (fun ops =>
          wipe_ops e { P.layer_frame with origin_x := 0, origin_y := 0 }
            (wipe_position e mask.image.size_w ti) ++ ops) := by
  unfold face_layer_composite
  rw [hmask]
  simp only []
  rw [if_neg hnum]
  generalize sprite_ops P e _ ti = r
  cases r <;> rfl

/-- C23. Streamed sprite frame selection. In every state the program reaches, a
render during a transition (frame counter `ti` not above the total) with no
sprite body takes the TARDIS branch: `ti ≥ 0`; the index the code computes into
the 7-entry table `tardis_frames` is `ti mod 7` when `anim_direction` is false and
`6 - (ti mod 7)` when it is true, so it lies in `0..6` and names an entry of the
table; and the render draws the wipe, the sprite mask, the TARDIS frame of that
entry and the minutes card. -/
theorem tardis_frame_selection (P : Platform) (e : Engine) (hreach : Reachable P e)
    (hact : e.face_transition = true) (hle : e.transition_frame ≤ e.num_transition_frames)
    (hbody : e.sprite = none) :
    0 ≤ e.transition_frame ∧
    tardis_af e e.transition_frame =
      (if e.anim_direction then 6 - e.transition_frame % 7 else e.transition_frame % 7) ∧
    0 ≤ tardis_af e e.transition_frame ∧ tardis_af e e.transition_frame ≤ 6 ∧
    tardis_frames.length = 7 ∧
    ∃ (mask : Raster) (frame : TardisFrame),
      e.sprite_mask = some mask ∧
      tardis_frames.get? (tardis_af e e.transition_frame).toNat = some frame ∧
      face_layer_update_callback P e =
        (tardis_frame_ops P frame
            ⟨wipe_position e mask.image.size_w e.transition_frame - e.sprite_cx,
              c_div (SCREEN_HEIGHT - mask.image.size_h) 2, mask.image.size_w,
              mask.image.size_h⟩).map
          (fun ops =>
            (wipe_ops e { P.layer_frame with origin_x := 0, origin_y := 0 }
                (wipe_position e mask.image.size_w e.transition_frame) ++
              ([DrawOp.set_compositing_mode GCompOp.GCompOpClear,
                  draw_raster mask
                    ⟨wipe_position e mask.image.size_w e.transition_frame - e.sprite_cx,
                      c_div (SCREEN_HEIGHT - mask.image.size_h) 2, mask.image.size_w,
                      mask.image.size_h⟩] ++ ops ++
                [DrawOp.set_compositing_mode GCompOp.GCompOpOr,
                  DrawOp.draw_bitmap_in_rect none P.mins_background
                    ⟨SCREEN_WIDTH - 50, SCREEN_HEIGHT - 31, 50, 31⟩]),
              { e with transition_frame := e.transition_frame + 1 })) := by
  obtain ⟨h0, hA⟩ := frame_ok_reachable P e hreach
  obtain ⟨hnum, hm⟩ := hA hact
  obtain ⟨haf, ha0, ha6⟩ := tardis_af_spec e e.transition_frame h0
  refine ⟨h0, haf, ha0, ha6, rfl, ?_⟩
  obtain ⟨mask, hmask⟩ : ∃ m, e.sprite_mask = some m := by
    cases h : e.sprite_mask with
    | none => exact absurd h hm
    | some m => exact ⟨m, rfl⟩
  · have hlt : (tardis_af e e.transition_frame).toNat < tardis_frames.length := by
      show (tardis_af e e.transition_frame).toNat < 7
      omega
    refine ⟨mask, tardis_frames.get ⟨_, hlt⟩, hmask, List.get?_eq_get hlt, ?_⟩
    have hget : tardis_frames.getD (tardis_af e e.transition_frame).toNat ⟨0, false⟩ =
        tardis_frames.get ⟨_, hlt⟩ := by
      rw [List.getD_eq_getElem?_getD, List.getElem?_eq_getElem hlt]
      rfl
    rw [callback_active P e hact hle,
      face_layer_composite_eq P { e with transition_frame := e.transition_frame + 1 } mask _
        hmask (by show e.num_transition_frames ≠ 0; omega),
      sprite_ops_streamed P { e with transition_frame := e.transition_frame + 1 } mask _ _
        hmask hbody,
      tardis_ops_at P { e with transition_frame := e.transition_frame + 1 } _ _ ha0 ha6]
    have hafe : tardis_af { e with transition_frame := e.transition_frame + 1 }
        e.transition_frame = tardis_af e e.transition_frame := rfl
    rw [hafe, hget, except_map_map, except_map_map]
    rfl

/-- C23 on the demo platform: a random start from the generator state 5 sets both
directions and takes the TARDIS sprite; after nine renders the frame counter is 9
and the render reads entry `6 - 9 mod 7 = 4` of the table, the flipped frame of
`RESOURCE_ID_TARDIS_04`. -/
theorem tardis_frame_selection_witness :
    engine_run demo_platform (EngineStep.start 3 false :: List.replicate 9 EngineStep.render)
      (engine_init 5) = Except.ok demo_spin ∧
    tardis_af demo_spin 9 = 4 ∧ tardis_frames.get? 4 = some ⟨4, true⟩ ∧
    0 ≤ tardis_af demo_spin demo_spin.transition_frame ∧
    tardis_af demo_spin demo_spin.transition_frame ≤ 6 :=
  have hrun : engine_run demo_platform
      (EngineStep.start 3 false :: List.replicate 9 EngineStep.render) (engine_init 5) =
      Except.ok demo_spin := by decide
  have h := tardis_frame_selection demo_platform demo_spin
    (reachable_run demo_platform _ (engine_init 5) demo_spin (Reachable.init 5) hrun)
    (by decide) (by decide) (by decide)
  ⟨hrun, by decide, by decide, h.2.2.1, h.2.2.2.1⟩

/-! ## The sprite travels from off-screen to off-screen -/

/-- C24. The sprite travels from off-screen to off-screen. For an engine with
total 24, a sprite mask of width `sw ≥ 0`, any anchor `sprite_cx` and a frame `f`
with `0 ≤ f ≤ 24`: the sprite mask (and with it the sprite) is drawn at the x
origin `wipe_x - sprite_cx`; this origin does not depend on the anchor; with
`wipe_direction` false it is 144 at frame 0, `-sw` at frame 24 and non-increasing
in the frame; with `wipe_direction` true it is `-sw` at frame 0, 144 at frame 24
and non-decreasing; so at the first and the last frame the sprite rectangle
`[origin, origin + sw)` has no column in the screen `[0, 144)`; and `wipe_x` is the
origin plus the anchor. -/
theorem sprite_travel (P : Platform) (e : Engine) (mask : Raster) (f : Int)
    (hnum : e.num_transition_frames = 24) (hmask : e.sprite_mask = some mask)
    (hsw : 0 ≤ mask.image.size_w) (h0 : 0 ≤ f) (hle : f ≤ 24) :
    (∀ ops, sprite_ops P e (wipe_position e mask.image.size_w f) f = Except.ok ops →
      ops.take 2 =
        [DrawOp.set_compositing_mode GCompOp.GCompOpClear,
          draw_raster mask
            ⟨wipe_position e mask.image.size_w f - e.sprite_cx,
              c_div (SCREEN_HEIGHT - mask.image.size_h) 2, mask.image.size_w,
              mask.image.size_h⟩]) ∧
    (∀ cx : Int, wipe_position { e with sprite_cx := cx } mask.image.size_w f - cx =
      wipe_position e mask.image.size_w f - e.sprite_cx) ∧
    (e.wipe_direction = false →
      wipe_position e mask.image.size_w 0 - e.sprite_cx = 144 ∧
      wipe_position e mask.image.size_w 24 - e.sprite_cx = -mask.image.size_w ∧
      ∀ f' : Int, f ≤ f' → f' ≤ 24 →
        wipe_position e mask.image.size_w f' - e.sprite_cx ≤
          wipe_position e mask.image.size_w f - e.sprite_cx) ∧
    (e.wipe_direction = true →
      wipe_position e mask.image.size_w 0 - e.sprite_cx = -mask.image.size_w ∧
      wipe_position e mask.image.size_w 24 - e.sprite_cx = 144 ∧
      ∀ f' : Int, f ≤ f' → f' ≤ 24 →
        wipe_position e mask.image.size_w f - e.sprite_cx ≤
          wipe_position e mask.image.size_w f' - e.sprite_cx) ∧
    (144 ≤ wipe_position e mask.image.size_w 0 - e.sprite_cx ∨
      wipe_position e mask.image.size_w 0 - e.sprite_cx + mask.image.size_w ≤ 0) ∧
    (144 ≤ wipe_position e mask.image.size_w 24 - e.sprite_cx ∨
      wipe_position e mask.image.size_w 24 - e.sprite_cx + mask.image.size_w ≤ 0) ∧
    -mask.image.size_w ≤ wipe_position e mask.image.size_w f - e.sprite_cx ∧
    wipe_position e mask.image.size_w f - e.sprite_cx ≤ 144 ∧
    wipe_position e mask.image.size_w f =
      (wipe_position e mask.image.size_w f - e.sprite_cx) + e.sprite_cx := by
  have hor := fun g hg => sprite_origin e mask.image.size_w g hnum hsw hg
  have hmono : ∀ a b : Int, 0 ≤ a → a ≤ b →
      a * (144 + mask.image.size_w) / 24 ≤ b * (144 + mask.image.size_w) / 24 := by
    intro a b _ hab
    have : a * (144 + mask.image.size_w) ≤ b * (144 + mask.image.size_w) :=
      Int.mul_le_mul_of_nonneg_right hab (by omega)
    omega
  have h24 := hor 24 (by omega)
  have h00 := hor 0 (by omega)
  have hf := hor f h0
  have hm0 := hmono 0 f (by omega) h0
  have hm24 := hmono f 24 h0 hle
  refine ⟨?_, ?_, ?_, ?_, ?_, ?_, ?_, ?_, by omega⟩
  · intro ops hops
    cases hb : e.sprite with
    | some s =>
      rw [sprite_ops_fixed P e mask s _ _ hmask hb] at hops
      simp only [Except.ok.injEq] at hops
      rw [← hops]
      rfl
    | none =>
      rw [sprite_ops_streamed P e mask _ _ hmask hb] at hops
      cases ht : tardis_ops P e
          ⟨wipe_position e mask.image.size_w f - e.sprite_cx,
            c_div (SCREEN_HEIGHT - mask.image.size_h) 2, mask.image.size_w,
            mask.image.size_h⟩ f with
      | error x => rw [ht] at hops; simp [Except.map] at hops
      | ok o =>
        rw [ht] at hops
        simp only [Except.map, Except.ok.injEq] at hops
        rw [← hops]
        rfl
  · intro cx
    have := sprite_origin { e with sprite_cx := cx } mask.image.size_w f hnum hsw h0
    simp only [] at this
    rw [this, hf]
  · intro hd
    rw [hd] at h00 h24 hf
    simp only [Bool.false_eq_true, if_false] at h00 h24 hf
    refine ⟨by omega, by omega, ?_⟩
    intro f' h1 h2
    have h' := hor f' (by omega)
    rw [hd] at h'
    simp only [Bool.false_eq_true, if_false] at h'
    have := hmono f f' h0 h1
    omega
  · intro hd
    rw [hd] at h00 h24 hf
    simp only [if_true] at h00 h24 hf
    refine ⟨by omega, by omega, ?_⟩
    intro f' h1 h2
    have h' := hor f' (by omega)
    rw [hd] at h'
    simp only [if_true] at h'
    have := hmono f f' h0 h1
    omega
  · rw [h00]; split <;> omega
  · rw [h24]; split <;> omega
  · rw [hf]; split <;> omega
  · rw [hf]; split <;> omega

/-- C24 at the worked example (`wipe_direction = false`, `sw = 30`, anchor 30):
the origin is 144 at frame 0, 57 at frame 12 and -30 at frame 24, and from frame
12 on it does not increase. -/
theorem sprite_travel_witness :
    wipe_position worked_example 30 0 - worked_example.sprite_cx = 144 ∧
    wipe_position worked_example 30 12 - worked_example.sprite_cx = 57 ∧
    wipe_position worked_example 30 24 - worked_example.sprite_cx = -30 ∧
    (∀ cx : Int, wipe_position { worked_example with sprite_cx := cx } 30 12 - cx =
      wipe_position worked_example 30 12 - worked_example.sprite_cx) ∧
    ∀ f' : Int, 12 ≤ f' → f' ≤ 24 →
      wipe_position worked_example 30 f' - worked_example.sprite_cx ≤
        wipe_position worked_example 30 12 - worked_example.sprite_cx :=
  have h := sprite_travel demo_platform worked_example ⟨2, GBitmap.mk 4 30 1 [0, 0, 0, 0]⟩ 12
    rfl rfl (by decide) (by decide) (by decide)
  ⟨by decide, by decide, by decide, h.2.1, (h.2.2.1 rfl).2.2⟩

/-! ## `reverse_bits` for either width of `unsigned long` -/

theorem reverse_bits_mod_wide :
    ∀ b : Byte, reverse_bits_mod (2 ^ 64) b = reverse_bits_mod (2 ^ 32) b := by
  decide!

/-- C25. `reverse_bits` reverses a byte. For every byte `b`, with the
multiplications taken modulo `2^32` (the `unsigned long` of the target, which is
`reverse_bits`) or modulo `2^64`, and the result truncated to 8 bits: bit `i` of
the result is bit `7 - i` of `b` for `i = 0..7`, and so reversing twice gives `b`
back. -/
theorem reverse_bits_reverses (b : Byte) :
    reverse_bits b = reverse_bits_mod (2 ^ 32) b ∧
    reverse_bits_mod (2 ^ 64) b = reverse_bits_mod (2 ^ 32) b ∧
    (∀ i : Nat, i < 8 →
      (reverse_bits_mod (2 ^ 32) b).val.testBit i = b.val.testBit (7 - i)) ∧
    (∀ i : Nat, i < 8 →
      (reverse_bits_mod (2 ^ 64) b).val.testBit i = b.val.testBit (7 - i)) ∧
    reverse_bits_mod (2 ^ 32) (reverse_bits_mod (2 ^ 32) b) = b ∧
    reverse_bits_mod (2 ^ 64) (reverse_bits_mod (2 ^ 64) b) = b := by
  have h32 : ∀ i : Nat, i < 8 →
      (reverse_bits_mod (2 ^ 32) b).val.testBit i = b.val.testBit (7 - i) :=
    fun i hi => reverse_bits_testBit b ⟨i, hi⟩
  have h2 : reverse_bits_mod (2 ^ 32) (reverse_bits_mod (2 ^ 32) b) = b := reverse_bits_twice b
  refine ⟨rfl, reverse_bits_mod_wide b, h32, ?_, h2, ?_⟩
  · rw [reverse_bits_mod_wide]
    exact h32
  · rw [reverse_bits_mod_wide, reverse_bits_mod_wide]
    exact h2
end Doctors
